import Mathlib

/-!
# libfirm `strcalc`: a nibble-buffer integer calculator

Shallow embedding of `src/ir/tv/strcalc.c`.  A buffer of `sc_word` cells is a
list of naturals, index 0 being the least significant nibble.  The process-wide
`carry_flag` is returned next to the buffer an operation writes.  The sizes
`calc_buffer_size` and `max_value_size` are explicit arguments wherever the C
code reads the corresponding global.

Operands are values: an operand is a caller-owned buffer of `calc_buffer_size` cells
that does not overlap the scratch buffer `calc_buffer`, which the arithmetic `sc_` entry
points clear before they compute.  The shift entry points do not clear it, so their model
takes the contents of the scratch buffer as an argument.  A `for` loop over the cells of a
buffer is a recursion over the list or over the number of remaining iterations; the
unbounded loops (the `while` loop of `do_divmod`, the `for (;;)` loop of `sc_print_buf`)
take an iteration budget.
-/

namespace Strcalc

/-- Buffer of `sc_word` cells, least significant nibble first. -/
abbrev Buf := List Nat

/-- Number of bits of one digit (`#define SC_BITS 4`). -/
def SC_BITS : Nat := 4

/-- The macro `SC_RESULT(x) = x & ((1U << SC_BITS) - 1U)`. -/
def SC_RESULT (x : Nat) : Nat := x &&& ((1 <<< SC_BITS) - 1)

/-- The macro `SC_CARRY(x) = (unsigned)x >> SC_BITS`. -/
def SC_CARRY (x : Nat) : Nat := x >>> SC_BITS

/-- Modelled from the spec: the declaration of `sc_word` (header `strcalc.h`) is
not part of the sources; the spec stores a nibble "as an 8-bit unit", so a store
into a cell keeps the value modulo 256. -/
def sc_word_store (x : Nat) : Nat := x % 256

/-- Unsigned value of a buffer: the sum of `x[i] * 16^i`. -/
def U : Buf → Nat
  | [] => 0
  | d :: ds => d + 16 * U ds

/-- Every cell of the buffer holds a nibble and the buffer has `N` cells. -/
def Valid (N : Nat) (x : Buf) : Prop := x.length = N ∧ ∀ d ∈ x, d < 16

instance (N : Nat) (x : Buf) : Decidable (Valid N x) := by
  unfold Valid; infer_instance

/-- The macro `CLEAR_BUFFER`: `calc_buffer_size` zero cells. -/
def CLEAR_BUFFER (calc_buffer_size : Nat) : Buf := List.replicate calc_buffer_size 0

/-- Function `do_bitnot`: every cell is xor-ed with `0xF`. -/
def do_bitnot (val : Buf) : Buf := val.map (fun d => d ^^^ 0xF)

/-- Function `do_inc`, called in place (`do_inc(buffer, buffer)`): cells equal to 15
become 0 until the first other cell, which is incremented; the rest is untouched. -/
def do_inc : Buf → Buf
  | [] => []
  | v :: rest => if v = 15 then 0 :: do_inc rest else sc_word_store (v + 1) :: rest

/-- Function `do_negate`: bitwise not, then increment in place. -/
def do_negate (val : Buf) : Buf := do_inc (do_bitnot val)

/-- Loop of `do_add`: one digit sum per cell with a running carry. -/
def do_add_loop : Buf → Buf → Nat → Buf × Nat
  | v1 :: r1, v2 :: r2, carry =>
    let sum := v1 + v2 + carry
    let r := do_add_loop r1 r2 (SC_CARRY sum)
    (SC_RESULT sum :: r.1, r.2)
  | _, _, carry => ([], carry)

/-- Function `do_add`: the written buffer and the value left in `carry_flag`. -/
def do_add (val1 val2 : Buf) : Buf × Bool :=
  let r := do_add_loop val1 val2 0
  (r.1, r.2 != 0)

/-- Function `do_sub`: negate `val2` into a temporary, then add. -/
def do_sub (val1 val2 : Buf) : Buf × Bool :=
  let temp_buffer := do_negate val2
  do_add val1 temp_buffer

/-- Function `sc_add`: result buffer and `carry_flag` on exit. -/
def sc_add (value1 value2 : Buf) : Buf × Bool :=
  do_add value1 value2

/-- Function `sc_sub`: result buffer and `carry_flag` on exit. -/
def sc_sub (value1 value2 : Buf) : Buf × Bool :=
  do_sub value1 value2

/-- Function `sc_neg`: `carry_flag` is cleared, the buffer is `do_negate`. -/
def sc_neg (value1 : Buf) : Buf × Bool :=
  (do_negate value1, false)

/-- Modelled from the spec: the enumeration `ir_relation` is declared outside the
sources; these are the three results `sc_comp` can return. -/
inductive ir_relation where
  | less
  | equal
  | greater
  deriving DecidableEq, Repr

/-- Function `do_sign`: 1 when the top nibble `val[calc_buffer_size-1]` is at most 7,
and -1 otherwise. -/
def do_sign (calc_buffer_size : Nat) (val : Buf) : Int :=
  if val.getD (calc_buffer_size - 1) 0 ≤ 7 then 1 else -1

/-- Loop of `sc_comp` started at index `counter`: walk down while the digits agree;
below index 0 the buffers are equal, otherwise the first differing digit decides. -/
def sc_comp_loop (val1 val2 : Buf) : Nat → ir_relation
  | 0 =>
    if val1.getD 0 0 = val2.getD 0 0 then ir_relation.equal
    else if val1.getD 0 0 > val2.getD 0 0 then ir_relation.greater else ir_relation.less
  | counter + 1 =>
    if val1.getD (counter + 1) 0 = val2.getD (counter + 1) 0 then sc_comp_loop val1 val2 counter
    else if val1.getD (counter + 1) 0 > val2.getD (counter + 1) 0 then ir_relation.greater
    else ir_relation.less

/-- Function `sc_comp`: signs first, then the digits from the most significant one. -/
def sc_comp (calc_buffer_size : Nat) (val1 val2 : Buf) : ir_relation :=
  if do_sign calc_buffer_size val1 ≠ do_sign calc_buffer_size val2 then
    (if do_sign calc_buffer_size val1 = 1 then ir_relation.greater else ir_relation.less)
  else sc_comp_loop val1 val2 (calc_buffer_size - 1)

/-- Two's-complement value of a buffer of `N` nibbles. -/
def S (N : Nat) (x : Buf) : Int :=
  if 2 * U x < 16 ^ N then (U x : Int) else (U x : Int) - (16 : Int) ^ N

/-- Three-way comparison of two naturals. -/
def cmpNat (x y : Nat) : ir_relation :=
  if x < y then ir_relation.less else if x = y then ir_relation.equal else ir_relation.greater

/-- Inner loop of `do_mul` for the digit `v2 = val2[c_outer]`: `k` iterations remain,
the next one at index `c_inner`; returns the temporary buffer and the carry. -/
def do_mul_inner (val1 : Buf) (v2 c_outer : Nat) : Nat → Nat → Buf → Nat → Buf × Nat
  | 0, _, temp_buffer, carry => (temp_buffer, carry)
  | k + 1, c_inner, temp_buffer, carry =>
    let mul := val1.getD c_inner 0 * v2
    let sum := temp_buffer.getD (c_inner + c_outer) 0 + mul + carry
    do_mul_inner val1 v2 c_outer k (c_inner + 1)
      (temp_buffer.set (c_inner + c_outer) (SC_RESULT sum)) (SC_CARRY sum)

/-- Outer loop of `do_mul`: `k` iterations remain, the next one at index `c_outer`.
Digits of `val2` equal to zero are skipped; otherwise the hanging carry is stored at
`temp_buffer[max_value_size + c_outer]`. -/
def do_mul_outer (max_value_size : Nat) (val1 val2 : Buf) : Nat → Nat → Buf → Buf
  | 0, _, temp_buffer => temp_buffer
  | k + 1, c_outer, temp_buffer =>
    if val2.getD c_outer 0 ≠ 0 then
      let r := do_mul_inner val1 (val2.getD c_outer 0) c_outer max_value_size 0 temp_buffer 0
      do_mul_outer max_value_size val1 val2 k (c_outer + 1)
        (r.1.set (max_value_size + c_outer) (sc_word_store r.2))
    else do_mul_outer max_value_size val1 val2 k (c_outer + 1) temp_buffer

/-- Function `do_mul`: negative operands are negated, the magnitudes are multiplied by
the schoolbook kernel into a zeroed temporary, and the result is negated when exactly
one operand was negative. -/
def do_mul (calc_buffer_size max_value_size : Nat) (val1 val2 : Buf) : Buf :=
  let temp_buffer := CLEAR_BUFFER calc_buffer_size
  let s1 := decide (do_sign calc_buffer_size val1 = -1)
  let v1 := if s1 then do_negate val1 else val1
  let s2 := decide (do_sign calc_buffer_size val2 = -1)
  let v2 := if s2 then do_negate val2 else val2
  let sign := xor s1 s2
  let temp_buffer := do_mul_outer max_value_size v1 v2 max_value_size 0 temp_buffer
  if sign then do_negate temp_buffer else temp_buffer

/-- Function `sc_mul`: `carry_flag` is cleared and `do_mul` does not touch it. -/
def sc_mul (calc_buffer_size max_value_size : Nat) (value1 value2 : Buf) : Buf × Bool :=
  (do_mul calc_buffer_size max_value_size value1 value2, false)

/-- Loop of `do_push` for the counters `k-1, ..., 0`: `buffer[counter+1] = buffer[counter]`. -/
def do_push_loop : Nat → Buf → Buf
  | 0, buffer => buffer
  | k + 1, buffer => do_push_loop k (buffer.set (k + 1) (buffer.getD k 0))

/-- Function `do_push`: shift the buffer one digit to the left (the counter runs from
`calc_buffer_size - 2` down to 0) and store `digit` at index 0. -/
def do_push (calc_buffer_size : Nat) (digit : Nat) (buffer : Buf) : Buf :=
  (do_push_loop (calc_buffer_size - 1) buffer).set 0 digit

/-- The table `max_digit`. -/
def max_digit (i : Nat) : Nat := [0, 1, 3, 7].getD i 0

/-- The table `min_digit`. -/
def min_digit (i : Nat) : Nat := [15, 14, 12, 8].getD i 0

/-- The table `sex_digit`. -/
def sex_digit (i : Nat) : Nat := [14, 12, 8, 0].getD i 0

/-- The table `zex_digit`. -/
def zex_digit (i : Nat) : Nat := [1, 3, 7, 15].getD i 0

/-- Loop of `sc_is_zero` over the full nibbles `i, ..., i + k - 1`: the index reached when
all of them are zero, `none` when one of them is not (the function returns false). -/
def sc_is_zero_loop (value : Buf) : Nat → Nat → Option Nat
  | 0, i => some i
  | k + 1, i => if value.getD i 0 ≠ 0 then none else sc_is_zero_loop value k (i + 1)

/-- Function `sc_is_zero`: are the lowest `bits` bits of `value` all zero. -/
def sc_is_zero (value : Buf) (bits : Nat) : Bool :=
  match sc_is_zero_loop value (bits / SC_BITS) 0 with
  | none => false
  | some i =>
    let mask := max_digit (bits % SC_BITS)
    mask == 0 || (value.getD i 0 &&& mask) == 0

/-- Outcome of a run that may hit a failing `assert` or exhaust the iteration budget
given to an unbounded `while` loop. -/
inductive Outcome (α : Type) where
  | abort
  | out_of_fuel
  | done (a : α)
  deriving DecidableEq, Repr

/-- The `while (do_sign(rem) == 1)` loop of `do_divmod`; `fuel` bounds the number of
tests of the loop condition.  Returns `rem` and `quot`. -/
def do_divmod_while (calc_buffer_size : Nat) (minus_divisor : Buf) :
    Nat → Buf → Buf → Option (Buf × Buf)
  | 0, _, _ => none
  | fuel + 1, rem, quot =>
    if do_sign calc_buffer_size rem = 1 then
      do_divmod_while calc_buffer_size minus_divisor fuel
        (do_add rem minus_divisor).1 (quot.set 0 (SC_RESULT (quot.getD 0 0 + 1)))
    else some (rem, quot)

/-- The `for` loop of `do_divmod`; `k` iterations remain, the next one has
`c_dividend = k - 1`.  Returns `rem` and `quot`. -/
def do_divmod_loop (calc_buffer_size fuel : Nat) (dividend divisor minus_divisor : Buf) :
    Nat → Buf → Buf → Option (Buf × Buf)
  | 0, rem, quot => some (rem, quot)
  | c_dividend + 1, rem, quot =>
    let rem := do_push calc_buffer_size (dividend.getD c_dividend 0) rem
    let quot := do_push calc_buffer_size 0 quot
    if sc_comp calc_buffer_size rem divisor ≠ ir_relation.less then
      match do_divmod_while calc_buffer_size minus_divisor fuel
          (do_add rem minus_divisor).1 quot with
      | none => none
      | some r =>
        do_divmod_loop calc_buffer_size fuel dividend divisor minus_divisor c_dividend
          (do_add r.1 divisor).1 r.2
    else
      do_divmod_loop calc_buffer_size fuel dividend divisor minus_divisor c_dividend rem quot

/-- The part of `do_divmod` after the label `end`: `carry_flag` is set from
`sc_is_zero(rem, calc_buffer_size)` and the signs are applied. -/
def do_divmod_end (calc_buffer_size : Nat) (div_sign rem_sign : Bool) (quot rem : Buf) :
    Buf × Buf × Bool :=
  let carry_flag := !sc_is_zero rem calc_buffer_size
  let quot := if div_sign then do_negate quot else quot
  let rem := if rem_sign then do_negate rem else rem
  (quot, rem, carry_flag)

/-- The `switch (sc_comp(dividend, divisor))` of `do_divmod` on the absolute values, with
the long division of the default case, followed by the code after the label `end`. -/
def do_divmod_switch (calc_buffer_size fuel : Nat) (div_sign rem_sign : Bool)
    (dividend divisor minus_divisor : Buf) : Outcome (Buf × Buf × Bool) :=
  let quot := CLEAR_BUFFER calc_buffer_size
  let rem := CLEAR_BUFFER calc_buffer_size
  match sc_comp calc_buffer_size dividend divisor with
  | ir_relation.equal =>
    Outcome.done (do_divmod_end calc_buffer_size div_sign rem_sign (quot.set 0 1) rem)
  | ir_relation.less =>
    Outcome.done (do_divmod_end calc_buffer_size div_sign rem_sign quot dividend)
  | ir_relation.greater =>
    match do_divmod_loop calc_buffer_size fuel dividend divisor minus_divisor
        calc_buffer_size rem quot with
    | none => Outcome.out_of_fuel
    | some r => Outcome.done (do_divmod_end calc_buffer_size div_sign rem_sign r.2 r.1)

/-- Function `do_divmod`: quotient buffer, remainder buffer and `carry_flag` on exit;
`carry_flag` is the value of the flag on entry.  A zero divisor fails the assertion; a
zero dividend returns at once with both buffers cleared. -/
def do_divmod (calc_buffer_size fuel : Nat) (carry_flag : Bool) (rDividend divisor : Buf) :
    Outcome (Buf × Buf × Bool) :=
  let quot := CLEAR_BUFFER calc_buffer_size
  let rem := CLEAR_BUFFER calc_buffer_size
  if sc_comp calc_buffer_size divisor quot = ir_relation.equal then Outcome.abort
  else if sc_comp calc_buffer_size rDividend quot = ir_relation.equal then
    Outcome.done (quot, rem, carry_flag)
  else
    let s1 := decide (do_sign calc_buffer_size rDividend = -1)
    let dividend := if s1 then do_negate rDividend else rDividend
    let neg_val2 := do_negate divisor
    let s2 := decide (do_sign calc_buffer_size divisor = -1)
    let div_sign := xor s1 s2
    let rem_sign := s1
    let minus_divisor := if s2 then divisor else neg_val2
    let divisor := if s2 then neg_val2 else divisor
    do_divmod_switch calc_buffer_size fuel div_sign rem_sign dividend divisor minus_divisor

/-- Function `sc_divmod`: quotient, remainder and `carry_flag` on exit. -/
def sc_divmod (calc_buffer_size fuel : Nat) (value1 value2 : Buf) :
    Outcome (Buf × Buf × Bool) :=
  do_divmod calc_buffer_size fuel false value1 value2

/-- Function `sc_div`: the quotient buffer and the returned `carry_flag`. -/
def sc_div (calc_buffer_size fuel : Nat) (value1 value2 : Buf) : Outcome (Buf × Bool) :=
  match do_divmod calc_buffer_size fuel false value1 value2 with
  | Outcome.abort => Outcome.abort
  | Outcome.out_of_fuel => Outcome.out_of_fuel
  | Outcome.done r => Outcome.done (r.1, r.2.2)

/-- Function `sc_mod`: the remainder buffer. -/
def sc_mod (calc_buffer_size fuel : Nat) (value1 value2 : Buf) : Outcome Buf :=
  match do_divmod calc_buffer_size fuel false value1 value2 with
  | Outcome.abort => Outcome.abort
  | Outcome.out_of_fuel => Outcome.out_of_fuel
  | Outcome.done r => Outcome.done r.2.1

/-- Modelled from the spec: `LONG_MIN` of `limits.h` for the 64-bit `long` the claims
assume. -/
def LONG_MIN : Int := -(2 ^ 63)

/-- Modelled from the spec: `ULONG_MAX` of `limits.h` for a 64-bit `unsigned long`. -/
def ULONG_MAX : Nat := 2 ^ 64 - 1

/-- Conversion of an `unsigned long` to `long` (two's complement, 64 bits). -/
def long_of_ulong (l : Nat) : Int :=
  if l < 2 ^ 63 then (l : Int) else (l : Int) - 2 ^ 64

/-- The `while` loop of `sc_val_from_long`: `k` cells remain, the next one is `pos`;
`value` is the non-negative `long` still to be written. -/
def sc_val_from_long_loop : Nat → Nat → Nat → Buf → Buf
  | 0, _, _, buffer => buffer
  | k + 1, pos, value, buffer =>
    if value ≠ 0 then
      sc_val_from_long_loop k (pos + 1) (value >>> 4) (buffer.set pos (value &&& 0xF))
    else buffer

/-- Function `sc_val_from_long`. -/
def sc_val_from_long (calc_buffer_size : Nat) (value : Int) : Buf :=
  let sign := decide (value < 0)
  let is_minlong := decide (value = LONG_MIN)
  let value := if sign then (if is_minlong then -(value + 1) else -value) else value
  let buffer := CLEAR_BUFFER calc_buffer_size
  let buffer := sc_val_from_long_loop calc_buffer_size 0 value.toNat buffer
  if sign then
    let buffer := if is_minlong then do_inc buffer else buffer
    do_negate buffer
  else buffer

/-- Function `sc_val_from_ulong`: every cell receives the next four bits of `value`. -/
def sc_val_from_ulong : Nat → Nat → Buf
  | 0, _ => []
  | k + 1, value => (value &&& 0xF) :: sc_val_from_ulong k (value >>> 4)

/-- Loop of `sc_val_to_long` for the indices `i - 1, ..., 0`; `none` when the assertion
`l <= (ULONG_MAX >> 4)` fails. -/
def sc_val_to_long_loop (val : Buf) : Nat → Nat → Option Nat
  | 0, l => some l
  | i + 1, l =>
    if l ≤ ULONG_MAX >>> 4 then
      sc_val_to_long_loop val i (((l <<< 4) + val.getD i 0) % 2 ^ 64)
    else none

/-- Function `sc_val_to_long` with `sizeof(long) = 8`: the 16 low nibbles, most
significant first, accumulated in an `unsigned long` and returned as `long`. -/
def sc_val_to_long (val : Buf) : Option Int :=
  let max_buffer_index := 8 * 8 / SC_BITS
  (sc_val_to_long_loop val max_buffer_index 0).map long_of_ulong

/-- Loop of `sc_val_to_uint64` for the indices `i - 1, ..., 0` with a 64-bit
accumulator. -/
def sc_val_to_uint64_loop (val : Buf) : Nat → Nat → Nat
  | 0, res => res
  | i + 1, res => sc_val_to_uint64_loop val i (((res <<< 4) + val.getD i 0) % 2 ^ 64)

/-- Function `sc_val_to_uint64`. -/
def sc_val_to_uint64 (calc_buffer_size : Nat) (val : Buf) : Nat :=
  sc_val_to_uint64_loop val calc_buffer_size 0

/-- Digit value of a character as `sc_val_from_str` reads it: `0-9`, `A-F`, `a-f`;
`none` is the branch that returns false. -/
def digit_of_char (c : Char) : Option Nat :=
  if '0'.toNat ≤ c.toNat ∧ c.toNat ≤ '9'.toNat then some (c.toNat - '0'.toNat)
  else if 'A'.toNat ≤ c.toNat ∧ c.toNat ≤ 'F'.toNat then some (c.toNat - 'A'.toNat + 10)
  else if 'a'.toNat ≤ c.toNat ∧ c.toNat ≤ 'f'.toNat then some (c.toNat - 'a'.toNat + 10)
  else none

/-- The `while (len > 0)` loop of `sc_val_from_str`: the returned flag is false when a
character is rejected; the buffer is the state reached. -/
def sc_val_from_str_loop (calc_buffer_size max_value_size base : Nat) (sc_base : Buf) :
    List Char → Buf → Buf → Bool × Buf
  | [], _, buffer => (true, buffer)
  | c :: str, val, buffer =>
    match digit_of_char c with
    | none => (false, buffer)
    | some v =>
      if v ≥ base then (false, buffer)
      else
        let val := val.set 0 v
        let buffer := do_mul calc_buffer_size max_value_size sc_base buffer
        let buffer := (do_add val buffer).1
        sc_val_from_str_loop calc_buffer_size max_value_size base sc_base str val buffer

/-- Function `sc_val_from_str`: the returned flag and the contents of `buffer`. -/
def sc_val_from_str (calc_buffer_size max_value_size : Nat) (sign : Int) (base : Nat)
    (str : List Char) : Bool × Buf :=
  let sc_base := sc_val_from_ulong calc_buffer_size base
  let buffer := CLEAR_BUFFER calc_buffer_size
  let val := CLEAR_BUFFER calc_buffer_size
  let r := sc_val_from_str_loop calc_buffer_size max_value_size base sc_base str val buffer
  if r.1 then (true, if sign < 0 then do_negate r.2 else r.2) else r

/-- The digits the string grammar `[0-9A-Fa-f]+` admits, each with its value (the
reading of the spec, independent of the code of `sc_val_from_str`). -/
def hex_digit_table : List (Char × Nat) :=
  [('0', 0), ('1', 1), ('2', 2), ('3', 3), ('4', 4), ('5', 5), ('6', 6), ('7', 7),
   ('8', 8), ('9', 9),
   ('A', 10), ('B', 11), ('C', 12), ('D', 13), ('E', 14), ('F', 15),
   ('a', 10), ('b', 11), ('c', 12), ('d', 13), ('e', 14), ('f', 15)]

/-- Value of a character of the string grammar, `none` for any other character. -/
def hex_digit_value (c : Char) : Option Nat := hex_digit_table.lookup c

/-- A string is accepted in base `base` when every character is a digit `0-9A-Fa-f`
whose value is smaller than the base. -/
def accepted (base : Nat) (str : List Char) : Prop :=
  ∀ c ∈ str, ∃ v, hex_digit_value c = some v ∧ v < base

instance (base : Nat) (str : List Char) : Decidable (accepted base str) :=
  decidable_of_iff
    (∀ c ∈ str, (hex_digit_value c).any (fun v => decide (v < base)) = true)
    (by
      unfold accepted
      constructor <;> intro h c hc <;> have := h c hc <;>
        cases hv : hex_digit_value c <;> simp_all)

/-- The natural number a digit string denotes in base `base`. -/
def numeral_value (base : Nat) (str : List Char) : Nat :=
  str.foldl (fun acc c => acc * base + (hex_digit_value c).getD 0) 0

/-- The macro `_bitisset(digit, pos)`. -/
def _bitisset (digit pos : Nat) : Bool := (digit &&& (1 <<< pos)) != 0

/-- Function `do_bit`: is the bit at position `pos` set. -/
def do_bit (val : Buf) (pos : Nat) : Bool :=
  let bit := pos &&& 3
  let nibble := pos >>> 2
  _bitisset (val.getD nibble 0) bit

/-- The table `shrs_table`: for a digit and a bit shift, the digit shifted right and the
bits that fall into the next lower digit. -/
def shrs_table : List (List (Nat × Nat)) :=
  [ [(0, 0), (0, 0), (0, 0), (0, 0)],
    [(1, 0), (0, 8), (0, 4), (0, 2)],
    [(2, 0), (1, 0), (0, 8), (0, 4)],
    [(3, 0), (1, 8), (0, 12), (0, 6)],
    [(4, 0), (2, 0), (1, 0), (0, 8)],
    [(5, 0), (2, 8), (1, 4), (0, 10)],
    [(6, 0), (3, 0), (1, 8), (0, 12)],
    [(7, 0), (3, 8), (1, 12), (0, 14)],
    [(8, 0), (4, 0), (2, 0), (1, 0)],
    [(9, 0), (4, 8), (2, 4), (1, 2)],
    [(10, 0), (5, 0), (2, 8), (1, 4)],
    [(11, 0), (5, 8), (2, 12), (1, 6)],
    [(12, 0), (6, 0), (3, 0), (1, 8)],
    [(13, 0), (6, 8), (3, 4), (1, 10)],
    [(14, 0), (7, 0), (3, 8), (1, 12)],
    [(15, 0), (7, 8), (3, 12), (1, 14)] ]

/-- The entry `shrs_table[digit][shift]`. -/
def shrs (digit shift : Nat) : Nat × Nat := (shrs_table.getD digit []).getD shift (0, 0)

/-- A loop `for (...; count iterations; counter++) buffer[counter] = v` starting at the
cell `start`. -/
def fill_cells (v : Nat) : Nat → Nat → Buf → Buf
  | 0, _, buffer => buffer
  | count + 1, start, buffer => fill_cells v count (start + 1) (buffer.set start v)

/-- First loop of `do_shl`: `k` iterations remain, the next one at index `counter`;
returns the buffer and the carry. -/
def do_shl_loop (val1 : Buf) (shift shift_cnt : Nat) : Nat → Nat → Buf → Nat → Buf × Nat
  | 0, _, buffer, carry => (buffer, carry)
  | k + 1, counter, buffer, carry =>
    let shl := (val1.getD counter 0 <<< shift) ||| carry
    do_shl_loop val1 shift shift_cnt k (counter + 1)
      (buffer.set (counter + shift_cnt) (SC_RESULT shl)) (SC_CARRY shl)

/-- First part of `do_shl` for `shift_cnt < bitsize`: the digits are shifted into place
(with the partial top digit when `bitsize % 4 > 0`) and the cells below are zeroed.
Returns the buffer and the index `bitoffset + shift_cnt` of the digit that holds the
most significant bit. -/
def do_shl_digits (val1 buffer : Buf) (shift_cnt bitsize : Nat) : Buf × Nat :=
  let shift := shift_cnt % SC_BITS
  let shift_cnt := shift_cnt / 4
  let r := do_shl_loop val1 shift shift_cnt (bitsize / 4 - shift_cnt) 0 buffer 0
  let counter := bitsize / 4 - shift_cnt
  let buffer :=
    if bitsize % 4 > 0 then
      r.1.set (counter + shift_cnt) (SC_RESULT ((val1.getD counter 0 <<< shift) ||| r.2))
    else r.1
  let bitoffset := if bitsize % 4 > 0 then counter else counter - 1
  let buffer := fill_cells 0 shift_cnt 0 buffer
  (buffer, bitoffset + shift_cnt)

/-- Last part of `do_shl`: when the mode is signed the digit `buffer[shift_cnt]` and the
cells above it are set or cleared according to the bit `(bitsize - 1) % 4` of that digit;
an unsigned mode leaves the buffer as it is. -/
def do_shl_msb (calc_buffer_size : Nat) (buffer : Buf) (shift_cnt bitsize : Nat)
    (is_signed : Bool) : Buf :=
  let bitoffset := (bitsize - 1) % 4
  if is_signed && _bitisset (buffer.getD shift_cnt 0) bitoffset then
    let buffer := buffer.set shift_cnt (buffer.getD shift_cnt 0 ||| min_digit bitoffset)
    fill_cells 0xF (calc_buffer_size - (shift_cnt + 1)) (shift_cnt + 1) buffer
  else if is_signed && !_bitisset (buffer.getD shift_cnt 0) bitoffset then
    let buffer := buffer.set shift_cnt (buffer.getD shift_cnt 0 &&& max_digit bitoffset)
    fill_cells 0 (calc_buffer_size - (shift_cnt + 1)) (shift_cnt + 1) buffer
  else buffer

/-- Function `do_shl` writing into `buffer` (whose previous contents are an argument);
`none` when the assertion `do_sign(val1) != -1 || is_signed` fails.  The shift count is a
natural number (`assert(shift_cnt >= 0)`). -/
def do_shl (calc_buffer_size : Nat) (val1 buffer : Buf) (shift_cnt bitsize : Nat)
    (is_signed : Bool) : Option Buf :=
  if do_sign calc_buffer_size val1 = -1 ∧ is_signed = false then none
  else if shift_cnt ≥ bitsize then some (CLEAR_BUFFER calc_buffer_size)
  else
    let r := do_shl_digits val1 buffer shift_cnt bitsize
    some (do_shl_msb calc_buffer_size r.1 r.2 bitsize is_signed)

/-- The loop of `do_shr` that looks for a non-zero digit among the `shift_nib` lowest:
true when the loop sets `carry_flag`. -/
def do_shr_lost (val1 : Buf) : Nat → Nat → Bool
  | 0, _ => false
  | k + 1, counter => if val1.getD counter 0 ≠ 0 then true else do_shr_lost val1 k (counter + 1)

/-- Main loop of `do_shr`: `k` iterations remain, the next one at index `counter`. -/
def do_shr_loop (val1 : Buf) (shift_nib shift_mod : Nat) : Nat → Nat → Buf → Buf
  | 0, _, buffer => buffer
  | k + 1, counter, buffer =>
    let e := shrs (val1.getD (counter + shift_nib) 0) shift_mod
    let buffer := buffer.set counter e.1
    let buffer := buffer.set (counter - 1) (buffer.getD (counter - 1) 0 ||| e.2)
    do_shr_loop val1 shift_nib shift_mod k (counter + 1) buffer

/-- The part of `do_shr` (for `shift_cnt < bitsize`) that sets `carry_flag` when a bit is
shifted out: the flag on exit, given the flag on entry. -/
def do_shr_carry (carry_flag : Bool) (val1 : Buf) (shift_nib shift_mod : Nat) : Bool :=
  let carry_flag := if do_shr_lost val1 shift_nib 0 then true else carry_flag
  if (val1.getD shift_nib 0 &&& ((1 <<< shift_mod) - 1)) ≠ 0 then true else carry_flag

/-- The part of `do_shr` that shifts the digits `shift_nib, ..., (bitsize + 3) / 4 - 1` of
`val1` to the bottom of `buffer`; returns the buffer and the final value of `counter`. -/
def do_shr_digits (val1 buffer : Buf) (shift_nib shift_mod bitsize : Nat) : Buf × Nat :=
  let buffer := buffer.set 0 (shrs (val1.getD shift_nib 0) shift_mod).1
  let bound := ((bitsize + 3) >>> 2) - shift_nib
  let buffer := do_shr_loop val1 shift_nib shift_mod (bound - 1) 1 buffer
  (buffer, max 1 bound)

/-- The part of `do_shr` that writes the most significant digit `buffer[counter]`, adds its
low bits to `buffer[counter - 1]` and fills the cells above with `sign`. -/
def do_shr_msd (calc_buffer_size : Nat) (buffer : Buf) (counter sign shift_mod bitsize : Nat)
    (is_signed signed_shift : Bool) : Buf :=
  let bitoffset := bitsize &&& 3
  let msd := sign
  let msd := if !signed_shift && is_signed then msd &&& max_digit bitoffset else msd
  let e := shrs msd shift_mod
  let buffer :=
    if signed_shift && sign == 0xF then buffer.set counter (e.1 ||| min_digit bitoffset)
    else buffer.set counter e.1
  let buffer :=
    if counter > 0 then buffer.set (counter - 1) (buffer.getD (counter - 1) 0 ||| e.2)
    else buffer
  fill_cells sign (calc_buffer_size - (counter + 1)) (counter + 1) buffer

/-- Function `do_shr` writing into `buffer`; `carry_flag` is the flag on entry, the
second component the flag on exit. -/
def do_shr (calc_buffer_size : Nat) (carry_flag : Bool) (val1 buffer : Buf)
    (shift_cnt bitsize : Nat) (is_signed signed_shift : Bool) : Buf × Bool :=
  let sign := if signed_shift && do_bit val1 (bitsize - 1) then 0xF else 0
  if shift_cnt ≥ bitsize then
    let carry_flag := if !sc_is_zero val1 calc_buffer_size then true else carry_flag
    (List.replicate calc_buffer_size sign, carry_flag)
  else
    let shift_mod := shift_cnt &&& 3
    let shift_nib := shift_cnt >>> 2
    let carry_flag := do_shr_carry carry_flag val1 shift_nib shift_mod
    let r := do_shr_digits val1 buffer shift_nib shift_mod bitsize
    (do_shr_msd calc_buffer_size r.1 r.2 sign shift_mod bitsize is_signed signed_shift,
      carry_flag)

/-- Function `sc_shlI`; `calc_buffer` is the scratch buffer before the call.  Returns the
result buffer and the returned `carry_flag`. -/
def sc_shlI (calc_buffer_size : Nat) (calc_buffer val1 : Buf) (shift_cnt bitsize : Nat)
    (sign : Bool) : Option (Buf × Bool) :=
  (do_shl calc_buffer_size val1 calc_buffer shift_cnt bitsize sign).map (fun b => (b, false))

/-- Function `sc_shrI`: logical right shift. -/
def sc_shrI (calc_buffer_size : Nat) (calc_buffer val1 : Buf) (shift_cnt bitsize : Nat)
    (sign : Bool) : Buf × Bool :=
  do_shr calc_buffer_size false val1 calc_buffer shift_cnt bitsize sign false

/-- Function `sc_shrsI`: arithmetic right shift. -/
def sc_shrsI (calc_buffer_size : Nat) (calc_buffer val1 : Buf) (shift_cnt bitsize : Nat)
    (sign : Bool) : Buf × Bool :=
  do_shr calc_buffer_size false val1 calc_buffer shift_cnt bitsize sign true

/-- Function `sign_extend`, in place on `buffer`. -/
def sign_extend (calc_buffer_size : Nat) (buffer : Buf) (from_bits : Nat) (is_signed : Bool) :
    Buf :=
  let bits := from_bits - 1
  let nibble := bits >>> 2
  if is_signed then
    let max := max_digit (bits &&& 3)
    if buffer.getD nibble 0 > max then
      let buffer := fill_cells 0xF (calc_buffer_size - (nibble + 1)) (nibble + 1) buffer
      buffer.set nibble (buffer.getD nibble 0 ||| sex_digit (bits &&& 3))
    else
      let buffer := fill_cells 0 (calc_buffer_size - (nibble + 1)) (nibble + 1) buffer
      buffer.set nibble (buffer.getD nibble 0 &&& zex_digit (bits &&& 3))
  else
    let buffer := fill_cells 0 (calc_buffer_size - (nibble + 1)) (nibble + 1) buffer
    buffer.set nibble (buffer.getD nibble 0 &&& zex_digit (bits &&& 3))

/-- Modelled from the spec: the enumeration `base_t` of the header `strcalc.h`, the output
bases of `sc_print`. -/
inductive base_t where
  | SC_hex
  | SC_HEX
  | SC_DEC
  | SC_OCT
  | SC_BIN
  deriving DecidableEq, Repr

/-- The digit string `big_digits` of `sc_print_buf`. -/
def big_digits : List Char := "0123456789ABCDEF".toList

/-- The digit string `small_digits` of `sc_print_buf`. -/
def small_digits : List Char := "0123456789abcdef".toList

/-- The table `binary_table`. -/
def binary_table : List (List Char) :=
  [['0', '0', '0', '0'], ['0', '0', '0', '1'], ['0', '0', '1', '0'], ['0', '0', '1', '1'],
   ['0', '1', '0', '0'], ['0', '1', '0', '1'], ['0', '1', '1', '0'], ['0', '1', '1', '1'],
   ['1', '0', '0', '0'], ['1', '0', '0', '1'], ['1', '0', '1', '0'], ['1', '0', '1', '1'],
   ['1', '1', '0', '0'], ['1', '1', '0', '1'], ['1', '1', '1', '0'], ['1', '1', '1', '1']]

/-- The loop `for (counter = 0; counter < nibbles; ++counter) *(--pos) = digits[value[counter]]`:
`out` is the text between `pos` and the terminating zero. -/
def print_hex_loop (digits : List Char) (value : Buf) : Nat → Nat → List Char → List Char
  | 0, _, out => out
  | k + 1, counter, out =>
    print_hex_loop digits value k (counter + 1) (digits.getD (value.getD counter 0) '0' :: out)

/-- The binary counterpart: four characters of `binary_table` per digit. -/
def print_bin_loop (value : Buf) : Nat → Nat → List Char → List Char
  | 0, _, out => out
  | k + 1, counter, out =>
    print_bin_loop value k (counter + 1) (binary_table.getD (value.getD counter 0) [] ++ out)

/-- The loop `for (; counter > 1; --counter, ++pos) if (pos[0] != '0') break;`. -/
def kill_zeros : Nat → List Char → List Char
  | 0, out => out
  | 1, out => out
  | counter + 2, out =>
    if out.head? ≠ some '0' then out else kill_zeros (counter + 1) out.tail

/-- The loop `for (counter = 0; counter < nibbles; ++counter) div1_res[counter] = p[counter]`. -/
def copy_cells (p : Buf) : Nat → Nat → Buf → Buf
  | 0, _, div1_res => div1_res
  | k + 1, counter, div1_res =>
    copy_cells p k (counter + 1) (div1_res.set counter (p.getD counter 0))

/-- The `for (;;)` loop of the decimal and octal output: divide by the base, emit the
remainder, go on with the quotient until it is zero.  `fuel` bounds the iterations, `dfuel`
is the budget handed to `do_divmod`. -/
def print_div_loop (calc_buffer_size dfuel : Nat) (digits : List Char) (base_val : Buf) :
    Nat → Buf → List Char → Outcome (List Char)
  | 0, _, _ => Outcome.out_of_fuel
  | fuel + 1, m, out =>
    match do_divmod calc_buffer_size dfuel false m base_val with
    | Outcome.abort => Outcome.abort
    | Outcome.out_of_fuel => Outcome.out_of_fuel
    | Outcome.done r =>
      let out := digits.getD (r.2.1.getD 0 0) '0' :: out
      let x := r.1.foldl (fun x d => x ||| d) 0
      if x = 0 then Outcome.done out
      else print_div_loop calc_buffer_size dfuel digits base_val fuel r.1 out

/-- Function `sc_print_buf`: the text returned (from `pos` to the terminating zero) for a
buffer of `buf_len` characters; `abort` when an assertion `pos >= buf` fails. -/
def sc_print_buf (calc_buffer_size bit_pattern_size fuel : Nat) (buf_len : Nat) (value : Buf)
    (bits : Nat) (base : base_t) (is_signed : Bool) : Outcome (List Char) :=
  let bits := if bits = 0 then bit_pattern_size else bits
  let nibbles := bits >>> 2
  match base with
  | base_t.SC_HEX | base_t.SC_hex =>
    let digits := if base = base_t.SC_HEX then big_digits else small_digits
    let out := print_hex_loop digits value nibbles 0 []
    if out.length + 1 > buf_len then Outcome.abort
    else
      let masked := (bits &&& 3) ≠ 0
      let out :=
        if masked then
          digits.getD (value.getD nibbles 0 &&& zex_digit ((bits &&& 3) - 1)) '0' :: out
        else out
      let counter := if masked then nibbles + 1 else nibbles
      if out.length + 1 > buf_len then Outcome.abort
      else Outcome.done (kill_zeros counter out)
  | base_t.SC_BIN =>
    let out := print_bin_loop value nibbles 0 []
    if out.length + 1 > buf_len then Outcome.abort
    else
      let masked := (bits &&& 3) ≠ 0
      let out :=
        if masked then
          binary_table.getD (value.getD nibbles 0 &&& zex_digit ((bits &&& 3) - 1)) [] ++ out
        else out
      let counter := if masked then nibbles + 1 else nibbles
      if out.length + 1 > buf_len then Outcome.abort
      else Outcome.done (kill_zeros (counter <<< 2) out)
  | base_t.SC_DEC | base_t.SC_OCT =>
    let base_val := (CLEAR_BUFFER calc_buffer_size).set 0 (if base = base_t.SC_DEC then 10 else 8)
    let sign := is_signed && decide (base = base_t.SC_DEC) && do_bit value (bits - 1)
    let p := if sign then do_negate value else value
    let div1_res := copy_cells p nibbles 0 (CLEAR_BUFFER calc_buffer_size)
    let div1_res :=
      if (bits &&& 3) ≠ 0 then
        div1_res.set nibbles (p.getD nibbles 0 &&& zex_digit ((bits &&& 3) - 1))
      else div1_res
    match print_div_loop calc_buffer_size fuel small_digits base_val fuel div1_res [] with
    | Outcome.abort => Outcome.abort
    | Outcome.out_of_fuel => Outcome.out_of_fuel
    | Outcome.done out =>
      if out.length + 1 > buf_len then Outcome.abort
      else if sign then
        (if out.length + 2 > buf_len then Outcome.abort else Outcome.done ('-' :: out))
      else Outcome.done out

/-- Function `sc_print`: `sc_print_buf` on the output buffer of `bit_pattern_size + 1`
characters. -/
def sc_print (calc_buffer_size bit_pattern_size fuel : Nat) (value : Buf) (bits : Nat)
    (base : base_t) (is_signed : Bool) : Outcome (List Char) :=
  sc_print_buf calc_buffer_size bit_pattern_size fuel (bit_pattern_size + 1) value bits base
    is_signed

/-- Value of the `c` cells of a buffer that start at index `s`:
the sum of `b[s + i] * 16^i` for `i < c`. -/
def Useg (b : Buf) (s : Nat) : Nat → Nat
  | 0 => 0
  | c + 1 => Useg b s c + 16 ^ c * b.getD (s + c) 0

/-- Sign extension over `N` nibbles of the low `w` bits of `x`: the low `w` bits, with
every bit from `w` up to `4 * N - 1` set when bit `w - 1` is set. -/
def sext (N w x : Nat) : Nat :=
  if 2 ^ (w - 1) ≤ x % 2 ^ w then x % 2 ^ w + (16 ^ N - 2 ^ w) else x % 2 ^ w

/-- The `w`-bit two's-complement interpretation of the low `w` bits of `x`. -/
def tc_value (w x : Nat) : Int :=
  if 2 ^ (w - 1) ≤ x % 2 ^ w then ((x % 2 ^ w : Nat) : Int) - 2 ^ w else ((x % 2 ^ w : Nat) : Int)

/-- The shortest numeral of `n` in base `base`, most significant digit first, with the
digit characters given by `digit`; the numeral of zero is the single digit zero. -/
def numeral (base : Nat) (digit : Nat → Char) (n : Nat) : List Char :=
  if n = 0 then [digit 0] else (Nat.digits base n).reverse.map digit

/-- The canonical decimal numeral of an integer: a leading `-` exactly when it is
negative, then the shortest numeral of its magnitude. -/
def int_numeral (v : Int) : List Char :=
  if v < 0 then '-' :: numeral 10 Nat.digitChar v.natAbs else numeral 10 Nat.digitChar v.natAbs

/-- The number base an output base of `sc_print` stands for. -/
def base_number : base_t → Nat
  | base_t.SC_hex => 16
  | base_t.SC_HEX => 16
  | base_t.SC_DEC => 10
  | base_t.SC_OCT => 8
  | base_t.SC_BIN => 2

/-- Parsing of a printed text with the sign taken from the text: a leading `-` is passed
to `sc_val_from_str` as the sign -1, anything else is parsed with the sign +1. -/
def parse_printed (calc_buffer_size max_value_size base : Nat) (text : List Char) :
    Bool × Buf :=
  match text with
  | '-' :: rest => sc_val_from_str calc_buffer_size max_value_size (-1) base rest
  | _ => sc_val_from_str calc_buffer_size max_value_size 1 base text

/-- The upper-case hexadecimal digit character of `d`. -/
def hex_upper (d : Nat) : Char := (Nat.digitChar d).toUpper

/-- The bits of a list of nibbles (least significant nibble first), most significant bit
first. -/
def nibble_bits : List Nat → List Nat
  | [] => []
  | d :: t => nibble_bits t ++ [d / 8 % 2, d / 4 % 2, d / 2 % 2, d % 2]

/-- The cells of `value` that hold its low `bits` bits, the top one masked when `bits` is
not a multiple of 4. -/
def low_cells (value : Buf) (bits : Nat) : List Nat :=
  value.take (bits / 4) ++ (if bits % 4 ≠ 0 then [value.getD (bits / 4) 0 % 2 ^ (bits % 4)] else [])

/-- Function `sc_truncate`, in place on `buffer`: `none` when the assertion `pos < end`
fails. -/
def sc_truncate (calc_buffer_size : Nat) (num_bits : Nat) (buffer : Buf) : Option Buf :=
  let pos := num_bits / 4
  if pos < calc_buffer_size then
    let r : Buf × Nat :=
      match num_bits % 4 with
      | 0 => (buffer, pos)
      | 1 => (buffer.set pos (buffer.getD pos 0 &&& 1), pos + 1)
      | 2 => (buffer.set pos (buffer.getD pos 0 &&& 3), pos + 1)
      | _ => (buffer.set pos (buffer.getD pos 0 &&& 7), pos + 1)
    some (fill_cells 0 (calc_buffer_size - r.2) r.2 r.1)
  else none

/-- The subtraction `num_bits - 1` (or `num_bits - sign`) of the type `unsigned`, 32 bits
wide: it wraps around below zero. -/
def unsigned_sub (a b : Nat) : Nat := (a + (4294967296 - b)) % 4294967296

/-- Function `sc_min_from_bits`: the written buffer. -/
def sc_min_from_bits (calc_buffer_size : Nat) (num_bits : Nat) (sign : Bool) : Buf :=
  let buffer := CLEAR_BUFFER calc_buffer_size
  if !sign then buffer
  else
    let bits := unsigned_sub num_bits 1
    let buffer := fill_cells 0 (bits / 4) 0 buffer
    let buffer := buffer.set (bits / 4) (min_digit (bits % 4))
    fill_cells 0xF (calc_buffer_size - (bits / 4 + 1)) (bits / 4 + 1) buffer

/-- Function `sc_max_from_bits`: the written buffer. -/
def sc_max_from_bits (calc_buffer_size : Nat) (num_bits : Nat) (sign : Bool) : Buf :=
  let buffer := CLEAR_BUFFER calc_buffer_size
  let bits := unsigned_sub num_bits (if sign then 1 else 0)
  let buffer := fill_cells 0xF (bits / 4) 0 buffer
  let buffer := buffer.set (bits / 4) (max_digit (bits % 4))
  fill_cells 0 (calc_buffer_size - (bits / 4 + 1)) (bits / 4 + 1) buffer

/-- Loop of `sc_is_all_one` over the full nibbles `i, ..., i + k - 1`: the index reached
when all of them are `0xF`, `none` when one of them is not (the function returns false). -/
def sc_is_all_one_loop (value : Buf) : Nat → Nat → Option Nat
  | 0, i => some i
  | k + 1, i => if value.getD i 0 ≠ 0xF then none else sc_is_all_one_loop value k (i + 1)

/-- Function `sc_is_all_one`: are the lowest `bits` bits of `value` all set. -/
def sc_is_all_one (value : Buf) (bits : Nat) : Bool :=
  match sc_is_all_one_loop value (bits / SC_BITS) 0 with
  | none => false
  | some i =>
    let mask := max_digit (bits % SC_BITS)
    mask == 0 || (value.getD i 0 &&& mask) == mask

/-- Function `sc_is_negative`. -/
def sc_is_negative (calc_buffer_size : Nat) (value : Buf) : Bool :=
  decide (do_sign calc_buffer_size value = -1)

/-- Function `sc_get_bit_at`: the `int` returned, 1 when the bit is set and 0 otherwise. -/
def sc_get_bit_at (value : Buf) (pos : Nat) : Nat :=
  let nibble := pos >>> 2
  if (value.getD nibble 0 &&& (1 <<< (pos &&& 3))) ≠ 0 then 1 else 0

/-- Loop of `sc_get_highest_set_bit`: `counter + 1` cells remain, the next one is
`value[counter]`. -/
def sc_get_highest_set_bit_loop (value : Buf) : Nat → Int → Int
  | 0, high => high
  | counter + 1, high =>
    if value.getD counter 0 = 0 then sc_get_highest_set_bit_loop value counter (high - 4)
    else if value.getD counter 0 > 7 then high
    else if value.getD counter 0 > 3 then high - 1
    else if value.getD counter 0 > 1 then high - 2
    else high - 3

/-- Function `sc_get_highest_set_bit`. -/
def sc_get_highest_set_bit (calc_buffer_size : Nat) (value : Buf) : Int :=
  sc_get_highest_set_bit_loop value calc_buffer_size ((calc_buffer_size : Int) * 4 - 1)

/-- Modelled from the spec: the helper `popcount` of the header `bitfiddle.h`, which is
outside the sources: the number of set bits of an `unsigned` value of 32 bits. -/
def popcount (x : Nat) : Nat := ((List.range 32).map (fun i => (x >>> i) &&& 1)).sum

/-- Loop of `sc_popcount` over the full nibbles `i, ..., i + k - 1`: the count and the
index reached. -/
def sc_popcount_loop (value : Buf) : Nat → Nat → Nat → Nat × Nat
  | 0, i, res => (res, i)
  | k + 1, i, res => sc_popcount_loop value k (i + 1) (res + popcount (value.getD i 0))

/-- Function `sc_popcount`. -/
def sc_popcount (value : Buf) (bits : Nat) : Nat :=
  let r := sc_popcount_loop value (bits / SC_BITS) 0 0
  let mask := max_digit (bits % SC_BITS)
  if mask ≠ 0 then r.1 + popcount (value.getD r.2 0 &&& mask) else r.1

/-- Function `sc_sub_bits`: the `unsigned char` returned.  `len` is an `int`; the byte
offset is taken small enough for `2 * byte_ofs` to fit an `int`. -/
def sc_sub_bits (value : Buf) (len : Int) (byte_ofs : Nat) : Nat :=
  let nibble_ofs := 2 * byte_ofs
  if ((4 * nibble_ofs : Nat) : Int) ≥ len then 0
  else
    let res := value.getD nibble_ofs 0 % 256
    let res :=
      if len > ((4 * (nibble_ofs + 1) : Nat) : Int) then
        (res ||| (value.getD (nibble_ofs + 1) 0 <<< 4)) % 256
      else res
    let rest := (len - ((8 * byte_ofs : Nat) : Int)).toNat
    if rest < 8 then res &&& ((1 <<< rest) - 1) else res

/-- The byte loops of `sc_val_from_bytes`: every byte, in the order visited, writes its low
and its high nibble at `p` and `p + 1`; returns the buffer and the final `p`. -/
def sc_val_from_bytes_loop : List Nat → Nat → Buf → Buf × Nat
  | [], p, buffer => (buffer, p)
  | v :: rest, p, buffer =>
    sc_val_from_bytes_loop rest (p + 2)
      ((buffer.set p (v &&& 0xF)).set (p + 1) ((v >>> 4) &&& 0xF))

/-- Function `sc_val_from_bytes` writing into `buffer`: `none` when the assertion
`n_bytes <= calc_buffer_size` fails.  The big-endian loop visits the bytes from the last
to the first. -/
def sc_val_from_bytes (calc_buffer_size : Nat) (bytes : List Nat) (big_endian : Bool)
    (buffer : Buf) : Option Buf :=
  if bytes.length ≤ calc_buffer_size then
    let r := sc_val_from_bytes_loop (if big_endian then bytes.reverse else bytes) 0 buffer
    some (fill_cells 0 (calc_buffer_size - r.2) r.2 r.1)
  else none

/-- The loop of `sc_val_from_bits` over the bytes strictly between the lowest and the
highest: `k` bytes remain, the next one is `bytes[mid]`; returns the buffer and `p`. -/
def sc_val_from_bits_loop (bytes : List Nat) (bit : Nat) : Nat → Nat → Nat → Buf → Buf × Nat
  | 0, _, p, buffer => (buffer, p)
  | k + 1, mid, p, buffer =>
    let mval := (bytes.getD mid 0 <<< bit) % 4294967296
    let buffer := buffer.set p (buffer.getD p 0 ||| ((mval >>> 0) &&& 0xF))
    let buffer := buffer.set (p + 1) ((mval >>> 4) &&& 0xF)
    let buffer := buffer.set (p + 2) ((mval >>> 8) &&& 0xF)
    sc_val_from_bits_loop bytes bit k (mid + 1) (p + 2) buffer

/-- Function `sc_val_from_bits` writing into `buffer`, for the window of the bit
positions `from_pos, ..., to_pos - 1` (the parameters `from` and `to`): `none` when an
assertion fails.  The intermediate values are `uint32_t`. -/
def sc_val_from_bits (calc_buffer_size : Nat) (bytes : List Nat) (from_pos to_pos : Nat)
    (buffer : Buf) : Option Buf :=
  if ¬ from_pos < to_pos then none
  else if ¬ (to_pos - from_pos) / 8 ≤ calc_buffer_size then none
  else
    let low := from_pos / 8
    let high := (to_pos - 1) / 8
    let low_bit := from_pos % 8
    let high_bit := (to_pos - 1) % 8 + 1
    let r : Buf × Nat :=
      if low = high then
        let val := ((bytes.getD low 0 <<< (32 - high_bit)) % 4294967296)
          >>> (32 - high_bit + low_bit)
        let buffer := buffer.set 0 ((val >>> 0) &&& 0xF)
        let buffer := buffer.set 1 ((val >>> 4) &&& 0xF)
        (buffer, 2)
      else
        let val := bytes.getD low 0 >>> low_bit
        let buffer := buffer.set 0 ((val >>> 0) &&& 0xF)
        let buffer := buffer.set 1 ((val >>> 4) &&& 0xF)
        let buffer := buffer.set 2 0
        let bit := (8 - low_bit) % 4
        let p := (8 - low_bit) / 4
        let r := sc_val_from_bits_loop bytes bit (high - (low + 1)) (low + 1) p buffer
        let hval := ((bytes.getD high 0 <<< (32 - high_bit)) % 4294967296)
          >>> (32 - high_bit - bit)
        let buffer := r.1.set r.2 (r.1.getD r.2 0 ||| ((hval >>> 0) &&& 0xF))
        let buffer := buffer.set (r.2 + 1) ((hval >>> 4) &&& 0xF)
        (buffer, r.2 + 2)
    if r.2 ≤ calc_buffer_size then
      some (fill_cells 0 (calc_buffer_size - r.2) r.2 r.1)
    else none

/-- The static variables of the module that `init_strcalc` sets: whether `calc_buffer`
and `output_buffer` are allocated (not `NULL`), and the three sizes. -/
structure sc_state where
  calc_buffer : Bool
  output_buffer : Bool
  bit_pattern_size : Nat
  calc_buffer_size : Nat
  max_value_size : Nat
  deriving DecidableEq, Repr

/-- The state before the first `init_strcalc`: the pointers are `NULL`, the static sizes
are zero. -/
def sc_state_initial : sc_state :=
  { calc_buffer := false, output_buffer := false, bit_pattern_size := 0,
    calc_buffer_size := 0, max_value_size := 0 }

/-- Function `init_strcalc`: `none` when the assertion `precision > 0` fails.  The
expression `(precision + 3) & ~3` is computed on the 32-bit pattern of the `int`
(`~3 = 0xFFFFFFFC`); `precision + 3` is taken not to exceed `INT_MAX`. -/
def init_strcalc (s : sc_state) (precision : Int) : Option sc_state :=
  if s.calc_buffer = false then
    if precision > 0 then
      let precision := (precision + 3).toNat &&& 0xFFFFFFFC
      some
        { calc_buffer := true, output_buffer := true, bit_pattern_size := precision,
          calc_buffer_size := precision / 2, max_value_size := precision / 4 }
    else none
  else some s

/-- Function `finish_strcalc`: both buffers are freed and the pointers reset. -/
def finish_strcalc (s : sc_state) : sc_state :=
  { s with calc_buffer := false, output_buffer := false }

/-- Function `sc_get_precision`. -/
def sc_get_precision (s : sc_state) : Nat := s.bit_pattern_size

/-- Function `sc_get_buffer_length`. -/
def sc_get_buffer_length (s : sc_state) : Nat := s.calc_buffer_size

/-- The `n`-bit window `[from_pos, from_pos + n)` of a byte sequence read as a bit stream
(bit `j` of the stream is bit `j % 8` of byte `j / 8`), as a number. -/
def bit_window (bytes : List Nat) (from_pos : Nat) : Nat → Nat
  | 0 => 0
  | n + 1 => bit_window bytes from_pos n
      + 2 ^ n * ((bytes.getD ((from_pos + n) / 8) 0 >>> ((from_pos + n) % 8)) % 2)

/-- The number a byte sequence denotes with the first byte least significant. -/
def bytes_value : List Nat → Nat
  | [] => 0
  | b :: rest => b + 256 * bytes_value rest

/-- Function `do_bitor`: the cells `0 .. calc_buffer_size - 1` of the result are
`val1[counter] | val2[counter]`. -/
def do_bitor (calc_buffer_size : Nat) (val1 val2 : Buf) : Buf :=
  (List.range calc_buffer_size).map (fun counter => val1.getD counter 0 ||| val2.getD counter 0)

/-- Function `do_bitxor`: cell by cell `val1[counter] ^ val2[counter]`. -/
def do_bitxor (calc_buffer_size : Nat) (val1 val2 : Buf) : Buf :=
  (List.range calc_buffer_size).map (fun counter => val1.getD counter 0 ^^^ val2.getD counter 0)

/-- Function `do_bitand`: cell by cell `val1[counter] & val2[counter]`. -/
def do_bitand (calc_buffer_size : Nat) (val1 val2 : Buf) : Buf :=
  (List.range calc_buffer_size).map (fun counter => val1.getD counter 0 &&& val2.getD counter 0)

/-- Function `do_bitandnot`: cell by cell `val1[counter] & (0xF ^ val2[counter])`. -/
def do_bitandnot (calc_buffer_size : Nat) (val1 val2 : Buf) : Buf :=
  (List.range calc_buffer_size).map
    (fun counter => val1.getD counter 0 &&& (0xF ^^^ val2.getD counter 0))

/-- Function `sc_and`: the result buffer and `carry_flag`, which is cleared. -/
def sc_and (calc_buffer_size : Nat) (value1 value2 : Buf) : Buf × Bool :=
  (do_bitand calc_buffer_size value1 value2, false)

/-- Function `sc_andnot`. -/
def sc_andnot (calc_buffer_size : Nat) (value1 value2 : Buf) : Buf × Bool :=
  (do_bitandnot calc_buffer_size value1 value2, false)

/-- Function `sc_or`. -/
def sc_or (calc_buffer_size : Nat) (value1 value2 : Buf) : Buf × Bool :=
  (do_bitor calc_buffer_size value1 value2, false)

/-- Function `sc_xor`. -/
def sc_xor (calc_buffer_size : Nat) (value1 value2 : Buf) : Buf × Bool :=
  (do_bitxor calc_buffer_size value1 value2, false)

/-- Function `sc_not`. -/
def sc_not (value1 : Buf) : Buf × Bool :=
  (do_bitnot value1, false)

/-- Function `sc_shl`: the shift count is `sc_val_to_long(val2)`; `none` when an assertion
fails (that of `sc_val_to_long`, `shift_cnt >= 0`, or the one on the sign in `do_shl`). -/
def sc_shl (calc_buffer_size : Nat) (calc_buffer val1 val2 : Buf) (bitsize : Nat)
    (sign : Bool) : Option (Buf × Bool) :=
  match sc_val_to_long val2 with
  | none => none
  | some offset =>
    if offset < 0 then none
    else sc_shlI calc_buffer_size calc_buffer val1 offset.toNat bitsize sign

/-- Loop of `sc_get_lowest_set_bit`: `k` cells remain, the next one is `value[counter]`;
the `switch` returns on the digits 1 to 15 and its `default` adds 4 to `low`. -/
def sc_get_lowest_set_bit_loop (value : Buf) : Nat → Nat → Int → Int
  | 0, _, _ => -1
  | k + 1, counter, low =>
    if value.getD counter 0 ∈ [1, 3, 5, 7, 9, 11, 13, 15] then low
    else if value.getD counter 0 ∈ [2, 6, 10, 14] then low + 1
    else if value.getD counter 0 ∈ [4, 12] then low + 2
    else if value.getD counter 0 = 8 then low + 3
    else sc_get_lowest_set_bit_loop value k (counter + 1) (low + 4)

/-- Function `sc_get_lowest_set_bit`. -/
def sc_get_lowest_set_bit (calc_buffer_size : Nat) (value : Buf) : Int :=
  sc_get_lowest_set_bit_loop value calc_buffer_size 0 0

/-- Function `sc_set_bit_at`, in place on `value`. -/
def sc_set_bit_at (value : Buf) (pos : Nat) : Buf :=
  let nibble := pos >>> 2
  value.set nibble (sc_word_store (value.getD nibble 0 ||| (1 <<< (pos &&& 3))))

/-- Function `sc_clear_bit_at`, in place on `value`; `~(1 << (pos & 3))` is the complement
in a 32-bit `int`. -/
def sc_clear_bit_at (value : Buf) (pos : Nat) : Buf :=
  let nibble := pos >>> 2
  value.set nibble
    (sc_word_store (value.getD nibble 0 &&& ((2 ^ 32 - 1) ^^^ (1 <<< (pos &&& 3)))))

/-- The sums `temp_buffer[c_inner + c_outer] + mul + carry` that the inner loop of `do_mul`
computes, in the order of its iterations (same recursion as `do_mul_inner`). -/
def do_mul_inner_sums (val1 : Buf) (v2 c_outer : Nat) : Nat → Nat → Buf → Nat → List Nat
  | 0, _, _, _ => []
  | k + 1, c_inner, temp_buffer, carry =>
    let mul := val1.getD c_inner 0 * v2
    let sum := temp_buffer.getD (c_inner + c_outer) 0 + mul + carry
    sum :: do_mul_inner_sums val1 v2 c_outer k (c_inner + 1)
      (temp_buffer.set (c_inner + c_outer) (SC_RESULT sum)) (SC_CARRY sum)

/-- The sums computed by all the runs of the inner loop of `do_mul`, in the order of the
outer iterations (same recursion as `do_mul_outer`). -/
def do_mul_outer_sums (max_value_size : Nat) (val1 val2 : Buf) : Nat → Nat → Buf → List Nat
  | 0, _, _ => []
  | k + 1, c_outer, temp_buffer =>
    if val2.getD c_outer 0 ≠ 0 then
      let r := do_mul_inner val1 (val2.getD c_outer 0) c_outer max_value_size 0 temp_buffer 0
      do_mul_inner_sums val1 (val2.getD c_outer 0) c_outer max_value_size 0 temp_buffer 0
        ++ do_mul_outer_sums max_value_size val1 val2 k (c_outer + 1)
          (r.1.set (max_value_size + c_outer) (sc_word_store r.2))
    else do_mul_outer_sums max_value_size val1 val2 k (c_outer + 1) temp_buffer

/-- The carries that the outer loop of `do_mul` stores at
`temp_buffer[max_value_size + c_outer]`, before the store (same recursion as
`do_mul_outer`). -/
def do_mul_outer_carries (max_value_size : Nat) (val1 val2 : Buf) :
    Nat → Nat → Buf → List Nat
  | 0, _, _ => []
  | k + 1, c_outer, temp_buffer =>
    if val2.getD c_outer 0 ≠ 0 then
      let r := do_mul_inner val1 (val2.getD c_outer 0) c_outer max_value_size 0 temp_buffer 0
      r.2 :: do_mul_outer_carries max_value_size val1 val2 k (c_outer + 1)
        (r.1.set (max_value_size + c_outer) (sc_word_store r.2))
    else do_mul_outer_carries max_value_size val1 val2 k (c_outer + 1) temp_buffer

/-- The values of `quot[0]` that the `while` loop of `do_divmod` finds before each
increment `quot[0] = SC_RESULT(quot[0] + 1)` (same recursion as `do_divmod_while`). -/
def do_divmod_while_quots (calc_buffer_size : Nat) (minus_divisor : Buf) :
    Nat → Buf → Buf → List Nat
  | 0, _, _ => []
  | fuel + 1, rem, quot =>
    if do_sign calc_buffer_size rem = 1 then
      quot.getD 0 0 :: do_divmod_while_quots calc_buffer_size minus_divisor fuel
        (do_add rem minus_divisor).1 (quot.set 0 (SC_RESULT (quot.getD 0 0 + 1)))
    else []

/-- The values of `quot[0]` before each increment over the whole `for` loop of `do_divmod`
(same recursion as `do_divmod_loop`). -/
def do_divmod_loop_quots (calc_buffer_size fuel : Nat) (dividend divisor minus_divisor : Buf) :
    Nat → Buf → Buf → List Nat
  | 0, _, _ => []
  | c_dividend + 1, rem, quot =>
    let rem := do_push calc_buffer_size (dividend.getD c_dividend 0) rem
    let quot := do_push calc_buffer_size 0 quot
    if sc_comp calc_buffer_size rem divisor ≠ ir_relation.less then
      do_divmod_while_quots calc_buffer_size minus_divisor fuel (do_add rem minus_divisor).1 quot
        ++ (match do_divmod_while calc_buffer_size minus_divisor fuel
              (do_add rem minus_divisor).1 quot with
            | none => []
            | some r =>
              do_divmod_loop_quots calc_buffer_size fuel dividend divisor minus_divisor
                c_dividend (do_add r.1 divisor).1 r.2)
    else
      do_divmod_loop_quots calc_buffer_size fuel dividend divisor minus_divisor c_dividend
        rem quot

/-- The values of `quot[0]` before each increment during a call of `do_divmod`: the long
division runs only in the `default` case of the `switch`, on the absolute values. -/
def do_divmod_quots (calc_buffer_size fuel : Nat) (rDividend divisor : Buf) : List Nat :=
  let quot := CLEAR_BUFFER calc_buffer_size
  let rem := CLEAR_BUFFER calc_buffer_size
  if sc_comp calc_buffer_size divisor quot = ir_relation.equal then []
  else if sc_comp calc_buffer_size rDividend quot = ir_relation.equal then []
  else
    let s1 := decide (do_sign calc_buffer_size rDividend = -1)
    let dividend := if s1 then do_negate rDividend else rDividend
    let neg_val2 := do_negate divisor
    let s2 := decide (do_sign calc_buffer_size divisor = -1)
    let minus_divisor := if s2 then divisor else neg_val2
    let divisor := if s2 then neg_val2 else divisor
    match sc_comp calc_buffer_size dividend divisor with
    | ir_relation.greater =>
      do_divmod_loop_quots calc_buffer_size fuel dividend divisor minus_divisor
        calc_buffer_size rem quot
    | _ => []

/-! ## Basic facts -/

theorem SC_RESULT_eq (x : Nat) : SC_RESULT x = x % 16 := by
  unfold SC_RESULT SC_BITS
  exact Nat.and_pow_two_sub_one_eq_mod x 4

theorem SC_CARRY_eq (x : Nat) : SC_CARRY x = x / 16 := by
  unfold SC_CARRY SC_BITS
  exact Nat.shiftRight_eq_div_pow x 4

theorem U_lt (N : Nat) (x : Buf) (h : Valid N x) : U x < 16 ^ N := by
  obtain ⟨hl, hd⟩ := h
  induction x generalizing N with
  | nil => simp [U]
  | cons d ds ih =>
    subst hl
    have h1 : d < 16 := hd d (by simp)
    have h2 := ih ds.length rfl (fun e he => hd e (by simp [he]))
    simp only [U, List.length_cons, pow_succ]
    omega

theorem do_add_loop_spec (a b : Buf) (c : Nat) (hlen : a.length = b.length)
    (ha : ∀ d ∈ a, d < 16) (hb : ∀ d ∈ b, d < 16) (hc : c ≤ 1) :
    U (do_add_loop a b c).1 + 16 ^ a.length * (do_add_loop a b c).2 = U a + U b + c
    ∧ (do_add_loop a b c).1.length = a.length
    ∧ (∀ d ∈ (do_add_loop a b c).1, d < 16)
    ∧ (do_add_loop a b c).2 ≤ 1 := by
  induction a generalizing b c with
  | nil =>
    cases b with
    | nil => simp [do_add_loop, U, hc]
    | cons _ _ => simp at hlen
  | cons x xs ih =>
    cases b with
    | nil => simp at hlen
    | cons y ys =>
      have hx : x < 16 := ha x (by simp)
      have hy : y < 16 := hb y (by simp)
      have hc2 : SC_CARRY (x + y + c) ≤ 1 := by rw [SC_CARRY_eq]; omega
      obtain ⟨h1, h2, h3, h4⟩ := ih ys (SC_CARRY (x + y + c)) (by simpa using hlen)
        (fun e he => ha e (by simp [he])) (fun e he => hb e (by simp [he])) hc2
      simp only [do_add_loop, U, List.length_cons, pow_succ]
      refine ⟨?_, by simp [h2], ?_, h4⟩
      · simp only [SC_RESULT_eq, SC_CARRY_eq] at h1 ⊢
        have := Nat.div_add_mod (x + y + c) 16
        nlinarith
      · intro d hd
        simp only [List.mem_cons] at hd
        rcases hd with rfl | hd
        · rw [SC_RESULT_eq]; omega
        · exact h3 d hd

theorem xor15 : ∀ d : Nat, d < 16 → d ^^^ 0xF = 15 - d := by decide

theorem do_bitnot_length (x : Buf) : (do_bitnot x).length = x.length := by
  simp [do_bitnot]

theorem do_bitnot_lt (x : Buf) (h : ∀ d ∈ x, d < 16) : ∀ d ∈ do_bitnot x, d < 16 := by
  intro d hd
  simp only [do_bitnot, List.mem_map] at hd
  obtain ⟨e, he, rfl⟩ := hd
  rw [xor15 e (h e he)]; omega

theorem do_bitnot_bitnot (x : Buf) (h : ∀ d ∈ x, d < 16) : do_bitnot (do_bitnot x) = x := by
  induction x with
  | nil => rfl
  | cons d ds ih =>
    have hd : d < 16 := h d (by simp)
    have := ih (fun e he => h e (by simp [he]))
    simp only [do_bitnot, List.map_cons] at this ⊢
    rw [this, xor15 d hd, xor15 (15 - d) (by omega)]
    congr 1; omega

theorem U_do_bitnot (x : Buf) (h : ∀ d ∈ x, d < 16) :
    U (do_bitnot x) + U x + 1 = 16 ^ x.length := by
  induction x with
  | nil => simp [do_bitnot, U]
  | cons d ds ih =>
    have hd : d < 16 := h d (by simp)
    have := ih (fun e he => h e (by simp [he]))
    simp only [do_bitnot, List.map_cons, U, List.length_cons, pow_succ] at this ⊢
    rw [xor15 d hd]; omega

theorem do_negate_zero_cons (t : Buf) : do_negate (0 :: t) = 0 :: do_negate t := by
  simp [do_negate, do_bitnot, do_inc]

theorem do_negate_pos_cons (v : Nat) (t : Buf) (h0 : 0 < v) (h : v < 16) :
    do_negate (v :: t) = (16 - v) :: do_bitnot t := by
  have hx := xor15 v h
  simp only [do_negate, do_bitnot, List.map_cons, do_inc, hx, sc_word_store]
  rw [if_neg (by omega)]
  congr 1; omega

theorem do_negate_valid (N : Nat) (x : Buf) (h : Valid N x) : Valid N (do_negate x) := by
  obtain ⟨hl, hd⟩ := h
  induction x generalizing N with
  | nil => subst hl; exact ⟨rfl, by simp [do_negate, do_bitnot, do_inc]⟩
  | cons d ds ih =>
    subst hl
    have h1 : d < 16 := hd d (by simp)
    have htl : ∀ e ∈ ds, e < 16 := fun e he => hd e (by simp [he])
    rcases Nat.eq_zero_or_pos d with rfl | hpos
    · rw [do_negate_zero_cons]
      obtain ⟨i1, i2⟩ := ih ds.length rfl htl
      refine ⟨by simp [i1], ?_⟩
      intro e he
      simp only [List.mem_cons] at he
      rcases he with rfl | he
      · omega
      · exact i2 e he
    · rw [do_negate_pos_cons d ds hpos h1]
      refine ⟨by simp [do_bitnot_length], ?_⟩
      intro e he
      simp only [List.mem_cons] at he
      rcases he with rfl | he
      · omega
      · exact do_bitnot_lt ds htl e he

theorem U_do_negate (N : Nat) (x : Buf) (h : Valid N x) :
    U (do_negate x) = (16 ^ N - U x) % 16 ^ N := by
  obtain ⟨hl, hd⟩ := h
  induction x generalizing N with
  | nil => subst hl; simp [do_negate, do_bitnot, do_inc, U]
  | cons d ds ih =>
    subst hl
    have h1 : d < 16 := hd d (by simp)
    have htl : ∀ e ∈ ds, e < 16 := fun e he => hd e (by simp [he])
    have hlt := U_lt ds.length ds ⟨rfl, htl⟩
    rcases Nat.eq_zero_or_pos d with rfl | hpos
    · rw [do_negate_zero_cons]
      simp only [U, List.length_cons, zero_add]
      rw [ih ds.length rfl htl, pow_succ, mul_comm (16 ^ ds.length) 16,
        ← Nat.mul_sub, Nat.mul_mod_mul_left]
    · rw [do_negate_pos_cons d ds hpos h1]
      have hb := U_do_bitnot ds htl
      simp only [U, List.length_cons, pow_succ]
      rw [Nat.mod_eq_of_lt (by omega)]
      omega

theorem do_negate_do_negate (x : Buf) (h : ∀ d ∈ x, d < 16) :
    do_negate (do_negate x) = x := by
  induction x with
  | nil => rfl
  | cons d ds ih =>
    have h1 : d < 16 := h d (by simp)
    have htl : ∀ e ∈ ds, e < 16 := fun e he => h e (by simp [he])
    rcases Nat.eq_zero_or_pos d with rfl | hpos
    · rw [do_negate_zero_cons, do_negate_zero_cons, ih htl]
    · rw [do_negate_pos_cons d ds hpos h1, do_negate_pos_cons (16 - d) _ (by omega) (by omega),
        do_bitnot_bitnot ds htl]
      congr 1; omega

/-! ## Addition, subtraction, negation -/

theorem do_add_spec (N : Nat) (a b : Buf) (ha : Valid N a) (hb : Valid N b) :
    Valid N (do_add a b).1 ∧ U (do_add a b).1 = (U a + U b) % 16 ^ N
      ∧ ((do_add a b).2 = true ↔ 16 ^ N ≤ U a + U b) := by
  obtain ⟨h1, h2, h3, h4⟩ := do_add_loop_spec a b 0 (ha.1.trans hb.1.symm) ha.2 hb.2 (by omega)
  have hlt := U_lt N (do_add_loop a b 0).1 ⟨h2.trans ha.1, h3⟩
  rw [ha.1] at h1
  simp only [do_add]
  refine ⟨⟨h2.trans ha.1, h3⟩, ?_, ?_⟩
  · rcases Nat.le_one_iff_eq_zero_or_eq_one.mp h4 with h0 | h0
    · rw [h0] at h1
      rw [Nat.mod_eq_of_lt (by omega)]; omega
    · rw [h0] at h1
      have : U a + U b = U (do_add_loop a b 0).1 + 16 ^ N := by omega
      rw [this, Nat.add_mod_right, Nat.mod_eq_of_lt hlt]
  · rcases Nat.le_one_iff_eq_zero_or_eq_one.mp h4 with h0 | h0
    · rw [h0] at h1 ⊢
      simp; omega
    · rw [h0] at h1 ⊢
      simp; omega

/-- C1: `sc_add` on two buffers of `N` nibbles writes the `N`-nibble buffer of unsigned
value `(U a + U b) mod 16^N` and leaves `carry_flag` set exactly when
`U a + U b >= 16^N`. -/
theorem sc_add_value_and_carry (N : Nat) (a b : Buf) (ha : Valid N a) (hb : Valid N b) :
    Valid N (sc_add a b).1 ∧ U (sc_add a b).1 = (U a + U b) % 16 ^ N
      ∧ ((sc_add a b).2 = true ↔ 16 ^ N ≤ U a + U b) :=
  do_add_spec N a b ha hb

theorem sc_add_value_and_carry_witness :
    Valid 2 (sc_add [15, 9] [3, 8]).1 ∧ U (sc_add [15, 9] [3, 8]).1 = (U [15, 9] + U [3, 8]) % 16 ^ 2
      ∧ ((sc_add [15, 9] [3, 8]).2 = true ↔ 16 ^ 2 ≤ U [15, 9] + U [3, 8]) :=
  sc_add_value_and_carry 2 [15, 9] [3, 8] (by decide) (by decide)

/-- C2: `sc_sub a b` returns the same buffer and the same `carry_flag` as `sc_add a n`
with `n` the buffer written by `sc_neg b`; the unsigned value of the result is
`(U a - U b) mod 16^N`. -/
theorem sc_sub_eq_add_neg (N : Nat) (a b : Buf) (ha : Valid N a) (hb : Valid N b) :
    sc_sub a b = sc_add a (sc_neg b).1
      ∧ (U (sc_sub a b).1 : Int) = ((U a : Int) - (U b : Int)) % (16 : Int) ^ N := by
  refine ⟨rfl, ?_⟩
  have hn := do_negate_valid N b hb
  have hv := (do_add_spec N a (do_negate b) ha hn).2.1
  have hbl := U_lt N b hb
  simp only [sc_sub, do_sub]
  rw [hv, U_do_negate N b hb]
  push_cast
  rw [Int.add_emod_emod, Nat.cast_sub hbl.le]
  push_cast
  have : (U a : Int) + (16 ^ N - (U b : Int)) = ((U a : Int) - U b) + 16 ^ N := by ring
  rw [this, Int.add_emod_self]

theorem sc_sub_eq_add_neg_witness :
    sc_sub [1, 0] [2, 0] = sc_add [1, 0] (sc_neg [2, 0]).1
      ∧ (U (sc_sub [1, 0] [2, 0]).1 : Int) = ((U [1, 0] : Int) - (U [2, 0] : Int)) % (16 : Int) ^ 2 :=
  sc_sub_eq_add_neg 2 [1, 0] [2, 0] (by decide) (by decide)

/-- C3: negating twice gives the buffer back, nibble for nibble, for every buffer of
nibbles (zero and the most negative value included). -/
theorem sc_neg_involution (N : Nat) (x : Buf) (hx : Valid N x) :
    (sc_neg (sc_neg x).1).1 = x := by
  simp only [sc_neg]
  exact do_negate_do_negate x hx.2

theorem sc_neg_involution_witness :
    (sc_neg (sc_neg [0, 0, 0, 8]).1).1 = [0, 0, 0, 8] :=
  sc_neg_involution 4 [0, 0, 0, 8] (by decide)

/-! ## Comparison -/

theorem U_take_succ (x : Buf) (i : Nat) :
    U (x.take (i + 1)) = U (x.take i) + 16 ^ i * x.getD i 0 := by
  induction x generalizing i with
  | nil => simp [U]
  | cons d ds ih =>
    cases i with
    | zero => simp [U]
    | succ i =>
      simp only [List.take_succ_cons, U, List.getD_cons_succ, ih i, pow_succ]
      ring

theorem U_take_lt (x : Buf) (h : ∀ d ∈ x, d < 16) (i : Nat) : U (x.take i) < 16 ^ i := by
  induction x generalizing i with
  | nil => simp [U]
  | cons d ds ih =>
    cases i with
    | zero => simp [U]
    | succ i =>
      have h1 : d < 16 := h d (by simp)
      have := ih (fun e he => h e (by simp [he])) i
      simp only [List.take_succ_cons, U, pow_succ]
      omega

theorem U_append (x y : Buf) : U (x ++ y) = U x + 16 ^ x.length * U y := by
  induction x with
  | nil => simp [U]
  | cons d ds ih =>
    show d + 16 * U (ds ++ y) = d + 16 * U ds + 16 ^ (ds.length + 1) * U y
    rw [ih, pow_succ]; ring

theorem getD_lt (x : Buf) (h : ∀ d ∈ x, d < 16) (i : Nat) : x.getD i 0 < 16 := by
  by_cases hi : i < x.length
  · rw [List.getD_eq_getElem x 0 hi]; exact h _ (List.getElem_mem hi)
  · rw [List.getD_eq_default x 0 (by omega)]; omega

theorem U_top (N : Nat) (x : Buf) (h : Valid (N + 1) x) :
    U x = U (x.take N) + 16 ^ N * x.getD N 0 := by
  have := U_take_succ x N
  have e : x.take (N + 1) = x := by rw [← h.1]; exact List.take_length x
  rwa [e] at this

theorem do_sign_pos_iff (N : Nat) (x : Buf) (hN : 0 < N) (h : Valid N x) :
    do_sign N x = 1 ↔ 2 * U x < 16 ^ N := by
  obtain ⟨n, rfl⟩ : ∃ n, N = n + 1 := ⟨N - 1, by omega⟩
  have ht := U_top n x h
  have hl := U_take_lt x h.2 n
  have hg := getD_lt x h.2 n
  simp only [do_sign, Nat.add_sub_cancel, pow_succ]
  constructor
  · intro hs
    have : x.getD n 0 ≤ 7 := by
      by_contra hc; rw [if_neg hc] at hs; omega
    nlinarith
  · intro hs
    have : x.getD n 0 ≤ 7 := by
      by_contra hc
      have : 8 ≤ x.getD n 0 := by omega
      nlinarith
    rw [if_pos this]

theorem do_sign_cases (N : Nat) (x : Buf) : do_sign N x = 1 ∨ do_sign N x = -1 := by
  unfold do_sign; split <;> simp

theorem do_sign_neg_iff (N : Nat) (x : Buf) (hN : 0 < N) (h : Valid N x) :
    do_sign N x = -1 ↔ 16 ^ N ≤ 2 * U x := by
  have := do_sign_pos_iff N x hN h
  rcases do_sign_cases N x with h1 | h1
  · rw [h1]; constructor
    · intro h2; omega
    · intro h2; have := this.mp h1; omega
  · rw [h1]; constructor
    · intro _
      by_contra hc
      have := this.mpr (by omega)
      omega
    · intro _; rfl

theorem sc_comp_loop_eq (a b : Buf) (ha : ∀ d ∈ a, d < 16) (hb : ∀ d ∈ b, d < 16) (c : Nat) :
    sc_comp_loop a b c = cmpNat (U (a.take (c + 1))) (U (b.take (c + 1))) := by
  induction c with
  | zero =>
    have h1 := U_take_succ a 0
    have h2 := U_take_succ b 0
    simp only [List.take_zero, U, pow_zero, one_mul, zero_add] at h1 h2
    simp only [sc_comp_loop, cmpNat, zero_add, h1, h2]
    split_ifs <;> first | rfl | omega
  | succ c ih =>
    have h1 := U_take_succ a (c + 1)
    have h2 := U_take_succ b (c + 1)
    have l1 := U_take_lt a ha (c + 1)
    have l2 := U_take_lt b hb (c + 1)
    have hp : 0 < 16 ^ (c + 1) := by positivity
    simp only [sc_comp_loop, ih]
    rw [h1, h2]
    simp only [cmpNat]
    by_cases he : a.getD (c + 1) 0 = b.getD (c + 1) 0
    · rw [if_pos he, he]
      split_ifs <;> first | rfl | omega
    · rw [if_neg he]
      rcases Nat.lt_or_gt_of_ne he with hlt | hgt
      · have : 16 ^ (c + 1) * (a.getD (c + 1) 0 + 1) ≤ 16 ^ (c + 1) * b.getD (c + 1) 0 :=
          Nat.mul_le_mul_left _ hlt
        rw [if_neg (by omega), if_pos (by nlinarith)]
      · have : 16 ^ (c + 1) * (b.getD (c + 1) 0 + 1) ≤ 16 ^ (c + 1) * a.getD (c + 1) 0 :=
          Nat.mul_le_mul_left _ hgt
        rw [if_pos hgt, if_neg (by nlinarith), if_neg (by nlinarith)]

theorem sc_comp_same_sign (N : Nat) (a b : Buf) (hN : 0 < N) (ha : Valid N a) (hb : Valid N b)
    (hs : do_sign N a = do_sign N b) : sc_comp N a b = cmpNat (U a) (U b) := by
  unfold sc_comp
  rw [if_neg (by simpa using hs), sc_comp_loop_eq a b ha.2 hb.2]
  have e : N - 1 + 1 = N := by omega
  rw [e]
  conv_lhs => rw [← ha.1, List.take_length]
  conv_lhs => rw [ha.1, ← hb.1, List.take_length]

theorem S_of_pos (N : Nat) (x : Buf) (h : 2 * U x < 16 ^ N) : S N x = (U x : Int) := by
  simp [S, h]

theorem S_of_neg (N : Nat) (x : Buf) (h : 16 ^ N ≤ 2 * U x) :
    S N x = (U x : Int) - ((16 ^ N : Nat) : Int) := by
  simp [S, Nat.not_lt.mpr h]

theorem sc_comp_eq (N : Nat) (a b : Buf) (hN : 0 < N) (ha : Valid N a) (hb : Valid N b) :
    sc_comp N a b = if S N a < S N b then ir_relation.less
      else if S N a = S N b then ir_relation.equal else ir_relation.greater := by
  have la := U_lt N a ha
  have lb := U_lt N b hb
  have pa := do_sign_pos_iff N a hN ha
  have pb := do_sign_pos_iff N b hN hb
  have na := do_sign_neg_iff N a hN ha
  have nb := do_sign_neg_iff N b hN hb
  rcases do_sign_cases N a with sa | sa <;> rcases do_sign_cases N b with sb | sb
  · rw [sc_comp_same_sign N a b hN ha hb (sa.trans sb.symm),
      S_of_pos N a (pa.mp sa), S_of_pos N b (pb.mp sb)]
    simp only [cmpNat]
    split_ifs <;> first | rfl | omega
  · have h1 := pa.mp sa
    have h2 := nb.mp sb
    rw [S_of_pos N a h1, S_of_neg N b h2]
    simp only [sc_comp, sa, sb]
    generalize 16 ^ N = P at *
    have n1 : ¬ ((U a : Int) < (U b : Int) - (P : Int)) := by omega
    have n2 : ¬ ((U a : Int) = (U b : Int) - (P : Int)) := by omega
    simp [n1, n2]
  · have h1 := na.mp sa
    have h2 := pb.mp sb
    rw [S_of_neg N a h1, S_of_pos N b h2]
    simp only [sc_comp, sa, sb]
    generalize 16 ^ N = P at *
    have n1 : (U a : Int) - (P : Int) < (U b : Int) := by omega
    simp [n1]
  · have h1 := na.mp sa
    have h2 := nb.mp sb
    rw [sc_comp_same_sign N a b hN ha hb (sa.trans sb.symm),
      S_of_neg N a h1, S_of_neg N b h2]
    simp only [cmpNat]
    generalize 16 ^ N = P at *
    split_ifs <;> first | rfl | omega

/-- C7: `sc_comp a b` is less, equal or greater exactly when the two's-complement value
of `a` is smaller than, equal to or greater than that of `b`; it is therefore reflexive
on equal buffers, antisymmetric and transitive. -/
theorem sc_comp_total_order (N : Nat) (a b c : Buf) (hN : 0 < N)
    (ha : Valid N a) (hb : Valid N b) (hc : Valid N c) :
    (sc_comp N a b = ir_relation.less ↔ S N a < S N b)
      ∧ (sc_comp N a b = ir_relation.equal ↔ S N a = S N b)
      ∧ (sc_comp N a b = ir_relation.greater ↔ S N b < S N a)
      ∧ sc_comp N a a = ir_relation.equal
      ∧ (sc_comp N a b = ir_relation.less ↔ sc_comp N b a = ir_relation.greater)
      ∧ (sc_comp N a b = ir_relation.less → sc_comp N b c = ir_relation.less →
          sc_comp N a c = ir_relation.less) := by
  rw [sc_comp_eq N a b hN ha hb, sc_comp_eq N a a hN ha ha, sc_comp_eq N b a hN hb ha,
    sc_comp_eq N b c hN hb hc, sc_comp_eq N a c hN ha hc]
  generalize S N a = x
  generalize S N b = y
  generalize S N c = z
  refine ⟨?_, ?_, ?_, ?_, ?_, ?_⟩
  · split_ifs <;> simp <;> omega
  · split_ifs <;> simp <;> omega
  · split_ifs <;> simp <;> omega
  · simp
  · split_ifs <;> simp <;> omega
  · split_ifs <;> simp <;> omega

theorem sc_comp_total_order_witness :
    (sc_comp 2 [1, 15] [3, 0] = ir_relation.less ↔ S 2 [1, 15] < S 2 [3, 0])
      ∧ (sc_comp 2 [1, 15] [3, 0] = ir_relation.equal ↔ S 2 [1, 15] = S 2 [3, 0])
      ∧ (sc_comp 2 [1, 15] [3, 0] = ir_relation.greater ↔ S 2 [3, 0] < S 2 [1, 15])
      ∧ sc_comp 2 [1, 15] [1, 15] = ir_relation.equal
      ∧ (sc_comp 2 [1, 15] [3, 0] = ir_relation.less ↔ sc_comp 2 [3, 0] [1, 15] = ir_relation.greater)
      ∧ (sc_comp 2 [1, 15] [3, 0] = ir_relation.less → sc_comp 2 [3, 0] [5, 7] = ir_relation.less →
          sc_comp 2 [1, 15] [5, 7] = ir_relation.less) :=
  sc_comp_total_order 2 [1, 15] [3, 0] [5, 7] (by decide) (by decide) (by decide) (by decide)

/-! ## Multiplication -/

theorem U_set (x : Buf) (i v : Nat) (hi : i < x.length) :
    U (x.set i v) + 16 ^ i * x.getD i 0 = U x + 16 ^ i * v := by
  induction x generalizing i with
  | nil => simp at hi
  | cons d ds ih =>
    cases i with
    | zero => simp [U]; omega
    | succ i =>
      have := ih i (by simpa using hi)
      simp only [List.set_cons_succ, U, List.getD_cons_succ, pow_succ]
      nlinarith

theorem set_lt (x : Buf) (i v : Nat) (h : ∀ d ∈ x, d < 16) (hv : v < 16) :
    ∀ d ∈ x.set i v, d < 16 := by
  intro d hd
  rcases List.mem_or_eq_of_mem_set hd with h1 | h1
  · exact h d h1
  · omega

theorem getD_set_ne (x : Buf) (i j v : Nat) (h : i ≠ j) :
    (x.set i v).getD j 0 = x.getD j 0 := by
  simp [List.getD_eq_getElem?_getD, List.getElem?_set_ne h]

theorem getD_set_eq (x : Buf) (i v : Nat) (h : i < x.length) :
    (x.set i v).getD i 0 = v := by
  simp [List.getD_eq_getElem?_getD, List.getElem?_set_self h]

theorem U_take_mod (x : Buf) (h : ∀ d ∈ x, d < 16) (i : Nat) :
    U (x.take i) = U x % 16 ^ i := by
  have h1 : U x = U (x.take i) + 16 ^ (x.take i).length * U (x.drop i) := by
    rw [← U_append, List.take_append_drop]
  have h2 := U_take_lt x h i
  by_cases hi : i ≤ x.length
  · rw [List.length_take, Nat.min_eq_left hi] at h1
    rw [h1, Nat.add_mul_mod_self_left, Nat.mod_eq_of_lt h2]
  · rw [List.take_of_length_le (by omega)] at h2 ⊢
    rw [Nat.mod_eq_of_lt h2]

theorem do_mul_inner_spec (val1 : Buf) (v2 j : Nat) (h1 : ∀ d ∈ val1, d < 16) (hv : v2 < 16)
    (k : Nat) : ∀ (i : Nat) (temp : Buf) (carry : Nat), i + k + j ≤ temp.length →
      (∀ d ∈ temp, d < 16) → carry < 16 →
      U (do_mul_inner val1 v2 j k i temp carry).1
          + 16 ^ (i + k + j) * (do_mul_inner val1 v2 j k i temp carry).2
          + 16 ^ j * v2 * U (val1.take i)
        = U temp + 16 ^ (i + j) * carry + 16 ^ j * v2 * U (val1.take (i + k))
      ∧ (do_mul_inner val1 v2 j k i temp carry).1.length = temp.length
      ∧ (∀ d ∈ (do_mul_inner val1 v2 j k i temp carry).1, d < 16)
      ∧ (do_mul_inner val1 v2 j k i temp carry).2 < 16
      ∧ (∀ p, i + k + j ≤ p →
          (do_mul_inner val1 v2 j k i temp carry).1.getD p 0 = temp.getD p 0) := by
  induction k with
  | zero =>
    intro i temp carry _ ht hc
    simp only [do_mul_inner, Nat.add_zero]
    exact ⟨trivial, trivial, ht, hc, fun _ _ => trivial⟩
  | succ k ih =>
    intro i temp carry hlen ht hc
    have ha : val1.getD i 0 < 16 := getD_lt val1 h1 i
    have htd : temp.getD (i + j) 0 < 16 := getD_lt temp ht (i + j)
    have hprod : val1.getD i 0 * v2 ≤ 15 * 15 := Nat.mul_le_mul (by omega) (by omega)
    simp only [do_mul_inner, SC_RESULT_eq, SC_CARRY_eq]
    generalize hsum : temp.getD (i + j) 0 + val1.getD i 0 * v2 + carry = sum
    have hs : sum ≤ 255 := by omega
    have hset := U_set temp (i + j) (sum % 16) (by omega)
    obtain ⟨e1, e2, e3, e4, e5⟩ := ih (i + 1) (temp.set (i + j) (sum % 16)) (sum / 16)
      (by rw [List.length_set]; omega) (set_lt temp _ _ ht (by omega)) (by omega)
    have hidx : i + 1 + k + j = i + (k + 1) + j := by omega
    have hidx2 : i + 1 + k = i + (k + 1) := by omega
    rw [hidx, hidx2] at e1
    rw [hidx] at e5
    refine ⟨?_, by rw [e2, List.length_set], e3, e4, ?_⟩
    · have hts := U_take_succ val1 i
      have hdm := Nat.div_add_mod sum 16
      have hp : 16 ^ (i + 1 + j) = 16 ^ (i + j) * 16 := by
        rw [show i + 1 + j = i + j + 1 by omega, pow_succ]
      have hq : 16 ^ (i + j) = 16 ^ j * 16 ^ i := by rw [← pow_add, Nat.add_comm]
      rw [hp] at e1
      rw [hts] at e1
      have key : 16 ^ (i + j) * sum
          = 16 ^ (i + j) * temp.getD (i + j) 0 + 16 ^ j * v2 * (16 ^ i * val1.getD i 0)
            + 16 ^ (i + j) * carry := by
        rw [← hsum, hq]; ring
      have key2 : 16 ^ (i + j) * sum = 16 ^ (i + j) * 16 * (sum / 16) + 16 ^ (i + j) * (sum % 16) := by
        conv_lhs => rw [← hdm]
        ring
      rw [Nat.mul_add] at e1
      omega
    · intro p hp
      rw [e5 p hp, getD_set_ne]
      omega

theorem sc_word_store_of_lt (x : Nat) (h : x < 256) : sc_word_store x = x := by
  simp [sc_word_store, Nat.mod_eq_of_lt h]

theorem do_mul_outer_spec (M : Nat) (val1 val2 : Buf) (h1 : ∀ d ∈ val1, d < 16)
    (h2 : ∀ d ∈ val2, d < 16) (k : Nat) : ∀ (j : Nat) (temp : Buf),
      M + j + k ≤ temp.length → (∀ d ∈ temp, d < 16) →
      (∀ p, M + j ≤ p → temp.getD p 0 = 0) →
      U temp = U (val1.take M) * U (val2.take j) →
      U (do_mul_outer M val1 val2 k j temp) = U (val1.take M) * U (val2.take (j + k))
      ∧ (do_mul_outer M val1 val2 k j temp).length = temp.length
      ∧ (∀ d ∈ do_mul_outer M val1 val2 k j temp, d < 16) := by
  induction k with
  | zero =>
    intro j temp _ ht _ hU
    exact ⟨hU, rfl, ht⟩
  | succ k ih =>
    intro j temp hlen ht hz hU
    have hts := U_take_succ val2 j
    have hj : j + 1 + k = j + (k + 1) := by omega
    simp only [do_mul_outer]
    by_cases hv : val2.getD j 0 = 0
    · rw [if_neg (by simpa using hv)]
      have := ih (j + 1) temp (by omega) ht (fun p hp => hz p (by omega))
        (by rw [hts, hv, hU]; ring)
      rwa [hj] at this
    · rw [if_pos hv]
      obtain ⟨e1, e2, e3, e4, e5⟩ := do_mul_inner_spec val1 (val2.getD j 0) j h1
        (getD_lt val2 h2 j) M 0 temp 0 (by omega) ht (by omega)
      generalize do_mul_inner val1 (val2.getD j 0) j M 0 temp 0 = r at e1 e2 e3 e4 e5 ⊢
      rw [sc_word_store_of_lt r.2 (by omega)]
      have hset := U_set r.1 (M + j) r.2 (by omega)
      have h0 : r.1.getD (M + j) 0 = 0 := by
        rw [e5 (M + j) (by omega)]; exact hz (M + j) (by omega)
      rw [h0] at hset
      simp only [Nat.zero_add, List.take_zero, U, Nat.mul_zero, Nat.add_zero] at e1 hset
      have := ih (j + 1) (r.1.set (M + j) r.2) (by rw [List.length_set]; omega)
        (set_lt r.1 _ _ e3 e4)
        (fun p hp => by
          rw [getD_set_ne r.1 (M + j) p r.2 (by omega), e5 p (by omega)]
          exact hz p (by omega))
        (by rw [hset, e1, hU, hts]; ring)
      rw [hj, List.length_set, e2] at this
      exact this

theorem CLEAR_BUFFER_valid (N : Nat) : Valid N (CLEAR_BUFFER N) := by
  refine ⟨by simp [CLEAR_BUFFER], ?_⟩
  intro d hd
  simp only [CLEAR_BUFFER, List.mem_replicate] at hd
  omega

theorem CLEAR_BUFFER_getD (N p : Nat) : (CLEAR_BUFFER N).getD p 0 = 0 := by
  by_cases hp : p < N
  · rw [List.getD_eq_getElem _ 0 (by simpa [CLEAR_BUFFER] using hp)]
    simp [CLEAR_BUFFER]
  · rw [List.getD_eq_default _ 0 (by simpa [CLEAR_BUFFER] using hp)]

theorem U_CLEAR_BUFFER (N : Nat) : U (CLEAR_BUFFER N) = 0 := by
  induction N with
  | zero => rfl
  | succ n ih =>
    simp only [CLEAR_BUFFER, List.replicate_succ, U] at ih ⊢
    omega

theorem do_mul_kernel (M : Nat) (v1 v2 : Buf) (h1 : ∀ d ∈ v1, d < 16) (h2 : ∀ d ∈ v2, d < 16) :
    Valid (2 * M) (do_mul_outer M v1 v2 M 0 (CLEAR_BUFFER (2 * M)))
      ∧ U (do_mul_outer M v1 v2 M 0 (CLEAR_BUFFER (2 * M)))
        = (U v1 % 16 ^ M) * (U v2 % 16 ^ M) := by
  have hc := CLEAR_BUFFER_valid (2 * M)
  obtain ⟨e1, e2, e3⟩ := do_mul_outer_spec M v1 v2 h1 h2 M 0 (CLEAR_BUFFER (2 * M))
    (by rw [hc.1]; omega) hc.2 (fun p _ => CLEAR_BUFFER_getD _ p)
    (by simp [U_CLEAR_BUFFER, U])
  rw [Nat.zero_add, U_take_mod v1 h1, U_take_mod v2 h2] at e1
  exact ⟨⟨e2.trans hc.1, e3⟩, e1⟩

theorem do_mul_spec (M : Nat) (a b : Buf) (ha : Valid (2 * M) a) (hb : Valid (2 * M) b) :
    Valid (2 * M) (do_mul (2 * M) M a b)
      ∧ U (do_mul (2 * M) M a b)
        = (if xor (decide (do_sign (2 * M) a = -1)) (decide (do_sign (2 * M) b = -1)) then
            (16 ^ (2 * M)
              - (U (if do_sign (2 * M) a = -1 then do_negate a else a) % 16 ^ M)
                * (U (if do_sign (2 * M) b = -1 then do_negate b else b) % 16 ^ M))
              % 16 ^ (2 * M)
           else (U (if do_sign (2 * M) a = -1 then do_negate a else a) % 16 ^ M)
                * (U (if do_sign (2 * M) b = -1 then do_negate b else b) % 16 ^ M)) := by
  have va : Valid (2 * M) (if do_sign (2 * M) a = -1 then do_negate a else a) := by
    split
    · exact do_negate_valid _ a ha
    · exact ha
  have vb : Valid (2 * M) (if do_sign (2 * M) b = -1 then do_negate b else b) := by
    split
    · exact do_negate_valid _ b hb
    · exact hb
  obtain ⟨k1, k2⟩ := do_mul_kernel M _ _ va.2 vb.2
  simp only [do_mul, decide_eq_true_eq]
  split
  · exact ⟨do_negate_valid _ _ k1, by rw [U_do_negate _ _ k1, k2]⟩
  · exact ⟨k1, k2⟩

/-! ## Division -/

theorem do_push_loop_length (k : Nat) : ∀ (b : Buf), (do_push_loop k b).length = b.length := by
  induction k with
  | zero => intro b; rfl
  | succ k ih => intro b; simp only [do_push_loop]; rw [ih, List.length_set]

theorem do_push_loop_getElem? (k : Nat) : ∀ (b : Buf) (p : Nat), k < b.length →
    (do_push_loop k b)[p]? = if 1 ≤ p ∧ p ≤ k then b[p - 1]? else b[p]? := by
  induction k with
  | zero =>
    intro b p _
    simp only [do_push_loop]
    rw [if_neg (by omega)]
  | succ k ih =>
    intro b p hb
    have hk : k < b.length := by omega
    simp only [do_push_loop]
    rw [ih _ p (by rw [List.length_set]; omega)]
    rw [List.getD_eq_getElem b 0 hk]
    by_cases h1 : 1 ≤ p ∧ p ≤ k
    · rw [if_pos h1, if_pos (by omega), List.getElem?_set_ne (by omega)]
    · rw [if_neg h1]
      by_cases h2 : p = k + 1
      · subst h2
        rw [if_pos (by omega), List.getElem?_set_self hb]
        simp [List.getElem?_eq_getElem hk]
      · rw [if_neg (by omega), List.getElem?_set_ne (by omega)]

theorem do_push_eq (N digit : Nat) (b : Buf) (hN : 0 < N) (hb : b.length = N) :
    do_push N digit b = digit :: b.take (N - 1) := by
  apply List.ext_getElem?
  intro p
  simp only [do_push]
  cases p with
  | zero =>
    rw [List.getElem?_set_self]
    · simp
    · rw [do_push_loop_length]; omega
  | succ p =>
    rw [List.getElem?_set_ne (by omega), do_push_loop_getElem? (N - 1) b (p + 1) (by omega)]
    simp only [List.getElem?_cons_succ, Nat.add_sub_cancel, List.getElem?_take]
    by_cases h : p < N - 1
    · rw [if_pos (by omega), if_pos h]
    · rw [if_neg (by omega), if_neg h]
      exact List.getElem?_eq_none (by omega)

theorem do_push_spec (N digit : Nat) (b : Buf) (hN : 0 < N) (hb : Valid N b) (hd : digit < 16) :
    Valid N (do_push N digit b) ∧ U (do_push N digit b) = digit + 16 * (U b % 16 ^ (N - 1)) := by
  rw [do_push_eq N digit b hN hb.1]
  refine ⟨⟨?_, ?_⟩, ?_⟩
  · rw [List.length_cons, List.length_take, hb.1]; omega
  · intro e he
    simp only [List.mem_cons] at he
    rcases he with rfl | he
    · exact hd
    · exact hb.2 e (List.mem_of_mem_take he)
  · simp only [U]
    rw [U_take_mod b hb.2]

theorem U_div_pow (x : Buf) (h : ∀ d ∈ x, d < 16) (c : Nat) :
    U x / 16 ^ c = x.getD c 0 + 16 * (U x / 16 ^ (c + 1)) := by
  have h1 := U_take_succ x c
  rw [U_take_mod x h, U_take_mod x h] at h1
  have hp : 0 < 16 ^ c := by positivity
  have h2 := Nat.div_add_mod (U x) (16 ^ (c + 1))
  have h3 : U x = 16 ^ c * (x.getD c 0 + 16 * (U x / 16 ^ (c + 1))) + U x % 16 ^ c := by
    rw [pow_succ] at h1 h2 ⊢
    nlinarith
  conv_lhs => rw [h3]
  rw [Nat.mul_add_div hp, Nat.div_eq_of_lt (Nat.mod_lt _ hp)]
  omega

theorem S_do_negate (N : Nat) (x : Buf) (h : Valid N x) (hmin : 2 * U x ≠ 16 ^ N) :
    S N (do_negate x) = - S N x := by
  have hl := U_lt N x h
  have hn := U_do_negate N x h
  by_cases h0 : U x = 0
  · rw [h0] at hn
    simp only [Nat.sub_zero, Nat.mod_self] at hn
    have hp : 0 < 16 ^ N := by positivity
    rw [S_of_pos N _ (by omega), S_of_pos N _ (by omega), hn, h0]
    simp
  · rw [Nat.mod_eq_of_lt (by omega)] at hn
    by_cases hs : 2 * U x < 16 ^ N
    · rw [S_of_pos N x hs, S_of_neg N _ (by omega), hn]
      omega
    · rw [S_of_neg N x (by omega), S_of_pos N _ (by omega), hn]
      omega

theorem SC_RESULT_of_lt (x : Nat) (h : x < 16) : SC_RESULT x = x := by
  rw [SC_RESULT_eq, Nat.mod_eq_of_lt h]

theorem do_divmod_while_spec (N : Nat) (hN : 0 < N) (md : Buf) (dv : Nat) (hmd : Valid N md)
    (hdv1 : 1 ≤ dv) (hdv2 : 2 * dv ≤ 16 ^ N) (hU : U md = 16 ^ N - dv) :
    ∀ (n fuel : Nat) (r q : Buf), n < fuel → Valid N r → Valid N q → 2 * U r < 16 ^ N →
      U r < n * dv → q.getD 0 0 + n ≤ 15 →
      ∃ r' q', do_divmod_while N md fuel r q = some (r', q') ∧ Valid N r' ∧ Valid N q'
        ∧ U r' + dv = 16 ^ N + U r % dv ∧ U q' = U q + U r / dv + 1 := by
  intro n
  induction n with
  | zero =>
    intro fuel r q _ _ _ _ h _
    omega
  | succ n ih =>
    intro fuel r q hf hr hq hpos hlt hq0
    obtain ⟨f, rfl⟩ : ∃ f, fuel = f + 1 := ⟨fuel - 1, by omega⟩
    have hsign : do_sign N r = 1 := (do_sign_pos_iff N r hN hr).mpr hpos
    obtain ⟨a1, a2, _⟩ := do_add_spec N r md hr hmd
    have hq1v : Valid N (q.set 0 (q.getD 0 0 + 1)) :=
      ⟨by rw [List.length_set]; exact hq.1, set_lt q 0 _ hq.2 (by omega)⟩
    have hq1u : U (q.set 0 (q.getD 0 0 + 1)) = U q + 1 := by
      have := U_set q 0 (q.getD 0 0 + 1) (by rw [hq.1]; exact hN)
      omega
    have hq1g : (q.set 0 (q.getD 0 0 + 1)).getD 0 0 = q.getD 0 0 + 1 :=
      getD_set_eq q 0 _ (by rw [hq.1]; exact hN)
    rw [do_divmod_while, if_pos hsign, SC_RESULT_of_lt _ (by omega)]
    rw [hU] at a2
    by_cases hge : dv ≤ U r
    · have e1 : U r + (16 ^ N - dv) = (U r - dv) + 16 ^ N := by omega
      rw [e1, Nat.add_mod_right, Nat.mod_eq_of_lt (by omega)] at a2
      obtain ⟨r', q', w1, w2, w3, w4, w5⟩ := ih f (do_add r md).1 (q.set 0 (q.getD 0 0 + 1))
        (by omega) a1 hq1v (by omega)
        (by rw [a2]; have : (n + 1) * dv = n * dv + dv := by ring
            omega)
        (by omega)
      refine ⟨r', q', w1, w2, w3, ?_, ?_⟩
      · rw [w4, a2]
        have e2 : U r = (U r - dv) + dv := by omega
        conv_rhs => rw [e2, Nat.add_mod_right]
      · rw [w5, hq1u, a2]
        have e2 : U r = (U r - dv) + dv := by omega
        conv_rhs => rw [e2, Nat.add_div_right _ (by omega)]
        omega
    · have hlt2 : U r < dv := by omega
      rw [Nat.mod_eq_of_lt (by omega)] at a2
      obtain ⟨f', rfl⟩ : ∃ f', f = f' + 1 := ⟨f - 1, by omega⟩
      have hneg : do_sign N (do_add r md).1 ≠ 1 := by
        intro hc
        have := (do_sign_pos_iff N _ hN a1).mp hc
        omega
      rw [do_divmod_while, if_neg hneg]
      refine ⟨_, _, rfl, a1, hq1v, ?_, ?_⟩
      · rw [a2, Nat.mod_eq_of_lt hlt2]; omega
      · rw [hq1u, Nat.div_eq_of_lt hlt2]

theorem do_divmod_step (N fuel : Nat) (hN : 0 < N) (hf : 16 ≤ fuel) (D d md : Buf)
    (hD : Valid N D) (hd : Valid N d) (hmd : Valid N md) (hDpos : 2 * U D < 16 ^ N)
    (hd1 : 1 ≤ U d) (hd2 : 2 * U d ≤ 16 ^ N) (hU : U md = 16 ^ N - U d)
    (c : Nat) (rem quot : Buf) (hc : c < N) (hrem : Valid N rem) (hquot : Valid N quot)
    (hr : U rem = (U D / 16 ^ (c + 1)) % U d) (hq : U quot = (U D / 16 ^ (c + 1)) / U d) :
    ∃ rem2 quot2, do_divmod_loop N fuel D d md (c + 1) rem quot
        = do_divmod_loop N fuel D d md c rem2 quot2
      ∧ Valid N rem2 ∧ Valid N quot2
      ∧ U rem2 = (U D / 16 ^ c) % U d ∧ U quot2 = (U D / 16 ^ c) / U d := by
  obtain ⟨n, rfl⟩ : ∃ n, N = n + 1 := ⟨N - 1, by omega⟩
  have hdig : D.getD c 0 < 16 := getD_lt D hD.2 c
  have hT := U_div_pow D hD.2 c
  have hTle : U D / 16 ^ c ≤ U D := Nat.div_le_self _ _
  generalize U D / 16 ^ (c + 1) = T at hr hq hT
  generalize U D / 16 ^ c = T' at hT hTle ⊢
  have hpw : 16 ^ (n + 1) = 16 * 16 ^ n := by rw [pow_succ]; ring
  have hTlt : T < 16 ^ n := by omega
  have hdm := Nat.div_add_mod T (U d)
  have hmodlt : T % U d < U d := Nat.mod_lt _ (by omega)
  have hrle : U rem ≤ T := by rw [hr]; exact Nat.mod_le _ _
  have hqle : U quot ≤ T := by rw [hq]; exact Nat.div_le_self _ _
  obtain ⟨p1, p2⟩ := do_push_spec (n + 1) (D.getD c 0) rem hN hrem hdig
  obtain ⟨p3, p4⟩ := do_push_spec (n + 1) 0 quot hN hquot (by omega)
  rw [Nat.add_sub_cancel, Nat.mod_eq_of_lt (by omega)] at p2 p4
  have p5 : (do_push (n + 1) 0 quot).getD 0 0 = 0 := by
    rw [do_push_eq (n + 1) 0 quot hN hquot.1]; rfl
  have hT'eq : T' = U d * (16 * (T / U d)) + U (do_push (n + 1) (D.getD c 0) rem) := by
    rw [p2, hr, hT]
    have : U d * (16 * (T / U d)) = 16 * (U d * (T / U d)) := by ring
    omega
  have hgoal1 : T' % U d = U (do_push (n + 1) (D.getD c 0) rem) % U d := by
    rw [hT'eq, Nat.mul_add_mod]
  have hgoal2 : T' / U d = 16 * (T / U d) + U (do_push (n + 1) (D.getD c 0) rem) / U d := by
    rw [hT'eq, Nat.mul_add_div (by omega)]
  have hrem'le : U (do_push (n + 1) (D.getD c 0) rem) ≤ T' := by
    rw [p2, hT]; omega
  have hrem'lt : U (do_push (n + 1) (D.getD c 0) rem) < 16 * U d := by
    rw [p2, hr]; omega
  rw [hgoal1, hgoal2]
  have hcmp := sc_comp_eq (n + 1) (do_push (n + 1) (D.getD c 0) rem) d hN p1 hd
  rw [S_of_pos _ _ (by omega : 2 * U (do_push (n + 1) (D.getD c 0) rem) < 16 ^ (n + 1))] at hcmp
  rw [do_divmod_loop]
  generalize do_push (n + 1) (D.getD c 0) rem = rem' at *
  generalize do_push (n + 1) 0 quot = quot' at *
  obtain ⟨a1, a2, _⟩ := do_add_spec (n + 1) rem' md p1 hmd
  rw [hU] at a2
  by_cases hB : 2 * U d = 16 ^ (n + 1)
  · -- the divisor is the most negative value: nothing is ever subtracted for good
    have hne : sc_comp (n + 1) rem' d ≠ ir_relation.less := by
      have n1 : ¬ ((U rem' : Int) < (U d : Int) - ((16 ^ (n + 1) : Nat) : Int)) := by omega
      rw [hcmp, S_of_neg _ d (by omega), if_neg n1]
      split <;> simp
    rw [if_pos hne]
    rw [Nat.mod_eq_of_lt (by omega)] at a2
    have hneg : do_sign (n + 1) (do_add rem' md).1 ≠ 1 := by
      intro hcon
      have := (do_sign_pos_iff (n + 1) _ hN a1).mp hcon
      omega
    obtain ⟨f, rfl⟩ : ∃ f, fuel = f + 1 := ⟨fuel - 1, by omega⟩
    rw [do_divmod_while, if_neg hneg]
    obtain ⟨b1, b2, _⟩ := do_add_spec (n + 1) (do_add rem' md).1 d a1 hd
    refine ⟨_, _, rfl, b1, p3, ?_, ?_⟩
    · rw [b2, a2, Nat.mod_eq_of_lt (by omega : U rem' < U d)]
      have : U rem' + (16 ^ (n + 1) - U d) + U d = U rem' + 16 ^ (n + 1) := by omega
      rw [this, Nat.add_mod_right, Nat.mod_eq_of_lt (by omega)]
    · rw [p4, hq, Nat.div_eq_of_lt (by omega : U rem' < U d)]
      omega
  · rw [S_of_pos _ d (by omega)] at hcmp
    by_cases hlt : U rem' < U d
    · have hless : sc_comp (n + 1) rem' d = ir_relation.less := by
        rw [hcmp, if_pos (by omega)]
      rw [if_neg (by simp [hless])]
      refine ⟨_, _, rfl, p1, p3, ?_, ?_⟩
      · rw [Nat.mod_eq_of_lt hlt]
      · rw [p4, hq, Nat.div_eq_of_lt hlt]; omega
    · have hne : sc_comp (n + 1) rem' d ≠ ir_relation.less := by
        rw [hcmp, if_neg (by omega)]
        split <;> simp
      rw [if_pos hne]
      have e1 : U rem' + (16 ^ (n + 1) - U d) = (U rem' - U d) + 16 ^ (n + 1) := by omega
      rw [e1, Nat.add_mod_right, Nat.mod_eq_of_lt (by omega)] at a2
      obtain ⟨r', q', w1, w2, w3, w4, w5⟩ := do_divmod_while_spec (n + 1) hN md (U d) hmd hd1
        hd2 hU 15 fuel (do_add rem' md).1 quot' (by omega) a1 p3 (by omega) (by omega)
        (by omega)
      rw [w1]
      obtain ⟨b1, b2, _⟩ := do_add_spec (n + 1) r' d w2 hd
      have hmodlt2 : (U rem' - U d) % U d < U d := Nat.mod_lt _ (by omega)
      have e2 : U rem' = (U rem' - U d) + U d := by omega
      refine ⟨_, _, rfl, b1, w3, ?_, ?_⟩
      · show U (do_add r' d).1 = U rem' % U d
        rw [b2, w4, a2, Nat.add_mod_left, Nat.mod_eq_of_lt (by omega)]
        conv_rhs => rw [e2, Nat.add_mod_right]
      · show U q' = 16 * (T / U d) + U rem' / U d
        rw [w5, p4, hq, a2]
        conv_rhs => rw [e2, Nat.add_div_right _ (by omega : 0 < U d)]
        omega

theorem do_divmod_loop_spec (N fuel : Nat) (hN : 0 < N) (hf : 16 ≤ fuel) (D d md : Buf)
    (hD : Valid N D) (hd : Valid N d) (hmd : Valid N md) (hDpos : 2 * U D < 16 ^ N)
    (hd1 : 1 ≤ U d) (hd2 : 2 * U d ≤ 16 ^ N) (hU : U md = 16 ^ N - U d) (c : Nat) :
    ∀ (rem quot : Buf), c ≤ N → Valid N rem → Valid N quot →
      U rem = (U D / 16 ^ c) % U d → U quot = (U D / 16 ^ c) / U d →
      ∃ r q, do_divmod_loop N fuel D d md c rem quot = some (r, q)
        ∧ Valid N r ∧ Valid N q ∧ U r = U D % U d ∧ U q = U D / U d := by
  induction c with
  | zero =>
    intro rem quot _ hrem hquot hr hq
    rw [pow_zero, Nat.div_one] at hr hq
    exact ⟨rem, quot, rfl, hrem, hquot, hr, hq⟩
  | succ c ih =>
    intro rem quot hc hrem hquot hr hq
    obtain ⟨rem2, quot2, e, v1, v2, u1, u2⟩ := do_divmod_step N fuel hN hf D d md hD hd hmd
      hDpos hd1 hd2 hU c rem quot (by omega) hrem hquot hr hq
    rw [e]
    exact ih rem2 quot2 (by omega) v1 v2 u1 u2

theorem do_divmod_switch_spec (N fuel : Nat) (hN : 0 < N) (hf : 16 ≤ fuel) (D d md : Buf)
    (hD : Valid N D) (hd : Valid N d) (hmd : Valid N md) (hDpos : 2 * U D < 16 ^ N)
    (hd1 : 1 ≤ U d) (hd2 : 2 * U d ≤ 16 ^ N) (hU : U md = 16 ^ N - U d)
    (div_sign rem_sign : Bool) :
    ∃ q r, do_divmod_switch N fuel div_sign rem_sign D d md
        = Outcome.done (do_divmod_end N div_sign rem_sign q r)
      ∧ Valid N q ∧ Valid N r ∧ U q = U D / U d ∧ U r = U D % U d := by
  have hz := CLEAR_BUFFER_valid N
  have hz0 := U_CLEAR_BUFFER N
  have hDl := U_lt N D hD
  have hloop : ∃ r q, do_divmod_loop N fuel D d md N (CLEAR_BUFFER N) (CLEAR_BUFFER N)
      = some (r, q) ∧ Valid N r ∧ Valid N q ∧ U r = U D % U d ∧ U q = U D / U d :=
    do_divmod_loop_spec N fuel hN hf D d md hD hd hmd hDpos hd1 hd2 hU N _ _ (le_refl N) hz hz
      (by rw [hz0, Nat.div_eq_of_lt hDl, Nat.zero_mod])
      (by rw [hz0, Nat.div_eq_of_lt hDl, Nat.zero_div])
  obtain ⟨lr, lq, le, lv1, lv2, lu1, lu2⟩ := hloop
  have hcmp := sc_comp_eq N D d hN hD hd
  rw [S_of_pos N D hDpos] at hcmp
  unfold do_divmod_switch
  by_cases hB : 2 * U d = 16 ^ N
  · have n1 : ¬ ((U D : Int) < (U d : Int) - ((16 ^ N : Nat) : Int)) := by omega
    have n2 : ¬ ((U D : Int) = (U d : Int) - ((16 ^ N : Nat) : Int)) := by omega
    rw [S_of_neg N d (by omega), if_neg n1, if_neg n2] at hcmp
    simp only [hcmp, le]
    exact ⟨lq, lr, rfl, lv2, lv1, lu2, lu1⟩
  · rw [S_of_pos N d (by omega)] at hcmp
    by_cases h1 : U D < U d
    · rw [if_pos (by omega)] at hcmp
      simp only [hcmp]
      exact ⟨_, _, rfl, hz, hD, by rw [hz0, Nat.div_eq_of_lt h1], by rw [Nat.mod_eq_of_lt h1]⟩
    · rw [if_neg (by omega)] at hcmp
      by_cases h2 : U D = U d
      · rw [if_pos (by omega)] at hcmp
        simp only [hcmp]
        have hs := U_set (CLEAR_BUFFER N) 0 1 (by rw [hz.1]; exact hN)
        rw [CLEAR_BUFFER_getD, hz0] at hs
        refine ⟨_, _, rfl, ⟨by rw [List.length_set]; exact hz.1, set_lt _ 0 1 hz.2 (by omega)⟩,
          hz, ?_, ?_⟩
        · rw [h2, Nat.div_self (by omega)]; omega
        · rw [h2, Nat.mod_self, hz0]
      · rw [if_neg (by omega)] at hcmp
        simp only [hcmp, le]
        exact ⟨lq, lr, rfl, lv2, lv1, lu2, lu1⟩

theorem do_divmod_end_spec (N : Nat) (q r : Buf) (hq : Valid N q) (hr : Valid N r)
    (hqp : 2 * U q < 16 ^ N) (hrp : 2 * U r < 16 ^ N) (div_sign rem_sign : Bool) :
    Valid N (do_divmod_end N div_sign rem_sign q r).1
      ∧ Valid N (do_divmod_end N div_sign rem_sign q r).2.1
      ∧ S N (do_divmod_end N div_sign rem_sign q r).1
          = (if div_sign then -(U q : Int) else (U q : Int))
      ∧ S N (do_divmod_end N div_sign rem_sign q r).2.1
          = (if rem_sign then -(U r : Int) else (U r : Int)) := by
  simp only [do_divmod_end]
  have sq := S_of_pos N q hqp
  have sr := S_of_pos N r hrp
  refine ⟨?_, ?_, ?_, ?_⟩
  · split
    · exact do_negate_valid N q hq
    · exact hq
  · split
    · exact do_negate_valid N r hr
    · exact hr
  · split
    · rw [S_do_negate N q hq (by omega), sq]
    · exact sq
  · split
    · rw [S_do_negate N r hr (by omega), sr]
    · exact sr

theorem do_divmod_signed (N fuel : Nat) (hN : 0 < N) (hf : 16 ≤ fuel) (D d md : Buf)
    (hD : Valid N D) (hd : Valid N d) (hmd : Valid N md) (hDpos : 2 * U D < 16 ^ N)
    (hd1 : 1 ≤ U d) (hd2 : 2 * U d ≤ 16 ^ N) (hU : U md = 16 ^ N - U d)
    (div_sign rem_sign : Bool) :
    ∃ q r carry, do_divmod_switch N fuel div_sign rem_sign D d md = Outcome.done (q, r, carry)
      ∧ Valid N q ∧ Valid N r
      ∧ S N q = (if div_sign then -((U D / U d : Nat) : Int) else ((U D / U d : Nat) : Int))
      ∧ S N r = (if rem_sign then -((U D % U d : Nat) : Int) else ((U D % U d : Nat) : Int)) := by
  obtain ⟨q, r, e, vq, vr, uq, ur⟩ := do_divmod_switch_spec N fuel hN hf D d md hD hd hmd hDpos
    hd1 hd2 hU div_sign rem_sign
  have hq : U q ≤ U D := by rw [uq]; exact Nat.div_le_self _ _
  have hr : U r ≤ U D := by rw [ur]; exact Nat.mod_le _ _
  obtain ⟨e1, e2, e3, e4⟩ := do_divmod_end_spec N q r vq vr (by omega) (by omega)
    div_sign rem_sign
  rw [uq] at e3
  rw [ur] at e4
  exact ⟨_, _, _, e, e1, e2, e3, e4⟩

theorem sc_comp_zero (N : Nat) (x : Buf) (hN : 0 < N) (hx : Valid N x) :
    sc_comp N x (CLEAR_BUFFER N) = ir_relation.equal ↔ U x = 0 := by
  have hp : 0 < 16 ^ N := by positivity
  have hl := U_lt N x hx
  rw [sc_comp_eq N x _ hN hx (CLEAR_BUFFER_valid N),
    S_of_pos N (CLEAR_BUFFER N) (by rw [U_CLEAR_BUFFER]; omega), U_CLEAR_BUFFER]
  by_cases hs : 2 * U x < 16 ^ N
  · rw [S_of_pos N x hs]
    constructor
    · intro h
      by_contra hne
      rw [if_neg (by omega), if_neg (by omega)] at h
      simp at h
    · intro h
      rw [h]; simp
  · rw [S_of_neg N x (by omega)]
    constructor
    · intro h
      rw [if_pos (by omega)] at h
      simp at h
    · intro h; omega

theorem neg_tmod_eq (a b : Int) : (-a).tmod b = -(a.tmod b) := by
  rw [Int.tmod_def, Int.tmod_def, Int.neg_tdiv]; ring

theorem do_divmod_spec (N fuel : Nat) (cf : Bool) (a b : Buf) (hN : 0 < N) (hf : 16 ≤ fuel)
    (ha : Valid N a) (hb : Valid N b) (hmin : 2 * U a ≠ 16 ^ N) (hb0 : U b ≠ 0) :
    ∃ q r carry, do_divmod N fuel cf a b = Outcome.done (q, r, carry)
      ∧ Valid N q ∧ Valid N r
      ∧ S N q = (S N a).tdiv (S N b) ∧ S N r = (S N a).tmod (S N b) := by
  have hp : 0 < 16 ^ N := by positivity
  have la := U_lt N a ha
  have lb := U_lt N b hb
  have hbz := sc_comp_zero N b hN hb
  have haz := sc_comp_zero N a hN ha
  have hz := CLEAR_BUFFER_valid N
  have hz0 := U_CLEAR_BUFFER N
  have na := do_negate_valid N a ha
  have nb := do_negate_valid N b hb
  have una := U_do_negate N a ha
  have unb := U_do_negate N b hb
  rw [Nat.mod_eq_of_lt (by omega)] at unb
  unfold do_divmod
  simp only []
  rw [if_neg (fun h => hb0 (hbz.mp h))]
  by_cases ha0 : U a = 0
  · rw [if_pos (haz.mpr ha0)]
    refine ⟨_, _, _, rfl, hz, hz, ?_, ?_⟩
    · rw [S_of_pos N _ (by omega), S_of_pos N a (by omega), hz0, ha0]; simp
    · rw [S_of_pos N _ (by omega), S_of_pos N a (by omega), hz0, ha0]; simp
  · rw [if_neg (fun h => ha0 (haz.mp h))]
    rw [Nat.mod_eq_of_lt (by omega)] at una
    rcases do_sign_cases N a with sa | sa <;> rcases do_sign_cases N b with sb | sb
    · have pa := (do_sign_pos_iff N a hN ha).mp sa
      have pb := (do_sign_pos_iff N b hN hb).mp sb
      simp only [sa, sb]
      obtain ⟨q, r, c, e, vq, vr, sq, sr⟩ := do_divmod_signed N fuel hN hf a b (do_negate b)
        ha hb nb pa (by omega) (by omega) unb false false
      refine ⟨q, r, c, e, vq, vr, ?_, ?_⟩
      · rw [sq, S_of_pos N a pa, S_of_pos N b pb]; rfl
      · rw [sr, S_of_pos N a pa, S_of_pos N b pb]; rfl
    · have pa := (do_sign_pos_iff N a hN ha).mp sa
      have pb := (do_sign_neg_iff N b hN hb).mp sb
      simp only [sa, sb]
      obtain ⟨q, r, c, e, vq, vr, sq, sr⟩ := do_divmod_signed N fuel hN hf a (do_negate b) b
        ha nb hb pa (by omega) (by omega) (by omega) true false
      have eb : S N b = -((U (do_negate b) : Nat) : Int) := by
        rw [S_of_neg N b pb, unb]; omega
      refine ⟨q, r, c, e, vq, vr, ?_, ?_⟩
      · rw [sq, S_of_pos N a pa, eb, Int.tdiv_neg]; rfl
      · rw [sr, S_of_pos N a pa, eb, Int.tmod_neg]; rfl
    · have pa := (do_sign_neg_iff N a hN ha).mp sa
      have pb := (do_sign_pos_iff N b hN hb).mp sb
      simp only [sa, sb]
      obtain ⟨q, r, c, e, vq, vr, sq, sr⟩ := do_divmod_signed N fuel hN hf (do_negate a) b
        (do_negate b) na hb nb (by omega) (by omega) (by omega) unb true true
      have ea : S N a = -((U (do_negate a) : Nat) : Int) := by
        rw [S_of_neg N a pa, una]; omega
      refine ⟨q, r, c, e, vq, vr, ?_, ?_⟩
      · rw [sq, ea, S_of_pos N b pb, Int.neg_tdiv]; rfl
      · rw [sr, ea, S_of_pos N b pb, neg_tmod_eq]; rfl
    · have pa := (do_sign_neg_iff N a hN ha).mp sa
      have pb := (do_sign_neg_iff N b hN hb).mp sb
      simp only [sa, sb]
      obtain ⟨q, r, c, e, vq, vr, sq, sr⟩ := do_divmod_signed N fuel hN hf (do_negate a)
        (do_negate b) b na nb hb (by omega) (by omega) (by omega) (by omega) false true
      have ea : S N a = -((U (do_negate a) : Nat) : Int) := by
        rw [S_of_neg N a pa, una]; omega
      have eb : S N b = -((U (do_negate b) : Nat) : Int) := by
        rw [S_of_neg N b pb, unb]; omega
      refine ⟨q, r, c, e, vq, vr, ?_, ?_⟩
      · rw [sq, ea, eb, Int.neg_tdiv_neg]; rfl
      · rw [sr, ea, eb, Int.tmod_neg, neg_tmod_eq]; rfl

/-! ## Signed magnitudes -/

theorem mag_spec (N : Nat) (x : Buf) (hN : 0 < N) (hx : Valid N x) :
    Valid N (if do_sign N x = -1 then do_negate x else x)
      ∧ U (if do_sign N x = -1 then do_negate x else x) = (S N x).natAbs
      ∧ (do_sign N x = -1 ↔ S N x < 0) := by
  have hp : 0 < 16 ^ N := by positivity
  have hl := U_lt N x hx
  rcases do_sign_cases N x with sx | sx
  · have px := (do_sign_pos_iff N x hN hx).mp sx
    rw [sx, S_of_pos N x px]
    simp only [Int.reduceNeg, Int.natAbs_ofNat]
    refine ⟨by simpa using hx, by simp, ?_⟩
    constructor
    · intro h; omega
    · intro h; omega
  · have px := (do_sign_neg_iff N x hN hx).mp sx
    have un := U_do_negate N x hx
    rw [Nat.mod_eq_of_lt (by omega)] at un
    rw [sx, S_of_neg N x px, if_pos rfl, un]
    refine ⟨do_negate_valid N x hx, ?_, ?_⟩
    · omega
    · constructor
      · intro _; omega
      · intro _; rfl

theorem neg_emod_cast (x m : Nat) (h : x ≤ m) :
    (((m - x) % m : Nat) : Int) = (-(x : Int)) % (m : Int) := by
  have : (-(x : Int)) % (m : Int) = (((m - x : Nat) : Int)) % (m : Int) := by
    rw [Nat.cast_sub h]
    have e : ((m : Int) - (x : Int)) = -(x : Int) + (m : Int) := by ring
    rw [e, Int.add_emod_self]
  rw [this]
  exact Int.natCast_mod _ _

theorem do_mul_signed (M : Nat) (a b : Buf) (hM : 0 < M) (ha : Valid (2 * M) a)
    (hb : Valid (2 * M) b) (hma : (S (2 * M) a).natAbs < 16 ^ M)
    (hmb : (S (2 * M) b).natAbs < 16 ^ M) :
    Valid (2 * M) (do_mul (2 * M) M a b)
      ∧ U (do_mul (2 * M) M a b)
        = (if xor (decide (S (2 * M) a < 0)) (decide (S (2 * M) b < 0)) then
            (16 ^ (2 * M) - (S (2 * M) a).natAbs * (S (2 * M) b).natAbs) % 16 ^ (2 * M)
           else (S (2 * M) a).natAbs * (S (2 * M) b).natAbs)
      ∧ (U (do_mul (2 * M) M a b) : Int)
        = (S (2 * M) a * S (2 * M) b) % (16 : Int) ^ (2 * M) := by
  obtain ⟨v, u⟩ := do_mul_spec M a b ha hb
  obtain ⟨_, ma, sa⟩ := mag_spec (2 * M) a (by omega) ha
  obtain ⟨_, mb, sb⟩ := mag_spec (2 * M) b (by omega) hb
  have da : decide (do_sign (2 * M) a = -1) = decide (S (2 * M) a < 0) := by
    simp only [decide_eq_decide]; exact sa
  have db : decide (do_sign (2 * M) b = -1) = decide (S (2 * M) b < 0) := by
    simp only [decide_eq_decide]; exact sb
  rw [ma, mb, Nat.mod_eq_of_lt hma, Nat.mod_eq_of_lt hmb] at u
  simp only [da, db] at u
  have hprod : (S (2 * M) a).natAbs * (S (2 * M) b).natAbs < 16 ^ (2 * M) := by
    have e : (16 : Nat) ^ (2 * M) = 16 ^ M * 16 ^ M := by rw [two_mul, pow_add]
    rw [e]
    exact Nat.mul_lt_mul'' hma hmb
  refine ⟨v, u, ?_⟩
  rw [u]
  generalize S (2 * M) a = x at *
  generalize S (2 * M) b = y at *
  have cast16 : ((16 : Int) ^ (2 * M)) = ((16 ^ (2 * M) : Nat) : Int) := by push_cast; rfl
  rw [cast16]
  by_cases hx : x < 0 <;> by_cases hy : y < 0
  · have ex : x = -(x.natAbs : Int) := by omega
    have ey : y = -(y.natAbs : Int) := by omega
    simp only [hx, hy, decide_True, Bool.xor_self, Bool.false_eq_true, if_false]
    conv_rhs => rw [ex, ey, neg_mul_neg, ← Nat.cast_mul]
    rw [Int.emod_eq_of_lt (by positivity) (by exact_mod_cast hprod)]
  · have ex : x = -(x.natAbs : Int) := by omega
    have ey : y = (y.natAbs : Int) := by omega
    simp only [hx, hy, decide_True, decide_False, Bool.xor_false, if_true]
    conv_rhs => rw [ex, ey, neg_mul, ← Nat.cast_mul]
    exact neg_emod_cast _ _ hprod.le
  · have ex : x = (x.natAbs : Int) := by omega
    have ey : y = -(y.natAbs : Int) := by omega
    simp only [hx, hy, decide_True, decide_False, Bool.xor_true, Bool.not_false, if_true]
    conv_rhs => rw [ex, ey, mul_neg, ← Nat.cast_mul]
    exact neg_emod_cast _ _ hprod.le
  · have ex : x = (x.natAbs : Int) := by omega
    have ey : y = (y.natAbs : Int) := by omega
    simp only [hx, hy, decide_False, Bool.xor_self, Bool.false_eq_true, if_false]
    conv_rhs => rw [ex, ey, ← Nat.cast_mul]
    rw [Int.emod_eq_of_lt (by positivity) (by exact_mod_cast hprod)]

/-! ## Multiplication and division: the contracts -/

set_option maxRecDepth 1000000 in
/-- C4: for operands whose two's-complement values have magnitude below `16^M`
(`M = max_value_size`, buffers of `N = 2M` nibbles), `sc_mul` writes the buffer whose
unsigned value is `S a * S b` modulo `16^N`: the product of the magnitudes, negated
exactly when one operand is negative and the other is not.  For instance the product of
the buffers of -3 and -7 is the buffer of 21. -/
theorem sc_mul_value (M : Nat) (a b : Buf) (hM : 0 < M) (ha : Valid (2 * M) a)
    (hb : Valid (2 * M) b) (hma : (S (2 * M) a).natAbs < 16 ^ M)
    (hmb : (S (2 * M) b).natAbs < 16 ^ M) :
    (Valid (2 * M) (sc_mul (2 * M) M a b).1
      ∧ (U (sc_mul (2 * M) M a b).1 : Int)
          = (S (2 * M) a * S (2 * M) b) % (16 : Int) ^ (2 * M)
      ∧ U (sc_mul (2 * M) M a b).1
          = (if xor (decide (S (2 * M) a < 0)) (decide (S (2 * M) b < 0)) then
              (16 ^ (2 * M) - (S (2 * M) a).natAbs * (S (2 * M) b).natAbs) % 16 ^ (2 * M)
             else (S (2 * M) a).natAbs * (S (2 * M) b).natAbs))
    ∧ sc_mul 32 16 (sc_val_from_long 32 (-3)) (sc_val_from_long 32 (-7))
        = (sc_val_from_long 32 21, false) := by
  obtain ⟨v, u, i⟩ := do_mul_signed M a b hM ha hb hma hmb
  exact ⟨⟨v, i, u⟩, by decide⟩

theorem sc_mul_value_witness :
    (Valid (2 * 1) (sc_mul (2 * 1) 1 [13, 15] [7, 0]).1
      ∧ (U (sc_mul (2 * 1) 1 [13, 15] [7, 0]).1 : Int)
          = (S (2 * 1) [13, 15] * S (2 * 1) [7, 0]) % (16 : Int) ^ (2 * 1)
      ∧ U (sc_mul (2 * 1) 1 [13, 15] [7, 0]).1
          = (if xor (decide (S (2 * 1) [13, 15] < 0)) (decide (S (2 * 1) [7, 0] < 0)) then
              (16 ^ (2 * 1) - (S (2 * 1) [13, 15]).natAbs * (S (2 * 1) [7, 0]).natAbs)
                % 16 ^ (2 * 1)
             else (S (2 * 1) [13, 15]).natAbs * (S (2 * 1) [7, 0]).natAbs))
    ∧ sc_mul 32 16 (sc_val_from_long 32 (-3)) (sc_val_from_long 32 (-7))
        = (sc_val_from_long 32 21, false) :=
  sc_mul_value 1 [13, 15] [7, 0] (by decide) (by decide) (by decide) (by decide) (by decide)

set_option maxRecDepth 1000000 in
/-- C5: for a dividend other than the most negative buffer value (`2 * U a ≠ 16^N`) and
a non-zero divisor, `sc_divmod` returns (with at least 16 tests of the inner loop
allowed) a quotient `q` with `S q = S a / S b` rounded toward zero and a remainder `r`
with `S r = S a - S q * S b`, which is zero or has the sign of the dividend.  For instance
-17 divided by 5 gives -3 and -2 with `carry_flag` set. -/
theorem sc_divmod_truncating (N fuel : Nat) (a b : Buf) (hN : 0 < N) (hf : 16 ≤ fuel)
    (ha : Valid N a) (hb : Valid N b) (hmin : 2 * U a ≠ 16 ^ N) (hb0 : U b ≠ 0) :
    (∃ q r carry, sc_divmod N fuel a b = Outcome.done (q, r, carry)
      ∧ Valid N q ∧ Valid N r
      ∧ S N q = (S N a).tdiv (S N b)
      ∧ S N r = S N a - S N q * S N b
      ∧ (S N r = 0 ∨ (S N r < 0 ↔ S N a < 0)))
    ∧ sc_divmod 32 16 (sc_val_from_long 32 (-17)) (sc_val_from_long 32 5)
        = Outcome.done (sc_val_from_long 32 (-3), sc_val_from_long 32 (-2), true) := by
  refine ⟨?_, by decide⟩
  obtain ⟨q, r, c, e, vq, vr, sq, sr⟩ := do_divmod_spec N fuel false a b hN hf ha hb hmin hb0
  refine ⟨q, r, c, e, vq, vr, sq, ?_, ?_⟩
  · rw [sr, sq, Int.tmod_def]; ring
  · rw [sr]
    by_cases hs : 0 ≤ S N a
    · have := Int.tmod_nonneg (S N b) hs
      right
      constructor
      · intro h; omega
      · intro h; omega
    · have h1 : 0 ≤ -(S N a) := by omega
      have h2 := Int.tmod_nonneg (S N b) h1
      rw [neg_tmod_eq] at h2
      by_cases h3 : (S N a).tmod (S N b) = 0
      · left; exact h3
      · right
        constructor
        · intro _; omega
        · intro _; omega

theorem sc_divmod_truncating_witness :
    (∃ q r carry, sc_divmod 2 16 [15, 14] [5, 0] = Outcome.done (q, r, carry)
      ∧ Valid 2 q ∧ Valid 2 r
      ∧ S 2 q = (S 2 [15, 14]).tdiv (S 2 [5, 0])
      ∧ S 2 r = S 2 [15, 14] - S 2 q * S 2 [5, 0]
      ∧ (S 2 r = 0 ∨ (S 2 r < 0 ↔ S 2 [15, 14] < 0)))
    ∧ sc_divmod 32 16 (sc_val_from_long 32 (-17)) (sc_val_from_long 32 5)
        = Outcome.done (sc_val_from_long 32 (-3), sc_val_from_long 32 (-2), true) :=
  sc_divmod_truncating 2 16 [15, 14] [5, 0] (by decide) (by decide) (by decide) (by decide)
    (by decide) (by decide)

set_option maxRecDepth 1000000 in
/-- C6: with `calc_buffer_size = 32` (precision 64), dividing `2^32` by `2^33` leaves the
remainder `2^32`, a non-zero buffer, and yet `sc_div` returns false: `do_divmod` tests
the remainder with `sc_is_zero(rem, calc_buffer_size)`, which looks at the lowest 32 bits
only. -/
theorem sc_div_carry_misses_remainder :
    sc_div 32 16 (sc_val_from_long 32 (2 ^ 32)) (sc_val_from_long 32 (2 ^ 33))
        = Outcome.done (CLEAR_BUFFER 32, false)
      ∧ sc_mod 32 16 (sc_val_from_long 32 (2 ^ 32)) (sc_val_from_long 32 (2 ^ 33))
        = Outcome.done (sc_val_from_long 32 (2 ^ 32))
      ∧ (sc_val_from_long 32 (2 ^ 32)).getD 8 0 = 1
      ∧ U (sc_val_from_long 32 (2 ^ 32)) = 2 ^ 32
      ∧ U (sc_val_from_long 32 (2 ^ 33)) = 2 ^ 33 := by
  decide

/-! ## Host integers -/

theorem land_15 (x : Nat) : x &&& 0xF = x % 16 := Nat.and_pow_two_sub_one_eq_mod x 4

theorem shr_4 (x : Nat) : x >>> 4 = x / 16 := Nat.shiftRight_eq_div_pow x 4

theorem shl_4 (x : Nat) : x <<< 4 = x * 16 := by
  rw [Nat.shiftLeft_eq]

theorem sc_val_from_long_loop_spec (N : Nat) (k : Nat) : ∀ (pos value : Nat) (buffer : Buf),
    pos + k = N → Valid N buffer → (∀ p, pos ≤ p → buffer.getD p 0 = 0) →
    Valid N (sc_val_from_long_loop k pos value buffer)
      ∧ U (sc_val_from_long_loop k pos value buffer)
        = U buffer + 16 ^ pos * (value % 16 ^ k) := by
  induction k with
  | zero =>
    intro pos value buffer _ hv _
    simp [sc_val_from_long_loop, hv, Nat.mod_one]
  | succ k ih =>
    intro pos value buffer hpos hv hz
    rw [sc_val_from_long_loop]
    by_cases h0 : value = 0
    · rw [if_neg (by simpa using h0), h0]
      simp [hv]
    · rw [if_pos h0, land_15, shr_4]
      have hs := U_set buffer pos (value % 16) (by rw [hv.1]; omega)
      rw [hz pos (le_refl _)] at hs
      obtain ⟨i1, i2⟩ := ih (pos + 1) (value / 16) (buffer.set pos (value % 16)) (by omega)
        ⟨by rw [List.length_set]; exact hv.1, set_lt buffer _ _ hv.2 (Nat.mod_lt _ (by omega))⟩
        (fun p hp => by rw [getD_set_ne buffer pos p _ (by omega)]; exact hz p (by omega))
      refine ⟨i1, ?_⟩
      rw [i2, pow_succ' 16 k, Nat.mod_mul, pow_succ]
      simp only [Nat.mul_zero, Nat.add_zero] at hs
      rw [hs]; ring

theorem do_inc_spec (N : Nat) (x : Buf) (h : Valid N x) :
    Valid N (do_inc x) ∧ U (do_inc x) = (U x + 1) % 16 ^ N := by
  obtain ⟨hl, hd⟩ := h
  induction x generalizing N with
  | nil => subst hl; simp [do_inc, U, Valid]
  | cons d ds ih =>
    subst hl
    have h1 : d < 16 := hd d (by simp)
    have htl : ∀ e ∈ ds, e < 16 := fun e he => hd e (by simp [he])
    have hlt := U_lt ds.length ds ⟨rfl, htl⟩
    obtain ⟨⟨i1, i2⟩, i3⟩ := ih ds.length rfl htl
    simp only [do_inc]
    by_cases h15 : d = 15
    · rw [if_pos h15]
      refine ⟨⟨by simp [i1], ?_⟩, ?_⟩
      · intro e he
        simp only [List.mem_cons] at he
        rcases he with rfl | he
        · omega
        · exact i2 e he
      · simp only [U, List.length_cons, pow_succ, i3, h15]
        have e : 15 + 16 * U ds + 1 = 16 * (U ds + 1) := by ring
        rw [e, mul_comm (16 ^ ds.length) 16, Nat.mul_mod_mul_left]
        omega
    · rw [if_neg h15, sc_word_store_of_lt _ (by omega)]
      refine ⟨⟨by simp, ?_⟩, ?_⟩
      · intro e he
        simp only [List.mem_cons] at he
        rcases he with rfl | he
        · omega
        · exact htl e he
      · simp only [U, List.length_cons, pow_succ]
        rw [Nat.mod_eq_of_lt (by omega)]
        omega

theorem sc_val_from_long_nonneg (N : Nat) (v : Nat) :
    Valid N (sc_val_from_long_loop N 0 v (CLEAR_BUFFER N))
      ∧ U (sc_val_from_long_loop N 0 v (CLEAR_BUFFER N)) = v % 16 ^ N := by
  obtain ⟨h1, h2⟩ := sc_val_from_long_loop_spec N N 0 v (CLEAR_BUFFER N) (by omega)
    (CLEAR_BUFFER_valid N) (fun p _ => CLEAR_BUFFER_getD N p)
  refine ⟨h1, ?_⟩
  rw [h2, U_CLEAR_BUFFER]; simp

theorem pow_16_le (N : Nat) (hN : 16 ≤ N) : 2 ^ 64 ≤ 16 ^ N := by
  have h : (16 : Nat) ^ 16 ≤ 16 ^ N := Nat.pow_le_pow_right (by omega) hN
  have e : (16 : Nat) ^ 16 = 2 ^ 64 := by norm_num
  omega

theorem sc_val_from_long_spec (N : Nat) (x : Int) (hN : 16 ≤ N) (hlo : LONG_MIN ≤ x)
    (hhi : x < 2 ^ 63) :
    Valid N (sc_val_from_long N x)
      ∧ (U (sc_val_from_long N x) : Int) = (if x < 0 then ((16 ^ N : Nat) : Int) + x else x) := by
  have hp := pow_16_le N hN
  unfold LONG_MIN at hlo
  simp only [sc_val_from_long]
  by_cases hneg : x < 0
  · simp only [hneg, decide_True, if_true]
    by_cases hmin : x = LONG_MIN
    · simp only [hmin, decide_True, if_true]
      have e : (-(LONG_MIN + 1)).toNat = 2 ^ 63 - 1 := by decide
      rw [e]
      obtain ⟨v1, u1⟩ := sc_val_from_long_nonneg N (2 ^ 63 - 1)
      obtain ⟨v2, u2⟩ := do_inc_spec N _ v1
      have v3 := do_negate_valid N _ v2
      have u3 := U_do_negate N _ v2
      rw [Nat.mod_eq_of_lt (by omega)] at u1
      rw [u1, Nat.mod_eq_of_lt (by omega)] at u2
      rw [u2, Nat.mod_eq_of_lt (by omega)] at u3
      refine ⟨v3, ?_⟩
      rw [u3]
      unfold LONG_MIN
      omega
    · have hmin' : ¬ x = -(2 ^ 63) := by unfold LONG_MIN at hmin; exact hmin
      simp only [hmin, decide_False, Bool.false_eq_true, if_false]
      obtain ⟨v1, u1⟩ := sc_val_from_long_nonneg N (-x).toNat
      have v3 := do_negate_valid N _ v1
      have u3 := U_do_negate N _ v1
      have hx : (-x).toNat < 2 ^ 63 := by omega
      have hx0 : 0 < (-x).toNat := by omega
      rw [Nat.mod_eq_of_lt (by omega)] at u1
      rw [u1, Nat.mod_eq_of_lt (by omega)] at u3
      refine ⟨v3, ?_⟩
      rw [u3]
      omega
  · simp only [hneg, decide_False, Bool.false_eq_true, if_false]
    obtain ⟨v1, u1⟩ := sc_val_from_long_nonneg N x.toNat
    have hx : x.toNat < 2 ^ 63 := by omega
    rw [Nat.mod_eq_of_lt (by omega)] at u1
    refine ⟨v1, ?_⟩
    rw [u1]
    omega

theorem sc_val_to_long_loop_spec (val : Buf) (i : Nat) : ∀ (l : Nat),
    l * 16 ^ i + U (val.take i) < 2 ^ 64 →
    sc_val_to_long_loop val i l = some (l * 16 ^ i + U (val.take i)) := by
  induction i with
  | zero =>
    intro l _
    simp [sc_val_to_long_loop, U]
  | succ i ih =>
    intro l hl
    have hts := U_take_succ val i
    have hp : 0 < 16 ^ i := by positivity
    have hpow : 16 ^ (i + 1) = 16 * 16 ^ i := by rw [pow_succ]; ring
    rw [hts, hpow] at hl
    have hl60 : l ≤ ULONG_MAX >>> 4 := by
      have : ULONG_MAX >>> 4 = 2 ^ 60 - 1 := by decide
      rw [this]
      by_contra hc
      have h1 : 2 ^ 60 ≤ l := by omega
      have h2 : 2 ^ 60 * (16 * 16 ^ i) ≤ l * (16 * 16 ^ i) := Nat.mul_le_mul_right _ h1
      have h3 : 2 ^ 60 * (16 * 1) ≤ 2 ^ 60 * (16 * 16 ^ i) :=
        Nat.mul_le_mul_left _ (Nat.mul_le_mul_left _ hp)
      omega
    have hstep : l * 16 + val.getD i 0 < 2 ^ 64 := by
      by_contra hc
      have h1 : 2 ^ 64 ≤ l * 16 + val.getD i 0 := by omega
      have h2 : 2 ^ 64 * 16 ^ i ≤ (l * 16 + val.getD i 0) * 16 ^ i := Nat.mul_le_mul_right _ h1
      have h3 : 2 ^ 64 * 1 ≤ 2 ^ 64 * 16 ^ i := Nat.mul_le_mul_left _ hp
      have h4 : (l * 16 + val.getD i 0) * 16 ^ i
          = l * (16 * 16 ^ i) + 16 ^ i * val.getD i 0 := by ring
      omega
    rw [sc_val_to_long_loop, if_pos hl60, shl_4, Nat.mod_eq_of_lt hstep]
    rw [ih _ (by
      have h4 : (l * 16 + val.getD i 0) * 16 ^ i
          = l * (16 * 16 ^ i) + 16 ^ i * val.getD i 0 := by ring
      omega)]
    rw [hts, hpow]
    congr 1
    ring

/-- C8: with a 64-bit `long` and at least 16 nibbles per buffer, `sc_val_to_long` applied
to the buffer written by `sc_val_from_long x` returns `x` for every `long` `x`, in
particular for `LONG_MIN`. -/
theorem long_round_trip (N : Nat) (x : Int) (hN : 16 ≤ N) (hlo : LONG_MIN ≤ x)
    (hhi : x < 2 ^ 63) :
    sc_val_to_long (sc_val_from_long N x) = some x
      ∧ sc_val_to_long (sc_val_from_long N LONG_MIN) = some LONG_MIN := by
  have key : ∀ y : Int, LONG_MIN ≤ y → y < 2 ^ 63 →
      sc_val_to_long (sc_val_from_long N y) = some y := by
    intro y ylo yhi
    obtain ⟨v, u⟩ := sc_val_from_long_spec N y hN ylo yhi
    have ht := U_take_mod (sc_val_from_long N y) v.2 16
    have hlt : U ((sc_val_from_long N y).take 16) < 2 ^ 64 := by
      rw [ht]
      exact Nat.mod_lt _ (by norm_num)
    have hloop : sc_val_to_long_loop (sc_val_from_long N y) 16 0
        = some (U ((sc_val_from_long N y).take 16)) := by
      have := sc_val_to_long_loop_spec (sc_val_from_long N y) 16 0 (by omega)
      simpa using this
    have h16 : 8 * 8 / SC_BITS = 16 := by decide
    unfold sc_val_to_long
    simp only [h16]
    rw [hloop, Option.map_some']
    congr 1
    unfold LONG_MIN at ylo
    have hsplit : (16 : Nat) ^ N = 16 ^ 16 * 16 ^ (N - 16) := by
      rw [← pow_add]; congr 1; omega
    have hq : 0 < 16 ^ (N - 16) := by positivity
    generalize U (sc_val_from_long N y) = V at *
    generalize 16 ^ (N - 16) = Q at *
    rw [ht]
    unfold long_of_ulong
    by_cases hneg : y < 0
    · rw [if_pos hneg, hsplit] at u
      have hV : V = 16 ^ 16 * (Q - 1) + (2 ^ 64 - (-y).toNat) := by
        have : (16 : Nat) ^ 16 * Q = 16 ^ 16 * (Q - 1) + 16 ^ 16 := by
          obtain ⟨q, rfl⟩ : ∃ q, Q = q + 1 := ⟨Q - 1, by omega⟩
          simp; ring
        push_cast at u
        omega
      rw [hV, Nat.mul_add_mod, Nat.mod_eq_of_lt (by omega)]
      rw [if_neg (by omega)]
      omega
    · rw [if_neg hneg] at u
      have hV : V = y.toNat := by omega
      rw [hV, Nat.mod_eq_of_lt (by omega)]
      rw [if_pos (by omega)]
      omega
  exact ⟨key x hlo hhi, key LONG_MIN (le_refl _) (by decide)⟩

theorem long_round_trip_witness :
    sc_val_to_long (sc_val_from_long 32 (-17)) = some (-17)
      ∧ sc_val_to_long (sc_val_from_long 32 LONG_MIN) = some LONG_MIN :=
  long_round_trip 32 (-17) (by decide) (by decide) (by decide)

/-! ## Parsing -/

theorem digit_of_char_eq (c : Char) : digit_of_char c = hex_digit_value c := by
  by_cases h : c.toNat ≤ 102
  · have hc : c = Char.ofNat c.toNat := (Char.ofNat_toNat c).symm
    generalize c.toNat = n at h hc
    subst hc
    interval_cases n <;> rfl
  · have e : digit_of_char c = none := by
      simp only [digit_of_char]
      have h0 : '0'.toNat = 48 := rfl
      have h9 : '9'.toNat = 57 := rfl
      have hA : 'A'.toNat = 65 := rfl
      have hF : 'F'.toNat = 70 := rfl
      have ha : 'a'.toNat = 97 := rfl
      have hf : 'f'.toNat = 102 := rfl
      rw [h0, h9, hA, hF, ha, hf, if_neg (by omega), if_neg (by omega), if_neg (by omega)]
    rw [e]
    symm
    unfold hex_digit_value
    rw [List.lookup_eq_none_iff]
    intro p hp
    have hp1 : p.1.toNat ≤ 102 := by
      revert p
      decide
    simp only [bne_iff_ne, ne_eq]
    intro heq
    rw [← heq] at hp1
    exact h hp1

theorem sc_val_from_str_loop_accepts (N M base : Nat) (sc_base : Buf) (str : List Char) :
    ∀ (val buffer : Buf),
      (sc_val_from_str_loop N M base sc_base str val buffer).1 = true ↔ accepted base str := by
  induction str with
  | nil =>
    intro val buffer
    simp [sc_val_from_str_loop, accepted]
  | cons c cs ih =>
    intro val buffer
    rw [sc_val_from_str_loop, digit_of_char_eq]
    have hacc : accepted base (c :: cs)
        ↔ (∃ v, hex_digit_value c = some v ∧ v < base) ∧ accepted base cs := by
      simp [accepted]
    rw [hacc]
    cases hv : hex_digit_value c with
    | none => simp
    | some v =>
      by_cases hb : v ≥ base
      · simp only [hb, if_true]
        constructor
        · intro h; simp at h
        · rintro ⟨⟨w, hw, hlt⟩, _⟩
          cases hw
          omega
      · simp only [hb, if_false]
        rw [ih]
        constructor
        · intro h
          exact ⟨⟨v, rfl, by omega⟩, h⟩
        · intro h
          exact h.2

/-- C9: for a base in 2..16, a sign in {-1, +1} and a non-empty string,
`sc_val_from_str` returns true exactly when every character is one of `0-9`, `A-F`,
`a-f` with a digit value smaller than the base, and false otherwise. -/
theorem sc_val_from_str_accepts (N M : Nat) (sign : Int) (base : Nat) (str : List Char)
    (_hbase : 2 ≤ base ∧ base ≤ 16) (_hsign : sign = 1 ∨ sign = -1) (_hlen : str ≠ []) :
    ((sc_val_from_str N M sign base str).1 = true ↔ accepted base str)
      ∧ ((sc_val_from_str N M sign base str).1 = false ↔ ¬ accepted base str) := by
  have h := sc_val_from_str_loop_accepts N M base (sc_val_from_ulong N base) str
    (CLEAR_BUFFER N) (CLEAR_BUFFER N)
  have key : (sc_val_from_str N M sign base str).1
      = (sc_val_from_str_loop N M base (sc_val_from_ulong N base) str
          (CLEAR_BUFFER N) (CLEAR_BUFFER N)).1 := by
    simp only [sc_val_from_str]
    split <;> simp_all
  rw [key]
  refine ⟨h, ?_⟩
  rw [← h]
  simp

theorem sc_val_from_str_accepts_witness :
    ((sc_val_from_str 32 16 (-1) 10 ['1', '2', 'a']).1 = true ↔ accepted 10 ['1', '2', 'a'])
      ∧ ((sc_val_from_str 32 16 (-1) 10 ['1', '2', 'a']).1 = false
          ↔ ¬ accepted 10 ['1', '2', 'a']) :=
  sc_val_from_str_accepts 32 16 (-1) 10 ['1', '2', 'a'] (by decide) (by decide) (by decide)

theorem sc_val_from_ulong_spec (k : Nat) : ∀ (value : Nat),
    Valid k (sc_val_from_ulong k value) ∧ U (sc_val_from_ulong k value) = value % 16 ^ k := by
  induction k with
  | zero =>
    intro value
    simp [sc_val_from_ulong, Valid, U, Nat.mod_one]
  | succ k ih =>
    intro value
    obtain ⟨⟨i1, i2⟩, i3⟩ := ih (value / 16)
    simp only [sc_val_from_ulong, land_15, shr_4, U]
    refine ⟨⟨by simp [i1], ?_⟩, ?_⟩
    · intro e he
      simp only [List.mem_cons] at he
      rcases he with rfl | he
      · exact Nat.mod_lt _ (by omega)
      · exact i2 e he
    · rw [i3, pow_succ' 16 k, Nat.mod_mul]

theorem pow_M_bounds (M : Nat) (hM : 2 ≤ M) :
    16 < 16 ^ M ∧ 2 * (16 * 16 ^ M) ≤ 16 ^ (2 * M) := by
  obtain ⟨m, rfl⟩ : ∃ m, M = m + 2 := ⟨M - 2, by omega⟩
  have hp : 0 < 16 ^ m := by positivity
  have e1 : 16 ^ (m + 2) = 256 * 16 ^ m := by rw [pow_add]; ring
  have e2 : 16 ^ (2 * (m + 2)) = 256 * 16 ^ m * (256 * 16 ^ m) := by
    rw [two_mul, pow_add, e1]
  rw [e2, e1]
  constructor
  · omega
  · have : 256 * 16 ^ m * 1 ≤ 256 * 16 ^ m * 16 ^ m := Nat.mul_le_mul_left _ hp
    nlinarith

theorem sc_val_from_str_loop_value (M base : Nat) (hM : 2 ≤ M) (hbase : base ≤ 16)
    (str : List Char) : ∀ (val buffer : Buf) (acc : Nat), accepted base str →
      Valid (2 * M) val → U val = val.getD 0 0 →
      Valid (2 * M) buffer → U buffer < 16 * 16 ^ M → U buffer % 16 ^ M = acc % 16 ^ M →
      (sc_val_from_str_loop (2 * M) M base (sc_val_from_ulong (2 * M) base) str val buffer).1
          = true
      ∧ Valid (2 * M)
          (sc_val_from_str_loop (2 * M) M base (sc_val_from_ulong (2 * M) base) str val buffer).2
      ∧ U (sc_val_from_str_loop (2 * M) M base (sc_val_from_ulong (2 * M) base) str val buffer).2
          < 16 * 16 ^ M
      ∧ U (sc_val_from_str_loop (2 * M) M base (sc_val_from_ulong (2 * M) base) str val buffer).2
            % 16 ^ M
          = (str.foldl (fun acc c => acc * base + (hex_digit_value c).getD 0) acc) % 16 ^ M := by
  obtain ⟨hb1, hb2⟩ := pow_M_bounds M hM
  have hlt16 : 16 ^ M < 16 ^ (2 * M) := by omega
  obtain ⟨sbv, sbu⟩ := sc_val_from_ulong_spec (2 * M) base
  rw [Nat.mod_eq_of_lt (by omega)] at sbu
  induction str with
  | nil =>
    intro val buffer acc _ _ _ hbuf hlt hmod
    exact ⟨rfl, hbuf, hlt, hmod⟩
  | cons c cs ih =>
    intro val buffer acc hacc hval hval0 hbuf hlt hmod
    obtain ⟨v, hv, hvb⟩ := hacc c (by simp)
    have hacc' : accepted base cs := fun d hd => hacc d (by simp [hd])
    rw [sc_val_from_str_loop, digit_of_char_eq, hv]
    simp only [ge_iff_le, Nat.not_le.mpr hvb, if_false, List.foldl_cons, hv, Option.getD_some]
    -- the multiplication by the base
    obtain ⟨mv, mu⟩ := do_mul_spec M (sc_val_from_ulong (2 * M) base) buffer sbv hbuf
    have s1 : ¬ do_sign (2 * M) (sc_val_from_ulong (2 * M) base) = -1 := by
      intro hc
      have := (do_sign_neg_iff (2 * M) _ (by omega) sbv).mp hc
      omega
    have s2 : ¬ do_sign (2 * M) buffer = -1 := by
      intro hc
      have := (do_sign_neg_iff (2 * M) _ (by omega) hbuf).mp hc
      omega
    simp only [s1, s2, decide_False, Bool.xor_self, Bool.false_eq_true, if_false, sbu] at mu
    rw [Nat.mod_eq_of_lt (by omega : base < 16 ^ M)] at mu
    -- the addition of the digit
    have hval' : Valid (2 * M) (val.set 0 v) :=
      ⟨by rw [List.length_set]; exact hval.1, set_lt val 0 v hval.2 (by omega)⟩
    have hvalu : U (val.set 0 v) = v := by
      have := U_set val 0 v (by rw [hval.1]; omega)
      omega
    have hvalg : U (val.set 0 v) = (val.set 0 v).getD 0 0 := by
      rw [hvalu, getD_set_eq val 0 v (by rw [hval.1]; omega)]
    obtain ⟨av, au, _⟩ := do_add_spec (2 * M) (val.set 0 v) _ hval' mv
    have hmodlt : U buffer % 16 ^ M < 16 ^ M := Nat.mod_lt _ (by omega)
    have hprod : base * (U buffer % 16 ^ M) ≤ 16 * (16 ^ M - 1) :=
      Nat.mul_le_mul hbase (by omega)
    rw [hvalu, mu, Nat.mod_eq_of_lt (by omega)] at au
    apply ih (val.set 0 v) _ (acc * base + v) hacc' hval' hvalg av
    · rw [au]; omega
    · rw [au, Nat.add_mod, Nat.mul_mod, Nat.mod_mod, hmod, ← Nat.mul_mod, ← Nat.add_mod]
      congr 1
      ring

set_option maxRecDepth 1000000 in
/-- C10: with `max_value_size = M >= 2` (precision `4 * M >= 8`, buffers of `2 * M`
nibbles), a base in 2..16, a sign `s` in {-1, +1} and an accepted digit string denoting
`v`, `sc_val_from_str` returns true and the low `4 * M` bits of the buffer it writes are
`(s * v) mod 2^(4 * M)`.  With precision 64 the decimal string 18446744073709551615 gives
sixteen low nibbles 0xF and `sc_val_to_uint64` returns 0xFFFFFFFFFFFFFFFF. -/
theorem sc_val_from_str_value (M : Nat) (sign : Int) (base : Nat) (str : List Char)
    (hM : 2 ≤ M) (hbase : 2 ≤ base ∧ base ≤ 16) (hsign : sign = 1 ∨ sign = -1)
    (_hlen : str ≠ []) (hacc : accepted base str) :
    ((sc_val_from_str (2 * M) M sign base str).1 = true
      ∧ Valid (2 * M) (sc_val_from_str (2 * M) M sign base str).2
      ∧ ((U (sc_val_from_str (2 * M) M sign base str).2 % 2 ^ (4 * M) : Nat) : Int)
          = (sign * (numeral_value base str : Int)) % (2 : Int) ^ (4 * M))
    ∧ (sc_val_from_str 32 16 1 10 "18446744073709551615".toList
          = (true, List.replicate 16 15 ++ List.replicate 16 0)
      ∧ sc_val_to_uint64 32 (sc_val_from_str 32 16 1 10 "18446744073709551615".toList).2
          = 0xFFFFFFFFFFFFFFFF) := by
  refine ⟨?_, by decide⟩
  obtain ⟨hb1, hb2⟩ := pow_M_bounds M hM
  have hz := CLEAR_BUFFER_valid (2 * M)
  have hz0 := U_CLEAR_BUFFER (2 * M)
  obtain ⟨l1, l2, l3, l4⟩ := sc_val_from_str_loop_value M base hM hbase.2 str
    (CLEAR_BUFFER (2 * M)) (CLEAR_BUFFER (2 * M)) 0 hacc hz
    (by rw [hz0, CLEAR_BUFFER_getD]) hz (by rw [hz0]; positivity) (by rw [hz0])
  have e24 : (2 : Nat) ^ (4 * M) = 16 ^ M := by rw [pow_mul]; norm_num
  have e24i : (2 : Int) ^ (4 * M) = ((16 ^ M : Nat) : Int) := by
    rw [← e24]; push_cast; rfl
  rw [e24, e24i]
  simp only [sc_val_from_str, l1, if_true]
  change U _ % 16 ^ M = numeral_value base str % 16 ^ M at l4
  generalize sc_val_from_str_loop (2 * M) M base (sc_val_from_ulong (2 * M) base) str
    (CLEAR_BUFFER (2 * M)) (CLEAR_BUFFER (2 * M)) = r at l1 l2 l3 l4 ⊢
  rcases hsign with rfl | rfl
  · simp only [show ¬ ((1 : Int) < 0) by decide, if_false, one_mul]
    refine ⟨trivial, l2, ?_⟩
    rw [l4]
    exact Int.natCast_mod _ _
  · simp only [show ((-1 : Int) < 0) by decide, if_true, neg_one_mul]
    refine ⟨trivial, do_negate_valid _ _ l2, ?_⟩
    rw [U_do_negate _ _ l2, Int.natCast_mod, neg_emod_cast _ _ (U_lt _ _ l2).le]
    have hdvd : ((16 ^ M : Nat) : Int) ∣ ((16 ^ (2 * M) : Nat) : Int) := by
      rw [two_mul, pow_add]
      push_cast
      exact Dvd.intro _ rfl
    rw [Int.emod_emod_of_dvd _ hdvd]
    have hmod : (U r.2 : Int) ≡ (numeral_value base str : Int) [ZMOD ((16 ^ M : Nat) : Int)] :=
      Int.natCast_modEq_iff.mpr l4
    exact hmod.neg

theorem sc_val_from_str_value_witness :
    ((sc_val_from_str (2 * 2) 2 (-1) 16 ['f', 'F', '1']).1 = true
      ∧ Valid (2 * 2) (sc_val_from_str (2 * 2) 2 (-1) 16 ['f', 'F', '1']).2
      ∧ ((U (sc_val_from_str (2 * 2) 2 (-1) 16 ['f', 'F', '1']).2 % 2 ^ (4 * 2) : Nat) : Int)
          = (-1 * (numeral_value 16 ['f', 'F', '1'] : Int)) % (2 : Int) ^ (4 * 2))
    ∧ (sc_val_from_str 32 16 1 10 "18446744073709551615".toList
          = (true, List.replicate 16 15 ++ List.replicate 16 0)
      ∧ sc_val_to_uint64 32 (sc_val_from_str 32 16 1 10 "18446744073709551615".toList).2
          = 0xFFFFFFFFFFFFFFFF) :=
  sc_val_from_str_value 2 (-1) 16 ['f', 'F', '1'] (by decide) (by decide) (by decide)
    (by decide) (by decide)

/-! ## Segments of a buffer -/

theorem Useg_congr (b1 b2 : Buf) (s c : Nat)
    (h : ∀ j, j < c → b1.getD (s + j) 0 = b2.getD (s + j) 0) : Useg b1 s c = Useg b2 s c := by
  induction c with
  | zero => rfl
  | succ c ih =>
    simp only [Useg]
    rw [ih (fun j hj => h j (by omega)), h c (by omega)]

theorem Useg_take (b : Buf) (c : Nat) : U (b.take c) = Useg b 0 c := by
  induction c with
  | zero => simp [Useg, U]
  | succ c ih => rw [U_take_succ, ih]; simp [Useg]

theorem Useg_full (N : Nat) (b : Buf) (h : b.length = N) : U b = Useg b 0 N := by
  rw [← Useg_take, ← h, List.take_length]

theorem Useg_add (b : Buf) (s c1 c2 : Nat) :
    Useg b s (c1 + c2) = Useg b s c1 + 16 ^ c1 * Useg b (s + c1) c2 := by
  induction c2 with
  | zero => simp [Useg]
  | succ c2 ih =>
    rw [← Nat.add_assoc]
    simp only [Useg]
    rw [ih, pow_add, Nat.add_assoc s c1 c2]
    ring

theorem Useg_succ_left (b : Buf) (s c : Nat) :
    Useg b s (c + 1) = b.getD s 0 + 16 * Useg b (s + 1) c := by
  have := Useg_add b s 1 c
  rw [Nat.add_comm 1 c] at this
  rw [this]
  simp [Useg]

theorem Useg_lt (b : Buf) (s c : Nat) (h : ∀ j, j < c → b.getD (s + j) 0 < 16) :
    Useg b s c < 16 ^ c := by
  induction c with
  | zero => simp [Useg]
  | succ c ih =>
    have h1 := ih (fun j hj => h j (by omega))
    have h2 := h c (by omega)
    simp only [Useg, pow_succ]
    nlinarith

theorem Useg_zero (b : Buf) (s c : Nat) (h : ∀ j, j < c → b.getD (s + j) 0 = 0) :
    Useg b s c = 0 := by
  induction c with
  | zero => rfl
  | succ c ih =>
    simp only [Useg]
    rw [ih (fun j hj => h j (by omega)), h c (by omega)]
    simp

theorem Useg_fifteen (b : Buf) (s c : Nat) (h : ∀ j, j < c → b.getD (s + j) 0 = 15) :
    Useg b s c + 1 = 16 ^ c := by
  induction c with
  | zero => rfl
  | succ c ih =>
    have := ih (fun j hj => h j (by omega))
    simp only [Useg, pow_succ]
    rw [h c (by omega)]
    omega

theorem Useg_eq_div_mod (b : Buf) (hb : ∀ d ∈ b, d < 16) (s c : Nat) :
    Useg b s c = (U b / 16 ^ s) % 16 ^ c := by
  have h1 := Useg_add b 0 s c
  rw [← Useg_take, ← Useg_take, U_take_mod b hb, U_take_mod b hb, Nat.zero_add, pow_add,
    Nat.mod_mul] at h1
  have hp : 0 < 16 ^ s := by positivity
  have := Nat.eq_of_mul_eq_mul_left hp (Nat.add_left_cancel h1)
  exact this.symm

theorem Valid_of_getD (N : Nat) (b : Buf) (hl : b.length = N)
    (h : ∀ j, j < N → b.getD j 0 < 16) : Valid N b := by
  refine ⟨hl, ?_⟩
  intro d hd
  obtain ⟨i, hi, rfl⟩ := List.getElem_of_mem hd
  have := h i (by omega)
  rwa [List.getD_eq_getElem b 0 hi] at this

theorem fill_cells_length (v : Nat) (count : Nat) : ∀ (start : Nat) (b : Buf),
    (fill_cells v count start b).length = b.length := by
  induction count with
  | zero => intro _ _; rfl
  | succ n ih => intro start b; simp only [fill_cells]; rw [ih, List.length_set]

theorem fill_cells_getD (v : Nat) (count : Nat) : ∀ (start : Nat) (b : Buf) (j : Nat),
    start + count ≤ b.length →
    (fill_cells v count start b).getD j 0
      = if start ≤ j ∧ j < start + count then v else b.getD j 0 := by
  induction count with
  | zero =>
    intro start b j _
    simp only [fill_cells]
    rw [if_neg (by omega)]
  | succ n ih =>
    intro start b j hlen
    simp only [fill_cells]
    rw [ih (start + 1) _ j (by rw [List.length_set]; omega)]
    by_cases h1 : start + 1 ≤ j ∧ j < start + 1 + n
    · rw [if_pos h1, if_pos (by omega)]
    · rw [if_neg h1]
      by_cases h2 : j = start
      · subst h2
        rw [if_pos (by omega), getD_set_eq _ _ _ (by omega)]
      · rw [if_neg (by omega), getD_set_ne _ _ _ _ (by omega)]

theorem copy_cells_length (p : Buf) (k : Nat) : ∀ (counter : Nat) (b : Buf),
    (copy_cells p k counter b).length = b.length := by
  induction k with
  | zero => intro _ _; rfl
  | succ n ih => intro counter b; simp only [copy_cells]; rw [ih, List.length_set]

theorem copy_cells_getD (p : Buf) (k : Nat) : ∀ (counter : Nat) (b : Buf) (j : Nat),
    counter + k ≤ b.length →
    (copy_cells p k counter b).getD j 0
      = if counter ≤ j ∧ j < counter + k then p.getD j 0 else b.getD j 0 := by
  induction k with
  | zero =>
    intro counter b j _
    simp only [copy_cells]
    rw [if_neg (by omega)]
  | succ n ih =>
    intro counter b j hlen
    simp only [copy_cells]
    rw [ih (counter + 1) _ j (by rw [List.length_set]; omega)]
    by_cases h1 : counter + 1 ≤ j ∧ j < counter + 1 + n
    · rw [if_pos h1, if_pos (by omega)]
    · rw [if_neg h1]
      by_cases h2 : j = counter
      · subst h2
        rw [if_pos (by omega), getD_set_eq _ _ _ (by omega)]
      · rw [if_neg (by omega), getD_set_ne _ _ _ _ (by omega)]

/-! ## Left shift -/

theorem shl_or_eq : ∀ x, x < 16 → ∀ sh, sh < 4 → ∀ c, c < 8 → c < 2 ^ sh →
    (x <<< sh) ||| c = x * 2 ^ sh + c := by decide

theorem do_shl_loop_spec (val1 : Buf) (hv : ∀ d ∈ val1, d < 16) (shift s : Nat)
    (hs : shift < 4) (k : Nat) : ∀ (counter : Nat) (buffer : Buf) (carry : Nat),
      carry < 2 ^ shift → counter + k + s ≤ buffer.length →
      (do_shl_loop val1 shift s k counter buffer carry).1.length = buffer.length
      ∧ (∀ j, (j < counter + s ∨ counter + k + s ≤ j) →
          (do_shl_loop val1 shift s k counter buffer carry).1.getD j 0 = buffer.getD j 0)
      ∧ (∀ j, counter + s ≤ j → j < counter + k + s →
          (do_shl_loop val1 shift s k counter buffer carry).1.getD j 0 < 16)
      ∧ Useg (do_shl_loop val1 shift s k counter buffer carry).1 (counter + s) k
          + 16 ^ k * (do_shl_loop val1 shift s k counter buffer carry).2
        = Useg val1 counter k * 2 ^ shift + carry
      ∧ (do_shl_loop val1 shift s k counter buffer carry).2 < 2 ^ shift := by
  have hsh8 : 2 ^ shift ≤ 8 := by
    have : shift ≤ 3 := by omega
    calc 2 ^ shift ≤ 2 ^ 3 := Nat.pow_le_pow_right (by omega) this
      _ = 8 := by norm_num
  induction k with
  | zero =>
    intro counter buffer carry hc _
    simp only [do_shl_loop, Useg]
    exact ⟨trivial, fun _ _ => trivial, fun j h1 h2 => by omega, by simp, hc⟩
  | succ k ih =>
    intro counter buffer carry hc hlen
    have hx : val1.getD counter 0 < 16 := getD_lt val1 hv counter
    have hor := shl_or_eq _ hx shift hs carry (by omega) hc
    simp only [do_shl_loop, hor, SC_RESULT_eq, SC_CARRY_eq]
    generalize hshl : val1.getD counter 0 * 2 ^ shift + carry = shl
    have hshl_lt : shl < 16 * 2 ^ shift := by
      have : val1.getD counter 0 * 2 ^ shift ≤ 15 * 2 ^ shift := Nat.mul_le_mul_right _ (by omega)
      omega
    have hcarry : shl / 16 < 2 ^ shift := by
      rw [Nat.div_lt_iff_lt_mul (by omega)]; omega
    obtain ⟨e1, e2, e3, e4, e5⟩ := ih (counter + 1) (buffer.set (counter + s) (shl % 16))
      (shl / 16) hcarry (by rw [List.length_set]; omega)
    have hi1 : counter + 1 + s = counter + s + 1 := by omega
    have hi2 : counter + 1 + k + s = counter + (k + 1) + s := by omega
    rw [hi1] at e4
    rw [hi2] at e2 e3
    refine ⟨by rw [e1, List.length_set], ?_, ?_, ?_, e5⟩
    · intro j hj
      rw [e2 j (by omega), getD_set_ne _ _ _ _ (by omega)]
    · intro j h1 h2
      by_cases hj : j = counter + s
      · subst hj
        rw [e2 _ (by omega), getD_set_eq _ _ _ (by omega)]
        exact Nat.mod_lt _ (by omega)
      · exact e3 j (by omega) h2
    · have hfirst : (do_shl_loop val1 shift s k (counter + 1)
          (buffer.set (counter + s) (shl % 16)) (shl / 16)).1.getD (counter + s) 0 = shl % 16 := by
        rw [e2 _ (by omega), getD_set_eq _ _ _ (by omega)]
      rw [Useg_succ_left, hfirst, Useg_succ_left val1, pow_succ]
      have hdm := Nat.div_add_mod shl 16
      have x1 : (val1.getD counter 0 + 16 * Useg val1 (counter + 1) k) * 2 ^ shift
          = val1.getD counter 0 * 2 ^ shift + 16 * (Useg val1 (counter + 1) k * 2 ^ shift) := by
        ring
      have x2 : ∀ c2 : Nat, 16 ^ k * 16 * c2 = 16 * (16 ^ k * c2) := fun c2 => by ring
      rw [x1, x2]
      generalize Useg val1 (counter + 1) k * 2 ^ shift = BP at e4 ⊢
      generalize 16 ^ k * _ = Q at e4 ⊢
      omega

theorem shift_value_eq (v s sh T : Nat) :
    16 ^ s * ((v % 16 ^ T * 2 ^ sh) % 16 ^ T) = (v * 2 ^ (4 * s + sh)) % 16 ^ (s + T) := by
  have e1 : (v % 16 ^ T * 2 ^ sh) % 16 ^ T = (v * 2 ^ sh) % 16 ^ T := by
    rw [Nat.mul_mod, Nat.mod_mod, ← Nat.mul_mod]
  have e2 : (2 : Nat) ^ (4 * s + sh) = 16 ^ s * 2 ^ sh := by
    rw [pow_add, pow_mul]; norm_num
  rw [e1, e2, pow_add, ← Nat.mul_mod_mul_left]
  congr 1
  ring

theorem mod_pow_succ_add (D c y : Nat) (hD : D < 16 ^ c) :
    (D + 16 ^ c * y) % 16 ^ (c + 1) = D + 16 ^ c * (y % 16) := by
  have hp : 0 < 16 ^ c := by positivity
  rw [pow_succ, Nat.mod_mul, Nat.add_mul_mod_self_left, Nat.mod_eq_of_lt hD,
    Nat.add_mul_div_left _ _ hp, Nat.div_eq_of_lt hD, Nat.zero_add]

theorem do_shl_digits_spec (N : Nat) (val buffer : Buf) (k w : Nat)
    (hval : ∀ d ∈ val, d < 16) (hbuf : buffer.length = N) (hk : k < w) (hw : w ≤ 4 * N) :
    (do_shl_digits val buffer k w).2 = (w + 3) / 4 - 1
      ∧ (do_shl_digits val buffer k w).1.length = N
      ∧ (∀ j, (w + 3) / 4 ≤ j → (do_shl_digits val buffer k w).1.getD j 0 = buffer.getD j 0)
      ∧ (∀ j, j < (w + 3) / 4 → (do_shl_digits val buffer k w).1.getD j 0 < 16)
      ∧ Useg (do_shl_digits val buffer k w).1 0 ((w + 3) / 4) = (U val * 2 ^ k) % 16 ^ ((w + 3) / 4) := by
  have hsh : k % 4 < 4 := Nat.mod_lt _ (by omega)
  have hsq : k / 4 ≤ w / 4 := Nat.div_le_div_right hk.le
  obtain ⟨t, ht⟩ : ∃ t, w / 4 = k / 4 + t := ⟨w / 4 - k / 4, by omega⟩
  obtain ⟨e1, e2, e3, e4, e5⟩ := do_shl_loop_spec val hval (k % 4) (k / 4) hsh t 0 buffer 0
    (by positivity) (by omega)
  simp only [Nat.zero_add, Nat.add_zero] at e2 e3 e4
  have hk4 : 4 * (k / 4) + k % 4 = k := Nat.div_add_mod k 4
  have hD : Useg (do_shl_loop val (k % 4) (k / 4) t 0 buffer 0).1 (k / 4) t < 16 ^ t :=
    Useg_lt _ _ _ (fun j hj => e3 (k / 4 + j) (by omega) (by omega))
  have hA : ∀ T, Useg val 0 T = U val % 16 ^ T := fun T => by
    rw [← Useg_take, U_take_mod val hval]
  simp only [do_shl_digits, SC_BITS]
  have hts : w / 4 - k / 4 = t := by omega
  rw [hts]
  generalize hL : do_shl_loop val (k % 4) (k / 4) t 0 buffer 0 = L at e1 e2 e3 e4 e5 hD
  by_cases h4 : w % 4 > 0
  · -- a partial top digit
    have hW : (w + 3) / 4 = k / 4 + t + 1 := by omega
    simp only [h4, if_true]
    rw [hW]
    have hx : val.getD t 0 < 16 := getD_lt val hval t
    have hor := shl_or_eq _ hx (k % 4) hsh L.2 (by
      have : 2 ^ (k % 4) ≤ 2 ^ 3 := Nat.pow_le_pow_right (by omega) (by omega)
      omega) e5
    rw [hor, SC_RESULT_eq]
    have hlen2 : (L.1.set (t + k / 4) ((val.getD t 0 * 2 ^ (k % 4) + L.2) % 16)).length = N := by
      rw [List.length_set, e1, hbuf]
    have hfill := fill_cells_getD 0 (k / 4) 0
      (L.1.set (t + k / 4) ((val.getD t 0 * 2 ^ (k % 4) + L.2) % 16))
    refine ⟨by omega, by rw [fill_cells_length, hlen2], ?_, ?_, ?_⟩
    · intro j hj
      rw [hfill j (by omega), if_neg (by omega), getD_set_ne _ _ _ _ (by omega), e2 j (by omega)]
    · intro j hj
      rw [hfill j (by omega)]
      by_cases hj1 : j < k / 4
      · rw [if_pos (by omega)]; omega
      · rw [if_neg (by omega)]
        by_cases hj2 : j = t + k / 4
        · rw [hj2, getD_set_eq _ _ _ (by omega)]
          exact Nat.mod_lt _ (by omega)
        · rw [getD_set_ne _ _ _ _ (by omega)]
          exact e3 j (by omega) (by omega)
    · have hsplit := Useg_add (fill_cells 0 (k / 4) 0
        (L.1.set (t + k / 4) ((val.getD t 0 * 2 ^ (k % 4) + L.2) % 16))) 0 (k / 4) (t + 1)
      rw [Nat.zero_add] at hsplit
      have hidx : k / 4 + t + 1 = k / 4 + (t + 1) := by omega
      rw [hidx, hsplit]
      rw [Useg_zero _ 0 (k / 4) (fun j hj => by rw [hfill _ (by omega), if_pos (by omega)])]
      have hseg : Useg (fill_cells 0 (k / 4) 0
          (L.1.set (t + k / 4) ((val.getD t 0 * 2 ^ (k % 4) + L.2) % 16))) (k / 4) (t + 1)
          = Useg L.1 (k / 4) t + 16 ^ t * ((val.getD t 0 * 2 ^ (k % 4) + L.2) % 16) := by
        simp only [Useg]
        rw [hfill _ (by omega), if_neg (by omega), Nat.add_comm (k / 4) t,
          getD_set_eq _ _ _ (by omega)]
        congr 1
        apply Useg_congr
        intro j hj
        rw [hfill _ (by omega), if_neg (by omega), getD_set_ne _ _ _ _ (by omega)]
      rw [hseg, Nat.zero_add, ← mod_pow_succ_add _ _ _ hD]
      have hval2 : Useg L.1 (k / 4) t + 16 ^ t * (val.getD t 0 * 2 ^ (k % 4) + L.2)
          = (U val % 16 ^ (t + 1)) * 2 ^ (k % 4) := by
        rw [← hA (t + 1)]
        simp only [Useg, Nat.zero_add]
        have x1 : (Useg val 0 t + 16 ^ t * val.getD t 0) * 2 ^ (k % 4)
            = Useg val 0 t * 2 ^ (k % 4) + 16 ^ t * (val.getD t 0 * 2 ^ (k % 4)) := by ring
        rw [x1, Nat.mul_add]
        omega
      rw [hval2, shift_value_eq, hk4]
  · -- the width is a whole number of digits
    have hW : (w + 3) / 4 = k / 4 + t := by omega
    have ht1 : 1 ≤ t := by omega
    simp only [h4, if_false]
    rw [hW]
    have hfill := fill_cells_getD 0 (k / 4) 0 L.1
    refine ⟨by omega, by rw [fill_cells_length, e1, hbuf], ?_, ?_, ?_⟩
    · intro j hj
      rw [hfill j (by omega), if_neg (by omega), e2 j (by omega)]
    · intro j hj
      rw [hfill j (by omega)]
      by_cases hj1 : j < k / 4
      · rw [if_pos (by omega)]; omega
      · rw [if_neg (by omega)]
        exact e3 j (by omega) (by omega)
    · have hsplit := Useg_add (fill_cells 0 (k / 4) 0 L.1) 0 (k / 4) t
      rw [Nat.zero_add] at hsplit
      rw [hsplit, Useg_zero _ 0 (k / 4) (fun j hj => by rw [hfill _ (by omega), if_pos (by omega)])]
      have hseg : Useg (fill_cells 0 (k / 4) 0 L.1) (k / 4) t = Useg L.1 (k / 4) t := by
        apply Useg_congr
        intro j hj
        rw [hfill _ (by omega), if_neg (by omega)]
      rw [hseg, Nat.zero_add]
      have hmod : Useg L.1 (k / 4) t = (U val % 16 ^ t * 2 ^ (k % 4)) % 16 ^ t := by
        rw [← hA t, ← e4, Nat.add_mul_mod_self_left, Nat.mod_eq_of_lt hD]
      rw [hmod, shift_value_eq, hk4]

theorem bitisset_iff : ∀ t, t < 16 → ∀ b, b < 4 →
    (_bitisset t b = true ↔ 2 ^ b ≤ t % 2 ^ (b + 1)) := by decide

theorem or_min_digit : ∀ t, t < 16 → ∀ b, b < 4 → _bitisset t b = true →
    t ||| min_digit b = t % 2 ^ (b + 1) + (16 - 2 ^ (b + 1)) := by decide

theorem and_max_digit : ∀ t, t < 16 → ∀ b, b < 4 → _bitisset t b = false →
    t &&& max_digit b = t % 2 ^ (b + 1) := by decide

theorem low_bits_split (P t n b : Nat) (hP : P < 16 ^ n) :
    (P + 16 ^ n * t) % 2 ^ (4 * n + b + 1) = P + 16 ^ n * (t % 2 ^ (b + 1)) := by
  have hp : 0 < 16 ^ n := by positivity
  have e : (2 : Nat) ^ (4 * n + b + 1) = 16 ^ n * 2 ^ (b + 1) := by
    rw [Nat.add_assoc, pow_add, pow_mul]; norm_num
  rw [e, Nat.mod_mul, Nat.add_mul_mod_self_left, Nat.mod_eq_of_lt hP,
    Nat.add_mul_div_left _ _ hp, Nat.div_eq_of_lt hP, Nat.zero_add]

theorem do_shl_msb_signed (N : Nat) (b3 : Buf) (w : Nat) (hw1 : 1 ≤ w) (hw : w ≤ 4 * N)
    (hlen : b3.length = N) (hcells : ∀ j, j < (w + 3) / 4 → b3.getD j 0 < 16) :
    Valid N (do_shl_msb N b3 ((w + 3) / 4 - 1) w true)
      ∧ U (do_shl_msb N b3 ((w + 3) / 4 - 1) w true) = sext N w (Useg b3 0 ((w + 3) / 4)) := by
  obtain ⟨n, hn⟩ : ∃ n, (w + 3) / 4 = n + 1 := ⟨(w + 3) / 4 - 1, by omega⟩
  have hb : (w - 1) % 4 < 4 := Nat.mod_lt _ (by omega)
  have hwn : w = 4 * n + (w - 1) % 4 + 1 := by omega
  have hnN : n + 1 ≤ N := by omega
  rw [hn, Nat.add_sub_cancel]
  have ht : b3.getD n 0 < 16 := hcells n (by omega)
  have hP : Useg b3 0 n < 16 ^ n := Useg_lt _ _ _ (fun j hj => by
    rw [Nat.zero_add]; exact hcells j (by omega))
  have hX : Useg b3 0 (n + 1) = Useg b3 0 n + 16 ^ n * b3.getD n 0 := by simp [Useg]
  have hp : 0 < 16 ^ n := by positivity
  have hpow : (2 : Nat) ^ w = 16 ^ n * 2 ^ ((w - 1) % 4 + 1) := by
    conv_lhs => rw [hwn]
    rw [Nat.add_assoc, pow_add, pow_mul]; norm_num
  have hpow1 : (2 : Nat) ^ (w - 1) = 16 ^ n * 2 ^ ((w - 1) % 4) := by
    have : w - 1 = 4 * n + (w - 1) % 4 := by omega
    conv_lhs => rw [this]
    rw [pow_add, pow_mul]; norm_num
  have hlow : Useg b3 0 (n + 1) % 2 ^ w
      = Useg b3 0 n + 16 ^ n * (b3.getD n 0 % 2 ^ ((w - 1) % 4 + 1)) := by
    rw [hX]
    conv_lhs => rw [hwn]
    exact low_bits_split _ _ _ _ hP
  have hsplitN : ∀ r : Buf, r.length = N →
      U r = Useg r 0 n + 16 ^ n * r.getD n 0 + 16 ^ (n + 1) * Useg r (n + 1) (N - (n + 1)) := by
    intro r hr
    rw [Useg_full N r hr]
    have : N = (n + 1) + (N - (n + 1)) := by omega
    conv_lhs => rw [this]
    rw [Useg_add, Nat.zero_add]
    simp [Useg]
  have h16N : (16 : Nat) ^ N = 16 ^ (n + 1) * 16 ^ (N - (n + 1)) := by
    rw [← pow_add]; congr 1; omega
  have hmodlt : b3.getD n 0 % 2 ^ ((w - 1) % 4 + 1) < 2 ^ ((w - 1) % 4 + 1) :=
    Nat.mod_lt _ (by positivity)
  have hle16 : 2 ^ ((w - 1) % 4 + 1) ≤ 16 := by
    calc 2 ^ ((w - 1) % 4 + 1) ≤ 2 ^ 4 := Nat.pow_le_pow_right (by omega) (by omega)
      _ = 16 := by norm_num
  have hsign : 2 ^ (w - 1) ≤ Useg b3 0 (n + 1) % 2 ^ w ↔ _bitisset (b3.getD n 0) ((w - 1) % 4) = true := by
    rw [bitisset_iff _ ht _ hb, hlow, hpow1]
    constructor
    · intro h
      by_contra hc
      have h1 : b3.getD n 0 % 2 ^ ((w - 1) % 4 + 1) + 1 ≤ 2 ^ ((w - 1) % 4) := by omega
      have h2 := Nat.mul_le_mul_left (16 ^ n) h1
      rw [Nat.mul_add] at h2
      omega
    · intro h
      have h2 := Nat.mul_le_mul_left (16 ^ n) h
      omega
  simp only [do_shl_msb, Bool.true_and, sext]
  by_cases hbit : _bitisset (b3.getD n 0) ((w - 1) % 4) = true
  · rw [if_pos hbit, if_pos (hsign.mpr hbit), or_min_digit _ ht _ hb hbit]
    generalize hv : b3.getD n 0 % 2 ^ ((w - 1) % 4 + 1) + (16 - 2 ^ ((w - 1) % 4 + 1)) = v
    have hvlt : v < 16 := by omega
    have hlen1 : (b3.set n v).length = N := by rw [List.length_set, hlen]
    have hfill := fill_cells_getD 0xF (N - (n + 1)) (n + 1) (b3.set n v)
    have hlenr : (fill_cells 0xF (N - (n + 1)) (n + 1) (b3.set n v)).length = N := by
      rw [fill_cells_length, hlen1]
    refine ⟨Valid_of_getD N _ hlenr ?_, ?_⟩
    · intro j hj
      rw [hfill j (by omega)]
      by_cases hj1 : n + 1 ≤ j
      · rw [if_pos (by omega)]; omega
      · rw [if_neg (by omega)]
        by_cases hj2 : j = n
        · rw [hj2, getD_set_eq _ _ _ (by omega)]; exact hvlt
        · rw [getD_set_ne _ _ _ _ (by omega)]; exact hcells j (by omega)
    · rw [hsplitN _ hlenr]
      have s1 : Useg (fill_cells 0xF (N - (n + 1)) (n + 1) (b3.set n v)) 0 n = Useg b3 0 n := by
        apply Useg_congr
        intro j hj
        rw [hfill _ (by omega), if_neg (by omega), getD_set_ne _ _ _ _ (by omega)]
      have s2 : (fill_cells 0xF (N - (n + 1)) (n + 1) (b3.set n v)).getD n 0 = v := by
        rw [hfill _ (by omega), if_neg (by omega), getD_set_eq _ _ _ (by omega)]
      have s3 := Useg_fifteen (fill_cells 0xF (N - (n + 1)) (n + 1) (b3.set n v)) (n + 1)
        (N - (n + 1)) (fun j hj => by rw [hfill _ (by omega), if_pos (by omega)])
      rw [s1, s2, hlow, hpow, h16N]
      generalize Useg (fill_cells 0xF (N - (n + 1)) (n + 1) (b3.set n v)) (n + 1) (N - (n + 1)) = F at s3 ⊢
      rw [← hv]
      generalize 16 ^ (N - (n + 1)) = Q at s3 ⊢
      have hB : 2 ^ ((w - 1) % 4 + 1) + (16 - 2 ^ ((w - 1) % 4 + 1)) = 16 := by omega
      have key : 16 ^ n * 2 ^ ((w - 1) % 4 + 1)
          + (16 ^ n * (16 - 2 ^ ((w - 1) % 4 + 1)) + 16 ^ (n + 1) * F) = 16 ^ (n + 1) * Q := by
        rw [← Nat.add_assoc, ← Nat.mul_add, hB, ← s3]; ring
      rw [Nat.mul_add]
      omega
  · have hbit' : _bitisset (b3.getD n 0) ((w - 1) % 4) = false := by simpa using hbit
    rw [if_neg hbit, if_neg (fun h => hbit (hsign.mp h))]
    simp only [hbit', Bool.not_false, if_true]
    rw [and_max_digit _ ht _ hb hbit']
    generalize hv : b3.getD n 0 % 2 ^ ((w - 1) % 4 + 1) = v at hmodlt hlow ⊢
    have hvlt : v < 16 := by omega
    have hlen1 : (b3.set n v).length = N := by rw [List.length_set, hlen]
    have hfill := fill_cells_getD 0 (N - (n + 1)) (n + 1) (b3.set n v)
    have hlenr : (fill_cells 0 (N - (n + 1)) (n + 1) (b3.set n v)).length = N := by
      rw [fill_cells_length, hlen1]
    refine ⟨Valid_of_getD N _ hlenr ?_, ?_⟩
    · intro j hj
      rw [hfill j (by omega)]
      by_cases hj1 : n + 1 ≤ j
      · rw [if_pos (by omega)]; omega
      · rw [if_neg (by omega)]
        by_cases hj2 : j = n
        · rw [hj2, getD_set_eq _ _ _ (by omega)]; exact hvlt
        · rw [getD_set_ne _ _ _ _ (by omega)]; exact hcells j (by omega)
    · rw [hsplitN _ hlenr]
      have s1 : Useg (fill_cells 0 (N - (n + 1)) (n + 1) (b3.set n v)) 0 n = Useg b3 0 n := by
        apply Useg_congr
        intro j hj
        rw [hfill _ (by omega), if_neg (by omega), getD_set_ne _ _ _ _ (by omega)]
      have s2 : (fill_cells 0 (N - (n + 1)) (n + 1) (b3.set n v)).getD n 0 = v := by
        rw [hfill _ (by omega), if_neg (by omega), getD_set_eq _ _ _ (by omega)]
      have s3 := Useg_zero (fill_cells 0 (N - (n + 1)) (n + 1) (b3.set n v)) (n + 1)
        (N - (n + 1)) (fun j hj => by rw [hfill _ (by omega), if_pos (by omega)])
      rw [s1, s2, s3, hlow]
      simp

/-! ## Right shift -/

theorem shrs_facts : ∀ d, d < 16 → ∀ m, m < 4 →
    (shrs d m).2 + 16 * (shrs d m).1 = d * 2 ^ (4 - m)
      ∧ (shrs d m).1 < 2 ^ (4 - m) ∧ (shrs d m).1 = d / 2 ^ m ∧ (shrs d m).2 < 16 := by
  decide

theorem shrs_or : ∀ t, t < 16 → ∀ m, m < 4 → t < 2 ^ (4 - m) → ∀ d, d < 16 →
    t ||| (shrs d m).2 = t + (shrs d m).2 ∧ t + (shrs d m).2 < 16 := by
  decide

theorem and3_eq_mod (x : Nat) : x &&& 3 = x % 4 := Nat.and_pow_two_sub_one_eq_mod x 2

theorem shr2_eq_div (x : Nat) : x >>> 2 = x / 4 := Nat.shiftRight_eq_div_pow x 2

theorem do_shr_loop_spec (val1 : Buf) (hv : ∀ d ∈ val1, d < 16) (s m : Nat) (hm : m < 4)
    (k : Nat) : ∀ (c : Nat) (buffer : Buf), c + 1 + k ≤ buffer.length →
      (∀ j, j < c + 1 → buffer.getD j 0 < 16) → buffer.getD c 0 < 2 ^ (4 - m) →
      Useg buffer 0 (c + 1) = Useg val1 s (c + 1) / 2 ^ m →
      (do_shr_loop val1 s m k (c + 1) buffer).length = buffer.length
      ∧ (∀ j, c + 1 + k ≤ j → (do_shr_loop val1 s m k (c + 1) buffer).getD j 0 = buffer.getD j 0)
      ∧ (∀ j, j < c + 1 + k → (do_shr_loop val1 s m k (c + 1) buffer).getD j 0 < 16)
      ∧ (do_shr_loop val1 s m k (c + 1) buffer).getD (c + k) 0 < 2 ^ (4 - m)
      ∧ Useg (do_shr_loop val1 s m k (c + 1) buffer) 0 (c + 1 + k)
          = Useg val1 s (c + 1 + k) / 2 ^ m := by
  induction k with
  | zero =>
    intro c buffer _ hc ht hU
    simp only [do_shr_loop, Nat.add_zero]
    exact ⟨trivial, fun _ _ => trivial, hc, ht, hU⟩
  | succ k ih =>
    intro c buffer hlen hc ht hU
    have hx : val1.getD (c + 1 + s) 0 < 16 := getD_lt val1 hv _
    obtain ⟨f1, f2, f3, f4⟩ := shrs_facts _ hx m hm
    obtain ⟨o1, o2⟩ := shrs_or _ (hc c (by omega)) m hm ht _ hx
    simp only [do_shr_loop, Nat.add_sub_cancel]
    rw [getD_set_ne _ (c + 1) c _ (by omega), o1]
    generalize he : shrs (val1.getD (c + 1 + s) 0) m = e at f1 f2 f3 f4 o1 o2
    have hlen2 : ((buffer.set (c + 1) e.1).set c (buffer.getD c 0 + e.2)).length = buffer.length := by
      rw [List.length_set, List.length_set]
    have g1 : ((buffer.set (c + 1) e.1).set c (buffer.getD c 0 + e.2)).getD (c + 1) 0 = e.1 := by
      rw [getD_set_ne _ _ _ _ (by omega), getD_set_eq _ _ _ (by omega)]
    have g2 : ((buffer.set (c + 1) e.1).set c (buffer.getD c 0 + e.2)).getD c 0
        = buffer.getD c 0 + e.2 := by
      rw [getD_set_eq _ _ _ (by rw [List.length_set]; omega)]
    have g3 : ∀ j, j ≠ c → j ≠ c + 1 →
        ((buffer.set (c + 1) e.1).set c (buffer.getD c 0 + e.2)).getD j 0 = buffer.getD j 0 := by
      intro j h1 h2
      rw [getD_set_ne _ _ _ _ (by omega), getD_set_ne _ _ _ _ (by omega)]
    have hp : 0 < 2 ^ m := by positivity
    have hle16 : 2 ^ (4 - m) ≤ 16 := by
      calc 2 ^ (4 - m) ≤ 2 ^ 4 := Nat.pow_le_pow_right (by omega) (by omega)
        _ = 16 := by norm_num
    have f2' : e.1 < 16 := by omega
    have h16 : (16 : Nat) = 2 ^ (4 - m) * 2 ^ m := by
      rw [← pow_add]
      have : 4 - m + m = 4 := by omega
      rw [this]
      norm_num
    have hUnew : Useg ((buffer.set (c + 1) e.1).set c (buffer.getD c 0 + e.2)) 0 (c + 1 + 1)
        = Useg val1 s (c + 1 + 1) / 2 ^ m := by
      have a1 : Useg ((buffer.set (c + 1) e.1).set c (buffer.getD c 0 + e.2)) 0 c
          = Useg buffer 0 c := by
        apply Useg_congr
        intro j hj
        rw [Nat.zero_add]
        exact g3 j (by omega) (by omega)
      have a2 : Useg buffer 0 (c + 1) = Useg buffer 0 c + 16 ^ c * buffer.getD c 0 := by
        simp [Useg]
      have a3 : Useg val1 s (c + 1 + 1) = Useg val1 s (c + 1)
          + 2 ^ m * (16 ^ c * (val1.getD (c + 1 + s) 0 * 2 ^ (4 - m))) := by
        have : Useg val1 s (c + 1 + 1)
            = Useg val1 s (c + 1) + 16 ^ (c + 1) * val1.getD (s + (c + 1)) 0 := by simp [Useg]
        rw [this, Nat.add_comm s (c + 1), pow_succ]
        congr 1
        calc 16 ^ c * 16 * val1.getD (c + 1 + s) 0
            = 16 ^ c * (2 ^ (4 - m) * 2 ^ m) * val1.getD (c + 1 + s) 0 := by rw [← h16]
          _ = 2 ^ m * (16 ^ c * (val1.getD (c + 1 + s) 0 * 2 ^ (4 - m))) := by ring
      rw [a3, Nat.add_mul_div_left _ _ hp, ← hU, a2]
      simp only [Useg, Nat.zero_add]
      rw [a1, g1, g2, ← f1, pow_succ]
      ring
    obtain ⟨i1, i2, i3, i4, i5⟩ := ih (c + 1) _ (by rw [hlen2]; omega)
      (fun j hj => by
        by_cases h1 : j = c + 1
        · rw [h1, g1]; exact f2'
        · by_cases h2 : j = c
          · rw [h2, g2]; exact o2
          · rw [g3 j h2 h1]; exact hc j (by omega))
      (by rw [g1]; exact f2) hUnew
    have hi : c + 1 + 1 + k = c + 1 + (k + 1) := by omega
    have hi2 : c + 1 + k = c + (k + 1) := by omega
    rw [hi] at i2 i3 i5
    rw [hi2] at i4
    refine ⟨by rw [i1, hlen2], ?_, i3, i4, i5⟩
    intro j hj
    rw [i2 j hj, g3 j (by omega) (by omega)]

theorem shrs_zero : ∀ m, m < 4 → shrs 0 m = (0, 0) := by decide

theorem shrs_fifteen : ∀ m, m < 4 → (shrs 15 m).2 + 2 ^ (4 - m) = 16 := by decide

theorem shr_top_lt : ∀ m, m < 4 → ∀ bo, bo < 4 → (shrs 15 m).1 ||| min_digit bo < 16 := by
  decide

theorem shr_top_full : ∀ m, m < 4 → ∀ bo, bo < 4 → (bo = 0 ∨ m + bo ≤ 4) →
    (shrs 15 m).1 ||| min_digit bo = 15 := by decide

theorem shift_div_eq (v s c m : Nat) :
    ((v / 16 ^ s) % 16 ^ c) / 2 ^ m = (v % 16 ^ (s + c)) / 2 ^ (4 * s + m) := by
  have e2 : (2 : Nat) ^ (4 * s + m) = 16 ^ s * 2 ^ m := by
    rw [pow_add, pow_mul]; norm_num
  rw [e2, ← Nat.div_div_eq_div_mul, pow_add, Nat.mod_mul_right_div_self]

theorem U_split (N c : Nat) (r : Buf) (hlen : r.length = N) (hc : c ≤ N) :
    U r = Useg r 0 c + 16 ^ c * Useg r c (N - c) := by
  rw [Useg_full N r hlen]
  have hN : N = c + (N - c) := by omega
  conv_lhs => rw [hN]
  rw [Useg_add, Nat.zero_add]

theorem do_shr_digits_spec (val buffer : Buf) (hv : ∀ d ∈ val, d < 16) (s m w : Nat)
    (hm : m < 4) (hs : s + 1 ≤ (w + 3) / 4) (hlen : (w + 3) / 4 - s ≤ buffer.length) :
    (do_shr_digits val buffer s m w).2 = (w + 3) / 4 - s
      ∧ (do_shr_digits val buffer s m w).1.length = buffer.length
      ∧ (∀ j, (w + 3) / 4 - s ≤ j →
          (do_shr_digits val buffer s m w).1.getD j 0 = buffer.getD j 0)
      ∧ (∀ j, j < (w + 3) / 4 - s → (do_shr_digits val buffer s m w).1.getD j 0 < 16)
      ∧ (do_shr_digits val buffer s m w).1.getD ((w + 3) / 4 - s - 1) 0 < 2 ^ (4 - m)
      ∧ Useg (do_shr_digits val buffer s m w).1 0 ((w + 3) / 4 - s)
          = Useg val s ((w + 3) / 4 - s) / 2 ^ m := by
  obtain ⟨k, hk⟩ : ∃ k, (w + 3) / 4 - s = 1 + k := ⟨(w + 3) / 4 - s - 1, by omega⟩
  have hx : val.getD s 0 < 16 := getD_lt val hv _
  obtain ⟨f1, f2, f3, f4⟩ := shrs_facts _ hx m hm
  have hle16 : 2 ^ (4 - m) ≤ 16 := by
    calc 2 ^ (4 - m) ≤ 2 ^ 4 := Nat.pow_le_pow_right (by omega) (by omega)
      _ = 16 := by norm_num
  simp only [do_shr_digits, shr2_eq_div]
  rw [hk]
  have hb0 : (buffer.set 0 (shrs (val.getD s 0) m).1).getD 0 0 = (shrs (val.getD s 0) m).1 :=
    getD_set_eq _ _ _ (by omega)
  obtain ⟨e1, e2, e3, e4, e5⟩ := do_shr_loop_spec val hv s m hm k 0
    (buffer.set 0 (shrs (val.getD s 0) m).1) (by rw [List.length_set]; omega)
    (fun j hj => by
      have : j = 0 := by omega
      rw [this, hb0]; omega)
    (by rw [hb0]; exact f2)
    (by simp only [Useg, Nat.zero_add, pow_zero, Nat.one_mul, Nat.add_zero]; rw [hb0, f3])
  simp only [Nat.zero_add] at e1 e2 e3 e4 e5
  have hk1 : 1 + k - 1 = k := by omega
  have hmax : max 1 (1 + k) = 1 + k := by omega
  rw [hk1, hmax]
  refine ⟨rfl, by rw [e1, List.length_set], ?_, e3, e4, e5⟩
  intro j hj
  rw [e2 j hj, getD_set_ne _ _ _ _ (by omega)]

theorem do_shr_msd_zero (N : Nat) (b : Buf) (c m w : Nat) (is_signed signed_shift : Bool)
    (hm : m < 4) (hc1 : 1 ≤ c) (hc : c + 1 ≤ N) (hlen : b.length = N)
    (hcells : ∀ j, j < c → b.getD j 0 < 16) :
    Valid N (do_shr_msd N b c 0 m w is_signed signed_shift)
      ∧ U (do_shr_msd N b c 0 m w is_signed signed_shift) = Useg b 0 c := by
  have hmsd : (if (!signed_shift && is_signed) = true then 0 &&& max_digit (w &&& 3) else 0) = 0 := by
    split <;> simp
  simp only [do_shr_msd, hmsd, shrs_zero m hm]
  have hf : (signed_shift && (0 : Nat) == 0xF) = false := by
    cases signed_shift <;> rfl
  simp only [hf, Bool.false_eq_true, if_false, if_pos (by omega : c > 0), Nat.or_zero]
  have g : ∀ j, ((b.set c 0).set (c - 1) ((b.set c 0).getD (c - 1) 0)).getD j 0
      = if j = c then 0 else b.getD j 0 := by
    intro j
    by_cases h1 : j = c - 1
    · rw [h1, getD_set_eq _ _ _ (by rw [List.length_set]; omega), if_neg (by omega)]
      exact getD_set_ne _ _ _ _ (by omega)
    · rw [getD_set_ne _ _ _ _ (by omega)]
      by_cases h2 : j = c
      · rw [h2, getD_set_eq _ _ _ (by omega), if_pos rfl]
      · rw [getD_set_ne _ _ _ _ (by omega), if_neg h2]
  have hlen2 : ((b.set c 0).set (c - 1) ((b.set c 0).getD (c - 1) 0)).length = N := by
    rw [List.length_set, List.length_set, hlen]
  have hfill := fill_cells_getD 0 (N - (c + 1)) (c + 1)
    ((b.set c 0).set (c - 1) ((b.set c 0).getD (c - 1) 0))
  have hlenr : (fill_cells 0 (N - (c + 1)) (c + 1)
      ((b.set c 0).set (c - 1) ((b.set c 0).getD (c - 1) 0))).length = N := by
    rw [fill_cells_length, hlen2]
  have hall : ∀ j, (fill_cells 0 (N - (c + 1)) (c + 1)
      ((b.set c 0).set (c - 1) ((b.set c 0).getD (c - 1) 0))).getD j 0
      = if j < c then b.getD j 0 else 0 := by
    intro j
    by_cases hjN : j < N
    · rw [hfill j (by omega), g]
      by_cases h1 : c + 1 ≤ j
      · rw [if_pos (by omega), if_neg (by omega)]
      · rw [if_neg (by omega)]
        by_cases h2 : j = c
        · rw [if_pos h2, if_neg (by omega)]
        · rw [if_neg h2, if_pos (by omega)]
    · rw [List.getD_eq_default _ _ (by omega), if_neg (by omega)]
  generalize fill_cells 0 (N - (c + 1)) (c + 1)
      ((b.set c 0).set (c - 1) ((b.set c 0).getD (c - 1) 0)) = r at hlenr hall
  refine ⟨Valid_of_getD N _ hlenr ?_, ?_⟩
  · intro j _
    rw [hall]
    split
    · exact hcells j (by assumption)
    · omega
  · rw [U_split N c r hlenr (by omega)]
    rw [Useg_zero _ c (N - c) (fun j _ => by rw [hall, if_neg (by omega)])]
    rw [Nat.mul_zero, Nat.add_zero]
    apply Useg_congr
    intro j hj
    rw [Nat.zero_add, hall, if_pos hj]

theorem do_shr_msd_ones (N : Nat) (b : Buf) (c m w : Nat) (is_signed : Bool)
    (hm : m < 4) (hc : c + 2 ≤ N) (hlen : b.length = N)
    (hcells : ∀ j, j < c + 1 → b.getD j 0 < 16) (ht : b.getD c 0 < 2 ^ (4 - m)) :
    Valid N (do_shr_msd N b (c + 1) 0xF m w is_signed true)
      ∧ U (do_shr_msd N b (c + 1) 0xF m w is_signed true) + 16 ^ c * 2 ^ (4 - m)
          + 16 ^ (c + 1) * (15 - ((shrs 15 m).1 ||| min_digit (w % 4)))
        = Useg b 0 (c + 1) + 16 ^ N := by
  have hbo : w % 4 < 4 := Nat.mod_lt _ (by omega)
  have htop := shr_top_lt m hm (w % 4) hbo
  obtain ⟨o1, o2⟩ := shrs_or _ (hcells c (by omega)) m hm ht 15 (by omega)
  have hF := shrs_fifteen m hm
  simp only [do_shr_msd, and3_eq_mod, Bool.not_true, Bool.false_and, Bool.false_eq_true,
    if_false, Bool.true_and, beq_self_eq_true, if_true, Nat.add_sub_cancel,
    if_pos (by omega : c + 1 > 0)]
  rw [getD_set_ne _ (c + 1) c _ (by omega), o1]
  generalize hct : (shrs 15 m).1 ||| min_digit (w % 4) = ctop at htop
  generalize he2 : (shrs 15 m).2 = e2 at o1 o2 hF
  have g : ∀ j, ((b.set (c + 1) ctop).set c (b.getD c 0 + e2)).getD j 0
      = if j = c then b.getD c 0 + e2 else if j = c + 1 then ctop else b.getD j 0 := by
    intro j
    by_cases h1 : j = c
    · rw [h1, getD_set_eq _ _ _ (by rw [List.length_set]; omega), if_pos rfl]
    · rw [getD_set_ne _ _ _ _ (by omega), if_neg h1]
      by_cases h2 : j = c + 1
      · rw [h2, getD_set_eq _ _ _ (by omega), if_pos rfl]
      · rw [getD_set_ne _ _ _ _ (by omega), if_neg h2]
  have hlen2 : ((b.set (c + 1) ctop).set c (b.getD c 0 + e2)).length = N := by
    rw [List.length_set, List.length_set, hlen]
  have hfill := fill_cells_getD 15 (N - (c + 1 + 1)) (c + 1 + 1)
    ((b.set (c + 1) ctop).set c (b.getD c 0 + e2))
  have hlenr : (fill_cells 15 (N - (c + 1 + 1)) (c + 1 + 1)
      ((b.set (c + 1) ctop).set c (b.getD c 0 + e2))).length = N := by
    rw [fill_cells_length, hlen2]
  have hall : ∀ j, j < N → (fill_cells 15 (N - (c + 1 + 1)) (c + 1 + 1)
      ((b.set (c + 1) ctop).set c (b.getD c 0 + e2))).getD j 0
      = if j < c then b.getD j 0 else if j = c then b.getD c 0 + e2
        else if j = c + 1 then ctop else 15 := by
    intro j hjN
    rw [hfill j (by omega), g]
    by_cases h1 : c + 1 + 1 ≤ j
    · rw [if_pos (by omega), if_neg (by omega), if_neg (by omega), if_neg (by omega)]
    · rw [if_neg (by omega)]
      by_cases h2 : j = c
      · rw [if_pos h2, if_neg (by omega), if_pos h2]
      · rw [if_neg h2, if_neg h2]
        by_cases h3 : j = c + 1
        · rw [if_pos h3, if_neg (by omega), if_pos h3]
        · rw [if_neg h3, if_pos (by omega)]
  generalize fill_cells 15 (N - (c + 1 + 1)) (c + 1 + 1)
      ((b.set (c + 1) ctop).set c (b.getD c 0 + e2)) = r at hlenr hall
  refine ⟨Valid_of_getD N _ hlenr ?_, ?_⟩
  · intro j hj
    rw [hall j hj]
    split_ifs
    · exact hcells j (by omega)
    · exact o2
    · exact htop
    · omega
  · rw [U_split N (c + 2) r hlenr (by omega)]
    have s3 := Useg_fifteen r (c + 2) (N - (c + 2)) (fun j hj => by
      rw [hall _ (by omega), if_neg (by omega), if_neg (by omega), if_neg (by omega)])
    have s0 : Useg r 0 c = Useg b 0 c := by
      apply Useg_congr
      intro j hj
      rw [Nat.zero_add, hall _ (by omega), if_pos hj]
    have s1 : r.getD c 0 = b.getD c 0 + e2 := by
      rw [hall _ (by omega), if_neg (by omega), if_pos rfl]
    have s2 : r.getD (c + 1) 0 = ctop := by
      rw [hall _ (by omega), if_neg (by omega), if_neg (by omega), if_pos rfl]
    have h16N : (16 : Nat) ^ N = 16 ^ (c + 2) * 16 ^ (N - (c + 2)) := by
      rw [← pow_add]; congr 1; omega
    simp only [Useg, Nat.zero_add]
    rw [s0, s1, s2, h16N]
    generalize Useg r (c + 2) (N - (c + 2)) = F at s3
    generalize 16 ^ (N - (c + 2)) = Q at s3 ⊢
    have p1 : (16 : Nat) ^ (c + 1) = 16 * 16 ^ c := by rw [pow_succ]; ring
    have p2 : (16 : Nat) ^ (c + 2) = 256 * 16 ^ c := by rw [pow_succ, pow_succ]; ring
    rw [p1, p2]
    have k1 : 16 ^ c * (b.getD c 0 + e2) + 16 ^ c * 2 ^ (4 - m)
        = 16 ^ c * b.getD c 0 + 16 * 16 ^ c := by
      rw [Nat.mul_add, Nat.add_assoc, ← Nat.mul_add, hF]; ring
    have k2 : 16 * 16 ^ c * ctop + 16 * 16 ^ c * (15 - ctop) = 240 * 16 ^ c := by
      rw [← Nat.mul_add]
      have : ctop + (15 - ctop) = 15 := by omega
      rw [this]; ring
    have k3 : 256 * 16 ^ c * F + 256 * 16 ^ c = 256 * 16 ^ c * Q := by
      rw [← s3]; ring
    omega

theorem low_bits (x : Buf) (hx : ∀ d ∈ x, d < 16) (w : Nat) (hw : 1 ≤ w) :
    U x % 2 ^ w
      = Useg x 0 ((w - 1) / 4) + 16 ^ ((w - 1) / 4) * (x.getD ((w - 1) / 4) 0 % 2 ^ ((w - 1) % 4 + 1)) := by
  have hwn : w = 4 * ((w - 1) / 4) + (w - 1) % 4 + 1 := by omega
  have hdvd : 2 ^ w ∣ 16 ^ ((w - 1) / 4 + 1) := by
    have : (16 : Nat) ^ ((w - 1) / 4 + 1) = 2 ^ (4 * ((w - 1) / 4 + 1)) := by
      rw [pow_mul]; norm_num
    rw [this]
    exact pow_dvd_pow 2 (by omega)
  have hP : Useg x 0 ((w - 1) / 4) < 16 ^ ((w - 1) / 4) :=
    Useg_lt _ _ _ (fun j _ => getD_lt x hx _)
  rw [← Nat.mod_mod_of_dvd _ hdvd, ← U_take_mod x hx, Useg_take]
  have hX : Useg x 0 ((w - 1) / 4 + 1)
      = Useg x 0 ((w - 1) / 4) + 16 ^ ((w - 1) / 4) * x.getD ((w - 1) / 4) 0 := by simp [Useg]
  rw [hX]
  have h := low_bits_split (Useg x 0 ((w - 1) / 4)) (x.getD ((w - 1) / 4) 0) ((w - 1) / 4)
    ((w - 1) % 4) hP
  rw [← hwn] at h
  exact h

theorem do_bit_iff (x : Buf) (hx : ∀ d ∈ x, d < 16) (w : Nat) (hw : 1 ≤ w) :
    do_bit x (w - 1) = true ↔ 2 ^ (w - 1) ≤ U x % 2 ^ w := by
  have hb : (w - 1) % 4 < 4 := Nat.mod_lt _ (by omega)
  have ht : x.getD ((w - 1) / 4) 0 < 16 := getD_lt x hx _
  have hP : Useg x 0 ((w - 1) / 4) < 16 ^ ((w - 1) / 4) :=
    Useg_lt _ _ _ (fun j _ => getD_lt x hx _)
  have hpow1 : (2 : Nat) ^ (w - 1) = 16 ^ ((w - 1) / 4) * 2 ^ ((w - 1) % 4) := by
    have : w - 1 = 4 * ((w - 1) / 4) + (w - 1) % 4 := by omega
    conv_lhs => rw [this]
    rw [pow_add, pow_mul]; norm_num
  simp only [do_bit, and3_eq_mod, shr2_eq_div]
  rw [bitisset_iff _ ht _ hb, low_bits x hx w hw, hpow1]
  constructor
  · intro h
    have h2 := Nat.mul_le_mul_left (16 ^ ((w - 1) / 4)) h
    omega
  · intro h
    by_contra hc
    have h1 : x.getD ((w - 1) / 4) 0 % 2 ^ ((w - 1) % 4 + 1) + 1 ≤ 2 ^ ((w - 1) % 4) := by omega
    have h2 := Nat.mul_le_mul_left (16 ^ ((w - 1) / 4)) h1
    rw [Nat.mul_add] at h2
    omega

theorem do_shr_unsigned_fill (N : Nat) (cf : Bool) (val buffer : Buf) (k w : Nat)
    (is_signed signed_shift : Bool) (hval : ∀ d ∈ val, d < 16) (hbuf : buffer.length = N)
    (hk : k < w) (hw : (w + 3) / 4 + 1 ≤ N)
    (hsign : (signed_shift && do_bit val (w - 1)) = false) :
    Valid N (do_shr N cf val buffer k w is_signed signed_shift).1
      ∧ U (do_shr N cf val buffer k w is_signed signed_shift).1
        = (U val % 16 ^ ((w + 3) / 4)) / 2 ^ k := by
  have hm : k % 4 < 4 := Nat.mod_lt _ (by omega)
  have hs : k / 4 + 1 ≤ (w + 3) / 4 := by omega
  obtain ⟨d1, d2, d3, d4, d5, d6⟩ := do_shr_digits_spec val buffer hval (k / 4) (k % 4) w hm hs
    (by omega)
  simp only [do_shr, hsign, Bool.false_eq_true, if_false, if_neg (by omega : ¬ k ≥ w),
    and3_eq_mod, shr2_eq_div]
  rw [d1]
  obtain ⟨z1, z2⟩ := do_shr_msd_zero N (do_shr_digits val buffer (k / 4) (k % 4) w).1
    ((w + 3) / 4 - k / 4) (k % 4) w is_signed signed_shift hm (by omega) (by omega)
    (by rw [d2, hbuf]) d4
  refine ⟨z1, ?_⟩
  rw [z2, d6, Useg_eq_div_mod val hval, shift_div_eq]
  have e1 : k / 4 + ((w + 3) / 4 - k / 4) = (w + 3) / 4 := by omega
  have e2 : 4 * (k / 4) + k % 4 = k := Nat.div_add_mod k 4
  rw [e1, e2]

theorem do_shr_signed_fill (N : Nat) (cf : Bool) (val buffer : Buf) (k w : Nat)
    (is_signed : Bool) (hval : ∀ d ∈ val, d < 16) (hbuf : buffer.length = N)
    (hk : k < w) (hw : (w + 3) / 4 + 1 ≤ N) (hsign : do_bit val (w - 1) = true) :
    Valid N (do_shr N cf val buffer k w is_signed true).1
      ∧ U (do_shr N cf val buffer k w is_signed true).1
          + 16 ^ ((w + 3) / 4 - k / 4 - 1) * 2 ^ (4 - k % 4)
          + 16 ^ ((w + 3) / 4 - k / 4) * (15 - ((shrs 15 (k % 4)).1 ||| min_digit (w % 4)))
        = (U val % 16 ^ ((w + 3) / 4)) / 2 ^ k + 16 ^ N := by
  have hm : k % 4 < 4 := Nat.mod_lt _ (by omega)
  have hs : k / 4 + 1 ≤ (w + 3) / 4 := by omega
  obtain ⟨d1, d2, d3, d4, d5, d6⟩ := do_shr_digits_spec val buffer hval (k / 4) (k % 4) w hm hs
    (by omega)
  simp only [do_shr, hsign, Bool.true_and, if_true, if_neg (by omega : ¬ k ≥ w),
    and3_eq_mod, shr2_eq_div]
  rw [d1]
  obtain ⟨c, hc⟩ : ∃ c, (w + 3) / 4 - k / 4 = c + 1 := ⟨(w + 3) / 4 - k / 4 - 1, by omega⟩
  rw [hc] at d4 d5 d6 ⊢
  rw [Nat.add_sub_cancel] at d5 ⊢
  obtain ⟨z1, z2⟩ := do_shr_msd_ones N (do_shr_digits val buffer (k / 4) (k % 4) w).1
    c (k % 4) w is_signed hm (by omega) (by rw [d2, hbuf]) d4 d5
  refine ⟨z1, ?_⟩
  rw [z2, d6, Useg_eq_div_mod val hval, shift_div_eq]
  have e1 : k / 4 + (c + 1) = (w + 3) / 4 := by omega
  have e2 : 4 * (k / 4) + k % 4 = k := Nat.div_add_mod k 4
  rw [e1, e2]

theorem do_shr_lost_iff (val : Buf) (k : Nat) : ∀ (c : Nat),
    do_shr_lost val k c = true ↔ Useg val c k ≠ 0 := by
  induction k with
  | zero => intro c; simp [do_shr_lost, Useg]
  | succ k ih =>
    intro c
    rw [do_shr_lost, Useg_succ_left]
    by_cases h : val.getD c 0 = 0
    · rw [if_neg (by simpa using h), ih (c + 1), h]
      constructor
      · intro h1; omega
      · intro h1 h2; rw [h2] at h1; omega
    · rw [if_pos h]
      constructor
      · intro _; omega
      · intro _; rfl

theorem and_mask_eq_mod (x m : Nat) : x &&& ((1 <<< m) - 1) = x % 2 ^ m := by
  rw [Nat.one_shiftLeft]
  exact Nat.and_pow_two_sub_one_eq_mod x m

theorem do_shr_carry_iff (val : Buf) (hval : ∀ d ∈ val, d < 16) (k : Nat) :
    do_shr_carry false val (k / 4) (k % 4) = true ↔ U val % 2 ^ k ≠ 0 := by
  have hm : k % 4 < 4 := Nat.mod_lt _ (by omega)
  have e2 : (2 : Nat) ^ k = 16 ^ (k / 4) * 2 ^ (k % 4) := by
    conv_lhs => rw [← Nat.div_add_mod k 4]
    rw [pow_add, pow_mul]; norm_num
  have hdig : (U val / 16 ^ (k / 4)) % 2 ^ (k % 4) = val.getD (k / 4) 0 % 2 ^ (k % 4) := by
    have h1 := U_div_pow val hval (k / 4)
    have hd : 2 ^ (k % 4) ∣ 16 := by
      have : (16 : Nat) = 2 ^ 4 := by norm_num
      rw [this]
      exact pow_dvd_pow 2 (by omega)
    rw [h1, Nat.add_mod, Nat.mul_mod, Nat.mod_eq_zero_of_dvd (n := 16) hd]
    simp
  have hseg : Useg val 0 (k / 4) = U val % 16 ^ (k / 4) := by
    rw [← Useg_take, U_take_mod val hval]
  have hp : 0 < 16 ^ (k / 4) := by positivity
  simp only [do_shr_carry, and_mask_eq_mod]
  rw [e2, Nat.mod_mul, hdig, ← hseg]
  by_cases h1 : do_shr_lost val (k / 4) 0 = true
  · have h1' := (do_shr_lost_iff val (k / 4) 0).mp h1
    simp only [h1, if_true]
    constructor
    · intro _; omega
    · intro _; split <;> rfl
  · have h1' : Useg val 0 (k / 4) = 0 := by
      by_contra hc
      exact h1 ((do_shr_lost_iff val (k / 4) 0).mpr hc)
    simp only [h1, Bool.false_eq_true, if_false, h1', Nat.zero_add]
    by_cases h2 : val.getD (k / 4) 0 % 2 ^ (k % 4) = 0
    · rw [if_neg (by simpa using h2), h2]; simp
    · rw [if_pos h2]
      constructor
      · intro _
        intro hc
        rcases Nat.mul_eq_zero.mp hc with h | h
        · omega
        · exact h2 h
      · intro _; rfl

/-! ## Shifts: the claims -/

theorem sext_mod (N w W x : Nat) (h : w ≤ 4 * W) : sext N w (x % 16 ^ W) = sext N w x := by
  have hdvd : 2 ^ w ∣ 16 ^ W := by
    have : (16 : Nat) ^ W = 2 ^ (4 * W) := by rw [pow_mul]; norm_num
    rw [this]
    exact pow_dvd_pow 2 h
  simp only [sext, Nat.mod_mod_of_dvd _ hdvd]

theorem sext_mod_self (N w x : Nat) : sext N w (x % 2 ^ w) = sext N w x := by
  simp only [sext, Nat.mod_mod]

theorem do_shl_signed_spec (N : Nat) (calc_buffer val : Buf) (k w : Nat)
    (hval : Valid N val) (hbuf : calc_buffer.length = N) (hw1 : 1 ≤ w) (hw : w ≤ 4 * N) :
    ∃ r, do_shl N val calc_buffer k w true = some r ∧ Valid N r
      ∧ U r = sext N w ((U val * 2 ^ k) % 2 ^ w) := by
  by_cases hk : k ≥ w
  · refine ⟨CLEAR_BUFFER N, ?_, CLEAR_BUFFER_valid N, ?_⟩
    · simp [do_shl, hk]
    · have hz : (U val * 2 ^ k) % 2 ^ w = 0 :=
        Nat.mod_eq_zero_of_dvd (Dvd.dvd.mul_left (pow_dvd_pow 2 hk) _)
      have hp : 0 < 2 ^ (w - 1) := by positivity
      rw [U_CLEAR_BUFFER, hz, sext, Nat.zero_mod, if_neg (by omega)]
  · have hk' : k < w := by omega
    obtain ⟨d1, d2, _, d4, d5⟩ := do_shl_digits_spec N val calc_buffer k w hval.2 hbuf hk' hw
    obtain ⟨m1, m2⟩ := do_shl_msb_signed N (do_shl_digits val calc_buffer k w).1 w hw1 hw d2 d4
    refine ⟨do_shl_msb N (do_shl_digits val calc_buffer k w).1 ((w + 3) / 4 - 1) w true, ?_,
      m1, ?_⟩
    · simp [do_shl, hk, d1]
    · rw [m2, d5, sext_mod N w _ _ (by omega), sext_mod_self]

/-- C14: in signed mode, for a bitsize `w` with `1 ≤ w ≤ 4 * N` (so in particular up to the
precision `2 * N`) and any shift count `k`, `sc_shlI` passes its assertion and produces the
buffer that is the sign extension from `w` bits over all `N` nibbles of
`(U val * 2 ^ k) mod 2 ^ w`; the result is zero whenever `k ≥ w`. -/
theorem sc_shlI_signed (N : Nat) (calc_buffer val : Buf) (k w : Nat)
    (hval : Valid N val) (hbuf : calc_buffer.length = N) (hw1 : 1 ≤ w) (hw : w ≤ 4 * N) :
    ∃ r, sc_shlI N calc_buffer val k w true = some (r, false) ∧ Valid N r
      ∧ U r = sext N w ((U val * 2 ^ k) % 2 ^ w)
      ∧ (w ≤ k → r = CLEAR_BUFFER N) := by
  obtain ⟨r, h1, h2, h3⟩ := do_shl_signed_spec N calc_buffer val k w hval hbuf hw1 hw
  refine ⟨r, ?_, h2, h3, ?_⟩
  · simp [sc_shlI, h1]
  · intro hk
    have : do_shl N val calc_buffer k w true = some (CLEAR_BUFFER N) := by
      simp [do_shl, hk]
    rw [this] at h1
    exact (Option.some.inj h1).symm

/-- C14, an instance: the byte `0x5A` shifted left by 2 at width 7 in a 4-nibble buffer
whose scratch contents are arbitrary. -/
theorem sc_shlI_signed_witness :
    Valid 4 [10, 5, 0, 0] ∧ [3, 7, 9, 1].length = 4 ∧ 1 ≤ 7 ∧ 7 ≤ 4 * 4
      ∧ ∃ r, sc_shlI 4 [3, 7, 9, 1] [10, 5, 0, 0] 2 7 true = some (r, false) ∧ Valid 4 r
        ∧ U r = sext 4 7 ((U [10, 5, 0, 0] * 2 ^ 2) % 2 ^ 7)
        ∧ (7 ≤ 2 → r = CLEAR_BUFFER 4) :=
  ⟨by decide, by decide, by decide, by decide,
    sc_shlI_signed 4 [3, 7, 9, 1] [10, 5, 0, 0] 2 7 (by decide) (by decide) (by decide)
      (by decide)⟩


theorem pow_two_le_pow_16 (w : Nat) : 2 ^ w ≤ 16 ^ ((w + 3) / 4) := by
  have : (16 : Nat) ^ ((w + 3) / 4) = 2 ^ (4 * ((w + 3) / 4)) := by rw [pow_mul]; norm_num
  rw [this]
  exact Nat.pow_le_pow_right (by decide) (by omega)

/-- C15: for a bitsize `w` up to the precision `2 * N`, a shift count `k < w` and a buffer
`val` with `U val < 2 ^ w`, the logical right shift `sc_shrI` produces the buffer whose
unsigned value is `U val / 2 ^ k`, whatever the `sign` parameter. -/
theorem sc_shrI_logical (N : Nat) (calc_buffer val : Buf) (k w : Nat) (sign : Bool)
    (hN : 2 ≤ N) (hval : Valid N val) (hbuf : calc_buffer.length = N)
    (hk : k < w) (hw : w ≤ 2 * N) (hU : U val < 2 ^ w) :
    Valid N (sc_shrI N calc_buffer val k w sign).1
      ∧ U (sc_shrI N calc_buffer val k w sign).1 = U val / 2 ^ k := by
  obtain ⟨h1, h2⟩ := do_shr_unsigned_fill N false val calc_buffer k w sign false hval.2 hbuf hk
    (by omega) rfl
  refine ⟨h1, ?_⟩
  have hlt : U val < 16 ^ ((w + 3) / 4) := lt_of_lt_of_le hU (pow_two_le_pow_16 w)
  simp only [sc_shrI]
  rw [h2, Nat.mod_eq_of_lt hlt]

/-- C15, an instance: `0x5A` shifted right by 3 at width 7, with either sign parameter
(here `true`), in a 4-nibble buffer. -/
theorem sc_shrI_logical_witness :
    2 ≤ 4 ∧ Valid 4 [10, 5, 0, 0] ∧ [3, 7, 9, 1].length = 4 ∧ 3 < 7 ∧ 7 ≤ 2 * 4
      ∧ U [10, 5, 0, 0] < 2 ^ 7
      ∧ Valid 4 (sc_shrI 4 [3, 7, 9, 1] [10, 5, 0, 0] 3 7 true).1
      ∧ U (sc_shrI 4 [3, 7, 9, 1] [10, 5, 0, 0] 3 7 true).1 = U [10, 5, 0, 0] / 2 ^ 3 :=
  ⟨by decide, by decide, by decide, by decide, by decide, by decide,
    sc_shrI_logical 4 [3, 7, 9, 1] [10, 5, 0, 0] 3 7 true (by decide) (by decide) (by decide)
      (by decide) (by decide) (by decide)⟩

theorem do_shr_flag (N : Nat) (val buffer : Buf) (k w : Nat) (is_signed signed_shift : Bool)
    (hval : ∀ d ∈ val, d < 16) (hk : k < w) :
    (do_shr N false val buffer k w is_signed signed_shift).2 = true ↔ U val % 2 ^ k ≠ 0 := by
  simp only [do_shr, if_neg (by omega : ¬ k ≥ w), and3_eq_mod, shr2_eq_div]
  exact do_shr_carry_iff val hval k

/-- C17: for a shift count `k < w`, both `sc_shrI` and `sc_shrsI` return true (the
`carry_flag`) exactly when one of the `k` low bits of `val` is set, that is when
`U val mod 2 ^ k` is not zero. -/
theorem sc_shr_carry_flag (N : Nat) (calc_buffer val : Buf) (k w : Nat) (sign : Bool)
    (hval : Valid N val) (hk : k < w) :
    ((sc_shrI N calc_buffer val k w sign).2 = true ↔ U val % 2 ^ k ≠ 0)
      ∧ ((sc_shrsI N calc_buffer val k w sign).2 = true ↔ U val % 2 ^ k ≠ 0) :=
  ⟨do_shr_flag N val calc_buffer k w sign false hval.2 hk,
    do_shr_flag N val calc_buffer k w sign true hval.2 hk⟩

/-- C17, an instance: `0x5A` shifted right by 6 at width 7 loses the set bits 1, 3 and 4. -/
theorem sc_shr_carry_flag_witness :
    Valid 4 [10, 5, 0, 0] ∧ 6 < 7
      ∧ ((sc_shrI 4 [3, 7, 9, 1] [10, 5, 0, 0] 6 7 true).2 = true
          ↔ U [10, 5, 0, 0] % 2 ^ 6 ≠ 0)
      ∧ ((sc_shrsI 4 [3, 7, 9, 1] [10, 5, 0, 0] 6 7 true).2 = true
          ↔ U [10, 5, 0, 0] % 2 ^ 6 ≠ 0) :=
  ⟨by decide, by decide,
    sc_shr_carry_flag 4 [3, 7, 9, 1] [10, 5, 0, 0] 6 7 true (by decide) (by decide)⟩

set_option maxRecDepth 1000000 in
/-- C18: with `calc_buffer_size = 32` (precision 64), the value `2^32` (nibble 8 is 1)
shifted right by 64 at width 64: every nibble of the output is the sign fill 0, but the
returned `carry_flag` is false although `val` is not zero, for the logical and for the
arithmetic shift: `do_shr` tests `val` with `sc_is_zero(val1, calc_buffer_size)`, which
looks at the lowest 32 bits only. -/
theorem sc_shr_far_misses_high_nibbles :
    sc_shrI 32 (CLEAR_BUFFER 32) (sc_val_from_long 32 (2 ^ 32)) 64 64 false
        = (List.replicate 32 0, false)
      ∧ sc_shrsI 32 (CLEAR_BUFFER 32) (sc_val_from_long 32 (2 ^ 32)) 64 64 true
        = (List.replicate 32 0, false)
      ∧ (sc_val_from_long 32 (2 ^ 32)).getD 8 0 = 1
      ∧ U (sc_val_from_long 32 (2 ^ 32)) = 2 ^ 32 := by
  decide

/-- C20: with `calc_buffer_size = 4`, `sign_extend` from 1 bit of the buffer `2` (bit 0
clear, bit 1 set): the test `buffer[nibble] > max_digit[0]` takes the sign-fill branch
although bit 0 is clear, and every bit above bit 0 ends up set.  From 3 bits, the buffer
`8` (bit 2 clear) is extended to `0xFFF8`. -/
theorem sign_extend_fills_on_clear_sign_bit :
    do_bit [2, 0, 0, 0] (1 - 1) = false
      ∧ sign_extend 4 [2, 0, 0, 0] 1 true = [14, 15, 15, 15]
      ∧ do_bit [8, 0, 0, 0] (3 - 1) = false
      ∧ sign_extend 4 [8, 0, 0, 0] 3 true = [8, 15, 15, 15] := by
  decide


theorem shrs_neg_arith (R x t k w W N : Nat) (hk : k < w) (hwW : w ≤ 4 * W) (hWN : W ≤ N)
    (h : R + 2 ^ (4 * W - k) + 2 ^ w * t = (x + (16 ^ W - 2 ^ w)) / 2 ^ k + 16 ^ N) :
    ((R % 2 ^ w : Nat) : Int) = Int.fdiv ((x : Int) - 2 ^ w) (2 ^ k) % 2 ^ w := by
  have hA : 0 < 2 ^ k := by positivity
  have e1 : (2 : Nat) ^ w = 2 ^ (w - k) * 2 ^ k := by
    rw [← pow_add]; congr 1; omega
  have e2 : (16 : Nat) ^ W = 2 ^ (4 * W - w) * 2 ^ w := by
    have : (16 : Nat) ^ W = 2 ^ (4 * W) := by rw [pow_mul]; norm_num
    rw [this, ← pow_add]; congr 1; omega
  have e3 : (16 : Nat) ^ N = 2 ^ (4 * N - w) * 2 ^ w := by
    have : (16 : Nat) ^ N = 2 ^ (4 * N) := by rw [pow_mul]; norm_num
    rw [this, ← pow_add]; congr 1; omega
  have e4 : (2 : Nat) ^ (4 * W - k) = 2 ^ (4 * W - w) * 2 ^ (w - k) := by
    rw [← pow_add]; congr 1; omega
  have hC : 1 ≤ 2 ^ (4 * W - w) := Nat.one_le_two_pow
  have hCB : 2 ^ (w - k) ≤ 2 ^ (4 * W - w) * 2 ^ (w - k) := Nat.le_mul_of_pos_left _ hC
  have e5 : 16 ^ W - 2 ^ w = (2 ^ (4 * W - w) * 2 ^ (w - k) - 2 ^ (w - k)) * 2 ^ k := by
    rw [e2, Nat.sub_mul, ← e1, Nat.mul_assoc, ← e1]
  rw [e5, Nat.add_mul_div_right _ _ hA, e4, e3] at h
  have ha : (x : Int) / 2 ^ k = ((x / 2 ^ k : Nat) : Int) := by
    push_cast; rfl
  have e6 : ((x : Int) - 2 ^ w) / 2 ^ k = ((x / 2 ^ k : Nat) : Int) - 2 ^ (w - k) := by
    have hw2 : (2 : Int) ^ w = 2 ^ (w - k) * 2 ^ k := by exact_mod_cast e1
    have hne : (2 : Int) ^ k ≠ 0 := by positivity
    rw [hw2, sub_eq_add_neg, ← neg_mul, Int.add_mul_ediv_right _ _ hne, ha]
    ring
  rw [Int.fdiv_eq_ediv _ (by positivity), e6]
  generalize x / 2 ^ k = a at h
  have h' : R + 2 ^ (w - k) + 2 ^ w * t = a + 2 ^ (4 * N - w) * 2 ^ w := by omega
  have hR : (R : Int) = (a : Int) - 2 ^ (w - k) + 2 ^ w * ((2 ^ (4 * N - w) : Int) - t) := by
    have h2 : ((R + 2 ^ (w - k) + 2 ^ w * t : Nat) : Int)
        = ((a + 2 ^ (4 * N - w) * 2 ^ w : Nat) : Int) := by rw [h']
    push_cast at h2
    linear_combination h2
  rw [Int.natCast_mod, hR]
  push_cast
  rw [Int.add_mul_emod_self_left]

theorem sext_clear (N w x : Nat) (h : x % 2 ^ w < 2 ^ (w - 1)) : sext N w x = x % 2 ^ w := by
  rw [sext, if_neg (by omega)]

theorem sext_set (N w x : Nat) (h : 2 ^ (w - 1) ≤ x % 2 ^ w) :
    sext N w x = x % 2 ^ w + (16 ^ N - 2 ^ w) := by
  rw [sext, if_pos h]

/-- Where the arithmetic right shift is exact: for a bitsize `w` up to the precision
`2 * N`, a shift count `k < w` and a buffer `val` whose boundary nibble is sign-extended
from bit `w - 1` (the bits `w, ..., 4 * ((w + 3) / 4) - 1` equal bit `w - 1`), in the cases
`w % 4 = 0`, `k < 4`, `k % 4 + w % 4 ≤ 4` or bit `w - 1` clear, the low `w` bits of
`sc_shrsI` are the `w`-bit two's-complement encoding of the floor of `V / 2 ^ k`, where `V`
is the `w`-bit two's-complement interpretation of the low `w` bits of `val`.  The remaining
case, a negative `val` with `k ≥ 4` and `k % 4 + w % 4 > 4`, is where `do_shr` writes a
wrong most significant digit. -/
theorem sc_shrsI_arithmetic (N : Nat) (calc_buffer val : Buf) (k w : Nat) (sign : Bool)
    (hN : 2 ≤ N) (hval : Valid N val) (hbuf : calc_buffer.length = N)
    (hk : k < w) (hw : w ≤ 2 * N)
    (hnorm : U val % 16 ^ ((w + 3) / 4) = sext ((w + 3) / 4) w (U val))
    (hreg : w % 4 = 0 ∨ k < 4 ∨ k % 4 + w % 4 ≤ 4 ∨ U val % 2 ^ w < 2 ^ (w - 1)) :
    Valid N (sc_shrsI N calc_buffer val k w sign).1
      ∧ ((U (sc_shrsI N calc_buffer val k w sign).1 % 2 ^ w : Nat) : Int)
        = Int.fdiv (tc_value w (U val)) (2 ^ k) % 2 ^ w := by
  have hW : (w + 3) / 4 + 1 ≤ N := by omega
  have hbit := do_bit_iff val hval.2 w (by omega)
  have hxw : U val % 2 ^ w < 2 ^ w := Nat.mod_lt _ (by positivity)
  by_cases hs : 2 ^ (w - 1) ≤ U val % 2 ^ w
  · obtain ⟨h1, h2⟩ := do_shr_signed_fill N false val calc_buffer k w sign hval.2 hbuf hk hW
      (hbit.mpr hs)
    refine ⟨h1, ?_⟩
    simp only [sc_shrsI, tc_value, if_pos hs]
    rw [hnorm, sext_set _ _ _ hs] at h2
    have hm : k % 4 < 4 := Nat.mod_lt _ (by omega)
    have hbo : w % 4 < 4 := Nat.mod_lt _ (by omega)
    have p1 : 16 ^ ((w + 3) / 4 - k / 4 - 1) * 2 ^ (4 - k % 4) = 2 ^ (4 * ((w + 3) / 4) - k) := by
      have : (16 : Nat) ^ ((w + 3) / 4 - k / 4 - 1) = 2 ^ (4 * ((w + 3) / 4 - k / 4 - 1)) := by
        rw [pow_mul]; norm_num
      rw [this, ← pow_add]; congr 1; omega
    have p2 : ∃ t, 16 ^ ((w + 3) / 4 - k / 4)
        * (15 - ((shrs 15 (k % 4)).1 ||| min_digit (w % 4))) = 2 ^ w * t := by
      by_cases hfull : w % 4 = 0 ∨ k % 4 + w % 4 ≤ 4
      · refine ⟨0, ?_⟩
        rw [shr_top_full _ hm _ hbo hfull]
        simp
      · have hk4 : k / 4 = 0 := by
          rcases hreg with h | h | h | h
          · exact absurd (Or.inl h) hfull
          · omega
          · exact absurd (Or.inr h) hfull
          · omega
        refine ⟨2 ^ (4 * ((w + 3) / 4) - w)
          * (15 - ((shrs 15 (k % 4)).1 ||| min_digit (w % 4))), ?_⟩
        have : (16 : Nat) ^ ((w + 3) / 4 - k / 4) = 2 ^ w * 2 ^ (4 * ((w + 3) / 4) - w) := by
          have e : (16 : Nat) ^ ((w + 3) / 4 - k / 4) = 2 ^ (4 * ((w + 3) / 4 - k / 4)) := by
            rw [pow_mul]; norm_num
          rw [e, ← pow_add]; congr 1; omega
        rw [this, Nat.mul_assoc]
    obtain ⟨t, ht⟩ := p2
    rw [p1, ht] at h2
    have := shrs_neg_arith _ (U val % 2 ^ w) t k w ((w + 3) / 4) N hk (by omega) (by omega) h2
    push_cast at this ⊢
    exact this
  · obtain ⟨h1, h2⟩ := do_shr_unsigned_fill N false val calc_buffer k w sign true hval.2 hbuf hk
      hW (by simp only [Bool.true_and]; exact Bool.eq_false_iff.mpr (fun h => hs (hbit.mp h)))
    refine ⟨h1, ?_⟩
    simp only [sc_shrsI, tc_value, if_neg hs]
    rw [h2, hnorm, sext_clear _ _ _ (by omega)]
    have hlt : U val % 2 ^ w / 2 ^ k < 2 ^ w := lt_of_le_of_lt (Nat.div_le_self _ _) hxw
    rw [Nat.mod_eq_of_lt hlt, Int.fdiv_eq_ediv _ (by positivity)]
    have hnn : (0 : Int) ≤ ((U val % 2 ^ w / 2 ^ k : Nat) : Int) := Int.natCast_nonneg _
    have hlt' : ((U val % 2 ^ w / 2 ^ k : Nat) : Int) < 2 ^ w := by exact_mod_cast hlt
    have e : ((U val % 2 ^ w : Nat) : Int) / 2 ^ k = ((U val % 2 ^ w / 2 ^ k : Nat) : Int) := by
      push_cast; rfl
    rw [e, Int.emod_eq_of_lt hnn hlt']


/-- An instance, the example of the specification: `0x80000001` shifted arithmetically
right by 1 at width 32 gives `0xC0000000` (and the carry flag, for the lost bit) in a
16-nibble buffer. -/
theorem sc_shrsI_arithmetic_witness :
    2 ≤ 16 ∧ Valid 16 [1, 0, 0, 0, 0, 0, 0, 8, 0, 0, 0, 0, 0, 0, 0, 0]
      ∧ (CLEAR_BUFFER 16).length = 16 ∧ 1 < 32 ∧ 32 ≤ 2 * 16
      ∧ U [1, 0, 0, 0, 0, 0, 0, 8, 0, 0, 0, 0, 0, 0, 0, 0] % 16 ^ ((32 + 3) / 4)
          = sext ((32 + 3) / 4) 32 (U [1, 0, 0, 0, 0, 0, 0, 8, 0, 0, 0, 0, 0, 0, 0, 0])
      ∧ (Valid 16
            (sc_shrsI 16 (CLEAR_BUFFER 16) [1, 0, 0, 0, 0, 0, 0, 8, 0, 0, 0, 0, 0, 0, 0, 0]
              1 32 true).1
          ∧ ((U (sc_shrsI 16 (CLEAR_BUFFER 16)
                [1, 0, 0, 0, 0, 0, 0, 8, 0, 0, 0, 0, 0, 0, 0, 0] 1 32 true).1 % 2 ^ 32 : Nat) : Int)
            = Int.fdiv (tc_value 32 (U [1, 0, 0, 0, 0, 0, 0, 8, 0, 0, 0, 0, 0, 0, 0, 0])) (2 ^ 1)
                % 2 ^ 32)
      ∧ U (sc_shrsI 16 (CLEAR_BUFFER 16) [1, 0, 0, 0, 0, 0, 0, 8, 0, 0, 0, 0, 0, 0, 0, 0]
            1 32 true).1 % 2 ^ 32 = 0xC0000000
      ∧ (sc_shrsI 16 (CLEAR_BUFFER 16) [1, 0, 0, 0, 0, 0, 0, 8, 0, 0, 0, 0, 0, 0, 0, 0]
            1 32 true).2 = true :=
  ⟨by decide, by decide, by decide, by decide, by decide, by decide,
    sc_shrsI_arithmetic 16 (CLEAR_BUFFER 16) [1, 0, 0, 0, 0, 0, 0, 8, 0, 0, 0, 0, 0, 0, 0, 0]
      1 32 true (by decide) (by decide) (by decide) (by decide) (by decide) (by decide)
      (Or.inl (by decide)),
    by decide, by decide⟩

/-- C16: with `calc_buffer_size = 8` (precision 16), the value -1 (all nibbles `0xF`)
shifted arithmetically right by 7 at width 10.  The floor of `-1 / 2 ^ 7` is -1, whose
10-bit encoding is 1023, but the low 10 bits of the result are 511: the most significant
digit written at index 2 is `shrs_table[15][3][0] | min_digit[2] = 1 | 12 = 13`, so bit 9
of the result is clear, where the comment of `do_shr` on that digit says that all bits to
the left are set.  Second instance, with `calc_buffer_size = 4`: the buffer `2` at width 2
(bit 1 set, the bits 2 and 3 of the boundary nibble clear) shifted by 1 gives low bits 1
where the encoding of the floor of `-2 / 2` is 3. -/
theorem sc_shrsI_not_arithmetic :
    (Valid 8 [15, 15, 15, 15, 15, 15, 15, 15] ∧ 7 < 10 ∧ 10 ≤ 2 * 8
      ∧ sc_shrsI 8 (CLEAR_BUFFER 8) [15, 15, 15, 15, 15, 15, 15, 15] 7 10 true
          = ([15, 15, 13, 15, 15, 15, 15, 15], true)
      ∧ ((U (sc_shrsI 8 (CLEAR_BUFFER 8) [15, 15, 15, 15, 15, 15, 15, 15] 7 10 true).1
            % 2 ^ 10 : Nat) : Int) = 511
      ∧ Int.fdiv (tc_value 10 (U [15, 15, 15, 15, 15, 15, 15, 15])) (2 ^ 7) % 2 ^ 10 = 1023)
    ∧ (Valid 4 [2, 0, 0, 0] ∧ 1 < 2 ∧ 2 ≤ 2 * 4
      ∧ sc_shrsI 4 (CLEAR_BUFFER 4) [2, 0, 0, 0] 1 2 true = ([9, 15, 15, 15], false)
      ∧ ((U (sc_shrsI 4 (CLEAR_BUFFER 4) [2, 0, 0, 0] 1 2 true).1 % 2 ^ 2 : Nat) : Int) = 1
      ∧ Int.fdiv (tc_value 2 (U [2, 0, 0, 0])) (2 ^ 1) % 2 ^ 2 = 3) := by
  decide


theorem sext_mod_pow (N W w y : Nat) (hW : W ≤ N) (hw : w ≤ 4 * W) :
    sext N w y % 16 ^ W = sext W w y := by
  have hlt : y % 2 ^ w < 2 ^ w := Nat.mod_lt _ (by positivity)
  have h2 : 2 ^ w ≤ 16 ^ W := by
    have : (16 : Nat) ^ W = 2 ^ (4 * W) := by rw [pow_mul]; norm_num
    rw [this]
    exact Nat.pow_le_pow_right (by decide) hw
  have hN : (16 : Nat) ^ N = 16 ^ W * 16 ^ (N - W) := by
    rw [← pow_add]; congr 1; omega
  have h1 : 1 ≤ 16 ^ (N - W) := Nat.one_le_pow _ _ (by decide)
  simp only [sext]
  split
  · have e : y % 2 ^ w + (16 ^ N - 2 ^ w)
        = (y % 2 ^ w + (16 ^ W - 2 ^ w)) + 16 ^ W * (16 ^ (N - W) - 1) := by
      rw [hN, Nat.mul_sub, Nat.mul_one]
      have : 16 ^ W ≤ 16 ^ W * 16 ^ (N - W) := Nat.le_mul_of_pos_right _ h1
      omega
    rw [e, Nat.add_mul_mod_self_left, Nat.mod_eq_of_lt (by omega)]
  · exact Nat.mod_eq_of_lt (by omega)

theorem sext_full (W w y : Nat) (h : 16 ^ W = 2 ^ w) : sext W w y = y % 2 ^ w := by
  simp only [sext, h, Nat.sub_self, Nat.add_zero, ite_self]

theorem mul_mod_div_pow (a k w : Nat) (hk : k ≤ w) :
    (a * 2 ^ k) % 2 ^ w / 2 ^ k = a % 2 ^ (w - k) := by
  have e : (2 : Nat) ^ w = 2 ^ (w - k) * 2 ^ k := by
    rw [← pow_add]; congr 1; omega
  rw [e, Nat.mul_mod_mul_right, Nat.mul_div_cancel _ (by positivity)]

theorem do_shl_unsigned_spec (N : Nat) (calc_buffer val : Buf) (k w : Nat)
    (hval : Valid N val) (hpos : do_sign N val ≠ -1) (hbuf : Valid N calc_buffer)
    (hk : k < w) (hw : w ≤ 4 * N) :
    ∃ r, do_shl N val calc_buffer k w false = some r ∧ Valid N r
      ∧ U r % 16 ^ ((w + 3) / 4) = (U val * 2 ^ k) % 16 ^ ((w + 3) / 4) := by
  obtain ⟨d1, d2, d3, d4, d5⟩ := do_shl_digits_spec N val calc_buffer k w hval.2 hbuf.1 hk hw
  have hv : Valid N (do_shl_digits val calc_buffer k w).1 := by
    refine ⟨d2, ?_⟩
    intro d hd
    obtain ⟨j, hj, rfl⟩ := List.getElem_of_mem hd
    have e : (do_shl_digits val calc_buffer k w).1[j]
        = (do_shl_digits val calc_buffer k w).1.getD j 0 := by
      rw [List.getD_eq_getElem _ _ hj]
    rw [e]
    by_cases hjw : j < (w + 3) / 4
    · exact d4 j hjw
    · rw [d3 j (by omega)]
      exact getD_lt calc_buffer hbuf.2 j
  refine ⟨(do_shl_digits val calc_buffer k w).1, ?_, hv, ?_⟩
  · have hkw : ¬ k ≥ w := by omega
    simp only [do_shl, hpos, false_and, if_false, if_neg hkw, do_shl_msb, Bool.false_and,
      Bool.false_eq_true]
  · rw [← U_take_mod _ hv.2, Useg_take, d5]

/-- Where the shift round trip is exact: for a width `w` up to the precision `2 * N`, a
shift count `k < w`, a non-negative buffer `x` and a scratch buffer of nibbles, shifting
`x` left by `k` at width `w` with `sc_shlI` and the result logically right by `k` with
`sc_shrI` yields `U x mod 2 ^ (w - k)`, provided `w` is a multiple of 4 or the shifted
value stays inside the width: in signed mode bit `w - 1` of `U x * 2 ^ k` is clear, in
unsigned mode `U x * 2 ^ k` has no bit set at the positions
`w, ..., 4 * ((w + 3) / 4) - 1` of the boundary nibble. -/
theorem shl_shr_round_trip (N : Nat) (cb1 cb2 x : Buf) (k w : Nat) (sign : Bool)
    (hN : 2 ≤ N) (hx : Valid N x) (hpos : do_sign N x ≠ -1) (hcb1 : Valid N cb1)
    (hcb2 : cb2.length = N) (hk : k < w) (hw : w ≤ 2 * N)
    (hreg : w % 4 = 0 ∨
      (if sign = true then (U x * 2 ^ k) % 2 ^ w < 2 ^ (w - 1)
        else (U x * 2 ^ k) % 16 ^ ((w + 3) / 4) < 2 ^ w)) :
    ∃ r1, sc_shlI N cb1 x k w sign = some (r1, false)
      ∧ Valid N (sc_shrI N cb2 r1 k w sign).1
      ∧ U (sc_shrI N cb2 r1 k w sign).1 = U x % 2 ^ (w - k) := by
  have hW : (w + 3) / 4 + 1 ≤ N := by omega
  have hdvd : 2 ^ w ∣ 16 ^ ((w + 3) / 4) := by
    have : (16 : Nat) ^ ((w + 3) / 4) = 2 ^ (4 * ((w + 3) / 4)) := by rw [pow_mul]; norm_num
    rw [this]
    exact pow_dvd_pow 2 (by omega)
  have h4 : w % 4 = 0 → (16 : Nat) ^ ((w + 3) / 4) = 2 ^ w := by
    intro h
    have : (16 : Nat) ^ ((w + 3) / 4) = 2 ^ (4 * ((w + 3) / 4)) := by rw [pow_mul]; norm_num
    rw [this]; congr 1; omega
  cases sign with
  | false =>
    obtain ⟨r1, s1, s2, s3⟩ := do_shl_unsigned_spec N cb1 x k w hx hpos hcb1 hk (by omega)
    obtain ⟨t1, t2⟩ := do_shr_unsigned_fill N false r1 cb2 k w false false s2.2 hcb2 hk hW rfl
    refine ⟨r1, by simp [sc_shlI, s1], t1, ?_⟩
    simp only [sc_shrI]
    rw [t2, s3]
    have hY : (U x * 2 ^ k) % 16 ^ ((w + 3) / 4) = (U x * 2 ^ k) % 2 ^ w := by
      rcases hreg with h | h
      · rw [h4 h]
      · simp only [Bool.false_eq_true, if_false] at h
        rw [← Nat.mod_mod_of_dvd _ hdvd, Nat.mod_eq_of_lt h]
    rw [hY, mul_mod_div_pow _ _ _ hk.le]
  | true =>
    obtain ⟨r1, s1, s2, s3⟩ := do_shl_signed_spec N cb1 x k w hx hcb1.1 (by omega) (by omega)
    obtain ⟨t1, t2⟩ := do_shr_unsigned_fill N false r1 cb2 k w true false s2.2 hcb2 hk hW rfl
    refine ⟨r1, by simp [sc_shlI, s1], t1, ?_⟩
    simp only [sc_shrI]
    rw [t2, s3, sext_mod_pow N _ w _ (by omega) (by omega), sext_mod_self]
    have hY : sext ((w + 3) / 4) w (U x * 2 ^ k) = (U x * 2 ^ k) % 2 ^ w := by
      rcases hreg with h | h
      · exact sext_full _ _ _ (h4 h)
      · simp only [if_true] at h
        exact sext_clear _ _ _ h
    rw [hY, mul_mod_div_pow _ _ _ hk.le]

/-- An instance: the unsigned byte `0x1D` shifted left and back by 2 at width 7 keeps its
low 5 bits. -/
theorem shl_shr_round_trip_witness :
    2 ≤ 4 ∧ Valid 4 [13, 1, 0, 0] ∧ do_sign 4 [13, 1, 0, 0] ≠ -1 ∧ Valid 4 [3, 7, 9, 1]
      ∧ [3, 7, 9, 1].length = 4 ∧ 2 < 7 ∧ 7 ≤ 2 * 4
      ∧ (7 % 4 = 0 ∨
          (if false = true then (U [13, 1, 0, 0] * 2 ^ 2) % 2 ^ 7 < 2 ^ (7 - 1)
            else (U [13, 1, 0, 0] * 2 ^ 2) % 16 ^ ((7 + 3) / 4) < 2 ^ 7))
      ∧ ∃ r1, sc_shlI 4 [3, 7, 9, 1] [13, 1, 0, 0] 2 7 false = some (r1, false)
        ∧ Valid 4 (sc_shrI 4 [3, 7, 9, 1] r1 2 7 false).1
        ∧ U (sc_shrI 4 [3, 7, 9, 1] r1 2 7 false).1 = U [13, 1, 0, 0] % 2 ^ (7 - 2) :=
  ⟨by decide, by decide, by decide, by decide, by decide, by decide, by decide, by decide,
    shl_shr_round_trip 4 [3, 7, 9, 1] [3, 7, 9, 1] [13, 1, 0, 0] 2 7 false (by decide)
      (by decide) (by decide) (by decide) (by decide) (by decide) (by decide) (by decide)⟩

/-- C19: with `calc_buffer_size = 4` (precision 8), width 6 and shift count 1.  Unsigned,
`x = 32`: the left shift leaves 64 in the buffer (bit 6 of the boundary nibble is not
cleared, as the signed branch of `do_shl` would) and the right shift returns 32, where
`32 mod 2 ^ 5 = 0`.  Signed, `x = 16`: the left shift gives 32, whose bit 5 is set, so the
buffer is sign-extended to `0xFFE0`, and the logical right shift returns `0x70 = 112`,
where `16 mod 2 ^ 5 = 16`: the sign bits 6 and 7 of the boundary nibble are shifted down,
the mask of `do_shr` that is to remove them being applied to the zero digit `msd`. -/
theorem shl_shr_not_masked :
    (Valid 4 [0, 2, 0, 0] ∧ do_sign 4 [0, 2, 0, 0] ≠ -1 ∧ 1 < 6 ∧ 6 ≤ 2 * 4
      ∧ sc_shlI 4 (CLEAR_BUFFER 4) [0, 2, 0, 0] 1 6 false = some ([0, 4, 0, 0], false)
      ∧ sc_shrI 4 [0, 4, 0, 0] [0, 4, 0, 0] 1 6 false = ([0, 2, 0, 0], false)
      ∧ U [0, 2, 0, 0] % 2 ^ (6 - 1) = 0 ∧ U [0, 2, 0, 0] = 32)
    ∧ (Valid 4 [0, 1, 0, 0] ∧ do_sign 4 [0, 1, 0, 0] ≠ -1
      ∧ sc_shlI 4 (CLEAR_BUFFER 4) [0, 1, 0, 0] 1 6 true = some ([0, 14, 15, 15], false)
      ∧ sc_shrI 4 [0, 14, 15, 15] [0, 14, 15, 15] 1 6 true = ([0, 7, 0, 0], false)
      ∧ U [0, 1, 0, 0] % 2 ^ (6 - 1) = 16 ∧ U [0, 7, 0, 0] = 112) := by
  decide

/-! ## Numerals -/

theorem U_eq_ofDigits (x : Buf) : U x = Nat.ofDigits 16 x := by
  induction x with
  | nil => rfl
  | cons d t ih => rw [Nat.ofDigits_cons, ← ih]; rfl

theorem big_digits_eq : ∀ d, d < 16 → big_digits.getD d '0' = hex_upper d := by decide

theorem small_digits_eq : ∀ d, d < 10 → small_digits.getD d '0' = Nat.digitChar d := by decide

theorem hex_upper_zero : ∀ d, d < 16 → (hex_upper d = '0' ↔ d = 0) := by decide

theorem digitChar_zero : ∀ d, d < 10 → (Nat.digitChar d = '0' ↔ d = 0) := by decide

theorem binary_table_eq : ∀ d, d < 16 →
    binary_table.getD d [] = [d / 8 % 2, d / 4 % 2, d / 2 % 2, d % 2].map Nat.digitChar := by
  decide

theorem and_zex_digit : ∀ x, x < 16 → ∀ r, r < 4 → r ≠ 0 →
    x &&& zex_digit (r - 1) = x % 2 ^ r := by decide

theorem kill_zeros_numeral (b : Nat) (hb : 1 < b) (ch : Nat → Char)
    (hch : ∀ d, d < b → (ch d = '0' ↔ d = 0)) :
    ∀ rs : List Nat, rs ≠ [] → (∀ d ∈ rs, d < b) →
      kill_zeros rs.length (rs.map ch) = numeral b ch (Nat.ofDigits b rs.reverse) := by
  intro rs
  induction rs with
  | nil => intro h; exact absurd rfl h
  | cons d t ih =>
    intro _ hd
    have hdb : d < b := hd d (List.mem_cons_self _ _)
    cases t with
    | nil =>
      simp only [List.length_singleton, List.map_cons, List.map_nil, kill_zeros,
        List.reverse_singleton, Nat.ofDigits_singleton, numeral]
      by_cases h0 : d = 0
      · simp [h0]
      · rw [if_neg h0, Nat.digits_of_lt b d h0 hdb]
        rfl
    | cons e t2 =>
      have ih2 := ih (List.cons_ne_nil _ _) (fun x hx => hd x (List.mem_cons_of_mem _ hx))
      have hlen : (d :: e :: t2).length = t2.length + 2 := rfl
      rw [hlen, List.map_cons]
      simp only [kill_zeros, List.head?_cons, List.tail_cons]
      by_cases h0 : d = 0
      · have hc : ch d = '0' := (hch d hdb).mpr h0
        rw [if_neg (by simp [hc])]
        have hl2 : t2.length + 1 = (e :: t2).length := rfl
        rw [hl2, ih2, List.reverse_cons (a := d), Nat.ofDigits_append, h0]
        simp
      · have hc : ch d ≠ '0' := fun h => h0 ((hch d hdb).mp h)
        rw [if_pos (by simpa using hc)]
        have hdig : Nat.digits b (Nat.ofDigits b (d :: e :: t2).reverse)
            = (d :: e :: t2).reverse := by
          apply Nat.digits_ofDigits b hb
          · intro l hl
            exact hd l (List.mem_reverse.mp hl)
          · intro hne
            rw [List.getLast_reverse]
            exact h0
        have hn : Nat.ofDigits b (d :: e :: t2).reverse ≠ 0 := by
          intro hz
          rw [hz, Nat.digits_zero] at hdig
          exact absurd hdig.symm (by simp)
        rw [numeral, if_neg hn, hdig, List.reverse_reverse]
        rfl

theorem numeral_head (b : Nat) (hb : 1 < b) (ch : Nat → Char)
    (hch : ∀ d, d < b → (ch d = '0' ↔ d = 0)) (n : Nat) :
    (numeral b ch n).head? = some '0' → numeral b ch n = ['0'] := by
  by_cases hn : n = 0
  · intro _
    rw [numeral, if_pos hn]
    rw [(hch 0 (by omega)).mpr rfl]
  · rw [numeral, if_neg hn]
    intro h
    exfalso
    have hne : Nat.digits b n ≠ [] := Nat.digits_ne_nil_iff_ne_zero.mpr hn
    have hlast := Nat.getLast_digit_ne_zero b hn
    have hlt : (Nat.digits b n).getLast hne < b := Nat.digits_lt_base hb (List.getLast_mem hne)
    rw [List.head?_map, List.head?_reverse, List.getLast?_eq_getLast _ hne] at h
    simp only [Option.map_some', Option.some.injEq] at h
    exact hlast ((hch _ hlt).mp h)

theorem print_hex_loop_eq (digits : List Char) (value : Buf) (k : Nat) :
    ∀ (counter : Nat) (out : List Char), counter + k ≤ value.length →
      print_hex_loop digits value k counter out
        = (((value.drop counter).take k).reverse.map (fun d => digits.getD d '0')) ++ out := by
  induction k with
  | zero => intro counter out _; simp [print_hex_loop]
  | succ k ih =>
    intro counter out h
    have hc : counter < value.length := by omega
    rw [print_hex_loop, ih (counter + 1) _ (by omega), List.drop_eq_getElem_cons hc,
      List.take_succ_cons, List.reverse_cons, List.map_append, List.getD_eq_getElem _ _ hc]
    simp

theorem nibble_bits_length (ds : List Nat) : (nibble_bits ds).length = 4 * ds.length := by
  induction ds with
  | nil => rfl
  | cons d t ih => simp only [nibble_bits, List.length_append, ih, List.length_cons,
      List.length_nil]; omega

theorem nibble_bits_append (xs ys : List Nat) :
    nibble_bits (xs ++ ys) = nibble_bits ys ++ nibble_bits xs := by
  induction xs with
  | nil => simp [nibble_bits]
  | cons d t ih =>
    show nibble_bits (t ++ ys) ++ [d / 8 % 2, d / 4 % 2, d / 2 % 2, d % 2]
      = nibble_bits ys ++ (nibble_bits t ++ [d / 8 % 2, d / 4 % 2, d / 2 % 2, d % 2])
    rw [ih, List.append_assoc]

theorem nibble_bits_lt (ds : List Nat) : ∀ d ∈ nibble_bits ds, d < 2 := by
  induction ds with
  | nil => intro d hd; simp [nibble_bits] at hd
  | cons a t ih =>
    intro d hd
    simp only [nibble_bits, List.mem_append, List.mem_cons, List.mem_nil_iff, or_false] at hd
    rcases hd with h | h | h | h | h
    · exact ih d h
    all_goals omega

theorem nibble_bits_value (ds : List Nat) (h : ∀ d ∈ ds, d < 16) :
    Nat.ofDigits 2 (nibble_bits ds).reverse = U ds := by
  induction ds with
  | nil => rfl
  | cons a t ih =>
    have ha : a < 16 := h a (List.mem_cons_self _ _)
    have iht := ih (fun d hd => h d (List.mem_cons_of_mem _ hd))
    simp only [nibble_bits, List.reverse_append, List.reverse_cons, List.reverse_nil,
      List.nil_append, List.cons_append, Nat.ofDigits_cons, iht, U]
    omega

theorem print_bin_loop_eq (value : Buf) (hv : ∀ d ∈ value, d < 16) (k : Nat) :
    ∀ (counter : Nat) (out : List Char), counter + k ≤ value.length →
      print_bin_loop value k counter out
        = (nibble_bits ((value.drop counter).take k)).map Nat.digitChar ++ out := by
  induction k with
  | zero => intro counter out _; simp [print_bin_loop, nibble_bits]
  | succ k ih =>
    intro counter out h
    have hc : counter < value.length := by omega
    rw [print_bin_loop, ih (counter + 1) _ (by omega), List.drop_eq_getElem_cons hc,
      List.take_succ_cons, nibble_bits, List.map_append, List.getD_eq_getElem _ _ hc,
      binary_table_eq _ (hv _ (List.getElem_mem hc))]
    simp


theorem low_cells_lt (value : Buf) (hv : ∀ d ∈ value, d < 16) (bits : Nat) :
    ∀ d ∈ low_cells value bits, d < 16 := by
  intro d hd
  simp only [low_cells, List.mem_append] at hd
  rcases hd with h | h
  · exact hv d (List.mem_of_mem_take h)
  · split at h
    · simp only [List.mem_singleton] at h
      rw [h]
      exact lt_of_le_of_lt (Nat.mod_le _ _) (getD_lt value hv _)
    · simp at h

theorem low_cells_length (value : Buf) (bits : Nat) (h : bits / 4 ≤ value.length) :
    (low_cells value bits).length = if bits % 4 ≠ 0 then bits / 4 + 1 else bits / 4 := by
  simp only [low_cells, List.length_append, List.length_take, Nat.min_eq_left h]
  split <;> simp

theorem low_cells_ne_nil (value : Buf) (bits : Nat) (hb : 1 ≤ bits)
    (h : bits / 4 ≤ value.length) : low_cells value bits ≠ [] := by
  intro hc
  have := low_cells_length value bits h
  rw [hc] at this
  simp only [List.length_nil] at this
  split at this <;> omega

theorem low_cells_value (value : Buf) (hv : ∀ d ∈ value, d < 16) (bits : Nat)
    (h : bits / 4 ≤ value.length) : U (low_cells value bits) = U value % 2 ^ bits := by
  simp only [low_cells]
  rw [U_append, List.length_take, Nat.min_eq_left h]
  by_cases hm : bits % 4 = 0
  · have e : (2 : Nat) ^ bits = 16 ^ (bits / 4) := by
      have : (16 : Nat) ^ (bits / 4) = 2 ^ (4 * (bits / 4)) := by rw [pow_mul]; norm_num
      rw [this]; congr 1; omega
    rw [if_neg (by simpa using hm), e, U_take_mod value hv]
    simp [U]
  · rw [if_pos hm, low_bits value hv bits (by omega), Useg_take]
    have e1 : (bits - 1) / 4 = bits / 4 := by omega
    have e2 : (bits - 1) % 4 + 1 = bits % 4 := by omega
    rw [e1, e2]
    simp [U]

theorem sc_print_hex_eq (M fuel : Nat) (value : Buf) (bits : Nat) (is_signed : Bool)
    (hv : Valid (2 * M) value) (hb1 : 1 ≤ bits) (hb : bits ≤ 4 * M) :
    sc_print (2 * M) (4 * M) fuel value bits base_t.SC_HEX is_signed
      = Outcome.done (numeral 16 hex_upper (U value % 2 ^ bits)) := by
  have hlen : bits / 4 ≤ value.length := by rw [hv.1]; omega
  have hb0 : bits ≠ 0 := by omega
  have hL := low_cells_length value bits hlen
  have hout : (if (bits &&& 3) ≠ 0 then
        big_digits.getD (value.getD (bits >>> 2) 0 &&& zex_digit ((bits &&& 3) - 1)) '0'
          :: print_hex_loop big_digits value (bits >>> 2) 0 []
      else print_hex_loop big_digits value (bits >>> 2) 0 [])
      = (low_cells value bits).reverse.map hex_upper := by
    rw [print_hex_loop_eq _ _ _ 0 [] (by rw [shr2_eq_div]; omega), and3_eq_mod, shr2_eq_div]
    simp only [List.drop_zero, List.append_nil, low_cells]
    have hmap : List.map (fun d => big_digits.getD d '0') (List.take (bits / 4) value).reverse
        = List.map hex_upper (List.take (bits / 4) value).reverse := by
      apply List.map_congr_left
      intro d hd
      exact big_digits_eq d (hv.2 d (List.mem_of_mem_take (List.mem_reverse.mp hd)))
    rw [hmap]
    by_cases hm : bits % 4 = 0
    · rw [if_neg (by simpa using hm), if_neg (by simpa using hm)]
      simp
    · rw [if_pos hm, if_pos hm, and_zex_digit _ (getD_lt value hv.2 _) _ (Nat.mod_lt _ (by omega)) hm,
        big_digits_eq _ (lt_of_le_of_lt (Nat.mod_le _ _) (getD_lt value hv.2 _))]
      simp
  have hcnt : (if (bits &&& 3) ≠ 0 then (bits >>> 2) + 1 else bits >>> 2)
      = ((low_cells value bits).reverse).length := by
    rw [List.length_reverse, hL, and3_eq_mod, shr2_eq_div]
  have hlen0 : (print_hex_loop big_digits value (bits >>> 2) 0 []).length = bits / 4 := by
    rw [print_hex_loop_eq _ _ _ 0 [] (by rw [shr2_eq_div]; omega), shr2_eq_div]
    simp [List.length_take, Nat.min_eq_left hlen]
  have hlen1 : ((low_cells value bits).reverse.map hex_upper).length ≤ 4 * M := by
    rw [List.length_map, List.length_reverse, hL]
    split <;> omega
  simp only [sc_print, sc_print_buf, if_neg hb0, if_true]
  rw [if_neg (by rw [hlen0]; omega)]
  simp only [hout, hcnt]
  rw [if_neg (by omega)]
  rw [kill_zeros_numeral 16 (by decide) hex_upper hex_upper_zero _
    (by simpa using low_cells_ne_nil value bits hb1 hlen)
    (fun d hd => low_cells_lt value hv.2 bits d (List.mem_reverse.mp hd)),
    List.reverse_reverse, ← U_eq_ofDigits, low_cells_value value hv.2 bits hlen]


theorem bin_digit_zero : ∀ d, d < 2 → (Nat.digitChar d = '0' ↔ d = 0) := by decide

theorem shl2_eq_mul (x : Nat) : x <<< 2 = 4 * x := by
  rw [Nat.shiftLeft_eq]; omega

theorem sc_print_bin_eq (M fuel : Nat) (value : Buf) (bits : Nat) (is_signed : Bool)
    (hv : Valid (2 * M) value) (hb1 : 1 ≤ bits) (hb : bits ≤ 4 * M) :
    sc_print (2 * M) (4 * M) fuel value bits base_t.SC_BIN is_signed
      = Outcome.done (numeral 2 Nat.digitChar (U value % 2 ^ bits)) := by
  have hlen : bits / 4 ≤ value.length := by rw [hv.1]; omega
  have hb0 : bits ≠ 0 := by omega
  have hL := low_cells_length value bits hlen
  have hout : (if (bits &&& 3) ≠ 0 then
        binary_table.getD (value.getD (bits >>> 2) 0 &&& zex_digit ((bits &&& 3) - 1)) []
          ++ print_bin_loop value (bits >>> 2) 0 []
      else print_bin_loop value (bits >>> 2) 0 [])
      = (nibble_bits (low_cells value bits)).map Nat.digitChar := by
    rw [print_bin_loop_eq _ hv.2 _ 0 [] (by rw [shr2_eq_div]; omega), and3_eq_mod, shr2_eq_div]
    simp only [List.drop_zero, List.append_nil, low_cells]
    by_cases hm : bits % 4 = 0
    · rw [if_neg (by simpa using hm), if_neg (by simpa using hm)]
      simp
    · rw [if_pos hm, if_pos hm, and_zex_digit _ (getD_lt value hv.2 _) _ (Nat.mod_lt _ (by omega)) hm,
        binary_table_eq _ (lt_of_le_of_lt (Nat.mod_le _ _) (getD_lt value hv.2 _)),
        nibble_bits_append, List.map_append]
      rfl
  have hcnt : ((if (bits &&& 3) ≠ 0 then (bits >>> 2) + 1 else bits >>> 2) <<< 2)
      = (nibble_bits (low_cells value bits)).length := by
    rw [nibble_bits_length, hL, and3_eq_mod, shr2_eq_div, shl2_eq_mul]
  have hlen0 : (print_bin_loop value (bits >>> 2) 0 []).length = 4 * (bits / 4) := by
    rw [print_bin_loop_eq _ hv.2 _ 0 [] (by rw [shr2_eq_div]; omega), shr2_eq_div]
    simp [nibble_bits_length, List.length_take, Nat.min_eq_left hlen]
  have hlen1 : ((nibble_bits (low_cells value bits)).map Nat.digitChar).length ≤ 4 * M := by
    rw [List.length_map, nibble_bits_length, hL]
    split <;> omega
  have hne : nibble_bits (low_cells value bits) ≠ [] := by
    intro hc
    have h1 := nibble_bits_length (low_cells value bits)
    rw [hc, hL] at h1
    simp only [List.length_nil] at h1
    split at h1 <;> omega
  simp only [sc_print, sc_print_buf, if_neg hb0]
  rw [if_neg (by rw [hlen0]; omega)]
  simp only [hout, hcnt]
  rw [if_neg (by omega)]
  rw [kill_zeros_numeral 2 (by decide) Nat.digitChar bin_digit_zero _ hne
    (nibble_bits_lt _), nibble_bits_value _ (low_cells_lt value hv.2 bits),
    low_cells_value value hv.2 bits hlen]

/-- C12: for a bit count with `1 ≤ bits ≤ 4 * M` (the precision), `sc_print` with the base
`SC_HEX` (respectively `SC_BIN`) returns the shortest upper-case hexadecimal (respectively
binary) numeral of `U value mod 2 ^ bits`; the text starts with `0` only when it is the
single digit `0`, and a buffer that agrees with `value` on the low `bits` bits prints the
same text. -/
theorem sc_print_hex_bin (M fuel : Nat) (value : Buf) (bits : Nat) (is_signed : Bool)
    (hv : Valid (2 * M) value) (hb1 : 1 ≤ bits) (hb : bits ≤ 4 * M) :
    (sc_print (2 * M) (4 * M) fuel value bits base_t.SC_HEX is_signed
        = Outcome.done (numeral 16 hex_upper (U value % 2 ^ bits))
      ∧ ((numeral 16 hex_upper (U value % 2 ^ bits)).head? = some '0'
          → numeral 16 hex_upper (U value % 2 ^ bits) = ['0'])
      ∧ ∀ other, Valid (2 * M) other → U other % 2 ^ bits = U value % 2 ^ bits →
          sc_print (2 * M) (4 * M) fuel other bits base_t.SC_HEX is_signed
            = sc_print (2 * M) (4 * M) fuel value bits base_t.SC_HEX is_signed)
    ∧ (sc_print (2 * M) (4 * M) fuel value bits base_t.SC_BIN is_signed
        = Outcome.done (numeral 2 Nat.digitChar (U value % 2 ^ bits))
      ∧ ((numeral 2 Nat.digitChar (U value % 2 ^ bits)).head? = some '0'
          → numeral 2 Nat.digitChar (U value % 2 ^ bits) = ['0'])
      ∧ ∀ other, Valid (2 * M) other → U other % 2 ^ bits = U value % 2 ^ bits →
          sc_print (2 * M) (4 * M) fuel other bits base_t.SC_BIN is_signed
            = sc_print (2 * M) (4 * M) fuel value bits base_t.SC_BIN is_signed) := by
  refine ⟨⟨sc_print_hex_eq M fuel value bits is_signed hv hb1 hb,
      numeral_head 16 (by decide) hex_upper hex_upper_zero _, ?_⟩,
    ⟨sc_print_bin_eq M fuel value bits is_signed hv hb1 hb,
      numeral_head 2 (by decide) Nat.digitChar bin_digit_zero _, ?_⟩⟩
  · intro other ho he
    rw [sc_print_hex_eq M fuel other bits is_signed ho hb1 hb,
      sc_print_hex_eq M fuel value bits is_signed hv hb1 hb, he]
  · intro other ho he
    rw [sc_print_bin_eq M fuel other bits is_signed ho hb1 hb,
      sc_print_bin_eq M fuel value bits is_signed hv hb1 hb, he]

/-- C12, an instance, the example of the specification: -10 printed at 8 bits in base 16
is `F6`, in base 2 it is `11110110` (precision 8). -/
theorem sc_print_hex_bin_witness :
    Valid (2 * 2) [6, 15, 15, 15] ∧ 1 ≤ 8 ∧ 8 ≤ 4 * 2
      ∧ sc_print (2 * 2) (4 * 2) 0 [6, 15, 15, 15] 8 base_t.SC_HEX true
          = Outcome.done (numeral 16 hex_upper (U [6, 15, 15, 15] % 2 ^ 8))
      ∧ sc_print (2 * 2) (4 * 2) 0 [6, 15, 15, 15] 8 base_t.SC_BIN true
          = Outcome.done (numeral 2 Nat.digitChar (U [6, 15, 15, 15] % 2 ^ 8))
      ∧ sc_print (2 * 2) (4 * 2) 0 [6, 15, 15, 15] 8 base_t.SC_HEX true
          = Outcome.done ['F', '6']
      ∧ sc_print (2 * 2) (4 * 2) 0 [6, 15, 15, 15] 8 base_t.SC_BIN true
          = Outcome.done ['1', '1', '1', '1', '0', '1', '1', '0'] :=
  ⟨by decide, by decide, by decide,
    (sc_print_hex_bin 2 0 [6, 15, 15, 15] 8 true (by decide) (by decide) (by decide)).1.1,
    (sc_print_hex_bin 2 0 [6, 15, 15, 15] 8 true (by decide) (by decide) (by decide)).2.1,
    by decide, by decide⟩


theorem masked_copy_spec (N : Nat) (p : Buf) (hp : Valid N p) (bits : Nat)
    (hb : bits / 4 + 1 ≤ N) :
    Valid N (if (bits &&& 3) ≠ 0 then
        (copy_cells p (bits >>> 2) 0 (CLEAR_BUFFER N)).set (bits >>> 2)
          (p.getD (bits >>> 2) 0 &&& zex_digit ((bits &&& 3) - 1))
      else copy_cells p (bits >>> 2) 0 (CLEAR_BUFFER N))
    ∧ U (if (bits &&& 3) ≠ 0 then
        (copy_cells p (bits >>> 2) 0 (CLEAR_BUFFER N)).set (bits >>> 2)
          (p.getD (bits >>> 2) 0 &&& zex_digit ((bits &&& 3) - 1))
      else copy_cells p (bits >>> 2) 0 (CLEAR_BUFFER N)) = U p % 2 ^ bits := by
  rw [and3_eq_mod, shr2_eq_div]
  have hclen : (CLEAR_BUFFER N).length = N := (CLEAR_BUFFER_valid N).1
  have hcl : (copy_cells p (bits / 4) 0 (CLEAR_BUFFER N)).length = N := by
    rw [copy_cells_length, hclen]
  have hcg : ∀ j, (copy_cells p (bits / 4) 0 (CLEAR_BUFFER N)).getD j 0
      = if j < bits / 4 then p.getD j 0 else 0 := by
    intro j
    rw [copy_cells_getD p (bits / 4) 0 (CLEAR_BUFFER N) j (by rw [hclen]; omega),
      CLEAR_BUFFER_getD]
    simp
  have hpl : bits / 4 ≤ p.length := by rw [hp.1]; omega
  have hm4 : bits % 4 < 4 := Nat.mod_lt _ (by omega)
  have hlow := low_cells_value p hp.2 bits hpl
  simp only [low_cells] at hlow
  rw [U_append, List.length_take, Nat.min_eq_left hpl, U_take_mod p hp.2] at hlow
  obtain ⟨c, hc⟩ : ∃ c, N - bits / 4 = c + 1 := ⟨N - bits / 4 - 1, by omega⟩
  by_cases hm : bits % 4 = 0
  · rw [if_neg (by simpa using hm)]
    rw [if_neg (by simpa using hm)] at hlow
    refine ⟨Valid_of_getD N _ hcl ?_, ?_⟩
    · intro j _
      rw [hcg j]
      split
      · exact getD_lt p hp.2 j
      · omega
    · rw [U_split N (bits / 4) _ hcl (by omega),
        Useg_congr _ p 0 (bits / 4) (fun j hj => by rw [hcg, if_pos (by omega)]),
        ← Useg_take, U_take_mod p hp.2,
        Useg_zero _ (bits / 4) (N - bits / 4) (fun j _ => by rw [hcg, if_neg (by omega)]),
        ← hlow]
      simp [U]
  · rw [if_pos hm]
    rw [if_pos hm] at hlow
    rw [and_zex_digit _ (getD_lt p hp.2 _) _ hm4 hm]
    have ht : p.getD (bits / 4) 0 % 2 ^ (bits % 4) < 16 :=
      lt_of_le_of_lt (Nat.mod_le _ _) (getD_lt p hp.2 _)
    have hsl : ((copy_cells p (bits / 4) 0 (CLEAR_BUFFER N)).set (bits / 4)
        (p.getD (bits / 4) 0 % 2 ^ (bits % 4))).length = N := by
      rw [List.length_set, hcl]
    have hsg : ∀ j, ((copy_cells p (bits / 4) 0 (CLEAR_BUFFER N)).set (bits / 4)
        (p.getD (bits / 4) 0 % 2 ^ (bits % 4))).getD j 0
        = if j < bits / 4 then p.getD j 0
          else if j = bits / 4 then p.getD (bits / 4) 0 % 2 ^ (bits % 4) else 0 := by
      intro j
      by_cases hj : j = bits / 4
      · rw [hj, getD_set_eq _ _ _ (by rw [hcl]; omega), if_neg (by omega), if_pos rfl]
      · rw [getD_set_ne _ _ _ _ (fun h => hj h.symm), hcg j]
        by_cases hlt : j < bits / 4 <;> simp [hlt, hj]
    refine ⟨Valid_of_getD N _ hsl ?_, ?_⟩
    · intro j _
      rw [hsg j]
      split
      · exact getD_lt p hp.2 j
      · split
        · exact ht
        · omega
    · rw [U_split N (bits / 4) _ hsl (by omega),
        Useg_congr _ p 0 (bits / 4) (fun j hj => by rw [hsg, if_pos (by omega)]),
        ← Useg_take, U_take_mod p hp.2, hc, Useg_succ_left,
        Useg_zero _ (bits / 4 + 1) c
          (fun j _ => by rw [hsg, if_neg (by omega), if_neg (by omega)]),
        hsg, if_neg (by omega), if_pos rfl, ← hlow]
      simp [U]

theorem or_eq_zero (a d : Nat) : a ||| d = 0 ↔ a = 0 ∧ d = 0 := by
  constructor
  · intro h
    have key : ∀ i, a.testBit i = false ∧ d.testBit i = false := by
      intro i
      have := congrArg (fun x => x.testBit i) h
      simpa only [Nat.testBit_or, Nat.zero_testBit, Bool.or_eq_false_iff] using this
    refine ⟨Nat.eq_of_testBit_eq (fun i => ?_), Nat.eq_of_testBit_eq (fun i => ?_)⟩
    · rw [(key i).1, Nat.zero_testBit]
    · rw [(key i).2, Nat.zero_testBit]
  · rintro ⟨rfl, rfl⟩
    rfl

theorem foldl_or_zero (q : Buf) : ∀ a, q.foldl (fun x d => x ||| d) a = 0 ↔ a = 0 ∧ U q = 0 := by
  induction q with
  | nil => intro a; simp [U]
  | cons d t ih =>
    intro a
    rw [List.foldl_cons, ih (a ||| d)]
    simp only [U]
    constructor
    · rintro ⟨h1, h2⟩
      have := (or_eq_zero a d).mp h1
      omega
    · rintro ⟨h1, h2⟩
      have hd : d = 0 := by omega
      have ht : U t = 0 := by omega
      exact ⟨by rw [h1, hd]; rfl, ht⟩

theorem U_of_S_nonneg (N : Nat) (x : Buf) (hx : Valid N x) (k : Nat) (h : S N x = (k : Int)) :
    U x = k := by
  have hl := U_lt N x hx
  by_cases hs : 2 * U x < 16 ^ N
  · rw [S_of_pos N x hs] at h
    exact_mod_cast h
  · rw [S_of_neg N x (by omega)] at h
    have h2 : ((U x : Int)) < ((16 ^ N : Nat) : Int) := by exact_mod_cast hl
    have h3 : (0 : Int) ≤ (k : Int) := Int.natCast_nonneg k
    omega

theorem getD_zero_of_lt (N : Nat) (r : Buf) (hr : Valid N r) (h : U r < 16) :
    r.getD 0 0 = U r := by
  cases r with
  | nil => rfl
  | cons d t =>
    simp only [U] at h ⊢
    simp only [List.getD_cons_zero]
    omega


theorem numeral_length_le (b : Nat) (hb : 1 < b) (ch : Nat → Char) (n k : Nat) (hk : 1 ≤ k)
    (h : n < b ^ k) : (numeral b ch n).length ≤ k := by
  by_cases hn : n = 0
  · rw [numeral, if_pos hn]
    exact hk
  · rw [numeral, if_neg hn, List.length_map, List.length_reverse]
    have h1 := Nat.base_pow_length_digits_le b n hb hn
    have h2 : b ^ (Nat.digits b n).length < b ^ (k + 1) := by
      rw [pow_succ]
      calc b ^ (Nat.digits b n).length ≤ b * n := h1
        _ < b * b ^ k := Nat.mul_lt_mul_of_pos_left h (by omega)
        _ = b ^ k * b := Nat.mul_comm _ _
    have h3 := (Nat.pow_lt_pow_iff_right hb).mp h2
    omega

theorem numeral_step (b : Nat) (hb : 1 < b) (ch : Nat → Char) (n : Nat) (h : n / b ≠ 0) :
    numeral b ch n = numeral b ch (n / b) ++ [ch (n % b)] := by
  have hn : n ≠ 0 := by
    intro h0
    rw [h0] at h
    simp at h
  rw [numeral, if_neg hn, numeral, if_neg h, Nat.digits_def' hb (by omega)]
  simp

theorem numeral_small (b : Nat) (hb : 1 < b) (ch : Nat → Char) (n : Nat) (h : n / b = 0) :
    numeral b ch n = [ch (n % b)] := by
  have hlt : n < b := (Nat.div_eq_zero_iff (by omega)).mp h
  rw [Nat.mod_eq_of_lt hlt, numeral]
  by_cases hn : n = 0
  · rw [if_pos hn, hn]
  · rw [if_neg hn, Nat.digits_of_lt b n hn hlt]
    rfl

theorem base_val_spec (N b : Nat) (hN : 2 ≤ N) (hb : b < 16) :
    Valid N ((CLEAR_BUFFER N).set 0 b) ∧ U ((CLEAR_BUFFER N).set 0 b) = b
      ∧ S N ((CLEAR_BUFFER N).set 0 b) = (b : Int) := by
  have hv := CLEAR_BUFFER_valid N
  have hu : U ((CLEAR_BUFFER N).set 0 b) = b := by
    have := U_set (CLEAR_BUFFER N) 0 b (by rw [hv.1]; omega)
    rw [CLEAR_BUFFER_getD, U_CLEAR_BUFFER] at this
    omega
  refine ⟨⟨by rw [List.length_set]; exact hv.1, set_lt _ 0 b hv.2 hb⟩, hu, ?_⟩
  have h256 : 16 ^ 2 ≤ 16 ^ N := Nat.pow_le_pow_right (by decide) hN
  rw [S_of_pos N _ (by rw [hu]; omega), hu]

theorem print_div_loop_spec (N dfuel b : Nat) (hN : 2 ≤ N) (hd : 16 ≤ dfuel) (hb2 : 2 ≤ b)
    (hb10 : b ≤ 10) :
    ∀ (fuel : Nat) (m : Buf) (out : List Char) (f : Nat), Valid N m → 2 * U m < 16 ^ N →
      U m < 2 ^ f → f < fuel →
      print_div_loop N dfuel small_digits ((CLEAR_BUFFER N).set 0 b) fuel m out
        = Outcome.done (numeral b Nat.digitChar (U m) ++ out) := by
  obtain ⟨bv, bu, bs⟩ := base_val_spec N b hN (by omega)
  intro fuel
  induction fuel with
  | zero => intro m out f _ _ _ hf; omega
  | succ fuel ih =>
    intro m out f hm hpos hlt hf
    obtain ⟨q, r, carry, e, hq, hr, sq, sr⟩ := do_divmod_spec N dfuel false m
      ((CLEAR_BUFFER N).set 0 b) (by omega) hd hm bv (by omega) (by rw [bu]; omega)
    rw [S_of_pos N m hpos, bs, ← Int.ofNat_tdiv] at sq
    rw [S_of_pos N m hpos, bs, ← Int.ofNat_tmod] at sr
    have uq := U_of_S_nonneg N q hq _ sq
    have ur := U_of_S_nonneg N r hr _ sr
    have hrlt : U m % b < b := Nat.mod_lt _ (by omega)
    have rd : r.getD 0 0 = U m % b := by
      rw [getD_zero_of_lt N r hr (by rw [ur]; omega), ur]
    rw [print_div_loop, e]
    simp only [rd, small_digits_eq _ (by omega : U m % b < 10)]
    by_cases hz : U m / b = 0
    · have hx : q.foldl (fun x d => x ||| d) 0 = 0 := (foldl_or_zero q 0).mpr ⟨rfl, by rw [uq, hz]⟩
      rw [if_pos hx, numeral_small b (by omega) _ _ hz]
      rfl
    · have hx : ¬ q.foldl (fun x d => x ||| d) 0 = 0 := by
        intro hc
        have := ((foldl_or_zero q 0).mp hc).2
        rw [uq] at this
        exact hz this
      rw [if_neg hx]
      have hf1 : 1 ≤ f := by
        rcases Nat.eq_zero_or_pos f with h0 | h0
        · rw [h0] at hlt
          simp only [pow_zero, Nat.lt_one_iff] at hlt
          rw [hlt] at hz
          simp at hz
        · exact h0
      have hq2 : U q < 2 ^ (f - 1) := by
        rw [uq]
        have e2 : 2 ^ f = 2 ^ (f - 1) * 2 := by
          rw [← pow_succ]; congr 1; omega
        have h1 : U m / b ≤ U m / 2 := Nat.div_le_div_left hb2 (by decide)
        have h2 : U m / 2 < 2 ^ (f - 1) := by
          rw [Nat.div_lt_iff_lt_mul (by decide)]; omega
        omega
      have hqpos : 2 * U q < 16 ^ N := by
        rw [uq]
        have : U m / b ≤ U m := Nat.div_le_self _ _
        omega
      rw [ih q _ (f - 1) hq hqpos hq2 (by omega), uq, numeral_step b (by omega) _ _ hz]
      simp


theorem pow_bits_le (M bits : Nat) (hb : bits ≤ 4 * M) : 2 ^ bits ≤ 16 ^ M := by
  have : (16 : Nat) ^ M = 2 ^ (4 * M) := by rw [pow_mul]; norm_num
  rw [this]
  exact Nat.pow_le_pow_right (by decide) hb

theorem pow_16_double (M : Nat) (hM : 1 ≤ M) : 16 * 16 ^ M ≤ 16 ^ (2 * M) := by
  have e : 16 ^ (2 * M) = 16 ^ M * 16 ^ M := by rw [two_mul, pow_add]
  have h16 : 16 ^ 1 ≤ 16 ^ M := Nat.pow_le_pow_right (by decide) hM
  rw [e]
  exact Nat.mul_le_mul_right _ (by simpa using h16)

theorem sc_print_div_plain (M fuel b : Nat) (p : Buf) (bits : Nat)
    (hM : 1 ≤ M) (hp : Valid (2 * M) p) (hb1 : 1 ≤ bits) (hb : bits ≤ 4 * M)
    (hf : 16 ≤ fuel) (hf2 : 4 * M < fuel) (hb2 : 2 ≤ b) (hb10 : b ≤ 10) :
    print_div_loop (2 * M) fuel small_digits ((CLEAR_BUFFER (2 * M)).set 0 b) fuel
        (if (bits &&& 3) ≠ 0 then
          (copy_cells p (bits >>> 2) 0 (CLEAR_BUFFER (2 * M))).set (bits >>> 2)
            (p.getD (bits >>> 2) 0 &&& zex_digit ((bits &&& 3) - 1))
        else copy_cells p (bits >>> 2) 0 (CLEAR_BUFFER (2 * M))) []
      = Outcome.done (numeral b Nat.digitChar (U p % 2 ^ bits)) := by
  obtain ⟨mv, mu⟩ := masked_copy_spec (2 * M) p hp bits (by omega)
  have hx : U p % 2 ^ bits < 2 ^ bits := Nat.mod_lt _ (by positivity)
  have h1 := pow_bits_le M bits hb
  have h2 := pow_16_double M hM
  rw [print_div_loop_spec (2 * M) fuel b (by omega) hf hb2 hb10 fuel _ [] bits mv
    (by rw [mu]; omega) (by rw [mu]; exact hx) (by omega), mu, List.append_nil]

theorem sc_print_unsigned_eq (M fuel : Nat) (value : Buf) (bits : Nat) (base : base_t)
    (is_signed : Bool) (hM : 1 ≤ M) (hv : Valid (2 * M) value) (hb1 : 1 ≤ bits)
    (hb : bits ≤ 4 * M) (hf : 16 ≤ fuel) (hf2 : 4 * M < fuel)
    (hbase : base = base_t.SC_DEC ∨ base = base_t.SC_OCT)
    (hs : (is_signed && decide (base = base_t.SC_DEC) && do_bit value (bits - 1)) = false) :
    sc_print (2 * M) (4 * M) fuel value bits base is_signed
      = Outcome.done (numeral (base_number base) Nat.digitChar (U value % 2 ^ bits)) := by
  have hb0 : bits ≠ 0 := by omega
  have hx : U value % 2 ^ bits < 2 ^ bits := Nat.mod_lt _ (by positivity)
  have hlen : ∀ b, 2 ≤ b → (numeral b Nat.digitChar (U value % 2 ^ bits)).length ≤ 4 * M := by
    intro b hb2
    apply numeral_length_le b (by omega) _ _ _ (by omega)
    calc U value % 2 ^ bits < 2 ^ bits := hx
      _ ≤ 2 ^ (4 * M) := Nat.pow_le_pow_right (by decide) hb
      _ ≤ b ^ (4 * M) := Nat.pow_le_pow_left hb2 _
  rcases hbase with rfl | rfl
  · simp only [decide_True, Bool.and_true] at hs
    simp only [sc_print, sc_print_buf, if_neg hb0, if_true, decide_True, Bool.and_true, hs,
      Bool.false_eq_true, if_false]
    rw [sc_print_div_plain M fuel 10 value bits hM hv hb1 hb hf hf2 (by decide) (by decide)]
    simp only [base_number]
    rw [if_neg (by have := hlen 10 (by decide); omega)]
  · simp only [sc_print, sc_print_buf, if_neg hb0, decide_False, Bool.and_false,
      Bool.false_and, Bool.false_eq_true, if_false, reduceCtorEq]
    rw [sc_print_div_plain M fuel 8 value bits hM hv hb1 hb hf hf2 (by decide) (by decide)]
    simp only [base_number]
    rw [if_neg (by have := hlen 8 (by decide); omega)]


theorem neg_low_bits (N bits v : Nat) (hbits : bits ≤ 4 * N) (hx : 0 < v % 2 ^ bits)
    (hlt : v < 16 ^ N) : ((16 ^ N - v) % 16 ^ N) % 2 ^ bits = 2 ^ bits - v % 2 ^ bits := by
  have hP : 0 < 2 ^ bits := by positivity
  have hK : (16 : Nat) ^ N = 2 ^ bits * 2 ^ (4 * N - bits) := by
    have : (16 : Nat) ^ N = 2 ^ (4 * N) := by rw [pow_mul]; norm_num
    rw [this, ← pow_add]; congr 1; omega
  have hv := Nat.div_add_mod v (2 ^ bits)
  have hxl : v % 2 ^ bits < 2 ^ bits := Nat.mod_lt _ hP
  have hq : v / 2 ^ bits < 2 ^ (4 * N - bits) := by
    apply Nat.div_lt_of_lt_mul
    rw [← hK]; exact hlt
  obtain ⟨j, hj⟩ : ∃ j, 2 ^ (4 * N - bits) = v / 2 ^ bits + 1 + j :=
    ⟨2 ^ (4 * N - bits) - (v / 2 ^ bits + 1), by omega⟩
  have e : 16 ^ N - v = 2 ^ bits * j + (2 ^ bits - v % 2 ^ bits) := by
    rw [hK, hj]
    have : 2 ^ bits * (v / 2 ^ bits + 1 + j)
        = 2 ^ bits * (v / 2 ^ bits) + 2 ^ bits + 2 ^ bits * j := by ring
    rw [this]
    generalize 2 ^ bits * (v / 2 ^ bits) = a at hv ⊢
    generalize 2 ^ bits * j = c
    omega
  have hv0 : 0 < v := by
    rcases Nat.eq_zero_or_pos v with h | h
    · rw [h] at hx; simp at hx
    · exact h
  have hsub : 16 ^ N - v < 16 ^ N := by omega
  rw [Nat.mod_eq_of_lt hsub, e, Nat.mul_add_mod, Nat.mod_eq_of_lt (by omega)]

theorem sc_print_negative_eq (M fuel : Nat) (value : Buf) (bits : Nat)
    (hM : 1 ≤ M) (hv : Valid (2 * M) value) (hb1 : 1 ≤ bits)
    (hb : bits ≤ 4 * M) (hf : 16 ≤ fuel) (hf2 : 4 * M < fuel)
    (hs : do_bit value (bits - 1) = true) :
    sc_print (2 * M) (4 * M) fuel value bits base_t.SC_DEC true
      = Outcome.done ('-' :: numeral 10 Nat.digitChar (2 ^ bits - U value % 2 ^ bits)) := by
  have hb0 : bits ≠ 0 := by omega
  have hbit := (do_bit_iff value hv.2 bits hb1).mp hs
  have hx : U value % 2 ^ bits < 2 ^ bits := Nat.mod_lt _ (by positivity)
  have hpos : 0 < 2 ^ (bits - 1) := by positivity
  have hnv := do_negate_valid (2 * M) value hv
  have hnu : U (do_negate value) % 2 ^ bits = 2 ^ bits - U value % 2 ^ bits := by
    rw [U_do_negate (2 * M) value hv]
    exact neg_low_bits (2 * M) bits (U value) (by omega) (by omega) (U_lt _ _ hv)
  have e2 : 2 ^ bits = 2 ^ (bits - 1) * 2 := by
    rw [← pow_succ]; congr 1; omega
  have hlen : (numeral 10 Nat.digitChar (2 ^ bits - U value % 2 ^ bits)).length ≤ 4 * M - 1 := by
    apply numeral_length_le 10 (by decide) _ _ _ (by omega)
    calc 2 ^ bits - U value % 2 ^ bits ≤ 2 ^ (bits - 1) := by omega
      _ ≤ 2 ^ (4 * M - 1) := Nat.pow_le_pow_right (by decide) (by omega)
      _ < 10 ^ (4 * M - 1) := Nat.pow_lt_pow_left (by decide) (by omega)
  simp only [sc_print, sc_print_buf, if_neg hb0, if_true, decide_True, Bool.and_true, hs,
    Bool.true_and]
  rw [sc_print_div_plain M fuel 10 (do_negate value) bits hM hnv hb1 hb hf hf2 (by decide)
    (by decide), hnu]
  simp only []
  rw [if_neg (by omega), if_neg (by omega)]

/-- C11: with `max_value_size = M ≥ 1` (precision `4 * M`, buffers of `2 * M` nibbles), for
a bit count with `1 ≤ bits ≤ 4 * M` and enough iteration budget, `sc_print` in base
`SC_DEC` with `is_signed = true` returns the canonical decimal numeral (no leading zeros,
a leading `-` exactly when negative) of the `bits`-wide two's-complement interpretation of
the low `bits` bits of `value`. -/
theorem sc_print_dec_signed (M fuel : Nat) (value : Buf) (bits : Nat)
    (hM : 1 ≤ M) (hv : Valid (2 * M) value) (hb1 : 1 ≤ bits) (hb : bits ≤ 4 * M)
    (hf : 16 ≤ fuel) (hf2 : 4 * M < fuel) :
    sc_print (2 * M) (4 * M) fuel value bits base_t.SC_DEC true
      = Outcome.done (int_numeral (tc_value bits (U value))) := by
  have hx : U value % 2 ^ bits < 2 ^ bits := Nat.mod_lt _ (by positivity)
  have hbit := do_bit_iff value hv.2 bits hb1
  by_cases hs : 2 ^ (bits - 1) ≤ U value % 2 ^ bits
  · rw [sc_print_negative_eq M fuel value bits hM hv hb1 hb hf hf2 (hbit.mpr hs)]
    have hneg : tc_value bits (U value) < 0 := by
      simp only [tc_value, if_pos hs]
      have : ((U value % 2 ^ bits : Nat) : Int) < 2 ^ bits := by exact_mod_cast hx
      omega
    have habs : (tc_value bits (U value)).natAbs = 2 ^ bits - U value % 2 ^ bits := by
      simp only [tc_value, if_pos hs]
      have h1 : ((U value % 2 ^ bits : Nat) : Int) - 2 ^ bits
          = - (((2 ^ bits - U value % 2 ^ bits : Nat)) : Int) := by
        rw [Nat.cast_sub hx.le]
        push_cast
        ring
      rw [h1, Int.natAbs_neg, Int.natAbs_ofNat]
    rw [int_numeral, if_pos hneg, habs]
  · have hd : do_bit value (bits - 1) = false := by
      rw [Bool.eq_false_iff]
      exact fun h => hs (hbit.mp h)
    rw [sc_print_unsigned_eq M fuel value bits base_t.SC_DEC true hM hv hb1 hb hf hf2
      (Or.inl rfl) (by rw [hd]; rfl)]
    have hnn : ¬ tc_value bits (U value) < 0 := by
      simp only [tc_value, if_neg hs]
      omega
    have habs : (tc_value bits (U value)).natAbs = U value % 2 ^ bits := by
      simp only [tc_value, if_neg hs, Int.natAbs_ofNat]
    rw [int_numeral, if_neg hnn, habs]
    rfl

set_option maxRecDepth 1000000 in
/-- C11, an instance, the example of the specification: -10 printed at 8 bits in base 10,
signed, is `-10` (precision 8, buffers of 4 nibbles). -/
theorem sc_print_dec_signed_witness :
    1 ≤ 2 ∧ Valid (2 * 2) (sc_val_from_long 4 (-10)) ∧ 1 ≤ 8 ∧ 8 ≤ 4 * 2 ∧ 16 ≤ 16
      ∧ 4 * 2 < 16
      ∧ sc_print (2 * 2) (4 * 2) 16 (sc_val_from_long 4 (-10)) 8 base_t.SC_DEC true
          = Outcome.done (int_numeral (tc_value 8 (U (sc_val_from_long 4 (-10)))))
      ∧ sc_print (2 * 2) (4 * 2) 16 (sc_val_from_long 4 (-10)) 8 base_t.SC_DEC true
          = Outcome.done ['-', '1', '0'] :=
  ⟨by decide, by decide, by decide, by decide, by decide, by decide,
    sc_print_dec_signed 2 16 (sc_val_from_long 4 (-10)) 8 (by decide) (by decide) (by decide)
      (by decide) (by decide) (by decide),
    by decide⟩

/-! ## Printing and parsing back -/

theorem U_injective (N : Nat) : ∀ (a b : Buf), Valid N a → Valid N b → U a = U b → a = b := by
  induction N with
  | zero =>
    intro a b ha hb _
    rw [List.length_eq_zero.mp ha.1, List.length_eq_zero.mp hb.1]
  | succ n ih =>
    intro a b ha hb h
    cases a with
    | nil => exact absurd ha.1 (by simp)
    | cons x xs =>
      cases b with
      | nil => exact absurd hb.1 (by simp)
      | cons y ys =>
        have hx : x < 16 := ha.2 x (List.mem_cons_self _ _)
        have hy : y < 16 := hb.2 y (List.mem_cons_self _ _)
        simp only [U] at h
        have hxy : x = y := by omega
        have hu : U xs = U ys := by omega
        have hxs : Valid n xs :=
          ⟨by simpa using ha.1, fun d hd => ha.2 d (List.mem_cons_of_mem _ hd)⟩
        have hys : Valid n ys :=
          ⟨by simpa using hb.1, fun d hd => hb.2 d (List.mem_cons_of_mem _ hd)⟩
        rw [hxy, ih xs ys hxs hys hu]

theorem foldl_digits_ge (base : Nat) (hb : 1 ≤ base) (str : List Char) : ∀ acc,
    acc ≤ str.foldl (fun acc c => acc * base + (hex_digit_value c).getD 0) acc := by
  induction str with
  | nil => intro acc; exact Nat.le_refl _
  | cons c cs ih =>
    intro acc
    rw [List.foldl_cons]
    have h1 : acc * 1 ≤ acc * base := Nat.mul_le_mul_left _ hb
    exact le_trans (by omega) (ih _)

theorem sc_val_from_str_loop_exact (M base : Nat) (hM : 1 ≤ M) (hbase1 : 1 ≤ base)
    (hbase : base ≤ 16) (str : List Char) : ∀ (val buffer : Buf), accepted base str →
      Valid (2 * M) val → U val = val.getD 0 0 → Valid (2 * M) buffer →
      str.foldl (fun acc c => acc * base + (hex_digit_value c).getD 0) (U buffer) < 16 ^ M →
      (sc_val_from_str_loop (2 * M) M base (sc_val_from_ulong (2 * M) base) str val buffer).1
          = true
      ∧ Valid (2 * M)
          (sc_val_from_str_loop (2 * M) M base (sc_val_from_ulong (2 * M) base) str val buffer).2
      ∧ U (sc_val_from_str_loop (2 * M) M base (sc_val_from_ulong (2 * M) base) str val buffer).2
          = str.foldl (fun acc c => acc * base + (hex_digit_value c).getD 0) (U buffer) := by
  have hb2 := pow_16_double M hM
  have hb1 : 16 ^ 1 ≤ 16 ^ M := Nat.pow_le_pow_right (by decide) hM
  rw [pow_one] at hb1
  have hlt16 : 16 ^ M < 16 ^ (2 * M) := by omega
  obtain ⟨sbv, sbu⟩ := sc_val_from_ulong_spec (2 * M) base
  rw [Nat.mod_eq_of_lt (by omega)] at sbu
  induction str with
  | nil =>
    intro val buffer _ _ _ hbuf _
    exact ⟨rfl, hbuf, rfl⟩
  | cons c cs ih =>
    intro val buffer hacc hval hval0 hbuf hfin
    obtain ⟨v, hv, hvb⟩ := hacc c (by simp)
    have hacc' : accepted base cs := fun d hd => hacc d (by simp [hd])
    rw [List.foldl_cons, hv, Option.getD_some] at hfin
    have hge := foldl_digits_ge base hbase1 cs (U buffer * base + v)
    have hacc1 : U buffer * 1 ≤ U buffer * base := Nat.mul_le_mul_left _ hbase1
    have hbl : U buffer < 16 ^ M := by omega
    rw [sc_val_from_str_loop, digit_of_char_eq, hv]
    simp only [ge_iff_le, Nat.not_le.mpr hvb, if_false, List.foldl_cons, hv, Option.getD_some]
    obtain ⟨mv, mu⟩ := do_mul_spec M (sc_val_from_ulong (2 * M) base) buffer sbv hbuf
    have s1 : ¬ do_sign (2 * M) (sc_val_from_ulong (2 * M) base) = -1 := by
      intro hc
      have := (do_sign_neg_iff (2 * M) _ (by omega) sbv).mp hc
      omega
    have s2 : ¬ do_sign (2 * M) buffer = -1 := by
      intro hc
      have := (do_sign_neg_iff (2 * M) _ (by omega) hbuf).mp hc
      omega
    simp only [s1, s2, decide_False, Bool.xor_self, Bool.false_eq_true, if_false, sbu] at mu
    have hmul : base % 16 ^ M * (U buffer % 16 ^ M) = U buffer * base := by
      rw [Nat.mod_eq_of_lt hbl]
      by_cases hbm : base < 16 ^ M
      · rw [Nat.mod_eq_of_lt hbm, Nat.mul_comm]
      · have hle : 16 ^ M * U buffer ≤ base * U buffer := Nat.mul_le_mul_right _ (by omega)
        have hz : U buffer = 0 := by
          rcases Nat.eq_zero_or_pos (U buffer) with h0 | h0
          · exact h0
          · have : 16 ^ M * 1 ≤ 16 ^ M * U buffer := Nat.mul_le_mul_left _ h0
            have hc : base * U buffer = U buffer * base := Nat.mul_comm _ _
            omega
        rw [hz]; simp
    rw [hmul] at mu
    have hval' : Valid (2 * M) (val.set 0 v) :=
      ⟨by rw [List.length_set]; exact hval.1, set_lt val 0 v hval.2 (by omega)⟩
    have hvalu : U (val.set 0 v) = v := by
      have := U_set val 0 v (by rw [hval.1]; omega)
      omega
    have hvalg : U (val.set 0 v) = (val.set 0 v).getD 0 0 := by
      rw [hvalu, getD_set_eq val 0 v (by rw [hval.1]; omega)]
    obtain ⟨av, au, _⟩ := do_add_spec (2 * M) (val.set 0 v) _ hval' mv
    rw [hvalu, mu, Nat.mod_eq_of_lt (by omega)] at au
    have hU : U (do_add (val.set 0 v)
        (do_mul (2 * M) M (sc_val_from_ulong (2 * M) base) buffer)).1 = U buffer * base + v := by
      rw [au]; omega
    have := ih (val.set 0 v) _ hacc' hval' hvalg av (by rw [hU]; exact hfin)
    rw [hU] at this
    exact this


theorem hex_upper_value : ∀ d, d < 16 → hex_digit_value (hex_upper d) = some d := by decide

theorem digitChar_value : ∀ d, d < 16 → hex_digit_value (Nat.digitChar d) = some d := by decide

theorem hex_upper_ne_minus : ∀ d, d < 16 → hex_upper d ≠ '-' := by decide

theorem digitChar_ne_minus : ∀ d, d < 16 → Nat.digitChar d ≠ '-' := by decide

theorem small_digits_hex_eq : ∀ d, d < 16 → small_digits.getD d '0' = Nat.digitChar d := by
  decide

theorem digitChar_zero16 : ∀ d, d < 16 → (Nat.digitChar d = '0' ↔ d = 0) := by decide

theorem numeral_mem (b : Nat) (hb : 1 < b) (ch : Nat → Char) (n : Nat) :
    ∀ c ∈ numeral b ch n, ∃ d, d < b ∧ c = ch d := by
  intro c hc
  by_cases hn : n = 0
  · rw [numeral, if_pos hn, List.mem_singleton] at hc
    exact ⟨0, by omega, hc⟩
  · rw [numeral, if_neg hn, List.mem_map] at hc
    obtain ⟨d, hd, rfl⟩ := hc
    exact ⟨d, Nat.digits_lt_base hb (List.mem_reverse.mp hd), rfl⟩

theorem numeral_ne_nil (b : Nat) (ch : Nat → Char) (n : Nat) : numeral b ch n ≠ [] := by
  by_cases hn : n = 0
  · rw [numeral, if_pos hn]; simp
  · rw [numeral, if_neg hn]
    simpa using Nat.digits_ne_nil_iff_ne_zero.mpr hn

theorem foldl_reverse_digits (b : Nat) (ch : Nat → Char)
    (hch : ∀ d, d < b → hex_digit_value (ch d) = some d) (ds : List Nat)
    (hds : ∀ d ∈ ds, d < b) :
    (ds.reverse.map ch).foldl (fun acc c => acc * b + (hex_digit_value c).getD 0) 0
      = Nat.ofDigits b ds := by
  induction ds with
  | nil => rfl
  | cons d t ih =>
    rw [List.reverse_cons, List.map_append, List.foldl_append,
      ih (fun x hx => hds x (List.mem_cons_of_mem _ hx)), Nat.ofDigits_cons]
    simp only [List.map_cons, List.map_nil, List.foldl_cons, List.foldl_nil,
      hch d (hds d (List.mem_cons_self _ _)), Option.getD_some]
    ring

theorem numeral_parse (b : Nat) (hb : 1 < b) (ch : Nat → Char)
    (hch : ∀ d, d < b → hex_digit_value (ch d) = some d) (n : Nat) :
    accepted b (numeral b ch n)
      ∧ (numeral b ch n).foldl (fun acc c => acc * b + (hex_digit_value c).getD 0) 0 = n := by
  constructor
  · intro c hc
    obtain ⟨d, hd, rfl⟩ := numeral_mem b hb ch n c hc
    exact ⟨d, hch d hd, hd⟩
  · by_cases hn : n = 0
    · rw [numeral, if_pos hn, hn]
      simp [hch 0 (by omega)]
    · rw [numeral, if_neg hn,
        foldl_reverse_digits b ch hch _ (fun d hd => Nat.digits_lt_base hb hd),
        Nat.ofDigits_digits]

theorem parse_printed_plain (N M b : Nat) (text : List Char) (h : text.head? ≠ some '-') :
    parse_printed N M b text = sc_val_from_str N M 1 b text := by
  cases text with
  | nil => rfl
  | cons c t =>
    have hc : c ≠ '-' := by
      intro hc
      rw [hc] at h
      exact h rfl
    unfold parse_printed
    split
    · rename_i rest heq
      exact absurd (List.cons.inj heq).1 hc
    · rfl

theorem numeral_head_ne_minus (b : Nat) (hb : 1 < b) (hb16 : b ≤ 16) (ch : Nat → Char)
    (hch : ∀ d, d < 16 → ch d ≠ '-') (n : Nat) : (numeral b ch n).head? ≠ some '-' := by
  intro h
  have hm := List.mem_of_mem_head? h
  obtain ⟨d, hd, he⟩ := numeral_mem b hb ch n _ hm
  exact hch d (by omega) he.symm

theorem parse_numeral (M b : Nat) (hM : 1 ≤ M) (hb : 1 < b) (hb16 : b ≤ 16)
    (ch : Nat → Char) (hch : ∀ d, d < 16 → hex_digit_value (ch d) = some d) (n : Nat)
    (hn : n < 16 ^ M) (sign : Int) :
    ∃ r, Valid (2 * M) r ∧ U r = n
      ∧ sc_val_from_str (2 * M) M sign b (numeral b ch n)
        = (true, if sign < 0 then do_negate r else r) := by
  obtain ⟨ha, hf⟩ := numeral_parse b hb ch (fun d hd => hch d (by omega)) n
  have hz := CLEAR_BUFFER_valid (2 * M)
  have hz0 := U_CLEAR_BUFFER (2 * M)
  obtain ⟨l1, l2, l3⟩ := sc_val_from_str_loop_exact M b hM (by omega) hb16 (numeral b ch n)
    (CLEAR_BUFFER (2 * M)) (CLEAR_BUFFER (2 * M)) ha hz
    (by rw [hz0, CLEAR_BUFFER_getD]) hz (by rw [hz0, hf]; exact hn)
  rw [hz0, hf] at l3
  refine ⟨_, l2, l3, ?_⟩
  simp only [sc_val_from_str, l1, if_true]


theorem sc_print_hex_lower_eq (M fuel : Nat) (value : Buf) (bits : Nat) (is_signed : Bool)
    (hv : Valid (2 * M) value) (hb1 : 1 ≤ bits) (hb : bits ≤ 4 * M) :
    sc_print (2 * M) (4 * M) fuel value bits base_t.SC_hex is_signed
      = Outcome.done (numeral 16 Nat.digitChar (U value % 2 ^ bits)) := by
  have hlen : bits / 4 ≤ value.length := by rw [hv.1]; omega
  have hb0 : bits ≠ 0 := by omega
  have hL := low_cells_length value bits hlen
  have hout : (if (bits &&& 3) ≠ 0 then
        small_digits.getD (value.getD (bits >>> 2) 0 &&& zex_digit ((bits &&& 3) - 1)) '0'
          :: print_hex_loop small_digits value (bits >>> 2) 0 []
      else print_hex_loop small_digits value (bits >>> 2) 0 [])
      = (low_cells value bits).reverse.map Nat.digitChar := by
    rw [print_hex_loop_eq _ _ _ 0 [] (by rw [shr2_eq_div]; omega), and3_eq_mod, shr2_eq_div]
    simp only [List.drop_zero, List.append_nil, low_cells]
    have hmap : List.map (fun d => small_digits.getD d '0') (List.take (bits / 4) value).reverse
        = List.map Nat.digitChar (List.take (bits / 4) value).reverse := by
      apply List.map_congr_left
      intro d hd
      exact small_digits_hex_eq d (hv.2 d (List.mem_of_mem_take (List.mem_reverse.mp hd)))
    rw [hmap]
    by_cases hm : bits % 4 = 0
    · rw [if_neg (by simpa using hm), if_neg (by simpa using hm)]
      simp
    · rw [if_pos hm, if_pos hm, and_zex_digit _ (getD_lt value hv.2 _) _ (Nat.mod_lt _ (by omega)) hm,
        small_digits_hex_eq _ (lt_of_le_of_lt (Nat.mod_le _ _) (getD_lt value hv.2 _))]
      simp
  have hcnt : (if (bits &&& 3) ≠ 0 then (bits >>> 2) + 1 else bits >>> 2)
      = ((low_cells value bits).reverse).length := by
    rw [List.length_reverse, hL, and3_eq_mod, shr2_eq_div]
  have hlen0 : (print_hex_loop small_digits value (bits >>> 2) 0 []).length = bits / 4 := by
    rw [print_hex_loop_eq _ _ _ 0 [] (by rw [shr2_eq_div]; omega), shr2_eq_div]
    simp [List.length_take, Nat.min_eq_left hlen]
  have hlen1 : ((low_cells value bits).reverse.map Nat.digitChar).length ≤ 4 * M := by
    rw [List.length_map, List.length_reverse, hL]
    split <;> omega
  simp only [sc_print, sc_print_buf, if_neg hb0, reduceCtorEq, if_false]
  rw [if_neg (by rw [hlen0]; omega)]
  simp only [hout, hcnt]
  rw [if_neg (by omega)]
  rw [kill_zeros_numeral 16 (by decide) Nat.digitChar digitChar_zero16 _
    (by simpa using low_cells_ne_nil value bits hb1 hlen)
    (fun d hd => low_cells_lt value hv.2 bits d (List.mem_reverse.mp hd)),
    List.reverse_reverse, ← U_eq_ofDigits, low_cells_value value hv.2 bits hlen]

/-- C13 (amended): with `max_value_size = M ≥ 1` (precision `4 * M`), `bits` equal to
the precision and any output base, for a buffer `x` that is the zero extension of its low
`4 * M` bits (all nibbles from index `M` on are zero), or, when the text is printed signed
in base 10 and bit `4 * M - 1` is set, the sign extension of its low `4 * M` bits: parsing
the text printed by `sc_print` with `sc_val_from_str` in the same base, the sign taken
from the printed sign, succeeds and gives back `x` nibble for nibble. -/
theorem print_parse_round_trip (M fuel : Nat) (x : Buf) (base : base_t) (is_signed : Bool)
    (hM : 1 ≤ M) (hx : Valid (2 * M) x) (hf : 16 ≤ fuel) (hf2 : 4 * M < fuel)
    (hext : U x = if is_signed = true ∧ base = base_t.SC_DEC ∧ 2 ^ (4 * M - 1) ≤ U x % 2 ^ (4 * M)
      then sext (2 * M) (4 * M) (U x) else U x % 2 ^ (4 * M)) :
    ∃ text, sc_print (2 * M) (4 * M) fuel x (4 * M) base is_signed = Outcome.done text
      ∧ parse_printed (2 * M) M (base_number base) text = (true, x) := by
  have h16 : (2 : Nat) ^ (4 * M) = 16 ^ M := by rw [pow_mul]; norm_num
  have hlow : U x % 2 ^ (4 * M) < 16 ^ M := by
    rw [h16]; exact Nat.mod_lt _ (by positivity)
  have hbit := do_bit_iff x hx.2 (4 * M) (by omega)
  have plain : ∀ (b : Nat) (ch : Nat → Char), 1 < b → b ≤ 16 →
      (∀ d, d < 16 → hex_digit_value (ch d) = some d) → (∀ d, d < 16 → ch d ≠ '-') →
      U x = U x % 2 ^ (4 * M) →
      parse_printed (2 * M) M b (numeral b ch (U x % 2 ^ (4 * M))) = (true, x) := by
    intro b ch hb hb16 hv hm hu
    obtain ⟨r, r1, r2, r3⟩ := parse_numeral M b hM hb hb16 ch hv _ hlow 1
    rw [parse_printed_plain _ _ _ _ (numeral_head_ne_minus b hb hb16 ch hm _), r3,
      if_neg (by decide), U_injective (2 * M) r x r1 hx (by rw [r2, ← hu])]
  by_cases hs : is_signed = true ∧ base = base_t.SC_DEC ∧ 2 ^ (4 * M - 1) ≤ U x % 2 ^ (4 * M)
  · obtain ⟨s1, s2, s3⟩ := hs
    rw [if_pos ⟨s1, s2, s3⟩, sext_set _ _ _ s3] at hext
    subst s1 s2
    refine ⟨_, sc_print_negative_eq M fuel x (4 * M) (by omega) hx (by omega) (le_refl _) hf hf2
      (hbit.mpr s3), ?_⟩
    have hpos : 0 < 2 ^ (4 * M - 1) := by positivity
    obtain ⟨r, r1, r2, r3⟩ := parse_numeral M 10 hM (by decide) (by decide) Nat.digitChar
      digitChar_value (2 ^ (4 * M) - U x % 2 ^ (4 * M)) (by omega) (-1)
    simp only [parse_printed, base_number]
    rw [r3, if_pos (by decide)]
    have hnv := do_negate_valid (2 * M) r r1
    have hnu := U_do_negate (2 * M) r r1
    have hdouble := pow_16_double M (by omega)
    rw [r2, Nat.mod_eq_of_lt (by omega)] at hnu
    have key : U (do_negate r) = U x := by
      rw [hnu]
      generalize U x % 2 ^ (4 * M) = xl at hext hlow s3
      omega
    rw [U_injective (2 * M) (do_negate r) x hnv hx key]
  · rw [if_neg hs] at hext
    cases base with
    | SC_hex =>
      exact ⟨_, sc_print_hex_lower_eq M fuel x (4 * M) is_signed hx (by omega) (le_refl _),
        plain 16 Nat.digitChar (by decide) (by decide) digitChar_value digitChar_ne_minus hext⟩
    | SC_HEX =>
      exact ⟨_, sc_print_hex_eq M fuel x (4 * M) is_signed hx (by omega) (le_refl _),
        plain 16 hex_upper (by decide) (by decide) hex_upper_value hex_upper_ne_minus hext⟩
    | SC_BIN =>
      exact ⟨_, sc_print_bin_eq M fuel x (4 * M) is_signed hx (by omega) (le_refl _),
        plain 2 Nat.digitChar (by decide) (by decide) digitChar_value digitChar_ne_minus hext⟩
    | SC_OCT =>
      refine ⟨_, sc_print_unsigned_eq M fuel x (4 * M) base_t.SC_OCT is_signed (by omega) hx
        (by omega) (le_refl _) hf hf2 (Or.inr rfl) (by simp), ?_⟩
      exact plain 8 Nat.digitChar (by decide) (by decide) digitChar_value digitChar_ne_minus hext
    | SC_DEC =>
      have hsf : (is_signed && decide (base_t.SC_DEC = base_t.SC_DEC)
          && do_bit x (4 * M - 1)) = false := by
        cases hsg : is_signed with
        | false => rfl
        | true =>
          have hd : do_bit x (4 * M - 1) = false := by
            rw [Bool.eq_false_iff]
            exact fun h => hs ⟨hsg, rfl, hbit.mp h⟩
          rw [hd]; rfl
      refine ⟨_, sc_print_unsigned_eq M fuel x (4 * M) base_t.SC_DEC is_signed (by omega) hx
        (by omega) (le_refl _) hf hf2 (Or.inl rfl) hsf, ?_⟩
      exact plain 10 Nat.digitChar (by decide) (by decide) digitChar_value digitChar_ne_minus hext


set_option maxRecDepth 1000000 in
/-- C13, an instance: -10 in a 4-nibble buffer (precision 8) is printed signed in base 10
as `-10`, and parsing that text gives the buffer back. -/
theorem print_parse_round_trip_witness :
    1 ≤ 2 ∧ Valid (2 * 2) [6, 15, 15, 15] ∧ 16 ≤ 16 ∧ 4 * 2 < 16
      ∧ (U [6, 15, 15, 15]
          = if true = true ∧ base_t.SC_DEC = base_t.SC_DEC
              ∧ 2 ^ (4 * 2 - 1) ≤ U [6, 15, 15, 15] % 2 ^ (4 * 2)
            then sext (2 * 2) (4 * 2) (U [6, 15, 15, 15]) else U [6, 15, 15, 15] % 2 ^ (4 * 2))
      ∧ (∃ text, sc_print (2 * 2) (4 * 2) 16 [6, 15, 15, 15] (4 * 2) base_t.SC_DEC true
            = Outcome.done text
          ∧ parse_printed (2 * 2) 2 (base_number base_t.SC_DEC) text = (true, [6, 15, 15, 15]))
      ∧ sc_print (2 * 2) (4 * 2) 16 [6, 15, 15, 15] (4 * 2) base_t.SC_DEC true
          = Outcome.done ['-', '1', '0'] :=
  ⟨by decide, by decide, by decide, by decide, by decide,
    print_parse_round_trip 2 16 [6, 15, 15, 15] base_t.SC_DEC true (by decide) (by decide)
      (by decide) (by decide) (by decide),
    by decide⟩

set_option maxRecDepth 1000000 in
/-- C13, a counterexample: with precision 8 (buffers of 4 nibbles), the buffer of four
nibbles `0xF` is printed in base 16 as `FF` (only the low 8 bits are printed) and the text
parses to `[15, 15, 0, 0]`, which is not the buffer; the buffer `[0, 0, 1, 0]` is printed
signed in base 10 as `0` and parses to the zero buffer. -/
theorem print_parse_loses_high_nibbles :
    (Valid 4 [15, 15, 15, 15]
      ∧ sc_print 4 8 16 [15, 15, 15, 15] 8 base_t.SC_HEX true = Outcome.done ['F', 'F']
      ∧ parse_printed 4 2 (base_number base_t.SC_HEX) ['F', 'F'] = (true, [15, 15, 0, 0])
      ∧ [15, 15, 0, 0] ≠ [15, 15, 15, 15])
    ∧ (Valid 4 [0, 0, 1, 0]
      ∧ sc_print 4 8 16 [0, 0, 1, 0] 8 base_t.SC_DEC true = Outcome.done ['0']
      ∧ parse_printed 4 2 (base_number base_t.SC_DEC) ['0'] = (true, [0, 0, 0, 0])
      ∧ [0, 0, 0, 0] ≠ [0, 0, 1, 0]) := by
  decide

/-! ## Borrow, extremes of the state -/

theorem do_sub_flag (N : Nat) (a b : Buf) (ha : Valid N a) (hb : Valid N b) :
    (do_sub a b).2 = true ↔ (U b ≠ 0 ∧ U b ≤ U a) := by
  obtain ⟨_, _, h3⟩ := do_add_spec N a (do_negate b) ha (do_negate_valid N b hb)
  have hn := U_do_negate N b hb
  have la := U_lt N a ha
  have lb := U_lt N b hb
  simp only [do_sub]
  rw [h3, hn]
  by_cases h0 : U b = 0
  · rw [h0, Nat.sub_zero, Nat.mod_self]
    constructor
    · intro h; omega
    · intro h; exact absurd rfl h.1
  · rw [Nat.mod_eq_of_lt (by omega)]
    constructor
    · intro h; exact ⟨h0, by omega⟩
    · intro h; omega

/-- C28 (amended): after `sc_sub(a, b)` the `carry_flag` is the carry out of the top nibble
of the addition `a + (-b)` that `do_sub` performs: it is set exactly when `U b ≠ 0` and
`U b ≤ U a`; so it is clear whenever the subtraction borrows (`U a < U b`). -/
theorem sc_sub_carry_flag (N : Nat) (a b : Buf) (ha : Valid N a) (hb : Valid N b) :
    ((sc_sub a b).2 = true ↔ (U b ≠ 0 ∧ U b ≤ U a))
      ∧ (U a < U b → (sc_sub a b).2 = false) := by
  have h := do_sub_flag N a b ha hb
  refine ⟨h, ?_⟩
  intro hlt
  rw [Bool.eq_false_iff]
  intro hc
  have := (h.mp hc).2
  omega

/-- C28, an instance: `5 - 3` and `3 - 5` in a 4-nibble buffer. -/
theorem sc_sub_carry_flag_witness :
    Valid 4 [5, 0, 0, 0] ∧ Valid 4 [3, 0, 0, 0]
      ∧ (((sc_sub [5, 0, 0, 0] [3, 0, 0, 0]).2 = true
          ↔ (U [3, 0, 0, 0] ≠ 0 ∧ U [3, 0, 0, 0] ≤ U [5, 0, 0, 0]))
        ∧ (U [5, 0, 0, 0] < U [3, 0, 0, 0] → (sc_sub [5, 0, 0, 0] [3, 0, 0, 0]).2 = false)) :=
  ⟨by decide, by decide, sc_sub_carry_flag 4 [5, 0, 0, 0] [3, 0, 0, 0] (by decide) (by decide)⟩

/-- C28, a counterexample: `5 - 3` does not borrow (`U a ≥ U b`) and leaves the flag set;
`3 - 5` borrows (`U a < U b`) and leaves the flag clear. -/
theorem sc_sub_flag_is_not_borrow :
    (sc_sub [5, 0, 0, 0] [3, 0, 0, 0] = ([2, 0, 0, 0], true)
      ∧ ¬ U [5, 0, 0, 0] < U [3, 0, 0, 0])
    ∧ (sc_sub [3, 0, 0, 0] [5, 0, 0, 0] = ([14, 15, 15, 15], false)
      ∧ U [3, 0, 0, 0] < U [5, 0, 0, 0]) := by
  decide

set_option maxRecDepth 1000000 in
/-- C29 (amended): after `init_strcalc(64)` the buffers have 32 nibbles; the buffer written
by `sc_val_from_long(LONG_MIN)` is negative and `sc_get_highest_set_bit` returns 127, the
top bit of the 128-bit buffer (the value is sign-extended over the whole buffer). -/
theorem long_min_sign_and_highest_bit :
    (init_strcalc sc_state_initial 64).map sc_get_precision = some 64
      ∧ (init_strcalc sc_state_initial 64).map sc_get_buffer_length = some 32
      ∧ sc_is_negative 32 (sc_val_from_long 32 LONG_MIN) = true
      ∧ sc_get_highest_set_bit 32 (sc_val_from_long 32 LONG_MIN) = 127
      ∧ (sc_val_from_long 32 LONG_MIN).getD 15 0 = 8
      ∧ (sc_val_from_long 32 LONG_MIN).getD 31 0 = 15 := by
  decide

set_option maxRecDepth 1000000 in
/-- C29, a counterexample: at precision 64 `sc_get_highest_set_bit` on the buffer of
`LONG_MIN` does not return 63. -/
theorem long_min_highest_bit_not_63 :
    (init_strcalc sc_state_initial 64).map sc_get_buffer_length = some 32
      ∧ sc_get_highest_set_bit 32 (sc_val_from_long 32 LONG_MIN) ≠ 63 := by
  decide

theorem and_fffffffc (x : Nat) (hx : x < 2 ^ 32) : x &&& 0xFFFFFFFC = 4 * (x / 4) := by
  apply Nat.eq_of_testBit_eq
  intro i
  have e1 : (0xFFFFFFFC : Nat) = 2 ^ 2 * (2 ^ 30 - 1) := by norm_num
  have e2 : 4 * (x / 4) = 2 ^ 2 * (x >>> 2) := by
    rw [Nat.shiftRight_eq_div_pow]; norm_num
  rw [Nat.testBit_and, e1, e2, Nat.testBit_mul_pow_two, Nat.testBit_mul_pow_two,
    Nat.testBit_two_pow_sub_one, Nat.testBit_shiftRight]
  by_cases h2 : i ≥ 2
  · have e3 : 2 + (i - 2) = i := by omega
    rw [e3]
    by_cases h32 : i < 32
    · simp [h2, (by omega : i - 2 < 30)]
    · have hlt : x < 2 ^ i := lt_of_lt_of_le hx (Nat.pow_le_pow_right (by decide) (by omega))
      rw [Nat.testBit_lt_two_pow hlt]
      simp
  · simp [h2]

/-- C30: starting from the uninitialised state, `init_strcalc(p)` with `p > 0` (and
`p + 3` not above `INT_MAX`) succeeds; afterwards `sc_get_precision()` is the least
multiple of 4 that is at least `p`, `sc_get_buffer_length()` is half of it, and any
further `init_strcalc(p')` leaves the state, hence both values, unchanged. -/
theorem init_strcalc_precision (p : Int) (hp : 0 < p) (hmax : p + 3 ≤ 2147483647) :
    ∃ s, init_strcalc sc_state_initial p = some s
      ∧ 4 ∣ sc_get_precision s ∧ p ≤ (sc_get_precision s : Int)
      ∧ (∀ m : Nat, 4 ∣ m → p ≤ (m : Int) → sc_get_precision s ≤ m)
      ∧ 2 * sc_get_buffer_length s = sc_get_precision s
      ∧ ∀ q : Int, init_strcalc s q = some s
          ∧ (init_strcalc s q).map sc_get_precision = some (sc_get_precision s)
          ∧ (init_strcalc s q).map sc_get_buffer_length = some (sc_get_buffer_length s) := by
  have hlt : (p + 3).toNat < 2 ^ 32 := by omega
  have hm := and_fffffffc (p + 3).toNat hlt
  have hinit : init_strcalc sc_state_initial p
      = some ⟨true, true, 4 * ((p + 3).toNat / 4), 4 * ((p + 3).toNat / 4) / 2,
          4 * ((p + 3).toNat / 4) / 4⟩ := by
    simp only [init_strcalc, sc_state_initial, if_true, if_pos hp, hm]
  refine ⟨_, hinit, ?_⟩
  simp only [sc_get_precision, sc_get_buffer_length]
  refine ⟨Dvd.intro _ rfl, by omega, ?_, by omega, ?_⟩
  · intro m hm4 hpm
    obtain ⟨c, rfl⟩ := hm4
    omega
  · intro q
    simp [init_strcalc, sc_get_precision, sc_get_buffer_length]

/-- C30, an instance: `init_strcalc(61)` gives precision 64 and buffers of 32 nibbles. -/
theorem init_strcalc_precision_witness :
    (0 : Int) < 61 ∧ (61 : Int) + 3 ≤ 2147483647
      ∧ (init_strcalc sc_state_initial 61).map sc_get_precision = some 64
      ∧ ∃ s, init_strcalc sc_state_initial 61 = some s
        ∧ 4 ∣ sc_get_precision s ∧ (61 : Int) ≤ (sc_get_precision s : Int)
        ∧ (∀ m : Nat, 4 ∣ m → (61 : Int) ≤ (m : Int) → sc_get_precision s ≤ m)
        ∧ 2 * sc_get_buffer_length s = sc_get_precision s
        ∧ ∀ q : Int, init_strcalc s q = some s
            ∧ (init_strcalc s q).map sc_get_precision = some (sc_get_precision s)
            ∧ (init_strcalc s q).map sc_get_buffer_length = some (sc_get_buffer_length s) :=
  ⟨by decide, by decide, by decide, init_strcalc_precision 61 (by decide) (by decide)⟩

/-! ## Tests on the low bits -/

theorem low_mod (x : Buf) (hx : ∀ d ∈ x, d < 16) (bits : Nat) :
    U x % 2 ^ bits
      = Useg x 0 (bits / 4) + 16 ^ (bits / 4) * (x.getD (bits / 4) 0 % 2 ^ (bits % 4)) := by
  by_cases hm : bits % 4 = 0
  · have e : (2 : Nat) ^ bits = 16 ^ (bits / 4) := by
      have : (16 : Nat) ^ (bits / 4) = 2 ^ (4 * (bits / 4)) := by rw [pow_mul]; norm_num
      rw [this]; congr 1; omega
    rw [hm, e, ← U_take_mod x hx, Useg_take]
    simp [Nat.mod_one]
  · rw [low_bits x hx bits (by omega)]
    have e1 : (bits - 1) / 4 = bits / 4 := by omega
    have e2 : (bits - 1) % 4 + 1 = bits % 4 := by omega
    rw [e1, e2]

theorem pow_bits_split (bits : Nat) : (2 : Nat) ^ bits = 16 ^ (bits / 4) * 2 ^ (bits % 4) := by
  have : (16 : Nat) ^ (bits / 4) = 2 ^ (4 * (bits / 4)) := by rw [pow_mul]; norm_num
  rw [this, ← pow_add]; congr 1; omega

theorem and_max_digit_mod : ∀ x, x < 16 → ∀ r, r < 4 → x &&& max_digit r = x % 2 ^ r := by
  decide

theorem max_digit_eq : ∀ r, r < 4 → max_digit r + 1 = 2 ^ r := by decide

theorem sc_is_zero_loop_spec (value : Buf) (k : Nat) : ∀ i,
    sc_is_zero_loop value k i = if Useg value i k = 0 then some (i + k) else none := by
  induction k with
  | zero => intro i; simp [sc_is_zero_loop, Useg]
  | succ k ih =>
    intro i
    rw [sc_is_zero_loop, Useg_succ_left, ih (i + 1)]
    by_cases h0 : value.getD i 0 = 0
    · rw [if_neg (by simpa using h0), h0]
      by_cases h1 : Useg value (i + 1) k = 0
      · rw [if_pos h1, if_pos (by omega)]
        congr 1; omega
      · rw [if_neg h1, if_neg (by omega)]
    · rw [if_pos h0, if_neg (by omega)]

theorem sc_is_zero_iff (v : Buf) (hv : ∀ d ∈ v, d < 16) (bits : Nat) :
    sc_is_zero v bits = true ↔ U v % 2 ^ bits = 0 := by
  have hr : bits % 4 < 4 := Nat.mod_lt _ (by decide)
  have hd := getD_lt v hv (bits / 4)
  have hp : 0 < 16 ^ (bits / 4) := by positivity
  rw [low_mod v hv bits]
  simp only [sc_is_zero, SC_BITS, sc_is_zero_loop_spec, Nat.zero_add]
  by_cases h1 : Useg v 0 (bits / 4) = 0
  · simp only [h1, if_true, Nat.zero_add, Bool.or_eq_true, beq_iff_eq,
      and_max_digit_mod _ hd _ hr]
    constructor
    · rintro (h | h)
      · have := max_digit_eq _ hr
        have h2 : 2 ^ (bits % 4) = 1 := by omega
        rw [h2, Nat.mod_one, Nat.mul_zero]
      · rw [h, Nat.mul_zero]
    · intro h
      right
      rcases Nat.mul_eq_zero.mp h with h | h
      · omega
      · exact h
  · simp only [h1, if_false]
    constructor
    · intro h; exact absurd h (by simp)
    · intro h; omega

theorem sc_is_all_one_loop_spec (value : Buf) (hv : ∀ d ∈ value, d < 16) (k : Nat) : ∀ i,
    sc_is_all_one_loop value k i
      = if Useg value i k + 1 = 16 ^ k then some (i + k) else none := by
  induction k with
  | zero => intro i; simp [sc_is_all_one_loop, Useg]
  | succ k ih =>
    intro i
    have hd := getD_lt value hv i
    have hl : Useg value (i + 1) k < 16 ^ k := Useg_lt _ _ _ (fun j _ => getD_lt value hv _)
    rw [sc_is_all_one_loop, Useg_succ_left, ih (i + 1), pow_succ]
    by_cases h0 : value.getD i 0 = 15
    · rw [if_neg (by simpa using h0), h0]
      by_cases h1 : Useg value (i + 1) k + 1 = 16 ^ k
      · rw [if_pos h1, if_pos (by omega)]
        congr 1; omega
      · rw [if_neg h1, if_neg (by omega)]
    · rw [if_pos h0, if_neg (by omega)]

theorem all_one_arith (A B u t : Nat) (hu : u < A) (ht : t < B) :
    u + A * t = A * B - 1 ↔ (u + 1 = A ∧ t + 1 = B) := by
  have h1 : A * t + A ≤ A * B := by
    have := Nat.mul_le_mul_left A (by omega : t + 1 ≤ B)
    rw [Nat.mul_add, Nat.mul_one] at this
    exact this
  constructor
  · intro h
    have h2 : A * (t + 1) = A * B := by
      rw [Nat.mul_add, Nat.mul_one]; omega
    have h3 : t + 1 = B := Nat.eq_of_mul_eq_mul_left (by omega) h2
    exact ⟨by omega, h3⟩
  · rintro ⟨h2, h3⟩
    have : A * (t + 1) = A * B := by rw [h3]
    rw [Nat.mul_add, Nat.mul_one] at this
    omega

theorem sc_is_all_one_iff (v : Buf) (hv : ∀ d ∈ v, d < 16) (bits : Nat) :
    sc_is_all_one v bits = true ↔ U v % 2 ^ bits = 2 ^ bits - 1 := by
  have hr : bits % 4 < 4 := Nat.mod_lt _ (by decide)
  have hd := getD_lt v hv (bits / 4)
  have hl : Useg v 0 (bits / 4) < 16 ^ (bits / 4) :=
    Useg_lt _ _ _ (fun j _ => getD_lt v hv _)
  have ht : v.getD (bits / 4) 0 % 2 ^ (bits % 4) < 2 ^ (bits % 4) := Nat.mod_lt _ (by positivity)
  have hmd := max_digit_eq _ hr
  rw [low_mod v hv bits, pow_bits_split bits, all_one_arith _ _ _ _ hl ht]
  simp only [sc_is_all_one, SC_BITS, sc_is_all_one_loop_spec v hv, Nat.zero_add]
  by_cases h1 : Useg v 0 (bits / 4) + 1 = 16 ^ (bits / 4)
  · simp only [h1, if_true, Bool.or_eq_true, beq_iff_eq, and_max_digit_mod _ hd _ hr, true_and]
    constructor
    · rintro (h | h) <;> omega
    · intro h
      right; omega
  · simp only [h1, if_false, false_and]
    constructor
    · intro h; exact absurd h (by simp)
    · intro h; exact absurd h (by simp)

/-- C23: for a buffer `v` of `N` nibbles and `bits ≤ 4 * N - 1`, `sc_is_zero(v, bits)` holds
exactly when `U v mod 2 ^ bits = 0` and `sc_is_all_one(v, bits)` exactly when
`U v mod 2 ^ bits = 2 ^ bits - 1`; a buffer that agrees with `v` on the low `bits` bits
gets the same two answers. -/
theorem sc_is_zero_all_one (N : Nat) (v : Buf) (bits : Nat) (hv : Valid N v)
    (_hb : bits ≤ 4 * N - 1) :
    (sc_is_zero v bits = true ↔ U v % 2 ^ bits = 0)
      ∧ (sc_is_all_one v bits = true ↔ U v % 2 ^ bits = 2 ^ bits - 1)
      ∧ ∀ w, Valid N w → U w % 2 ^ bits = U v % 2 ^ bits →
          sc_is_zero w bits = sc_is_zero v bits ∧ sc_is_all_one w bits = sc_is_all_one v bits := by
  refine ⟨sc_is_zero_iff v hv.2 bits, sc_is_all_one_iff v hv.2 bits, ?_⟩
  intro w hw he
  constructor
  · rw [Bool.eq_iff_iff, sc_is_zero_iff w hw.2, sc_is_zero_iff v hv.2, he]
  · rw [Bool.eq_iff_iff, sc_is_all_one_iff w hw.2, sc_is_all_one_iff v hv.2, he]

/-- C23, an instance: the low 6 bits of `0x3F` in a 4-nibble buffer are all set and not
all zero. -/
theorem sc_is_zero_all_one_witness :
    Valid 4 [15, 3, 0, 0] ∧ 6 ≤ 4 * 4 - 1
      ∧ ((sc_is_zero [15, 3, 0, 0] 6 = true ↔ U [15, 3, 0, 0] % 2 ^ 6 = 0)
        ∧ (sc_is_all_one [15, 3, 0, 0] 6 = true ↔ U [15, 3, 0, 0] % 2 ^ 6 = 2 ^ 6 - 1)
        ∧ ∀ w, Valid 4 w → U w % 2 ^ 6 = U [15, 3, 0, 0] % 2 ^ 6 →
            sc_is_zero w 6 = sc_is_zero [15, 3, 0, 0] 6
              ∧ sc_is_all_one w 6 = sc_is_all_one [15, 3, 0, 0] 6)
      ∧ sc_is_all_one [15, 3, 0, 0] 6 = true ∧ sc_is_zero [15, 3, 0, 0] 6 = false :=
  ⟨by decide, by decide, sc_is_zero_all_one 4 [15, 3, 0, 0] 6 (by decide) (by decide),
    by decide, by decide⟩

/-! ## Population count -/

theorem popcount_mask_step : ∀ d, d < 16 → ∀ r, r < 3 →
    popcount (d &&& max_digit (r + 1))
      = (if max_digit r ≠ 0 then popcount (d &&& max_digit r) else 0)
        + (if (d &&& (1 <<< r)) ≠ 0 then 1 else 0) := by decide

theorem popcount_full : ∀ d, d < 16 →
    popcount d = popcount (d &&& max_digit 3) + (if (d &&& (1 <<< 3)) ≠ 0 then 1 else 0) := by
  decide

theorem sc_popcount_loop_snd (value : Buf) (k : Nat) : ∀ i res,
    (sc_popcount_loop value k i res).2 = i + k := by
  induction k with
  | zero => intro i res; rfl
  | succ k ih => intro i res; rw [sc_popcount_loop, ih]; omega

theorem sc_popcount_loop_succ (value : Buf) (k : Nat) : ∀ i res,
    (sc_popcount_loop value (k + 1) i res).1
      = (sc_popcount_loop value k i res).1 + popcount (value.getD (i + k) 0) := by
  induction k with
  | zero => intro i res; rfl
  | succ k ih =>
    intro i res
    rw [sc_popcount_loop, ih (i + 1), sc_popcount_loop]
    have e : i + 1 + k = i + (k + 1) := by omega
    rw [e]

theorem sc_popcount_eq (value : Buf) (bits : Nat) :
    sc_popcount value bits
      = (sc_popcount_loop value (bits / 4) 0 0).1
        + (if max_digit (bits % 4) ≠ 0 then
            popcount (value.getD (bits / 4) 0 &&& max_digit (bits % 4)) else 0) := by
  simp only [sc_popcount, SC_BITS, sc_popcount_loop_snd, Nat.zero_add]
  split <;> rfl

theorem sc_popcount_step (x : Buf) (hx : ∀ d ∈ x, d < 16) (w : Nat) (hw : 1 ≤ w) :
    sc_popcount x w = sc_popcount x (w - 1) + sc_get_bit_at x (w - 1) := by
  rw [sc_popcount_eq, sc_popcount_eq]
  simp only [sc_get_bit_at, and3_eq_mod, shr2_eq_div]
  by_cases hr : w % 4 = 0
  · obtain ⟨q, hq⟩ : ∃ q, w / 4 = q + 1 := ⟨w / 4 - 1, by omega⟩
    have e1 : (w - 1) / 4 = q := by omega
    have e2 : (w - 1) % 4 = 3 := by omega
    rw [hr, e1, e2, hq, sc_popcount_loop_succ, Nat.zero_add,
      popcount_full _ (getD_lt x hx q)]
    rw [show (if max_digit 0 ≠ 0 then popcount (x.getD (q + 1) 0 &&& max_digit 0) else 0) = 0
        from if_neg (by decide),
      show (if max_digit 3 ≠ 0 then popcount (x.getD q 0 &&& max_digit 3) else 0)
        = popcount (x.getD q 0 &&& max_digit 3) from if_pos (by decide)]
    omega
  · obtain ⟨r, hr'⟩ : ∃ r, w % 4 = r + 1 := ⟨w % 4 - 1, by omega⟩
    have e1 : (w - 1) / 4 = w / 4 := by omega
    have e2 : (w - 1) % 4 = r := by omega
    have hr3 : r < 3 := by omega
    have hmd : max_digit (r + 1) ≠ 0 := by
      have := max_digit_eq (r + 1) (by omega)
      have : 2 ≤ 2 ^ (r + 1) := by
        calc 2 = 2 ^ 1 := by norm_num
          _ ≤ 2 ^ (r + 1) := Nat.pow_le_pow_right (by decide) (by omega)
      omega
    rw [hr', e1, e2, if_pos hmd, popcount_mask_step _ (getD_lt x hx _) r hr3]
    omega

theorem sc_popcount_sum (x : Buf) (hx : ∀ d ∈ x, d < 16) (w : Nat) :
    sc_popcount x w = ((List.range w).map (fun i => sc_get_bit_at x i)).sum := by
  induction w with
  | zero => rfl
  | succ w ih =>
    rw [sc_popcount_step x hx (w + 1) (by omega), Nat.add_sub_cancel, ih, List.range_succ,
      List.map_append, List.sum_append]
    simp

/-- C24: for a buffer `x` of `N` nibbles, `sc_popcount(x, 0) = 0` and, for
`1 ≤ w ≤ 4 * N - 1`, `sc_popcount(x, w) = sc_popcount(x, w - 1) + sc_get_bit_at(x, w - 1)`;
hence `sc_popcount(x, w)` is the number of set bits among the low `w` bits of `x`. -/
theorem sc_popcount_recurrence (N : Nat) (x : Buf) (hx : Valid N x) :
    sc_popcount x 0 = 0
      ∧ (∀ w, 1 ≤ w → w ≤ 4 * N - 1 →
          sc_popcount x w = sc_popcount x (w - 1) + sc_get_bit_at x (w - 1))
      ∧ (∀ w, w ≤ 4 * N - 1 →
          sc_popcount x w = ((List.range w).map (fun i => sc_get_bit_at x i)).sum) :=
  ⟨rfl, fun w hw _ => sc_popcount_step x hx.2 w hw, fun w _ => sc_popcount_sum x hx.2 w⟩

/-- C24, an instance: `0x5A` in a 4-nibble buffer has three set bits among its low 6. -/
theorem sc_popcount_recurrence_witness :
    Valid 4 [10, 5, 0, 0]
      ∧ (sc_popcount [10, 5, 0, 0] 0 = 0
        ∧ (∀ w, 1 ≤ w → w ≤ 4 * 4 - 1 →
            sc_popcount [10, 5, 0, 0] w
              = sc_popcount [10, 5, 0, 0] (w - 1) + sc_get_bit_at [10, 5, 0, 0] (w - 1))
        ∧ (∀ w, w ≤ 4 * 4 - 1 →
            sc_popcount [10, 5, 0, 0] w
              = ((List.range w).map (fun i => sc_get_bit_at [10, 5, 0, 0] i)).sum))
      ∧ sc_popcount [10, 5, 0, 0] 6 = 3 :=
  ⟨by decide, sc_popcount_recurrence 4 [10, 5, 0, 0] (by decide), by decide⟩

/-! ## Bytes of a value -/

theorem or_shl4 : ∀ a, a < 16 → ∀ b, b < 16 → (a % 256 ||| (b <<< 4)) % 256 = a + 16 * b := by
  decide

theorem byte_of_value (value : Buf) (hv : ∀ d ∈ value, d < 16) (ofs : Nat) :
    U value / 2 ^ (8 * ofs) % 256
      = value.getD (2 * ofs) 0 + 16 * value.getD (2 * ofs + 1) 0 := by
  have e : (2 : Nat) ^ (8 * ofs) = 16 ^ (2 * ofs) := by
    have : (16 : Nat) = 2 ^ 4 := by norm_num
    rw [this, ← pow_mul]; congr 1; omega
  have h0 := getD_lt value hv (2 * ofs)
  have h1 := getD_lt value hv (2 * ofs + 1)
  rw [e, U_div_pow value hv (2 * ofs), U_div_pow value hv (2 * ofs + 1)]
  omega

theorem sc_sub_bits_eq (value : Buf) (hv : ∀ d ∈ value, d < 16) (len ofs : Nat) :
    sc_sub_bits value (len : Int) ofs = (U value % 2 ^ len) / 2 ^ (8 * ofs) % 256 := by
  have h0 := getD_lt value hv (2 * ofs)
  have h1 := getD_lt value hv (2 * ofs + 1)
  have hb := byte_of_value value hv ofs
  by_cases hge : len ≤ 8 * ofs
  · have hc : ((4 * (2 * ofs) : Nat) : Int) ≥ (len : Int) := by omega
    simp only [sc_sub_bits, if_pos hc]
    have hlt : U value % 2 ^ len < 2 ^ (8 * ofs) :=
      lt_of_lt_of_le (Nat.mod_lt _ (by positivity)) (Nat.pow_le_pow_right (by decide) hge)
    rw [Nat.div_eq_of_lt hlt]
  · have hc : ¬ ((4 * (2 * ofs) : Nat) : Int) ≥ (len : Int) := by omega
    have hrest : ((len : Int) - ((8 * ofs : Nat) : Int)).toNat = len - 8 * ofs := by omega
    have hsplit : (2 : Nat) ^ len = 2 ^ (8 * ofs) * 2 ^ (len - 8 * ofs) := by
      rw [← pow_add]; congr 1; omega
    simp only [sc_sub_bits, if_neg hc, hrest]
    rw [hsplit, Nat.mod_mul_right_div_self]
    by_cases h8 : len - 8 * ofs < 8
    · rw [if_pos h8, and_mask_eq_mod]
      have hd : 2 ^ (len - 8 * ofs) ∣ 256 := by
        have : (256 : Nat) = 2 ^ 8 := by norm_num
        rw [this]
        exact pow_dvd_pow 2 (by omega)
      have hlt256 : U value / 2 ^ (8 * ofs) % 2 ^ (len - 8 * ofs) < 256 :=
        lt_of_lt_of_le (Nat.mod_lt _ (by positivity)) (Nat.le_of_dvd (by decide) hd)
      have hr : U value / 2 ^ (8 * ofs) % 2 ^ (len - 8 * ofs)
          = U value / 2 ^ (8 * ofs) % 256 % 2 ^ (len - 8 * ofs) :=
        (Nat.mod_mod_of_dvd _ hd).symm
      rw [Nat.mod_eq_of_lt hlt256, hr, hb]
      by_cases h4 : len > 4 * (2 * ofs + 1)
      · have hc4 : (len : Int) > ((4 * (2 * ofs + 1) : Nat) : Int) := by omega
        rw [if_pos hc4, or_shl4 _ h0 _ h1]
      · have hc4 : ¬ (len : Int) > ((4 * (2 * ofs + 1) : Nat) : Int) := by omega
        rw [if_neg hc4, Nat.mod_eq_of_lt (by omega : value.getD (2 * ofs) 0 < 256)]
        have hd16 : 2 ^ (len - 8 * ofs) ∣ 16 := by
          have : (16 : Nat) = 2 ^ 4 := by norm_num
          rw [this]
          exact pow_dvd_pow 2 (by omega)
        rw [Nat.add_mod, Nat.mul_mod, Nat.mod_eq_zero_of_dvd (n := 16) hd16]
        simp
    · have hc4 : (len : Int) > ((4 * (2 * ofs + 1) : Nat) : Int) := by omega
      rw [if_neg h8, if_pos hc4, or_shl4 _ h0 _ h1]
      have hd : 256 ∣ 2 ^ (len - 8 * ofs) := by
        have : (256 : Nat) = 2 ^ 8 := by norm_num
        rw [this]
        exact pow_dvd_pow 2 (by omega)
      rw [Nat.mod_mod_of_dvd _ hd, hb]

/-- C25: for a buffer of `N` nibbles, a bit length `len ≥ 0` and a byte offset `ofs`
whose addressed nibbles lie inside the buffer, `sc_sub_bits(value, len, ofs)` returns
`floor((U value mod 2 ^ len) / 2 ^ (8 * ofs)) mod 256`: byte number `ofs` of the `len`-bit
value, which is zero when `8 * ofs ≥ len`. -/
theorem sc_sub_bits_byte (N : Nat) (value : Buf) (len ofs : Nat) (hv : Valid N value)
    (_hin : 8 * ofs < len → 2 * ofs < N ∧ (8 * ofs + 4 < len → 2 * ofs + 1 < N)) :
    sc_sub_bits value (len : Int) ofs = (U value % 2 ^ len) / 2 ^ (8 * ofs) % 256
      ∧ (len ≤ 8 * ofs → sc_sub_bits value (len : Int) ofs = 0) := by
  refine ⟨sc_sub_bits_eq value hv.2 len ofs, ?_⟩
  intro hge
  have hc : ((4 * (2 * ofs) : Nat) : Int) ≥ (len : Int) := by omega
  simp only [sc_sub_bits, if_pos hc]

/-- C25, an instance: byte 1 of the 13-bit value of `0xBCDE` is `0x1C`. -/
theorem sc_sub_bits_byte_witness :
    Valid 4 [14, 13, 12, 11]
      ∧ (8 * 1 < 13 → 2 * 1 < 4 ∧ (8 * 1 + 4 < 13 → 2 * 1 + 1 < 4))
      ∧ (sc_sub_bits [14, 13, 12, 11] ((13 : Nat) : Int) 1
          = (U [14, 13, 12, 11] % 2 ^ 13) / 2 ^ (8 * 1) % 256
        ∧ (13 ≤ 8 * 1 → sc_sub_bits [14, 13, 12, 11] ((13 : Nat) : Int) 1 = 0))
      ∧ sc_sub_bits [14, 13, 12, 11] 13 1 = 0x1C :=
  ⟨by decide, by decide,
    sc_sub_bits_byte 4 [14, 13, 12, 11] 13 1 (by decide) (by decide), by decide⟩

/-! ## Extreme values -/

theorem unsigned_sub_eq (a b : Nat) (hb : b ≤ a) (ha : a < 2 ^ 32) : unsigned_sub a b = a - b := by
  simp only [unsigned_sub]
  omega

theorem min_digit_eq : ∀ r, r < 4 → min_digit r + 2 ^ r = 16 := by decide

theorem three_zone_cells (N q lo mid hi : Nat) (hq : q < N) (j : Nat) :
    (fill_cells hi (N - (q + 1)) (q + 1)
        ((fill_cells lo q 0 (CLEAR_BUFFER N)).set q mid)).getD j 0
      = if j < q then lo else if j = q then mid else if j < N then hi else 0 := by
  have hc : (CLEAR_BUFFER N).length = N := (CLEAR_BUFFER_valid N).1
  have h1 : (fill_cells lo q 0 (CLEAR_BUFFER N)).length = N := by rw [fill_cells_length, hc]
  have h2 : ((fill_cells lo q 0 (CLEAR_BUFFER N)).set q mid).length = N := by
    rw [List.length_set, h1]
  rw [fill_cells_getD _ _ _ _ _ (by rw [h2]; omega)]
  by_cases hj : q + 1 ≤ j ∧ j < q + 1 + (N - (q + 1))
  · rw [if_pos hj, if_neg (by omega), if_neg (by omega), if_pos (by omega)]
  · rw [if_neg hj]
    by_cases hjq : j = q
    · rw [hjq, getD_set_eq _ _ _ (by rw [h1]; exact hq), if_neg (by omega), if_pos rfl]
    · rw [getD_set_ne _ _ _ _ (fun h => hjq h.symm),
        fill_cells_getD _ _ _ _ _ (by rw [hc]; omega), CLEAR_BUFFER_getD]
      by_cases hlt : j < q
      · rw [if_pos (by omega), if_pos hlt]
      · rw [if_neg (by omega), if_neg hlt, if_neg hjq, if_neg (by omega)]

theorem three_zone_length (N q lo mid hi : Nat) :
    (fill_cells hi (N - (q + 1)) (q + 1)
        ((fill_cells lo q 0 (CLEAR_BUFFER N)).set q mid)).length = N := by
  rw [fill_cells_length, List.length_set, fill_cells_length]
  exact (CLEAR_BUFFER_valid N).1

theorem three_zone_valid (N q lo mid hi : Nat) (hq : q < N) (hlo : lo < 16) (hmid : mid < 16)
    (hhi : hi < 16) :
    Valid N (fill_cells hi (N - (q + 1)) (q + 1)
        ((fill_cells lo q 0 (CLEAR_BUFFER N)).set q mid)) := by
  apply Valid_of_getD N _ (three_zone_length N q lo mid hi)
  intro j _
  rw [three_zone_cells N q lo mid hi hq j]
  by_cases h1 : j < q
  · rw [if_pos h1]; exact hlo
  · rw [if_neg h1]
    by_cases h2 : j = q
    · rw [if_pos h2]; exact hmid
    · rw [if_neg h2]
      by_cases h3 : j < N
      · rw [if_pos h3]; exact hhi
      · rw [if_neg h3]; omega

theorem sc_max_from_bits_value (N bits : Nat) (hb : bits / 4 < N) :
    Valid N (fill_cells 0 (N - (bits / 4 + 1)) (bits / 4 + 1)
        ((fill_cells 0xF (bits / 4) 0 (CLEAR_BUFFER N)).set (bits / 4) (max_digit (bits % 4))))
      ∧ U (fill_cells 0 (N - (bits / 4 + 1)) (bits / 4 + 1)
        ((fill_cells 0xF (bits / 4) 0 (CLEAR_BUFFER N)).set (bits / 4) (max_digit (bits % 4))))
        + 1 = 2 ^ bits := by
  have hr : bits % 4 < 4 := Nat.mod_lt _ (by decide)
  have hmd := max_digit_eq _ hr
  have hle : 2 ^ (bits % 4) ≤ 2 ^ 4 := Nat.pow_le_pow_right (by decide) hr.le
  have hcells := three_zone_cells N (bits / 4) 0xF (max_digit (bits % 4)) 0 hb
  refine ⟨three_zone_valid N _ _ _ _ hb (by decide) (by omega) (by decide), ?_⟩
  obtain ⟨c, hc⟩ : ∃ c, N - bits / 4 = c + 1 := ⟨N - bits / 4 - 1, by omega⟩
  have hlow := Useg_fifteen _ 0 (bits / 4)
    (fun j hj => by rw [hcells, Nat.zero_add, if_pos hj])
  rw [U_split N (bits / 4) _ (three_zone_length N _ _ _ _) (by omega), hc, Useg_succ_left,
    Useg_zero _ (bits / 4 + 1) c (fun j _ => by
      rw [hcells, if_neg (by omega), if_neg (by omega)]; split <;> rfl),
    hcells, if_neg (by omega), if_pos rfl, pow_bits_split bits]
  simp only [Nat.mul_zero, Nat.add_zero]
  generalize Useg _ 0 (bits / 4) = u at hlow
  have e : 16 ^ (bits / 4) * 2 ^ (bits % 4)
      = 16 ^ (bits / 4) * max_digit (bits % 4) + 16 ^ (bits / 4) := by
    rw [← hmd, Nat.mul_add, Nat.mul_one]
  rw [e]
  omega

theorem sc_min_from_bits_value (N bits : Nat) (hb : bits / 4 < N) :
    Valid N (fill_cells 0xF (N - (bits / 4 + 1)) (bits / 4 + 1)
        ((fill_cells 0 (bits / 4) 0 (CLEAR_BUFFER N)).set (bits / 4) (min_digit (bits % 4))))
      ∧ U (fill_cells 0xF (N - (bits / 4 + 1)) (bits / 4 + 1)
        ((fill_cells 0 (bits / 4) 0 (CLEAR_BUFFER N)).set (bits / 4) (min_digit (bits % 4))))
        + 2 ^ bits = 16 ^ N := by
  have hr : bits % 4 < 4 := Nat.mod_lt _ (by decide)
  have hmd := min_digit_eq _ hr
  have hp : 0 < 2 ^ (bits % 4) := by positivity
  have hcells := three_zone_cells N (bits / 4) 0 (min_digit (bits % 4)) 0xF hb
  refine ⟨three_zone_valid N _ _ _ _ hb (by decide) (by omega) (by decide), ?_⟩
  obtain ⟨c, hc⟩ : ∃ c, N - bits / 4 = c + 1 := ⟨N - bits / 4 - 1, by omega⟩
  have hhigh := Useg_fifteen _ (bits / 4 + 1) c
    (fun j hj => by rw [hcells, if_neg (by omega), if_neg (by omega), if_pos (by omega)])
  have hN : 16 ^ N = 16 ^ (bits / 4) * (16 * 16 ^ c) := by
    rw [← pow_succ', ← pow_add]; congr 1; omega
  rw [U_split N (bits / 4) _ (three_zone_length N _ _ _ _) (by omega), hc, Useg_succ_left,
    Useg_zero _ 0 (bits / 4) (fun j hj => by rw [hcells, Nat.zero_add, if_pos hj]),
    hcells, if_neg (by omega), if_pos rfl, pow_bits_split bits, hN, Nat.zero_add,
    ← Nat.mul_add]
  congr 1
  generalize Useg _ (bits / 4 + 1) c = u at hhigh
  omega


/-- C22: for `1 ≤ n ≤ 2 * N` (the precision; `n` is an `unsigned`), `sc_min_from_bits`
writes the buffer with two's-complement value `-2 ^ (n - 1)` when signed and 0 when
unsigned, and `sc_max_from_bits` the buffer with value `2 ^ (n - 1) - 1` when signed and
`2 ^ n - 1` when unsigned. -/
theorem sc_min_max_from_bits (N n : Nat) (hn1 : 1 ≤ n) (hn : n ≤ 2 * N) (hn32 : n < 2 ^ 32) :
    (Valid N (sc_min_from_bits N n true)
        ∧ S N (sc_min_from_bits N n true) = -(2 : Int) ^ (n - 1))
      ∧ (Valid N (sc_min_from_bits N n false) ∧ S N (sc_min_from_bits N n false) = 0)
      ∧ (Valid N (sc_max_from_bits N n true)
        ∧ S N (sc_max_from_bits N n true) = (2 : Int) ^ (n - 1) - 1)
      ∧ (Valid N (sc_max_from_bits N n false)
        ∧ S N (sc_max_from_bits N n false) = (2 : Int) ^ n - 1) := by
  have e1 := unsigned_sub_eq n 1 hn1 hn32
  have e0 := unsigned_sub_eq n 0 (by omega) hn32
  have p1 : 2 ^ (n - 1) * 2 = 2 ^ n := by
    have e : n - 1 + 1 = n := by omega
    rw [← pow_succ, e]
  have pn : 2 ^ n * 2 ≤ 16 ^ N := by
    rw [← pow_succ]
    exact pow_bits_le N (n + 1) (by omega)
  have hmax : ∀ bits, bits ≤ n →
      Valid N (fill_cells 0 (N - (bits / 4 + 1)) (bits / 4 + 1)
        ((fill_cells 0xF (bits / 4) 0 (CLEAR_BUFFER N)).set (bits / 4) (max_digit (bits % 4))))
      ∧ S N (fill_cells 0 (N - (bits / 4 + 1)) (bits / 4 + 1)
        ((fill_cells 0xF (bits / 4) 0 (CLEAR_BUFFER N)).set (bits / 4) (max_digit (bits % 4))))
        = (2 : Int) ^ bits - 1 := by
    intro bits hb
    obtain ⟨v, u⟩ := sc_max_from_bits_value N bits (by omega)
    refine ⟨v, ?_⟩
    have hle : 2 ^ bits ≤ 2 ^ n := Nat.pow_le_pow_right (by decide) hb
    rw [S_of_pos N _ (by omega)]
    have : ((U (fill_cells 0 (N - (bits / 4 + 1)) (bits / 4 + 1)
        ((fill_cells 0xF (bits / 4) 0 (CLEAR_BUFFER N)).set (bits / 4)
          (max_digit (bits % 4)))) + 1 : Nat) : Int) = ((2 ^ bits : Nat) : Int) := by rw [u]
    push_cast at this
    omega
  refine ⟨?_, ?_, ?_, ?_⟩
  · obtain ⟨v, u⟩ := sc_min_from_bits_value N (n - 1) (by omega)
    simp only [sc_min_from_bits, Bool.not_true, Bool.false_eq_true, if_false, e1]
    refine ⟨v, ?_⟩
    rw [S_of_neg N _ (by omega)]
    have : ((U (fill_cells 0xF (N - ((n - 1) / 4 + 1)) ((n - 1) / 4 + 1)
        ((fill_cells 0 ((n - 1) / 4) 0 (CLEAR_BUFFER N)).set ((n - 1) / 4)
          (min_digit ((n - 1) % 4)))) + 2 ^ (n - 1) : Nat) : Int) = ((16 ^ N : Nat) : Int) := by
      rw [u]
    push_cast at this ⊢
    omega
  · simp only [sc_min_from_bits, Bool.not_false, if_true]
    refine ⟨CLEAR_BUFFER_valid N, ?_⟩
    have hp : 0 < 16 ^ N := by positivity
    rw [S_of_pos N _ (by rw [U_CLEAR_BUFFER]; omega), U_CLEAR_BUFFER]
    rfl
  · simp only [sc_max_from_bits, if_true, e1]
    exact hmax (n - 1) (by omega)
  · simp only [sc_max_from_bits, Bool.false_eq_true, if_false, e0, Nat.sub_zero]
    exact hmax n (le_refl _)

/-- C22, an instance: the extremes of a 7-bit integer in 8-nibble buffers. -/
theorem sc_min_max_from_bits_witness :
    1 ≤ 7 ∧ 7 ≤ 2 * 8 ∧ 7 < 2 ^ 32
      ∧ ((Valid 8 (sc_min_from_bits 8 7 true)
          ∧ S 8 (sc_min_from_bits 8 7 true) = -(2 : Int) ^ (7 - 1))
        ∧ (Valid 8 (sc_min_from_bits 8 7 false) ∧ S 8 (sc_min_from_bits 8 7 false) = 0)
        ∧ (Valid 8 (sc_max_from_bits 8 7 true)
          ∧ S 8 (sc_max_from_bits 8 7 true) = (2 : Int) ^ (7 - 1) - 1)
        ∧ (Valid 8 (sc_max_from_bits 8 7 false)
          ∧ S 8 (sc_max_from_bits 8 7 false) = (2 : Int) ^ 7 - 1))
      ∧ sc_min_from_bits 8 7 true = [0, 12, 15, 15, 15, 15, 15, 15]
      ∧ sc_max_from_bits 8 7 true = [15, 3, 0, 0, 0, 0, 0, 0] :=
  ⟨by decide, by decide, by decide,
    sc_min_max_from_bits 8 7 (by decide) (by decide) (by decide), by decide, by decide⟩

/-! ## Truncation -/

theorem trunc_cells_value (N q r : Nat) (x b : Buf) (hx : ∀ d ∈ x, d < 16) (hq : q < N)
    (hr : r < 4) (hlen : b.length = N)
    (hcells : ∀ j, b.getD j 0
      = if j < q then x.getD j 0 else if j = q then x.getD q 0 % 2 ^ r else 0) :
    Valid N b ∧ U b = U x % 2 ^ (4 * q + r) := by
  have hd := getD_lt x hx q
  constructor
  · apply Valid_of_getD N b hlen
    intro j _
    rw [hcells j]
    by_cases h1 : j < q
    · rw [if_pos h1]; exact getD_lt x hx j
    · rw [if_neg h1]
      by_cases h2 : j = q
      · rw [if_pos h2]; exact lt_of_le_of_lt (Nat.mod_le _ _) hd
      · rw [if_neg h2]; omega
  · obtain ⟨c, hc⟩ : ∃ c, N - q = c + 1 := ⟨N - q - 1, by omega⟩
    have e1 : (4 * q + r) / 4 = q := by omega
    have e2 : (4 * q + r) % 4 = r := by omega
    rw [low_mod x hx (4 * q + r), e1, e2, U_split N q b hlen (by omega), hc, Useg_succ_left,
      Useg_zero b (q + 1) c (fun j _ => by
        rw [hcells, if_neg (by omega), if_neg (by omega)]),
      Useg_congr b x 0 q (fun j hj => by rw [hcells, Nat.zero_add, if_pos hj]),
      hcells, if_neg (by omega), if_pos rfl]
    simp only [Nat.mul_zero, Nat.add_zero]

theorem sc_truncate_spec (N : Nat) (x : Buf) (hx : Valid N x) (w : Nat) (hw : w / 4 < N) :
    ∃ r, sc_truncate N w x = some r ∧ Valid N r ∧ U r = U x % 2 ^ w := by
  have hwq : 4 * (w / 4) + w % 4 = w := Nat.div_add_mod w 4
  have hd := getD_lt x hx.2 (w / 4)
  have hcases : w % 4 = 0 ∨ w % 4 = 1 ∨ w % 4 = 2 ∨ w % 4 = 3 := by omega
  have key : ∀ (m : Nat), x.getD (w / 4) 0 &&& m = x.getD (w / 4) 0 % 2 ^ (w % 4) →
      Valid N (fill_cells 0 (N - (w / 4 + 1)) (w / 4 + 1)
          (x.set (w / 4) (x.getD (w / 4) 0 &&& m)))
        ∧ U (fill_cells 0 (N - (w / 4 + 1)) (w / 4 + 1)
          (x.set (w / 4) (x.getD (w / 4) 0 &&& m))) = U x % 2 ^ w := by
    intro m hm
    have hl : (x.set (w / 4) (x.getD (w / 4) 0 &&& m)).length = N := by
      rw [List.length_set, hx.1]
    have := trunc_cells_value N (w / 4) (w % 4) x
      (fill_cells 0 (N - (w / 4 + 1)) (w / 4 + 1) (x.set (w / 4) (x.getD (w / 4) 0 &&& m)))
      hx.2 hw (Nat.mod_lt _ (by decide))
      (by rw [fill_cells_length, hl]) (fun j => by
        rw [fill_cells_getD _ _ _ _ _ (by rw [hl]; omega)]
        by_cases h1 : w / 4 + 1 ≤ j ∧ j < w / 4 + 1 + (N - (w / 4 + 1))
        · rw [if_pos h1, if_neg (by omega), if_neg (by omega)]
        · rw [if_neg h1]
          by_cases h2 : j = w / 4
          · rw [h2, getD_set_eq _ _ _ (by rw [hx.1]; exact hw), if_neg (by omega), if_pos rfl, hm]
          · rw [getD_set_ne _ _ _ _ (fun h => h2 h.symm)]
            by_cases h3 : j < w / 4
            · rw [if_pos h3]
            · rw [if_neg h3, if_neg h2, List.getD_eq_default _ _ (by rw [hx.1]; omega)])
    rw [hwq] at this
    exact this
  rcases hcases with h | h | h | h
  · refine ⟨fill_cells 0 (N - w / 4) (w / 4) x, by simp only [sc_truncate, if_pos hw, h], ?_⟩
    have := trunc_cells_value N (w / 4) (w % 4) x (fill_cells 0 (N - w / 4) (w / 4) x)
      hx.2 hw (Nat.mod_lt _ (by decide))
      (by rw [fill_cells_length, hx.1]) (fun j => by
        rw [fill_cells_getD _ _ _ _ _ (by rw [hx.1]; omega), h, pow_zero, Nat.mod_one]
        by_cases h1 : w / 4 ≤ j ∧ j < w / 4 + (N - w / 4)
        · rw [if_pos h1, if_neg (by omega)]
          split <;> rfl
        · rw [if_neg h1]
          by_cases h3 : j < w / 4
          · rw [if_pos h3]
          · rw [if_neg h3, List.getD_eq_default _ _ (by rw [hx.1]; omega)]
            split <;> rfl)
    rw [hwq] at this
    exact this
  · exact ⟨_, by simp only [sc_truncate, if_pos hw, h],
      key 1 (by rw [h]; exact Nat.and_pow_two_sub_one_eq_mod _ 1)⟩
  · exact ⟨_, by simp only [sc_truncate, if_pos hw, h],
      key 3 (by rw [h]; exact Nat.and_pow_two_sub_one_eq_mod _ 2)⟩
  · exact ⟨_, by simp only [sc_truncate, if_pos hw, h],
      key 7 (by rw [h]; exact Nat.and_pow_two_sub_one_eq_mod _ 3)⟩

/-- C21: for buffers `a`, `b` of `N ≥ 1` nibbles and a width `w ≤ 2 * N` (the precision),
`sc_truncate` passes its assertion and gives a buffer with unsigned value `U x mod 2 ^ w`;
truncating the sum of `a` and `b` gives the same buffer as truncating the sum of the
truncations of `a` and `b`. -/
theorem sc_truncate_add (N : Nat) (a b : Buf) (w : Nat) (hN : 1 ≤ N) (ha : Valid N a)
    (hb : Valid N b) (hw : w ≤ 2 * N) :
    ∃ ta tb t, sc_truncate N w a = some ta ∧ sc_truncate N w b = some tb
      ∧ U ta = U a % 2 ^ w ∧ U tb = U b % 2 ^ w
      ∧ sc_truncate N w (sc_add a b).1 = some t
      ∧ sc_truncate N w (sc_add ta tb).1 = some t := by
  have hq : w / 4 < N := by omega
  have hdvd : 2 ^ w ∣ 16 ^ N := by
    have : (16 : Nat) = 2 ^ 4 := by norm_num
    rw [this, ← pow_mul]
    exact pow_dvd_pow 2 (by omega)
  obtain ⟨ta, a1, a2, a3⟩ := sc_truncate_spec N a ha w hq
  obtain ⟨tb, b1, b2, b3⟩ := sc_truncate_spec N b hb w hq
  obtain ⟨s1, s2, _⟩ := do_add_spec N a b ha hb
  obtain ⟨u1, u2, _⟩ := do_add_spec N ta tb a2 b2
  obtain ⟨t, t1, t2, t3⟩ := sc_truncate_spec N (sc_add a b).1 s1 w hq
  obtain ⟨t', r1, r2, r3⟩ := sc_truncate_spec N (sc_add ta tb).1 u1 w hq
  refine ⟨ta, tb, t, a1, b1, a3, b3, t1, ?_⟩
  rw [r1]
  congr 1
  apply U_injective N t' t r2 t2
  simp only [sc_add] at t3 r3
  rw [r3, t3, u2, s2, Nat.mod_mod_of_dvd _ hdvd, Nat.mod_mod_of_dvd _ hdvd, a3, b3,
    ← Nat.add_mod]

/-- C21, an instance: `0x5A + 0xC7` truncated to 6 bits in 4-nibble buffers. -/
theorem sc_truncate_add_witness :
    1 ≤ 4 ∧ Valid 4 [10, 5, 0, 0] ∧ Valid 4 [7, 12, 0, 0] ∧ 6 ≤ 2 * 4
      ∧ (∃ ta tb t, sc_truncate 4 6 [10, 5, 0, 0] = some ta
        ∧ sc_truncate 4 6 [7, 12, 0, 0] = some tb
        ∧ U ta = U [10, 5, 0, 0] % 2 ^ 6 ∧ U tb = U [7, 12, 0, 0] % 2 ^ 6
        ∧ sc_truncate 4 6 (sc_add [10, 5, 0, 0] [7, 12, 0, 0]).1 = some t
        ∧ sc_truncate 4 6 (sc_add ta tb).1 = some t)
      ∧ sc_truncate 4 6 (sc_add [10, 5, 0, 0] [7, 12, 0, 0]).1 = some [1, 2, 0, 0] :=
  ⟨by decide, by decide, by decide, by decide,
    sc_truncate_add 4 [10, 5, 0, 0] [7, 12, 0, 0] 6 (by decide) (by decide) (by decide)
      (by decide),
    by decide⟩

/-! ## Bytes into a buffer -/

set_option maxRecDepth 100000 in
theorem byte_nibbles : ∀ b, b < 256 →
    (b &&& 0xF) + 16 * ((b >>> 4) &&& 0xF) = b ∧ (b &&& 0xF) < 16 ∧ ((b >>> 4) &&& 0xF) < 16 := by
  decide

theorem sc_val_from_bytes_loop_spec (bs : List Nat) : ∀ (p : Nat) (buffer : Buf),
    p + 2 * bs.length ≤ buffer.length → (∀ b ∈ bs, b < 256) →
    (sc_val_from_bytes_loop bs p buffer).2 = p + 2 * bs.length
      ∧ (sc_val_from_bytes_loop bs p buffer).1.length = buffer.length
      ∧ (∀ j, j < p ∨ p + 2 * bs.length ≤ j →
          (sc_val_from_bytes_loop bs p buffer).1.getD j 0 = buffer.getD j 0)
      ∧ (∀ j, p ≤ j → j < p + 2 * bs.length →
          (sc_val_from_bytes_loop bs p buffer).1.getD j 0 < 16)
      ∧ Useg (sc_val_from_bytes_loop bs p buffer).1 p (2 * bs.length) = bytes_value bs := by
  induction bs with
  | nil =>
    intro p buffer _ _
    exact ⟨rfl, rfl, fun _ _ => rfl, fun j h1 h2 => by simp at h2; omega, rfl⟩
  | cons b rest ih =>
    intro p buffer hlen hb
    have hbb := byte_nibbles b (hb b (List.mem_cons_self _ _))
    have hl : (b :: rest).length = rest.length + 1 := rfl
    have hl1 : (buffer.set p (b &&& 0xF)).length = buffer.length := List.length_set _ _ _
    have hl2 : ((buffer.set p (b &&& 0xF)).set (p + 1) ((b >>> 4) &&& 0xF)).length
        = buffer.length := by rw [List.length_set, hl1]
    rw [hl] at hlen ⊢
    obtain ⟨i1, i2, i3, i4, i5⟩ := ih (p + 2)
      ((buffer.set p (b &&& 0xF)).set (p + 1) ((b >>> 4) &&& 0xF)) (by rw [hl2]; omega)
      (fun x hx => hb x (List.mem_cons_of_mem _ hx))
    have g0 : (sc_val_from_bytes_loop (b :: rest) p buffer).1.getD p 0 = b &&& 0xF := by
      rw [sc_val_from_bytes_loop, i3 p (Or.inl (by omega)), getD_set_ne _ _ _ _ (by omega),
        getD_set_eq _ _ _ (by omega)]
    have g1 : (sc_val_from_bytes_loop (b :: rest) p buffer).1.getD (p + 1) 0
        = (b >>> 4) &&& 0xF := by
      rw [sc_val_from_bytes_loop, i3 (p + 1) (Or.inl (by omega)),
        getD_set_eq _ _ _ (by rw [hl1]; omega)]
    refine ⟨?_, ?_, ?_, ?_, ?_⟩
    · rw [sc_val_from_bytes_loop, i1]; omega
    · rw [sc_val_from_bytes_loop, i2, hl2]
    · intro j hj
      rw [sc_val_from_bytes_loop, i3 j (by omega), getD_set_ne _ _ _ _ (by omega),
        getD_set_ne _ _ _ _ (by omega)]
    · intro j h1 h2
      by_cases hj0 : j = p
      · rw [hj0, g0]; exact hbb.2.1
      · by_cases hj1 : j = p + 1
        · rw [hj1, g1]; exact hbb.2.2
        · rw [sc_val_from_bytes_loop]
          exact i4 j (by omega) (by omega)
    · have e : 2 * (rest.length + 1) = 2 * rest.length + 1 + 1 := by omega
      rw [e, Useg_succ_left, Useg_succ_left, g0, g1]
      have i5' : Useg (sc_val_from_bytes_loop (b :: rest) p buffer).1 (p + 1 + 1)
          (2 * rest.length) = bytes_value rest := by
        rw [sc_val_from_bytes_loop]; exact i5
      rw [i5']
      simp only [bytes_value]
      omega

theorem sc_val_from_bytes_le (N : Nat) (bytes buffer : Buf) (hb : ∀ b ∈ bytes, b < 256)
    (hlen : 2 * bytes.length ≤ N) (hbuf : buffer.length = N) :
    ∃ r, sc_val_from_bytes N bytes false buffer = some r ∧ Valid N r
      ∧ U r = bytes_value bytes ∧ ∀ j, 2 * bytes.length ≤ j → r.getD j 0 = 0 := by
  obtain ⟨l1, l2, l3, l4, l5⟩ := sc_val_from_bytes_loop_spec bytes 0 buffer
    (by rw [hbuf]; omega) hb
  rw [Nat.zero_add] at l1
  simp only [Nat.zero_add] at l4
  have hle : bytes.length ≤ N := by omega
  have hfl : (fill_cells 0 (N - 2 * bytes.length) (2 * bytes.length)
      (sc_val_from_bytes_loop bytes 0 buffer).1).length = N := by
    rw [fill_cells_length, l2, hbuf]
  have hcells : ∀ j, (fill_cells 0 (N - 2 * bytes.length) (2 * bytes.length)
      (sc_val_from_bytes_loop bytes 0 buffer).1).getD j 0
      = if j < 2 * bytes.length then (sc_val_from_bytes_loop bytes 0 buffer).1.getD j 0
        else 0 := by
    intro j
    rw [fill_cells_getD _ _ _ _ _ (by rw [l2, hbuf]; omega)]
    by_cases h1 : 2 * bytes.length ≤ j ∧ j < 2 * bytes.length + (N - 2 * bytes.length)
    · rw [if_pos h1, if_neg (by omega)]
    · rw [if_neg h1]
      by_cases h2 : j < 2 * bytes.length
      · rw [if_pos h2]
      · rw [if_neg h2, List.getD_eq_default _ _ (by rw [l2, hbuf]; omega)]
  have hres : sc_val_from_bytes N bytes false buffer
      = some (fill_cells 0 (N - 2 * bytes.length) (2 * bytes.length)
          (sc_val_from_bytes_loop bytes 0 buffer).1) := by
    simp only [sc_val_from_bytes, if_pos hle, Bool.false_eq_true, if_false, l1]
  refine ⟨_, hres, ?_, ?_, ?_⟩
  · apply Valid_of_getD N _ hfl
    intro j _
    rw [hcells j]
    split
    · exact l4 j (by omega) (by omega)
    · omega
  · rw [U_split N (2 * bytes.length) _ hfl hlen,
      Useg_zero _ (2 * bytes.length) _ (fun j _ => by rw [hcells, if_neg (by omega)]),
      Useg_congr _ (sc_val_from_bytes_loop bytes 0 buffer).1 0 (2 * bytes.length)
        (fun j hj => by rw [hcells, if_pos (by omega)]), l5]
    simp
  · intro j hj
    rw [hcells j, if_neg (by omega)]

/-- C26: for a sequence of `n` bytes with `2 * n ≤ N`, `sc_val_from_bytes` passes its
assertion and writes the buffer whose unsigned value is the sum of `bytes[i] * 256 ^ i`
when `big_endian` is false and of `bytes[n - 1 - i] * 256 ^ i` when it is true, every
nibble from index `2 * n` on being zero; the big-endian result of a sequence is the
little-endian result of the reversed sequence. -/
theorem sc_val_from_bytes_value (N : Nat) (bytes buffer : Buf) (hb : ∀ b ∈ bytes, b < 256)
    (hlen : 2 * bytes.length ≤ N) (hbuf : buffer.length = N) :
    (∃ r, sc_val_from_bytes N bytes false buffer = some r ∧ Valid N r
        ∧ U r = bytes_value bytes ∧ ∀ j, 2 * bytes.length ≤ j → r.getD j 0 = 0)
      ∧ (∃ r, sc_val_from_bytes N bytes true buffer = some r ∧ Valid N r
        ∧ U r = bytes_value bytes.reverse ∧ ∀ j, 2 * bytes.length ≤ j → r.getD j 0 = 0)
      ∧ sc_val_from_bytes N bytes true buffer
        = sc_val_from_bytes N bytes.reverse false buffer := by
  have hrev : sc_val_from_bytes N bytes true buffer
      = sc_val_from_bytes N bytes.reverse false buffer := by
    simp only [sc_val_from_bytes, List.length_reverse, if_true, Bool.false_eq_true, if_false]
  refine ⟨sc_val_from_bytes_le N bytes buffer hb hlen hbuf, ?_, hrev⟩
  have h := sc_val_from_bytes_le N bytes.reverse buffer
    (fun b hbm => hb b (List.mem_reverse.mp hbm)) (by rw [List.length_reverse]; exact hlen) hbuf
  rw [List.length_reverse] at h
  rw [hrev]
  exact h

/-- C26, an instance: the bytes `12 34 AB` in an 8-nibble buffer with stale contents. -/
theorem sc_val_from_bytes_value_witness :
    (∀ b ∈ [0x12, 0x34, 0xAB], b < 256) ∧ 2 * [0x12, 0x34, 0xAB].length ≤ 8
      ∧ [9, 9, 9, 9, 9, 9, 9, 9].length = 8
      ∧ ((∃ r, sc_val_from_bytes 8 [0x12, 0x34, 0xAB] false [9, 9, 9, 9, 9, 9, 9, 9] = some r
          ∧ Valid 8 r ∧ U r = bytes_value [0x12, 0x34, 0xAB]
          ∧ ∀ j, 2 * [0x12, 0x34, 0xAB].length ≤ j → r.getD j 0 = 0)
        ∧ (∃ r, sc_val_from_bytes 8 [0x12, 0x34, 0xAB] true [9, 9, 9, 9, 9, 9, 9, 9] = some r
          ∧ Valid 8 r ∧ U r = bytes_value [0x12, 0x34, 0xAB].reverse
          ∧ ∀ j, 2 * [0x12, 0x34, 0xAB].length ≤ j → r.getD j 0 = 0)
        ∧ sc_val_from_bytes 8 [0x12, 0x34, 0xAB] true [9, 9, 9, 9, 9, 9, 9, 9]
          = sc_val_from_bytes 8 [0x12, 0x34, 0xAB].reverse false [9, 9, 9, 9, 9, 9, 9, 9])
      ∧ sc_val_from_bytes 8 [0x12, 0x34, 0xAB] false [9, 9, 9, 9, 9, 9, 9, 9]
          = some [2, 1, 4, 3, 11, 10, 0, 0]
      ∧ sc_val_from_bytes 8 [0x12, 0x34, 0xAB] true [9, 9, 9, 9, 9, 9, 9, 9]
          = some [11, 10, 4, 3, 2, 1, 0, 0] :=
  ⟨by decide, by decide, by decide,
    sc_val_from_bytes_value 8 [0x12, 0x34, 0xAB] [9, 9, 9, 9, 9, 9, 9, 9] (by decide)
      (by decide) (by decide),
    by decide, by decide⟩

/-! ## Bits into a buffer -/

/-- C27: with `calc_buffer_size = 8`, the window of the bit positions 5 to 15 of the bytes
`00 FF` (three bits of the first byte, the whole second byte).  The 11-bit window is
`0x7F8`, but `sc_val_from_bits` writes `0xF8`: the bits 8, 9 and 10 of the result, which
are the bits 5, 6 and 7 of `bytes[1]`, are zero.  The highest byte is shifted left by
`bit = 3` into an 11-bit `hval`, of which only two nibbles are stored; the loop over the
middle bytes stores a third nibble, the code for the highest byte does not. -/
theorem sc_val_from_bits_drops_high_bits :
    sc_val_from_bits 8 [0x00, 0xFF] 5 16 [9, 9, 9, 9, 9, 9, 9, 9]
        = some [8, 15, 0, 0, 0, 0, 0, 0]
      ∧ bit_window [0x00, 0xFF] 5 (16 - 5) = 0x7F8
      ∧ U [8, 15, 0, 0, 0, 0, 0, 0] = 0xF8
      ∧ sc_get_bit_at [8, 15, 0, 0, 0, 0, 0, 0] 8 = 0
      ∧ ([0x00, 0xFF].getD ((5 + 8) / 8) 0 >>> ((5 + 8) % 8)) % 2 = 1
      ∧ sc_val_from_bits 8 [0x00, 0xFF] 4 16 [9, 9, 9, 9, 9, 9, 9, 9]
        = some [0, 15, 15, 0, 0, 0, 0, 0] := by
  decide

/-! ## Table of the right shifts, flag of the left shift -/

/-- C40: for every digit `d` in 0..15 and every bit shift `s` in 0..3 the entry
`shrs_table[d][s][0]` is `d >> s` and `shrs_table[d][s][1]` is `(d << (4 - s)) & 0xF`, the
bits that fall into the next lower nibble. -/
theorem shrs_table_entries (d s : Nat) (hd : d < 16) (hs : s < 4) :
    ((shrs_table.getD d []).getD s (0, 0)).1 = d >>> s
      ∧ ((shrs_table.getD d []).getD s (0, 0)).2 = (d <<< (4 - s)) &&& 0xF := by
  have h : ∀ d < 16, ∀ s < 4, ((shrs_table.getD d []).getD s (0, 0)).1 = d >>> s
      ∧ ((shrs_table.getD d []).getD s (0, 0)).2 = (d <<< (4 - s)) &&& 0xF := by decide
  exact h d hd s hs

theorem shrs_table_entries_witness :
    ((shrs_table.getD 13 []).getD 2 (0, 0)).1 = 13 >>> 2
      ∧ ((shrs_table.getD 13 []).getD 2 (0, 0)).2 = (13 <<< (4 - 2)) &&& 0xF :=
  shrs_table_entries 13 2 (by decide) (by decide)

/-- C31: `sc_shlI` returns false, the value to which it has just cleared `carry_flag`, for
every operand, shift count, bit size and signedness: whenever the call returns, the flag
is false, and it returns whenever the assertion of `do_shl` on the sign holds, also when
set bits are shifted out.  The same holds for `sc_shl`, whose shift count is
`sc_val_to_long(val2)`. -/
theorem sc_shl_returns_false (N : Nat) (calc_buffer val1 : Buf) (shift_cnt bitsize : Nat)
    (sign : Bool) :
    (∀ r, sc_shlI N calc_buffer val1 shift_cnt bitsize sign = some r → r.2 = false)
      ∧ ((do_sign N val1 ≠ -1 ∨ sign = true) →
          ∃ b, sc_shlI N calc_buffer val1 shift_cnt bitsize sign = some (b, false))
      ∧ (∀ val2 r, sc_shl N calc_buffer val1 val2 bitsize sign = some r → r.2 = false)
      ∧ (∀ val2 offset, sc_val_to_long val2 = some offset → 0 ≤ offset →
          (do_sign N val1 ≠ -1 ∨ sign = true) →
          ∃ b, sc_shl N calc_buffer val1 val2 bitsize sign = some (b, false)) := by
  have h1 : ∀ k r, sc_shlI N calc_buffer val1 k bitsize sign = some r → r.2 = false := by
    intro k r h
    simp only [sc_shlI, Option.map_eq_some'] at h
    obtain ⟨b, _, rfl⟩ := h
    rfl
  have h2 : ∀ k, (do_sign N val1 ≠ -1 ∨ sign = true) →
      ∃ b, sc_shlI N calc_buffer val1 k bitsize sign = some (b, false) := by
    intro k h
    have hn : ¬ (do_sign N val1 = -1 ∧ sign = false) := by
      rintro ⟨a, b⟩
      rcases h with h | h
      · exact h a
      · rw [h] at b; exact Bool.noConfusion b
    simp only [sc_shlI, do_shl, if_neg hn]
    by_cases hk : k ≥ bitsize
    · exact ⟨_, by rw [if_pos hk]; rfl⟩
    · exact ⟨_, by rw [if_neg hk]; rfl⟩
  refine ⟨h1 shift_cnt, h2 shift_cnt, ?_, ?_⟩
  · intro val2 r h
    simp only [sc_shl] at h
    cases hv : sc_val_to_long val2 with
    | none => rw [hv] at h; exact Option.noConfusion h
    | some offset =>
      rw [hv] at h
      by_cases ho : offset < 0
      · simp only [if_pos ho] at h; exact Option.noConfusion h
      · simp only [if_neg ho] at h; exact h1 _ r h
  · intro val2 offset hv ho h
    simp only [sc_shl, hv, if_neg (by omega : ¬ offset < 0)]
    exact h2 _ h

theorem sc_shl_returns_false_witness :
    (do_sign 4 [15, 15, 0, 0] ≠ -1 ∨ false = true)
      ∧ (∃ b, sc_shlI 4 [0, 0, 0, 0] [15, 15, 0, 0] 4 8 false = some (b, false))
      ∧ sc_shlI 4 [0, 0, 0, 0] [15, 15, 0, 0] 4 8 false = some ([0, 15, 0, 0], false) :=
  ⟨Or.inl (by decide),
   (sc_shl_returns_false 4 [0, 0, 0, 0] [15, 15, 0, 0] 4 8 false).2.1 (Or.inl (by decide)),
   by decide⟩

/-! ## Highest and lowest set bit -/

theorem sc_get_bit_at_eq (v : Buf) (pos : Nat) :
    sc_get_bit_at v pos = if do_bit v pos then 1 else 0 := by
  simp [sc_get_bit_at, do_bit, _bitisset]

theorem sc_get_bit_at_iff (v : Buf) (hv : ∀ d ∈ v, d < 16) (i : Nat) :
    sc_get_bit_at v i = 1 ↔ 2 ^ i ≤ U v % 2 ^ (i + 1) := by
  have hb := do_bit_iff v hv (i + 1) (by omega)
  rw [Nat.add_sub_cancel] at hb
  rw [sc_get_bit_at_eq, ← hb]
  by_cases h : do_bit v i = true <;> simp [h]

theorem sc_get_bit_at_zero_iff (v : Buf) (hv : ∀ d ∈ v, d < 16) (i : Nat) :
    sc_get_bit_at v i = 0 ↔ U v % 2 ^ (i + 1) < 2 ^ i := by
  have h := sc_get_bit_at_iff v hv i
  have h2 : sc_get_bit_at v i = 0 ∨ sc_get_bit_at v i = 1 := by
    rw [sc_get_bit_at_eq]
    by_cases h : do_bit v i = true <;> simp [h]
  constructor
  · intro h0
    by_contra hc
    have := h.mpr (by omega)
    omega
  · intro h0
    rcases h2 with h2 | h2
    · exact h2
    · have := h.mp h2
      omega

theorem sc_get_highest_set_bit_loop_spec (value : Buf) (hv : ∀ d ∈ value, d < 16) :
    ∀ k : Nat,
      (Useg value 0 k = 0 ∧ sc_get_highest_set_bit_loop value k ((k : Int) * 4 - 1) = -1)
      ∨ ∃ i : Nat, sc_get_highest_set_bit_loop value k ((k : Int) * 4 - 1) = (i : Int)
          ∧ i < 4 * k ∧ 2 ^ i ≤ Useg value 0 k ∧ Useg value 0 k < 2 ^ (i + 1) := by
  intro k
  induction k with
  | zero => left; simp [Useg, sc_get_highest_set_bit_loop]
  | succ k ih =>
    have hX : Useg value 0 (k + 1) = Useg value 0 k + 16 ^ k * value.getD k 0 := by simp [Useg]
    have hP : Useg value 0 k < 16 ^ k := Useg_lt _ _ _ (fun j _ => getD_lt value hv _)
    have hd := getD_lt value hv k
    have h16 : (16 : Nat) ^ k = 2 ^ (4 * k) := by rw [pow_mul]; norm_num
    rw [sc_get_highest_set_bit_loop]
    by_cases h0 : value.getD k 0 = 0
    · have e : ((k + 1 : Nat) : Int) * 4 - 1 - 4 = (k : Int) * 4 - 1 := by push_cast; ring
      rw [if_pos h0, hX, h0, e, Nat.mul_zero, Nat.add_zero]
      rcases ih with ih | ⟨i, i1, i2, i3⟩
      · exact Or.inl ih
      · exact Or.inr ⟨i, i1, by omega, i3⟩
    · rw [if_neg h0]
      right
      have key : ∀ t : Nat, 2 ^ t ≤ value.getD k 0 → value.getD k 0 + 1 ≤ 2 ^ (t + 1) →
          2 ^ (4 * k + t) ≤ Useg value 0 (k + 1) ∧ Useg value 0 (k + 1) < 2 ^ (4 * k + t + 1) := by
        intro t h1 h2
        have e1 : 2 ^ (4 * k + t) = 16 ^ k * 2 ^ t := by rw [pow_add, h16]
        have e2 : 2 ^ (4 * k + t + 1) = 16 ^ k * 2 ^ (t + 1) := by
          rw [Nat.add_assoc, pow_add, h16]
        have a1 := Nat.mul_le_mul_left (16 ^ k) h1
        have a2 := Nat.mul_le_mul_left (16 ^ k) h2
        rw [Nat.mul_add, Nat.mul_one] at a2
        rw [hX, e1, e2]
        omega
      by_cases h7 : value.getD k 0 > 7
      · rw [if_pos h7]
        exact ⟨4 * k + 3, by push_cast; ring, by omega,
          key 3 (by simp only [pow_zero, pow_one, Nat.reducePow]; omega)
            (by simp only [pow_zero, pow_one, Nat.reducePow, Nat.reduceAdd]; omega)⟩
      · rw [if_neg h7]
        by_cases h3 : value.getD k 0 > 3
        · rw [if_pos h3]
          exact ⟨4 * k + 2, by push_cast; ring, by omega,
            key 2 (by simp only [pow_zero, pow_one, Nat.reducePow]; omega)
            (by simp only [pow_zero, pow_one, Nat.reducePow, Nat.reduceAdd]; omega)⟩
        · rw [if_neg h3]
          by_cases h1 : value.getD k 0 > 1
          · rw [if_pos h1]
            exact ⟨4 * k + 1, by push_cast; ring, by omega,
              key 1 (by simp only [pow_zero, pow_one, Nat.reducePow]; omega)
            (by simp only [pow_zero, pow_one, Nat.reducePow, Nat.reduceAdd]; omega)⟩
          · rw [if_neg h1]
            exact ⟨4 * k + 0, by push_cast; ring, by omega,
              key 0 (by simp only [pow_zero, pow_one, Nat.reducePow]; omega)
            (by simp only [pow_zero, pow_one, Nat.reducePow, Nat.reduceAdd]; omega)⟩

theorem highest_bit_facts (v : Buf) (hv : ∀ d ∈ v, d < 16) (i : Nat) (h1 : 2 ^ i ≤ U v)
    (h2 : U v < 2 ^ (i + 1)) :
    i = Nat.log 2 (U v) ∧ sc_get_bit_at v i = 1 ∧ ∀ j, i < j → sc_get_bit_at v j = 0 := by
  refine ⟨?_, ?_, ?_⟩
  · symm
    exact Nat.log_eq_of_pow_le_of_lt_pow h1 h2
  · rw [sc_get_bit_at_iff v hv, Nat.mod_eq_of_lt h2]
    exact h1
  · intro j hj
    rw [sc_get_bit_at_zero_iff v hv]
    have hle : 2 ^ (i + 1) ≤ 2 ^ j := Nat.pow_le_pow_right (by omega) (by omega)
    have hlt : 2 ^ j < 2 ^ (j + 1) := Nat.pow_lt_pow_right (by omega) (by omega)
    rw [Nat.mod_eq_of_lt (by omega)]
    omega

/-- C33: for a buffer of nibbles that is not all zero, `sc_get_highest_set_bit` returns
the position of the largest set bit, which is `floor(log2(U v))`: the bit at that position
is set and every bit above it is clear.  For the zero buffer it returns -1. -/
theorem sc_get_highest_set_bit_spec (N : Nat) (v : Buf) (hv : Valid N v) :
    (U v = 0 → sc_get_highest_set_bit N v = -1)
      ∧ (U v ≠ 0 → ∃ i : Nat, sc_get_highest_set_bit N v = (i : Int) ∧ i < 4 * N
          ∧ i = Nat.log 2 (U v) ∧ 2 ^ i ≤ U v ∧ U v < 2 ^ (i + 1)
          ∧ sc_get_bit_at v i = 1 ∧ ∀ j, i < j → sc_get_bit_at v j = 0) := by
  have hU := Useg_full N v hv.1
  have h := sc_get_highest_set_bit_loop_spec v hv.2 N
  rw [← hU] at h
  constructor
  · intro h0
    rcases h with ⟨_, h⟩ | ⟨i, _, _, i3, _⟩
    · exact h
    · have : 0 < 2 ^ i := by positivity
      omega
  · intro h0
    rcases h with ⟨h, _⟩ | ⟨i, i1, i2, i3, i4⟩
    · exact absurd h h0
    · obtain ⟨f1, f2, f3⟩ := highest_bit_facts v hv.2 i i3 i4
      exact ⟨i, i1, i2, f1, i3, i4, f2, f3⟩

theorem sc_get_highest_set_bit_spec_witness :
    Valid 4 [0, 6, 0, 0] ∧ U [0, 6, 0, 0] ≠ 0
      ∧ (∃ i : Nat, sc_get_highest_set_bit 4 [0, 6, 0, 0] = (i : Int) ∧ i < 4 * 4
          ∧ i = Nat.log 2 (U [0, 6, 0, 0]) ∧ 2 ^ i ≤ U [0, 6, 0, 0]
          ∧ U [0, 6, 0, 0] < 2 ^ (i + 1)
          ∧ sc_get_bit_at [0, 6, 0, 0] i = 1 ∧ ∀ j, i < j → sc_get_bit_at [0, 6, 0, 0] j = 0)
      ∧ sc_get_highest_set_bit 4 [0, 6, 0, 0] = 6
      ∧ sc_get_highest_set_bit 4 [0, 0, 0, 0] = -1 :=
  ⟨by simp [Valid], by decide,
    (sc_get_highest_set_bit_spec 4 [0, 6, 0, 0] (by simp [Valid])).2 (by decide),
    by decide, by decide⟩

theorem U_eq_zero_iff : ∀ (v : Buf), U v = 0 ↔ ∀ d ∈ v, d = 0
  | [] => by simp [U]
  | d :: t => by
    have ih := U_eq_zero_iff t
    simp only [U, List.mem_cons, forall_eq_or_imp]
    rw [← ih]
    omega

theorem sc_get_lowest_set_bit_loop_spec (value : Buf) (hv : ∀ d ∈ value, d < 16) :
    ∀ (k counter : Nat) (low : Int),
      (Useg value counter k = 0 ∧ sc_get_lowest_set_bit_loop value k counter low = -1)
      ∨ ∃ t : Nat, sc_get_lowest_set_bit_loop value k counter low = low + (t : Int)
          ∧ t < 4 * k ∧ Useg value counter k % 2 ^ (t + 1) = 2 ^ t := by
  intro k
  induction k with
  | zero => intro counter low; left; simp [Useg, sc_get_lowest_set_bit_loop]
  | succ k ih =>
    intro counter low
    have hd := getD_lt value hv counter
    have f1 : ∀ d < 16, d ∈ [1, 3, 5, 7, 9, 11, 13, 15] → d % 2 = 1 := by decide
    have f2 : ∀ d < 16, d ∈ [2, 6, 10, 14] → d % 4 = 2 := by decide
    have f3 : ∀ d < 16, d ∈ [4, 12] → d % 8 = 4 := by decide
    have f4 : ∀ d < 16, d ∈ [1, 3, 5, 7, 9, 11, 13, 15] ∨ d ∈ [2, 6, 10, 14] ∨ d ∈ [4, 12]
        ∨ d = 8 ∨ d = 0 := by decide
    rw [sc_get_lowest_set_bit_loop, Useg_succ_left]
    by_cases h1 : value.getD counter 0 ∈ [1, 3, 5, 7, 9, 11, 13, 15]
    · rw [if_pos h1]
      have := f1 _ hd h1
      exact Or.inr ⟨0, by simp, by omega, by
        simp only [Nat.zero_add, pow_one, pow_zero]; omega⟩
    · rw [if_neg h1]
      by_cases h2 : value.getD counter 0 ∈ [2, 6, 10, 14]
      · rw [if_pos h2]
        have := f2 _ hd h2
        exact Or.inr ⟨1, by simp, by omega, by
          simp only [Nat.reduceAdd, Nat.reducePow, pow_one]; omega⟩
      · rw [if_neg h2]
        by_cases h3 : value.getD counter 0 ∈ [4, 12]
        · rw [if_pos h3]
          have := f3 _ hd h3
          exact Or.inr ⟨2, by simp, by omega, by
            simp only [Nat.reduceAdd, Nat.reducePow]; omega⟩
        · rw [if_neg h3]
          by_cases h4 : value.getD counter 0 = 8
          · rw [if_pos h4, h4]
            exact Or.inr ⟨3, by simp, by omega, by
              simp only [Nat.reduceAdd, Nat.reducePow]; omega⟩
          · have h5 : value.getD counter 0 = 0 := by
              rcases f4 _ hd with h | h | h | h | h
              · exact absurd h h1
              · exact absurd h h2
              · exact absurd h h3
              · exact absurd h h4
              · exact h
            rw [if_neg h4, h5, Nat.zero_add]
            rcases ih (counter + 1) (low + 4) with ⟨a, b⟩ | ⟨t, t1, t2, t3⟩
            · left
              exact ⟨by rw [a], b⟩
            · right
              refine ⟨t + 4, by rw [t1]; push_cast; ring, by omega, ?_⟩
              have e1 : 2 ^ (t + 4 + 1) = 16 * 2 ^ (t + 1) := by
                rw [show t + 4 + 1 = (t + 1) + 4 by ring, pow_add]; ring
              have e2 : 2 ^ (t + 4) = 16 * 2 ^ t := by rw [pow_add]; ring
              rw [e1, e2, Nat.mul_mod_mul_left, t3]

theorem lowest_bit_facts (v : Buf) (hv : ∀ d ∈ v, d < 16) (t : Nat)
    (h : U v % 2 ^ (t + 1) = 2 ^ t) :
    2 ^ t ≤ U v ∧ sc_get_bit_at v t = 1 ∧ ∀ j, j < t → sc_get_bit_at v j = 0 := by
  have hp : 0 < 2 ^ t := by positivity
  refine ⟨?_, ?_, ?_⟩
  · have := Nat.mod_le (U v) (2 ^ (t + 1))
    omega
  · rw [sc_get_bit_at_iff v hv, h]
  · intro j hj
    rw [sc_get_bit_at_zero_iff v hv]
    have hd1 : 2 ^ (j + 1) ∣ 2 ^ (t + 1) := pow_dvd_pow 2 (by omega)
    have hd2 : 2 ^ (j + 1) ∣ 2 ^ t := pow_dvd_pow 2 (by omega)
    rw [← Nat.mod_mod_of_dvd _ hd1, h, Nat.mod_eq_zero_of_dvd hd2]
    positivity

/-- C34: on a buffer of nibbles `sc_get_lowest_set_bit` returns -1 exactly when the buffer
is all zero; otherwise it returns the position of the smallest set bit, where
`sc_get_bit_at` is 1 with every lower bit clear, and that position never exceeds
`sc_get_highest_set_bit` of the same buffer. -/
theorem sc_get_lowest_set_bit_spec (N : Nat) (v : Buf) (hv : Valid N v) :
    (sc_get_lowest_set_bit N v = -1 ↔ ∀ d ∈ v, d = 0)
      ∧ ((¬ ∀ d ∈ v, d = 0) → ∃ i : Nat, sc_get_lowest_set_bit N v = (i : Int) ∧ i < 4 * N
          ∧ sc_get_bit_at v i = 1 ∧ (∀ j, j < i → sc_get_bit_at v j = 0)
          ∧ (i : Int) ≤ sc_get_highest_set_bit N v) := by
  have hU := Useg_full N v hv.1
  have h := sc_get_lowest_set_bit_loop_spec v hv.2 N 0 0
  have hh := sc_get_highest_set_bit_loop_spec v hv.2 N
  rw [← hU] at h hh
  rw [← U_eq_zero_iff]
  simp only [sc_get_lowest_set_bit, sc_get_highest_set_bit]
  rcases h with ⟨a, b⟩ | ⟨t, t1, t2, t3⟩
  · exact ⟨⟨fun _ => a, fun _ => b⟩, fun hc => absurd a hc⟩
  · obtain ⟨g1, g2, g3⟩ := lowest_bit_facts v hv.2 t t3
    have hp : 0 < 2 ^ t := by positivity
    rw [Int.zero_add] at t1
    refine ⟨⟨fun hc => by rw [t1] at hc; omega, fun hc => by omega⟩, fun _ => ?_⟩
    refine ⟨t, t1, t2, g2, g3, ?_⟩
    rcases hh with ⟨a, _⟩ | ⟨i, i1, _, _, i4⟩
    · omega
    · rw [i1]
      have : t < i + 1 := by
        by_contra hc
        have := Nat.pow_le_pow_right (by omega : 0 < 2) (by omega : i + 1 ≤ t)
        omega
      omega

theorem sc_get_lowest_set_bit_spec_witness :
    Valid 4 [0, 6, 1, 0] ∧ (¬ ∀ d ∈ [0, 6, 1, 0], d = 0)
      ∧ (∃ i : Nat, sc_get_lowest_set_bit 4 [0, 6, 1, 0] = (i : Int) ∧ i < 4 * 4
          ∧ sc_get_bit_at [0, 6, 1, 0] i = 1 ∧ (∀ j, j < i → sc_get_bit_at [0, 6, 1, 0] j = 0)
          ∧ (i : Int) ≤ sc_get_highest_set_bit 4 [0, 6, 1, 0])
      ∧ sc_get_lowest_set_bit 4 [0, 6, 1, 0] = 5
      ∧ sc_get_highest_set_bit 4 [0, 6, 1, 0] = 8
      ∧ sc_get_lowest_set_bit 4 [0, 0, 0, 0] = -1 :=
  ⟨by simp [Valid], by decide,
    (sc_get_lowest_set_bit_spec 4 [0, 6, 1, 0] (by simp [Valid])).2 (by decide),
    by decide, by decide, by decide⟩

/-! ## Multiplication: what the kernel reads -/

theorem do_mul_low (M : Nat) (a b : Buf) (hM : 0 < M) (ha : Valid (2 * M) a)
    (hb : Valid (2 * M) b) :
    Valid (2 * M) (do_mul (2 * M) M a b)
      ∧ U (do_mul (2 * M) M a b)
        = (if xor (decide (S (2 * M) a < 0)) (decide (S (2 * M) b < 0)) then
            (16 ^ (2 * M)
              - ((S (2 * M) a).natAbs % 16 ^ M) * ((S (2 * M) b).natAbs % 16 ^ M))
              % 16 ^ (2 * M)
           else ((S (2 * M) a).natAbs % 16 ^ M) * ((S (2 * M) b).natAbs % 16 ^ M)) := by
  obtain ⟨v, u⟩ := do_mul_spec M a b ha hb
  obtain ⟨_, ma, sa⟩ := mag_spec (2 * M) a (by omega) ha
  obtain ⟨_, mb, sb⟩ := mag_spec (2 * M) b (by omega) hb
  have da : decide (do_sign (2 * M) a = -1) = decide (S (2 * M) a < 0) := by
    simp only [decide_eq_decide]; exact sa
  have db : decide (do_sign (2 * M) b = -1) = decide (S (2 * M) b < 0) := by
    simp only [decide_eq_decide]; exact sb
  rw [ma, mb] at u
  simp only [da, db] at u
  exact ⟨v, u⟩

/-- C38: for all buffers `a`, `b` of `N = 2M` nibbles, `sc_mul` reads only the low `M`
nibbles of the operand magnitudes: the unsigned value of the result is
`±(|S a| mod 16^M) * (|S b| mod 16^M)` modulo `16^N`, negative exactly when one operand is
negative and the other is not; operands with the same signs and the same low `M` nibbles of
the magnitudes give the same buffer, and `sc_mul(a, b)` is the buffer `sc_mul(b, a)`. -/
theorem sc_mul_low_nibbles (M : Nat) (a b : Buf) (hM : 0 < M) (ha : Valid (2 * M) a)
    (hb : Valid (2 * M) b) :
    (U (sc_mul (2 * M) M a b).1 : Int)
        = ((if xor (decide (S (2 * M) a < 0)) (decide (S (2 * M) b < 0)) then -1 else 1)
            * ((((S (2 * M) a).natAbs % 16 ^ M) * ((S (2 * M) b).natAbs % 16 ^ M) : Nat) : Int))
          % (16 : Int) ^ (2 * M)
      ∧ sc_mul (2 * M) M a b = sc_mul (2 * M) M b a
      ∧ (∀ a2 b2 : Buf, Valid (2 * M) a2 → Valid (2 * M) b2 →
          (S (2 * M) a2 < 0 ↔ S (2 * M) a < 0) → (S (2 * M) b2 < 0 ↔ S (2 * M) b < 0) →
          (S (2 * M) a2).natAbs % 16 ^ M = (S (2 * M) a).natAbs % 16 ^ M →
          (S (2 * M) b2).natAbs % 16 ^ M = (S (2 * M) b).natAbs % 16 ^ M →
          sc_mul (2 * M) M a2 b2 = sc_mul (2 * M) M a b) := by
  obtain ⟨v, u⟩ := do_mul_low M a b hM ha hb
  refine ⟨?_, ?_, ?_⟩
  · show (U (do_mul (2 * M) M a b) : Int) = _
    rw [u]
    have hpa : (S (2 * M) a).natAbs % 16 ^ M < 16 ^ M := Nat.mod_lt _ (by positivity)
    have hpb : (S (2 * M) b).natAbs % 16 ^ M < 16 ^ M := Nat.mod_lt _ (by positivity)
    have hprod : ((S (2 * M) a).natAbs % 16 ^ M) * ((S (2 * M) b).natAbs % 16 ^ M)
        < 16 ^ (2 * M) := by
      have e : (16 : Nat) ^ (2 * M) = 16 ^ M * 16 ^ M := by rw [two_mul, pow_add]
      rw [e]
      exact Nat.mul_lt_mul'' hpa hpb
    generalize ((S (2 * M) a).natAbs % 16 ^ M) * ((S (2 * M) b).natAbs % 16 ^ M) = P at *
    have cast16 : ((16 : Int) ^ (2 * M)) = ((16 ^ (2 * M) : Nat) : Int) := by push_cast; rfl
    rw [cast16]
    by_cases hx : xor (decide (S (2 * M) a < 0)) (decide (S (2 * M) b < 0)) = true
    · simp only [hx, if_true, neg_mul, one_mul]
      exact neg_emod_cast _ _ hprod.le
    · simp only [hx, Bool.false_eq_true, if_false, one_mul]
      rw [Int.emod_eq_of_lt (by positivity) (by exact_mod_cast hprod)]
  · obtain ⟨v2, u2⟩ := do_mul_low M b a hM hb ha
    have e : do_mul (2 * M) M a b = do_mul (2 * M) M b a := by
      apply U_injective (2 * M) _ _ v v2
      rw [u, u2, Bool.xor_comm, Nat.mul_comm ((S (2 * M) a).natAbs % 16 ^ M)]
    simp only [sc_mul, e]
  · intro a2 b2 ha2 hb2 sa sb ma mb
    obtain ⟨v2, u2⟩ := do_mul_low M a2 b2 hM ha2 hb2
    have da : decide (S (2 * M) a2 < 0) = decide (S (2 * M) a < 0) := by
      simp only [decide_eq_decide]; exact sa
    have db : decide (S (2 * M) b2 < 0) = decide (S (2 * M) b < 0) := by
      simp only [decide_eq_decide]; exact sb
    have e : do_mul (2 * M) M a2 b2 = do_mul (2 * M) M a b := by
      apply U_injective (2 * M) _ _ v2 v
      rw [u, u2, da, db, ma, mb]
    simp only [sc_mul, e]

theorem sc_mul_low_nibbles_witness :
    0 < 1 ∧ Valid (2 * 1) [3, 1] ∧ Valid (2 * 1) [5, 2]
      ∧ sc_mul (2 * 1) 1 [3, 1] [5, 2] = sc_mul (2 * 1) 1 [5, 2] [3, 1]
      ∧ sc_mul (2 * 1) 1 [3, 1] [5, 2] = ([15, 0], false) :=
  ⟨by decide, by simp [Valid], by simp [Valid],
    (sc_mul_low_nibbles 1 [3, 1] [5, 2] (by decide) (by simp [Valid]) (by simp [Valid])).2.1,
    by decide⟩

/-! ## Multiplication: bounds inside the kernel -/

theorem do_mul_inner_sums_bound (val1 : Buf) (v2 j : Nat) (h1 : ∀ d ∈ val1, d < 16)
    (hv : v2 < 16) (k : Nat) : ∀ (i : Nat) (temp : Buf) (carry : Nat),
      (∀ d ∈ temp, d < 16) → carry < 16 →
      ∀ s ∈ do_mul_inner_sums val1 v2 j k i temp carry, s ≤ 255 := by
  induction k with
  | zero =>
    intro i temp carry _ _ s hs
    simp [do_mul_inner_sums] at hs
  | succ k ih =>
    intro i temp carry ht hc s hs
    have ha := getD_lt val1 h1 i
    have hb := getD_lt temp ht (i + j)
    have hm : val1.getD i 0 * v2 ≤ 15 * 15 := Nat.mul_le_mul (by omega) (by omega)
    have hsum : temp.getD (i + j) 0 + val1.getD i 0 * v2 + carry ≤ 255 := by omega
    rw [do_mul_inner_sums] at hs
    rcases List.mem_cons.mp hs with hs | hs
    · rw [hs]; exact hsum
    · refine ih (i + 1) _ _ (set_lt temp _ _ ht ?_) ?_ s hs
      · rw [SC_RESULT_eq]; exact Nat.mod_lt _ (by omega)
      · rw [SC_CARRY_eq]; omega

theorem do_mul_outer_bounds (M : Nat) (val1 val2 : Buf) (h1 : ∀ d ∈ val1, d < 16)
    (h2 : ∀ d ∈ val2, d < 16) (k : Nat) : ∀ (j : Nat) (temp : Buf),
      M + j + k ≤ temp.length → (∀ d ∈ temp, d < 16) →
      (∀ s ∈ do_mul_outer_sums M val1 val2 k j temp, s ≤ 255)
        ∧ (∀ c ∈ do_mul_outer_carries M val1 val2 k j temp, c ≤ 15)
        ∧ (∀ d ∈ do_mul_outer M val1 val2 k j temp, d < 16) := by
  induction k with
  | zero =>
    intro j temp _ ht
    simp only [do_mul_outer_sums, do_mul_outer_carries, do_mul_outer]
    exact ⟨by simp, by simp, ht⟩
  | succ k ih =>
    intro j temp hl ht
    have hv := getD_lt val2 h2 j
    rw [do_mul_outer_sums, do_mul_outer_carries, do_mul_outer]
    by_cases h0 : val2.getD j 0 ≠ 0
    · simp only [if_pos h0]
      obtain ⟨_, i2, i3, i4, _⟩ := do_mul_inner_spec val1 (val2.getD j 0) j h1 hv M 0 temp 0
        (by omega) ht (by omega)
      have hst : sc_word_store (do_mul_inner val1 (val2.getD j 0) j M 0 temp 0).2
          = (do_mul_inner val1 (val2.getD j 0) j M 0 temp 0).2 := by
        simp only [sc_word_store]; omega
      obtain ⟨r1, r2, r3⟩ := ih (j + 1)
        ((do_mul_inner val1 (val2.getD j 0) j M 0 temp 0).1.set (M + j)
          (sc_word_store (do_mul_inner val1 (val2.getD j 0) j M 0 temp 0).2))
        (by rw [List.length_set, i2]; omega)
        (set_lt _ _ _ i3 (by rw [hst]; exact i4))
      refine ⟨?_, ?_, r3⟩
      · intro s hs
        rcases List.mem_append.mp hs with hs | hs
        · exact do_mul_inner_sums_bound val1 _ j h1 hv M 0 temp 0 ht (by omega) s hs
        · exact r1 s hs
      · intro c hc
        rcases List.mem_cons.mp hc with hc | hc
        · rw [hc]; omega
        · exact r2 c hc
    · simp only [if_neg h0]
      exact ih (j + 1) temp (by omega) ht

/-- C35: in the multiplication kernel of `do_mul`, run on operands whose cells are nibbles
and on the zeroed temporary of `2 * max_value_size` cells, every intermediate sum
`temp_buffer[i + j] + val1[i] * val2[j] + carry` is at most 255, so it fits an 8-bit
`sc_word`; the carry `SC_CARRY(sum)` after each inner step and the carry stored at
`temp_buffer[max_value_size + j]` are at most 15 (the store changes nothing), and every
nibble written, hence every cell of the result, is in 0..15. -/
theorem do_mul_kernel_bounds (M : Nat) (v1 v2 : Buf) (h1 : ∀ d ∈ v1, d < 16)
    (h2 : ∀ d ∈ v2, d < 16) :
    (∀ s ∈ do_mul_outer_sums M v1 v2 M 0 (CLEAR_BUFFER (2 * M)),
        s ≤ 255 ∧ SC_CARRY s ≤ 15 ∧ SC_RESULT s ≤ 15)
      ∧ (∀ c ∈ do_mul_outer_carries M v1 v2 M 0 (CLEAR_BUFFER (2 * M)),
          c ≤ 15 ∧ sc_word_store c = c)
      ∧ (∀ d ∈ do_mul_outer M v1 v2 M 0 (CLEAR_BUFFER (2 * M)), d < 16) := by
  obtain ⟨r1, r2, r3⟩ := do_mul_outer_bounds M v1 v2 h1 h2 M 0 (CLEAR_BUFFER (2 * M))
    (by rw [(CLEAR_BUFFER_valid (2 * M)).1]; omega) (CLEAR_BUFFER_valid (2 * M)).2
  refine ⟨?_, ?_, r3⟩
  · intro s hs
    have := r1 s hs
    have hm : s % 16 < 16 := Nat.mod_lt _ (by omega)
    rw [SC_CARRY_eq, SC_RESULT_eq]
    omega
  · intro c hc
    have := r2 c hc
    simp only [sc_word_store]
    omega

theorem do_mul_kernel_bounds_witness :
    (∀ d ∈ [15, 15], d < 16)
      ∧ (∀ s ∈ do_mul_outer_sums 2 [15, 15] [15, 15] 2 0 (CLEAR_BUFFER (2 * 2)),
          s ≤ 255 ∧ SC_CARRY s ≤ 15 ∧ SC_RESULT s ≤ 15)
      ∧ do_mul_outer_sums 2 [15, 15] [15, 15] 2 0 (CLEAR_BUFFER (2 * 2)) = [225, 239, 240, 254]
      ∧ do_mul_outer_carries 2 [15, 15] [15, 15] 2 0 (CLEAR_BUFFER (2 * 2)) = [14, 15]
      ∧ do_mul_outer 2 [15, 15] [15, 15] 2 0 (CLEAR_BUFFER (2 * 2)) = [1, 0, 14, 15] :=
  ⟨by decide,
    (do_mul_kernel_bounds 2 [15, 15] [15, 15] (by decide) (by decide)).1,
    by decide, by decide, by decide⟩

/-! ## Division of the most negative value, stale cells of the left shift -/

theorem do_divmod_end_valid (N : Nat) (q r : Buf) (hq : Valid N q) (hr : Valid N r)
    (div_sign rem_sign : Bool) :
    Valid N (do_divmod_end N div_sign rem_sign q r).1
      ∧ Valid N (do_divmod_end N div_sign rem_sign q r).2.1 := by
  simp only [do_divmod_end]
  constructor
  · cases div_sign
    · exact hq
    · exact do_negate_valid N q hq
  · cases rem_sign
    · exact hr
    · exact do_negate_valid N r hr

theorem do_divmod_min_dividend (N fuel : Nat) (cf : Bool) (a b : Buf) (hN : 0 < N)
    (ha : Valid N a) (hb : Valid N b) (hmin : 2 * U a = 16 ^ N) (hb0 : U b ≠ 0) :
    ∃ q r carry, do_divmod N fuel cf a b = Outcome.done (q, r, carry)
      ∧ Valid N q ∧ Valid N r
      ∧ (2 * U b ≠ 16 ^ N → U q = 0 ∧ U r = U a) := by
  have hp : 0 < 16 ^ N := by positivity
  have la := U_lt N a ha
  have lb := U_lt N b hb
  have hbz := sc_comp_zero N b hN hb
  have haz := sc_comp_zero N a hN ha
  have hz := CLEAR_BUFFER_valid N
  have hz0 := U_CLEAR_BUFFER N
  have na := do_negate_valid N a ha
  have una := U_do_negate N a ha
  rw [Nat.mod_eq_of_lt (by omega)] at una
  have sa : do_sign N a = -1 := (do_sign_neg_iff N a hN ha).mpr (by omega)
  obtain ⟨mv, mu, ms⟩ := mag_spec N b hN hb
  have hSb : -((16 ^ N : Nat) : Int) ≤ 2 * S N b ∧ 2 * S N b < ((16 ^ N : Nat) : Int) := by
    by_cases h : 2 * U b < 16 ^ N
    · rw [S_of_pos N b h]; omega
    · rw [S_of_neg N b (by omega)]; omega
  unfold do_divmod
  simp only []
  rw [if_neg (fun h => hb0 (hbz.mp h)), if_neg (fun h => by have := haz.mp h; omega)]
  simp only [sa, decide_True, if_true, Bool.true_xor]
  have hd : (if decide (do_sign N b = -1) = true then do_negate b else b)
      = (if do_sign N b = -1 then do_negate b else b) := by
    by_cases h : do_sign N b = -1 <;> simp [h]
  rw [hd]
  generalize (if do_sign N b = -1 then do_negate b else b) = d at mv mu
  generalize (if decide (do_sign N b = -1) = true then b else do_negate b) = md
  generalize (!decide (do_sign N b = -1)) = ds
  have hcmp := sc_comp_eq N (do_negate a) d hN na mv
  rw [S_of_neg N (do_negate a) (by omega)] at hcmp
  unfold do_divmod_switch
  simp only []
  by_cases hB : 2 * U d < 16 ^ N
  · rw [S_of_pos N d hB, if_pos (by omega)] at hcmp
    rw [hcmp]
    obtain ⟨v1, v2⟩ := do_divmod_end_valid N (CLEAR_BUFFER N) (do_negate a) hz na ds true
    refine ⟨_, _, _, rfl, v1, v2, fun _ => ?_⟩
    simp only [do_divmod_end, if_true]
    constructor
    · cases ds
      · simpa using hz0
      · simp only [if_true]
        rw [U_do_negate N _ hz, hz0, Nat.sub_zero, Nat.mod_self]
    · rw [U_do_negate N _ na, una, Nat.mod_eq_of_lt (by omega)]
      omega
  · have hUd : 2 * U d = 16 ^ N := by omega
    rw [S_of_neg N d (by omega), if_neg (by omega), if_pos (by omega)] at hcmp
    rw [hcmp]
    have hq1 : Valid N ((CLEAR_BUFFER N).set 0 1) :=
      ⟨by rw [List.length_set]; exact hz.1, set_lt _ _ _ hz.2 (by omega)⟩
    obtain ⟨v1, v2⟩ := do_divmod_end_valid N ((CLEAR_BUFFER N).set 0 1) (CLEAR_BUFFER N)
      hq1 hz ds true
    refine ⟨_, _, _, rfl, v1, v2, fun hne => ?_⟩
    exfalso
    have : (S N b).natAbs = U b ∨ (S N b).natAbs + U b = 16 ^ N := by
      by_cases h : 2 * U b < 16 ^ N
      · left; rw [S_of_pos N b h]; omega
      · right; rw [S_of_neg N b (by omega)]; omega
    omega

/-- C32: with `calc_buffer_size = 4` (precision 8, buffers of 16 bits) the dividend
`0x8000 = -32768` and the divisor 3 give the quotient 0 and the remainder `-32768`, whose
magnitude is not below that of the divisor; truncating division gives -10922 and -2. -/
theorem sc_divmod_most_negative_dividend :
    sc_divmod 4 16 [0, 0, 0, 8] [3, 0, 0, 0]
        = Outcome.done ([0, 0, 0, 0], [0, 0, 0, 8], false)
      ∧ S 4 [0, 0, 0, 8] = -32768 ∧ S 4 [3, 0, 0, 0] = 3
      ∧ ¬ ((S 4 [0, 0, 0, 8]).natAbs < (S 4 [3, 0, 0, 0]).natAbs)
      ∧ (-32768 : Int).tdiv 3 = -10922 ∧ (-32768 : Int).tmod 3 = -2 := by
  refine ⟨by decide, by decide, by decide, by decide, by decide, by decide⟩

/-- C37: with `calc_buffer_size = 4` (precision 8) the result of an unsigned `sc_shlI`
keeps cells of the scratch buffer: the same call, 1 shifted left by one bit at 8 bits
unsigned, gives `[2, 0, 0, 0]` on a zeroed scratch buffer and `[2, 0, 15, 15]` on a scratch
buffer of `0xF` cells: the cells above the nibble holding the most significant bit are not
written.  The signed call writes them. -/
theorem sc_shlI_keeps_scratch_cells :
    sc_shlI 4 [0, 0, 0, 0] [1, 0, 0, 0] 1 8 false = some ([2, 0, 0, 0], false)
      ∧ sc_shlI 4 [15, 15, 15, 15] [1, 0, 0, 0] 1 8 false = some ([2, 0, 15, 15], false)
      ∧ sc_shlI 4 [15, 15, 15, 15] [1, 0, 0, 0] 1 8 true = some ([2, 0, 0, 0], false) := by
  refine ⟨by decide, by decide, by decide⟩

/-! ## Division: the low quotient digit -/

theorem do_divmod_while_quots_bound (N : Nat) (hN : 0 < N) (md : Buf) (dv : Nat)
    (hmd : Valid N md) (hdv1 : 1 ≤ dv) (hdv2 : 2 * dv ≤ 16 ^ N) (hU : U md = 16 ^ N - dv) :
    ∀ (n fuel : Nat) (r q : Buf), n < fuel → Valid N r → Valid N q → 2 * U r < 16 ^ N →
      U r < n * dv → q.getD 0 0 + n ≤ 15 →
      ∀ v ∈ do_divmod_while_quots N md fuel r q, v ≤ 14 := by
  intro n
  induction n with
  | zero =>
    intro fuel r q _ _ _ _ h _
    omega
  | succ n ih =>
    intro fuel r q hf hr hq hpos hlt hq0 v hv
    obtain ⟨f, rfl⟩ : ∃ f, fuel = f + 1 := ⟨fuel - 1, by omega⟩
    have hsign : do_sign N r = 1 := (do_sign_pos_iff N r hN hr).mpr hpos
    obtain ⟨a1, a2, _⟩ := do_add_spec N r md hr hmd
    have hq1v : Valid N (q.set 0 (q.getD 0 0 + 1)) :=
      ⟨by rw [List.length_set]; exact hq.1, set_lt q 0 _ hq.2 (by omega)⟩
    have hq1g : (q.set 0 (q.getD 0 0 + 1)).getD 0 0 = q.getD 0 0 + 1 :=
      getD_set_eq q 0 _ (by rw [hq.1]; exact hN)
    rw [do_divmod_while_quots, if_pos hsign, SC_RESULT_of_lt _ (by omega)] at hv
    rw [hU] at a2
    rcases List.mem_cons.mp hv with hv | hv
    · omega
    · by_cases hge : dv ≤ U r
      · have e1 : U r + (16 ^ N - dv) = (U r - dv) + 16 ^ N := by omega
        rw [e1, Nat.add_mod_right, Nat.mod_eq_of_lt (by omega)] at a2
        exact ih f (do_add r md).1 (q.set 0 (q.getD 0 0 + 1))
          (by omega) a1 hq1v (by omega)
          (by rw [a2]; have : (n + 1) * dv = n * dv + dv := by ring
              omega)
          (by omega) v hv
      · rw [Nat.mod_eq_of_lt (by omega)] at a2
        obtain ⟨f', rfl⟩ : ∃ f', f = f' + 1 := ⟨f - 1, by omega⟩
        have hneg : do_sign N (do_add r md).1 ≠ 1 := by
          intro hc
          have := (do_sign_pos_iff N _ hN a1).mp hc
          omega
        rw [do_divmod_while_quots, if_neg hneg] at hv
        simp at hv

theorem do_divmod_step_quots (N fuel : Nat) (hN : 0 < N) (hf : 16 ≤ fuel) (D d md : Buf)
    (hD : Valid N D) (hd : Valid N d) (hmd : Valid N md) (hDpos : 2 * U D < 16 ^ N)
    (hd1 : 1 ≤ U d) (hd2 : 2 * U d ≤ 16 ^ N) (hU : U md = 16 ^ N - U d)
    (c : Nat) (rem quot : Buf) (hc : c < N) (hrem : Valid N rem) (hquot : Valid N quot)
    (hr : U rem = (U D / 16 ^ (c + 1)) % U d) (hq : U quot = (U D / 16 ^ (c + 1)) / U d) :
    ∃ rem2 quot2,
      (∀ v ∈ do_divmod_loop_quots N fuel D d md (c + 1) rem quot,
          v ≤ 14 ∨ v ∈ do_divmod_loop_quots N fuel D d md c rem2 quot2)
      ∧ Valid N rem2 ∧ Valid N quot2
      ∧ U rem2 = (U D / 16 ^ c) % U d ∧ U quot2 = (U D / 16 ^ c) / U d := by
  obtain ⟨n, rfl⟩ : ∃ n, N = n + 1 := ⟨N - 1, by omega⟩
  have hdig : D.getD c 0 < 16 := getD_lt D hD.2 c
  have hT := U_div_pow D hD.2 c
  have hTle : U D / 16 ^ c ≤ U D := Nat.div_le_self _ _
  generalize U D / 16 ^ (c + 1) = T at hr hq hT
  generalize U D / 16 ^ c = T' at hT hTle ⊢
  have hpw : 16 ^ (n + 1) = 16 * 16 ^ n := by rw [pow_succ]; ring
  have hTlt : T < 16 ^ n := by omega
  have hdm := Nat.div_add_mod T (U d)
  have hmodlt : T % U d < U d := Nat.mod_lt _ (by omega)
  have hrle : U rem ≤ T := by rw [hr]; exact Nat.mod_le _ _
  have hqle : U quot ≤ T := by rw [hq]; exact Nat.div_le_self _ _
  obtain ⟨p1, p2⟩ := do_push_spec (n + 1) (D.getD c 0) rem hN hrem hdig
  obtain ⟨p3, p4⟩ := do_push_spec (n + 1) 0 quot hN hquot (by omega)
  rw [Nat.add_sub_cancel, Nat.mod_eq_of_lt (by omega)] at p2 p4
  have p5 : (do_push (n + 1) 0 quot).getD 0 0 = 0 := by
    rw [do_push_eq (n + 1) 0 quot hN hquot.1]; rfl
  have hT'eq : T' = U d * (16 * (T / U d)) + U (do_push (n + 1) (D.getD c 0) rem) := by
    rw [p2, hr, hT]
    have : U d * (16 * (T / U d)) = 16 * (U d * (T / U d)) := by ring
    omega
  have hgoal1 : T' % U d = U (do_push (n + 1) (D.getD c 0) rem) % U d := by
    rw [hT'eq, Nat.mul_add_mod]
  have hgoal2 : T' / U d = 16 * (T / U d) + U (do_push (n + 1) (D.getD c 0) rem) / U d := by
    rw [hT'eq, Nat.mul_add_div (by omega)]
  have hrem'le : U (do_push (n + 1) (D.getD c 0) rem) ≤ T' := by
    rw [p2, hT]; omega
  have hrem'lt : U (do_push (n + 1) (D.getD c 0) rem) < 16 * U d := by
    rw [p2, hr]; omega
  rw [hgoal1, hgoal2]
  have hcmp := sc_comp_eq (n + 1) (do_push (n + 1) (D.getD c 0) rem) d hN p1 hd
  rw [S_of_pos _ _ (by omega : 2 * U (do_push (n + 1) (D.getD c 0) rem) < 16 ^ (n + 1))] at hcmp
  rw [do_divmod_loop_quots]
  generalize do_push (n + 1) (D.getD c 0) rem = rem' at *
  generalize do_push (n + 1) 0 quot = quot' at *
  obtain ⟨a1, a2, _⟩ := do_add_spec (n + 1) rem' md p1 hmd
  rw [hU] at a2
  by_cases hB : 2 * U d = 16 ^ (n + 1)
  · have hne : sc_comp (n + 1) rem' d ≠ ir_relation.less := by
      have n1 : ¬ ((U rem' : Int) < (U d : Int) - ((16 ^ (n + 1) : Nat) : Int)) := by omega
      rw [hcmp, S_of_neg _ d (by omega), if_neg n1]
      split <;> simp
    rw [if_pos hne]
    rw [Nat.mod_eq_of_lt (by omega)] at a2
    have hneg : do_sign (n + 1) (do_add rem' md).1 ≠ 1 := by
      intro hcon
      have := (do_sign_pos_iff (n + 1) _ hN a1).mp hcon
      omega
    obtain ⟨f, rfl⟩ : ∃ f, fuel = f + 1 := ⟨fuel - 1, by omega⟩
    rw [do_divmod_while, do_divmod_while_quots, if_neg hneg, if_neg hneg]
    obtain ⟨b1, b2, _⟩ := do_add_spec (n + 1) (do_add rem' md).1 d a1 hd
    refine ⟨(do_add (do_add rem' md).1 d).1, quot', ?_, b1, p3, ?_, ?_⟩
    · intro v hv
      right
      simpa using hv
    · rw [b2, a2, Nat.mod_eq_of_lt (by omega : U rem' < U d)]
      have : U rem' + (16 ^ (n + 1) - U d) + U d = U rem' + 16 ^ (n + 1) := by omega
      rw [this, Nat.add_mod_right, Nat.mod_eq_of_lt (by omega)]
    · rw [p4, hq, Nat.div_eq_of_lt (by omega : U rem' < U d)]
      omega
  · rw [S_of_pos _ d (by omega)] at hcmp
    by_cases hlt : U rem' < U d
    · have hless : sc_comp (n + 1) rem' d = ir_relation.less := by
        rw [hcmp, if_pos (by omega)]
      rw [if_neg (by simp [hless])]
      refine ⟨rem', quot', fun v hv => Or.inr hv, p1, p3, ?_, ?_⟩
      · rw [Nat.mod_eq_of_lt hlt]
      · rw [p4, hq, Nat.div_eq_of_lt hlt]; omega
    · have hne : sc_comp (n + 1) rem' d ≠ ir_relation.less := by
        rw [hcmp, if_neg (by omega)]
        split <;> simp
      rw [if_pos hne]
      have e1 : U rem' + (16 ^ (n + 1) - U d) = (U rem' - U d) + 16 ^ (n + 1) := by omega
      rw [e1, Nat.add_mod_right, Nat.mod_eq_of_lt (by omega)] at a2
      obtain ⟨r', q', w1, w2, w3, w4, w5⟩ := do_divmod_while_spec (n + 1) hN md (U d) hmd hd1
        hd2 hU 15 fuel (do_add rem' md).1 quot' (by omega) a1 p3 (by omega) (by omega)
        (by omega)
      have wq := do_divmod_while_quots_bound (n + 1) hN md (U d) hmd hd1
        hd2 hU 15 fuel (do_add rem' md).1 quot' (by omega) a1 p3 (by omega) (by omega)
        (by omega)
      rw [w1]
      obtain ⟨b1, b2, _⟩ := do_add_spec (n + 1) r' d w2 hd
      have hmodlt2 : (U rem' - U d) % U d < U d := Nat.mod_lt _ (by omega)
      have e2 : U rem' = (U rem' - U d) + U d := by omega
      refine ⟨(do_add r' d).1, q', ?_, b1, w3, ?_, ?_⟩
      · intro v hv
        rcases List.mem_append.mp hv with hv | hv
        · exact Or.inl (wq v hv)
        · exact Or.inr hv
      · show U (do_add r' d).1 = U rem' % U d
        rw [b2, w4, a2, Nat.add_mod_left, Nat.mod_eq_of_lt (by omega)]
        conv_rhs => rw [e2, Nat.add_mod_right]
      · show U q' = 16 * (T / U d) + U rem' / U d
        rw [w5, p4, hq, a2]
        conv_rhs => rw [e2, Nat.add_div_right _ (by omega : 0 < U d)]
        omega

theorem do_divmod_loop_quots_bound (N fuel : Nat) (hN : 0 < N) (hf : 16 ≤ fuel) (D d md : Buf)
    (hD : Valid N D) (hd : Valid N d) (hmd : Valid N md) (hDpos : 2 * U D < 16 ^ N)
    (hd1 : 1 ≤ U d) (hd2 : 2 * U d ≤ 16 ^ N) (hU : U md = 16 ^ N - U d) (c : Nat) :
    ∀ (rem quot : Buf), c ≤ N → Valid N rem → Valid N quot →
      U rem = (U D / 16 ^ c) % U d → U quot = (U D / 16 ^ c) / U d →
      ∀ v ∈ do_divmod_loop_quots N fuel D d md c rem quot, v ≤ 14 := by
  induction c with
  | zero =>
    intro rem quot _ _ _ _ _ v hv
    simp [do_divmod_loop_quots] at hv
  | succ c ih =>
    intro rem quot hc hrem hquot hr hq v hv
    obtain ⟨rem2, quot2, e, v1, v2, u1, u2⟩ := do_divmod_step_quots N fuel hN hf D d md hD hd
      hmd hDpos hd1 hd2 hU c rem quot (by omega) hrem hquot hr hq
    rcases e v hv with h | h
    · exact h
    · exact ih rem2 quot2 (by omega) v1 v2 u1 u2 v h

theorem do_divmod_switch_quots_bound (N fuel : Nat) (hN : 0 < N) (hf : 16 ≤ fuel)
    (D d md : Buf) (hD : Valid N D) (hd : Valid N d) (hmd : Valid N md)
    (hDpos : 2 * U D < 16 ^ N) (hd1 : 1 ≤ U d) (hd2 : 2 * U d ≤ 16 ^ N)
    (hU : U md = 16 ^ N - U d) :
    ∀ v ∈ (match sc_comp N D d with
        | ir_relation.greater =>
          do_divmod_loop_quots N fuel D d md N (CLEAR_BUFFER N) (CLEAR_BUFFER N)
        | _ => []), v ≤ 14 := by
  have hz := CLEAR_BUFFER_valid N
  have hz0 := U_CLEAR_BUFFER N
  have hDl := U_lt N D hD
  have hloop := do_divmod_loop_quots_bound N fuel hN hf D d md hD hd hmd hDpos hd1 hd2 hU N
    (CLEAR_BUFFER N) (CLEAR_BUFFER N) (le_refl N) hz hz
    (by rw [hz0, Nat.div_eq_of_lt hDl, Nat.zero_mod])
    (by rw [hz0, Nat.div_eq_of_lt hDl, Nat.zero_div])
  intro v hv
  cases hc : sc_comp N D d <;> rw [hc] at hv
  · simp at hv
  · simp at hv
  · exact hloop v hv

/-- C39: in the long division of `do_divmod`, for a dividend other than the most negative
value and a non-zero divisor (buffers of nibbles, enough iterations for the `while`
loop), every value of `quot[0]` found before an increment is at most 14, so
`SC_RESULT(quot[0] + 1) = quot[0] + 1`: the masking changes nothing. -/
theorem do_divmod_quot_digit_bound (N fuel : Nat) (a b : Buf) (hN : 0 < N) (hf : 16 ≤ fuel)
    (ha : Valid N a) (hb : Valid N b) (hmin : 2 * U a ≠ 16 ^ N) (hb0 : U b ≠ 0) :
    ∀ v ∈ do_divmod_quots N fuel a b, v ≤ 14 ∧ SC_RESULT (v + 1) = v + 1 := by
  have hp : 0 < 16 ^ N := by positivity
  have la := U_lt N a ha
  have lb := U_lt N b hb
  have hbz := sc_comp_zero N b hN hb
  have haz := sc_comp_zero N a hN ha
  have na := do_negate_valid N a ha
  have nb := do_negate_valid N b hb
  have una := U_do_negate N a ha
  have unb := U_do_negate N b hb
  rw [Nat.mod_eq_of_lt (by omega)] at unb
  have key : ∀ v ∈ do_divmod_quots N fuel a b, v ≤ 14 := by
    unfold do_divmod_quots
    simp only []
    rw [if_neg (fun h => hb0 (hbz.mp h))]
    by_cases ha0 : U a = 0
    · rw [if_pos (haz.mpr ha0)]
      intro v hv
      simp at hv
    · rw [if_neg (fun h => ha0 (haz.mp h))]
      rw [Nat.mod_eq_of_lt (by omega)] at una
      rcases do_sign_cases N a with sa | sa <;> rcases do_sign_cases N b with sb | sb
      · have pa := (do_sign_pos_iff N a hN ha).mp sa
        have pb := (do_sign_pos_iff N b hN hb).mp sb
        simp only [sa, sb]
        exact do_divmod_switch_quots_bound N fuel hN hf a b (do_negate b)
          ha hb nb pa (by omega) (by omega) unb
      · have pa := (do_sign_pos_iff N a hN ha).mp sa
        have pb := (do_sign_neg_iff N b hN hb).mp sb
        simp only [sa, sb]
        exact do_divmod_switch_quots_bound N fuel hN hf a (do_negate b) b
          ha nb hb pa (by omega) (by omega) (by omega)
      · have pa := (do_sign_neg_iff N a hN ha).mp sa
        have pb := (do_sign_pos_iff N b hN hb).mp sb
        simp only [sa, sb]
        exact do_divmod_switch_quots_bound N fuel hN hf (do_negate a) b
          (do_negate b) na hb nb (by omega) (by omega) (by omega) unb
      · have pa := (do_sign_neg_iff N a hN ha).mp sa
        have pb := (do_sign_neg_iff N b hN hb).mp sb
        simp only [sa, sb]
        exact do_divmod_switch_quots_bound N fuel hN hf (do_negate a)
          (do_negate b) b na nb hb (by omega) (by omega) (by omega) (by omega)
  intro v hv
  have h := key v hv
  exact ⟨h, SC_RESULT_of_lt _ (by omega)⟩

set_option maxRecDepth 100000 in
theorem do_divmod_quot_digit_bound_witness :
    0 < 2 ∧ 16 ≤ 16 ∧ Valid 2 [15, 7] ∧ Valid 2 [1, 0] ∧ 2 * U [15, 7] ≠ 16 ^ 2
      ∧ U [1, 0] ≠ 0
      ∧ (∀ v ∈ do_divmod_quots 2 16 [15, 7] [1, 0], v ≤ 14 ∧ SC_RESULT (v + 1) = v + 1)
      ∧ do_divmod_quots 2 16 [15, 7] [1, 0]
          = [0, 1, 2, 3, 4, 5, 6, 0, 1, 2, 3, 4, 5, 6, 7, 8, 9, 10, 11, 12, 13, 14]
      ∧ sc_divmod 2 16 [15, 7] [1, 0] = Outcome.done ([15, 7], [0, 0], false) :=
  ⟨by decide, by decide, by simp [Valid], by simp [Valid], by decide, by decide,
    do_divmod_quot_digit_bound 2 16 [15, 7] [1, 0] (by decide) (by decide) (by simp [Valid])
      (by simp [Valid]) (by decide) (by decide),
    by decide, by decide⟩

/-! ## Nibble validity of the written buffers -/

theorem fill_cells_lt (v : Nat) (hv : v < 16) (count : Nat) : ∀ (start : Nat) (b : Buf),
    (∀ d ∈ b, d < 16) → ∀ d ∈ fill_cells v count start b, d < 16 := by
  induction count with
  | zero => intro start b hb; simpa [fill_cells] using hb
  | succ count ih =>
    intro start b hb
    rw [fill_cells]
    exact ih (start + 1) _ (set_lt b start v hb hv)

theorem fill_cells_valid (N v : Nat) (hv : v < 16) (count start : Nat) (b : Buf)
    (hb : Valid N b) : Valid N (fill_cells v count start b) :=
  ⟨by rw [fill_cells_length]; exact hb.1, fill_cells_lt v hv count start b hb.2⟩

theorem set_valid (N : Nat) (b : Buf) (i v : Nat) (hb : Valid N b) (hv : v < 16) :
    Valid N (b.set i v) :=
  ⟨by rw [List.length_set]; exact hb.1, set_lt b i v hb.2 hv⟩

theorem min_digit_lt : ∀ i, min_digit i < 16
  | 0 => by decide
  | 1 => by decide
  | 2 => by decide
  | 3 => by decide
  | n + 4 => by simp [min_digit]

theorem max_digit_lt : ∀ i, max_digit i < 16
  | 0 => by decide
  | 1 => by decide
  | 2 => by decide
  | 3 => by decide
  | n + 4 => by simp [max_digit]

theorem sex_digit_lt : ∀ i, sex_digit i < 16
  | 0 => by decide
  | 1 => by decide
  | 2 => by decide
  | 3 => by decide
  | n + 4 => by simp [sex_digit]

theorem or_nibble_lt (x y : Nat) (hx : x < 16) (hy : y < 16) : x ||| y < 16 :=
  Nat.or_lt_two_pow (n := 4) hx hy

theorem and_nibble_lt (x y : Nat) (hx : x < 16) : x &&& y < 16 :=
  Nat.lt_of_le_of_lt Nat.and_le_left hx

theorem xor_nibble_lt (x y : Nat) (hx : x < 16) (hy : y < 16) : x ^^^ y < 16 :=
  Nat.xor_lt_two_pow (n := 4) hx hy

theorem cellwise_valid (N : Nat) (f : Nat → Nat) (hf : ∀ i, f i < 16) :
    Valid N ((List.range N).map f) := by
  refine ⟨by simp, ?_⟩
  intro d hd
  obtain ⟨i, _, rfl⟩ := List.mem_map.mp hd
  exact hf i

theorem do_bitor_valid (N : Nat) (a b : Buf) (ha : ∀ d ∈ a, d < 16) (hb : ∀ d ∈ b, d < 16) :
    Valid N (do_bitor N a b) :=
  cellwise_valid N _ (fun i => or_nibble_lt _ _ (getD_lt a ha i) (getD_lt b hb i))

theorem do_bitxor_valid (N : Nat) (a b : Buf) (ha : ∀ d ∈ a, d < 16) (hb : ∀ d ∈ b, d < 16) :
    Valid N (do_bitxor N a b) :=
  cellwise_valid N _ (fun i => xor_nibble_lt _ _ (getD_lt a ha i) (getD_lt b hb i))

theorem do_bitand_valid (N : Nat) (a b : Buf) (ha : ∀ d ∈ a, d < 16) :
    Valid N (do_bitand N a b) :=
  cellwise_valid N _ (fun i => and_nibble_lt _ _ (getD_lt a ha i))

theorem do_bitandnot_valid (N : Nat) (a b : Buf) (ha : ∀ d ∈ a, d < 16) :
    Valid N (do_bitandnot N a b) :=
  cellwise_valid N _ (fun i => and_nibble_lt _ _ (getD_lt a ha i))

theorem do_bitnot_valid (N : Nat) (a : Buf) (ha : Valid N a) : Valid N (do_bitnot a) :=
  ⟨by rw [do_bitnot_length]; exact ha.1, do_bitnot_lt a ha.2⟩

theorem sc_set_bit_at_valid (N : Nat) (v : Buf) (pos : Nat) (hv : Valid N v) :
    Valid N (sc_set_bit_at v pos) := by
  have hb : pos % 4 < 4 := Nat.mod_lt _ (by omega)
  have h1 : ∀ b, b < 4 → 1 <<< b < 16 := by decide
  have h2 := or_nibble_lt _ _ (getD_lt v hv.2 (pos / 4)) (h1 _ hb)
  simp only [sc_set_bit_at, and3_eq_mod, shr2_eq_div, sc_word_store]
  exact set_valid N v _ _ hv (by omega)

theorem sc_clear_bit_at_valid (N : Nat) (v : Buf) (pos : Nat) (hv : Valid N v) :
    Valid N (sc_clear_bit_at v pos) := by
  simp only [sc_clear_bit_at, sc_word_store]
  have h := and_nibble_lt (v.getD (pos >>> 2) 0) ((2 ^ 32 - 1) ^^^ (1 <<< (pos &&& 3)))
    (getD_lt v hv.2 _)
  exact set_valid N v _ _ hv (by omega)

theorem sign_extend_valid (N : Nat) (v : Buf) (from_bits : Nat) (is_signed : Bool)
    (hv : Valid N v) : Valid N (sign_extend N v from_bits is_signed) := by
  have hz : ∀ c s, Valid N (fill_cells 0 c s v) := fun c s =>
    fill_cells_valid N 0 (by omega) c s v hv
  have hf : ∀ c s, Valid N (fill_cells 0xF c s v) := fun c s =>
    fill_cells_valid N 0xF (by omega) c s v hv
  simp only [sign_extend]
  split
  · split
    · exact set_valid N _ _ _ (hf _ _)
        (or_nibble_lt _ _ (getD_lt _ (hf _ _).2 _) (sex_digit_lt _))
    · exact set_valid N _ _ _ (hz _ _) (and_nibble_lt _ _ (getD_lt _ (hz _ _).2 _))
  · exact set_valid N _ _ _ (hz _ _) (and_nibble_lt _ _ (getD_lt _ (hz _ _).2 _))

theorem sc_min_from_bits_valid (N num_bits : Nat) (sign : Bool) :
    Valid N (sc_min_from_bits N num_bits sign) := by
  have hz := CLEAR_BUFFER_valid N
  simp only [sc_min_from_bits]
  split
  · exact hz
  · exact fill_cells_valid N _ (by omega) _ _ _
      (set_valid N _ _ _ (fill_cells_valid N 0 (by omega) _ _ _ hz) (min_digit_lt _))

theorem sc_max_from_bits_valid (N num_bits : Nat) (sign : Bool) :
    Valid N (sc_max_from_bits N num_bits sign) := by
  have hz := CLEAR_BUFFER_valid N
  simp only [sc_max_from_bits]
  exact fill_cells_valid N _ (by omega) _ _ _
    (set_valid N _ _ _ (fill_cells_valid N 0xF (by omega) _ _ _ hz) (max_digit_lt _))

theorem sc_val_from_long_valid (N : Nat) (x : Int) : Valid N (sc_val_from_long N x) := by
  have h := fun v => (sc_val_from_long_nonneg N v).1
  simp only [sc_val_from_long]
  split
  · apply do_negate_valid
    split
    · exact (do_inc_spec N _ (h _)).1
    · exact h _
  · exact h _

theorem sc_val_from_bytes_valid (N : Nat) (bytes buffer : Buf) (big_endian : Bool)
    (hb : ∀ b ∈ bytes, b < 256) (hlen : 2 * bytes.length ≤ N) (hbuf : buffer.length = N) :
    ∃ r, sc_val_from_bytes N bytes big_endian buffer = some r ∧ Valid N r := by
  cases big_endian
  · obtain ⟨r, h1, h2, _⟩ := sc_val_from_bytes_le N bytes buffer hb hlen hbuf
    exact ⟨r, h1, h2⟩
  · obtain ⟨r, h1, h2, _⟩ := sc_val_from_bytes_le N bytes.reverse buffer
      (fun b hb2 => hb b (List.mem_reverse.mp hb2)) (by rw [List.length_reverse]; exact hlen)
      hbuf
    refine ⟨r, ?_, h2⟩
    rw [← h1]
    simp [sc_val_from_bytes]

theorem digit_of_char_lt (c : Char) (v : Nat) (h : digit_of_char c = some v) : v < 16 := by
  simp only [digit_of_char] at h
  split at h
  · simp only [Option.some.injEq] at h
    have : '9'.toNat = 57 := by decide
    have : '0'.toNat = 48 := by decide
    omega
  · split at h
    · simp only [Option.some.injEq] at h
      have : 'A'.toNat = 65 := by decide
      have : 'F'.toNat = 70 := by decide
      omega
    · split at h
      · simp only [Option.some.injEq] at h
        have : 'a'.toNat = 97 := by decide
        have : 'f'.toNat = 102 := by decide
        omega
      · exact Option.noConfusion h

theorem sc_val_from_str_loop_valid (M base : Nat) (sc_base : Buf) (hs : Valid (2 * M) sc_base)
    (str : List Char) : ∀ (val buffer : Buf), Valid (2 * M) val → Valid (2 * M) buffer →
      Valid (2 * M) (sc_val_from_str_loop (2 * M) M base sc_base str val buffer).2 := by
  induction str with
  | nil => intro val buffer _ hb; exact hb
  | cons c str ih =>
    intro val buffer hv hb
    rw [sc_val_from_str_loop]
    cases hc : digit_of_char c with
    | none => exact hb
    | some v =>
      simp only []
      by_cases hge : v ≥ base
      · rw [if_pos hge]; exact hb
      · rw [if_neg hge]
        have hv2 := set_valid (2 * M) val 0 v hv (digit_of_char_lt c v hc)
        have hm := (do_mul_spec M sc_base buffer hs hb).1
        exact ih _ _ hv2 (do_add_spec (2 * M) _ _ hv2 hm).1

theorem sc_val_from_str_valid (M : Nat) (sign : Int) (base : Nat) (str : List Char) :
    Valid (2 * M) (sc_val_from_str (2 * M) M sign base str).2 := by
  have hz := CLEAR_BUFFER_valid (2 * M)
  have h := sc_val_from_str_loop_valid M base (sc_val_from_ulong (2 * M) base)
    (sc_val_from_ulong_spec (2 * M) base).1 str _ _ hz hz
  simp only [sc_val_from_str]
  split
  · split
    · exact do_negate_valid _ _ h
    · exact h
  · exact h

theorem replicate_valid (N v : Nat) (hv : v < 16) : Valid N (List.replicate N v) := by
  refine ⟨by simp, ?_⟩
  intro d hd
  rw [(List.mem_replicate.mp hd).2]
  exact hv

theorem sc_shlI_valid (N : Nat) (calc_buffer val : Buf) (k w : Nat) (sign : Bool)
    (hval : Valid N val) (hcb : Valid N calc_buffer) (hw : w ≤ 4 * N)
    (hassert : do_sign N val ≠ -1 ∨ sign = true) :
    ∃ r, sc_shlI N calc_buffer val k w sign = some r ∧ Valid N r.1 := by
  by_cases hk : k ≥ w
  · have hn : ¬ (do_sign N val = -1 ∧ sign = false) := by
      rintro ⟨a, b⟩
      rcases hassert with h | h
      · exact h a
      · rw [h] at b; exact Bool.noConfusion b
    refine ⟨(CLEAR_BUFFER N, false), ?_, CLEAR_BUFFER_valid N⟩
    simp only [sc_shlI, do_shl, if_neg hn, if_pos hk, Option.map_some']
  · cases sign
    · have hpos : do_sign N val ≠ -1 := by
        rcases hassert with h | h
        · exact h
        · exact Bool.noConfusion h
      obtain ⟨r, h1, h2, _⟩ := do_shl_unsigned_spec N calc_buffer val k w hval hpos hcb
        (by omega) hw
      exact ⟨(r, false), by simp only [sc_shlI, h1, Option.map_some'], h2⟩
    · obtain ⟨r, h1, h2, _⟩ := do_shl_signed_spec N calc_buffer val k w hval hcb.1
        (by omega) hw
      exact ⟨(r, false), by simp only [sc_shlI, h1, Option.map_some'], h2⟩

theorem sc_shrI_valid (N : Nat) (calc_buffer val : Buf) (k w : Nat) (sign : Bool)
    (hval : Valid N val) (hcb : calc_buffer.length = N) (hw : (w + 3) / 4 + 1 ≤ N) :
    Valid N (sc_shrI N calc_buffer val k w sign).1 := by
  by_cases hk : k ≥ w
  · simp only [sc_shrI, do_shr, if_pos hk, Bool.false_and, Bool.false_eq_true, if_false]
    exact replicate_valid N 0 (by omega)
  · exact (do_shr_unsigned_fill N false val calc_buffer k w sign false hval.2 hcb (by omega) hw
      (by simp)).1

theorem sc_shrsI_valid (N : Nat) (calc_buffer val : Buf) (k w : Nat) (sign : Bool)
    (hval : Valid N val) (hcb : calc_buffer.length = N) (hw : (w + 3) / 4 + 1 ≤ N) :
    Valid N (sc_shrsI N calc_buffer val k w sign).1 := by
  by_cases hk : k ≥ w
  · simp only [sc_shrsI, do_shr, if_pos hk]
    split
    · exact replicate_valid N 0xF (by omega)
    · exact replicate_valid N 0 (by omega)
  · by_cases hb : do_bit val (w - 1) = true
    · exact (do_shr_signed_fill N false val calc_buffer k w sign hval.2 hcb (by omega) hw hb).1
    · exact (do_shr_unsigned_fill N false val calc_buffer k w sign true hval.2 hcb (by omega)
        hw (by simp [hb])).1

theorem sc_divmod_valid (N fuel : Nat) (a b : Buf) (hN : 0 < N) (hf : 16 ≤ fuel)
    (ha : Valid N a) (hb : Valid N b) (hb0 : U b ≠ 0) :
    ∃ q r carry, sc_divmod N fuel a b = Outcome.done (q, r, carry)
      ∧ Valid N q ∧ Valid N r := by
  by_cases hmin : 2 * U a = 16 ^ N
  · obtain ⟨q, r, c, h1, h2, h3, _⟩ := do_divmod_min_dividend N fuel false a b hN ha hb hmin hb0
    exact ⟨q, r, c, h1, h2, h3⟩
  · obtain ⟨q, r, c, h1, h2, h3, _⟩ := do_divmod_spec N fuel false a b hN hf ha hb hmin hb0
    exact ⟨q, r, c, h1, h2, h3⟩

/-- C36: with `calc_buffer_size = 4` (precision 8) the operand `[1, 0, 0, 0]` consists of
nibbles, yet shifting it left by one bit at 8 bits unsigned over a scratch buffer that
holds the byte 200 in a cell above the shifted value returns a buffer with that byte: the
unsigned `do_shl` does not write the cells above the most significant digit. -/
theorem sc_shlI_copies_scratch_byte :
    Valid 4 [1, 0, 0, 0]
      ∧ sc_shlI 4 [0, 0, 200, 0] [1, 0, 0, 0] 1 8 false = some ([2, 0, 200, 0], false)
      ∧ ¬ Valid 4 [2, 0, 200, 0] := by
  refine ⟨by simp [Valid], by decide, by simp [Valid]⟩

/-- Nibble validity over a scratch buffer of nibbles: with buffers of `N = 2 * M` cells,
`M ≥ 1`, whenever the operands `a` and `b` consist of nibbles, and for `sc_shlI` the
scratch result buffer before the call does too, every buffer written by `sc_add`, `sc_sub`, `sc_neg`, `sc_mul`, `sc_divmod`
(non-zero divisor), `sc_and`, `sc_andnot`, `sc_or`, `sc_xor`, `sc_not`, `sc_shlI`,
`sc_shrI`, `sc_shrsI` (bit size at most the precision `4 * M`), `sign_extend`,
`sc_truncate`, `sc_min_from_bits`, `sc_max_from_bits`, `sc_set_bit_at`, `sc_clear_bit_at`,
`sc_val_from_long`, `sc_val_from_ulong`, `sc_val_from_bytes` (bytes that fit the buffer)
and `sc_val_from_str` consists of `N` nibbles. -/
theorem nibble_validity (M : Nat) (a b scratch out : Buf) (hM : 1 ≤ M)
    (ha : Valid (2 * M) a) (hb : Valid (2 * M) b) (hscratch : Valid (2 * M) scratch)
    (hout : out.length = 2 * M) :
    Valid (2 * M) (sc_add a b).1
      ∧ Valid (2 * M) (sc_sub a b).1
      ∧ Valid (2 * M) (sc_neg a).1
      ∧ Valid (2 * M) (sc_mul (2 * M) M a b).1
      ∧ (∀ fuel, 16 ≤ fuel → U b ≠ 0 →
          ∃ q r carry, sc_divmod (2 * M) fuel a b = Outcome.done (q, r, carry)
            ∧ Valid (2 * M) q ∧ Valid (2 * M) r)
      ∧ Valid (2 * M) (sc_and (2 * M) a b).1
      ∧ Valid (2 * M) (sc_andnot (2 * M) a b).1
      ∧ Valid (2 * M) (sc_or (2 * M) a b).1
      ∧ Valid (2 * M) (sc_xor (2 * M) a b).1
      ∧ Valid (2 * M) (sc_not a).1
      ∧ (∀ k w sign, w ≤ 4 * M → (do_sign (2 * M) a ≠ -1 ∨ sign = true) →
          ∃ r, sc_shlI (2 * M) scratch a k w sign = some r ∧ Valid (2 * M) r.1)
      ∧ (∀ k w sign, w ≤ 4 * M → Valid (2 * M) (sc_shrI (2 * M) out a k w sign).1)
      ∧ (∀ k w sign, w ≤ 4 * M → Valid (2 * M) (sc_shrsI (2 * M) out a k w sign).1)
      ∧ (∀ from_bits is_signed, Valid (2 * M) (sign_extend (2 * M) a from_bits is_signed))
      ∧ (∀ num_bits, num_bits / 4 < 2 * M →
          ∃ r, sc_truncate (2 * M) num_bits a = some r ∧ Valid (2 * M) r)
      ∧ (∀ num_bits sign, Valid (2 * M) (sc_min_from_bits (2 * M) num_bits sign))
      ∧ (∀ num_bits sign, Valid (2 * M) (sc_max_from_bits (2 * M) num_bits sign))
      ∧ (∀ pos, Valid (2 * M) (sc_set_bit_at a pos))
      ∧ (∀ pos, Valid (2 * M) (sc_clear_bit_at a pos))
      ∧ (∀ value : Int, Valid (2 * M) (sc_val_from_long (2 * M) value))
      ∧ (∀ value : Nat, Valid (2 * M) (sc_val_from_ulong (2 * M) value))
      ∧ (∀ (bytes : List Nat) (big_endian : Bool), (∀ x ∈ bytes, x < 256) →
          2 * bytes.length ≤ 2 * M →
          ∃ r, sc_val_from_bytes (2 * M) bytes big_endian out = some r ∧ Valid (2 * M) r)
      ∧ (∀ (sign : Int) (base : Nat) (str : List Char),
          Valid (2 * M) (sc_val_from_str (2 * M) M sign base str).2) := by
  refine ⟨(do_add_spec _ a b ha hb).1,
    (do_add_spec _ a _ ha (do_negate_valid _ b hb)).1,
    do_negate_valid _ a ha,
    (do_mul_spec M a b ha hb).1,
    fun fuel hf hb0 => sc_divmod_valid _ fuel a b (by omega) hf ha hb hb0,
    do_bitand_valid _ a b ha.2,
    do_bitandnot_valid _ a b ha.2,
    do_bitor_valid _ a b ha.2 hb.2,
    do_bitxor_valid _ a b ha.2 hb.2,
    do_bitnot_valid _ a ha,
    fun k w sign hw hs => sc_shlI_valid _ scratch a k w sign ha hscratch (by omega) hs,
    fun k w sign hw => sc_shrI_valid _ out a k w sign ha hout (by omega),
    fun k w sign hw => sc_shrsI_valid _ out a k w sign ha hout (by omega),
    fun from_bits is_signed => sign_extend_valid _ a from_bits is_signed ha,
    fun num_bits hn => ?_,
    fun num_bits sign => sc_min_from_bits_valid _ num_bits sign,
    fun num_bits sign => sc_max_from_bits_valid _ num_bits sign,
    fun pos => sc_set_bit_at_valid _ a pos ha,
    fun pos => sc_clear_bit_at_valid _ a pos ha,
    fun value => sc_val_from_long_valid _ value,
    fun value => (sc_val_from_ulong_spec _ value).1,
    fun bytes big_endian hx hl => sc_val_from_bytes_valid _ bytes out big_endian hx hl hout,
    fun sign base str => sc_val_from_str_valid M sign base str⟩
  obtain ⟨r, h1, h2, _⟩ := sc_truncate_spec _ a ha num_bits hn
  exact ⟨r, h1, h2⟩

theorem nibble_validity_witness :
    1 ≤ 2 ∧ Valid (2 * 2) [15, 15, 15, 7] ∧ Valid (2 * 2) [3, 0, 0, 0]
      ∧ Valid (2 * 2) [9, 9, 9, 9] ∧ [200, 201, 202, 203].length = 2 * 2
      ∧ Valid (2 * 2) (sc_add [15, 15, 15, 7] [3, 0, 0, 0]).1
      ∧ sc_add [15, 15, 15, 7] [3, 0, 0, 0] = ([2, 0, 0, 8], false)
      ∧ sc_shlI (2 * 2) [9, 9, 9, 9] [15, 15, 15, 7] 1 8 false = some ([14, 15, 9, 9], false)
      ∧ sc_shrI (2 * 2) [200, 201, 202, 203] [15, 15, 15, 7] 1 8 false
          = ([15, 7, 0, 0], true) :=
  ⟨by decide, by simp [Valid], by simp [Valid], by simp [Valid], by decide,
    (nibble_validity 2 [15, 15, 15, 7] [3, 0, 0, 0] [9, 9, 9, 9] [200, 201, 202, 203]
      (by decide) (by simp [Valid]) (by simp [Valid]) (by simp [Valid]) (by decide)).1,
    by decide, by decide, by decide⟩

end Strcalc
